import Mathlib

/-!
# TigerEx trading engines: shallow embedding and verified properties

The C++ sources are embedded as pure Lean functions with explicit state passing.

* `double` prices and quantities are rationals. The first model of each engine computes
  with them exactly; it carries the statements about order, membership, prices and
  state that do not rest on computed values. Where a statement rests on computed
  values, the methods concerned are embedded once more with every arithmetic operation
  rounded to the nearest `double` (namespaces `HighSpeed.Rounded` and `Futures.Rounded`,
  rounding `Double.binary64`), and the statement is about these.
* `uint64_t` counters are natural numbers reduced modulo `2 ^ 64`.
* `std::map` ladders are key-sorted association lists; `std::unordered_map`s
  are association lists in insertion order.
* `std::shared_ptr<Order>` objects are order values: the book is the only
  holder of a resting order once `submit_order` has returned.
* Locks and latency statistics are not modelled; where a modelled method reads the
  clock, the reading is a parameter.
* The functions of `<cmath>` are parameters of the options pricer.
-/

/-! ## High-speed engine (`high-speed-trading-engine/src/matching_engine.cpp`) -/

namespace HighSpeed

/-- Enumeration `Order::Side`. -/
inductive Side where
  | BUY
  | SELL
  deriving DecidableEq, Repr

/-- Enumeration `Order::Type`. -/
inductive OrderType where
  | MARKET
  | LIMIT
  | STOP_LOSS
  | TAKE_PROFIT
  deriving DecidableEq, Repr

/-- Enumeration `Order::Status`. -/
inductive Status where
  | NEW
  | PARTIAL
  | FILLED
  | CANCELLED
  deriving DecidableEq, Repr

/-- Structure `Order` of `matching_engine.hpp` (the timestamp is not modelled). -/
structure Order where
  order_id : Nat
  user_id : Nat
  symbol : String
  price : ℚ
  quantity : ℚ
  filled_quantity : ℚ
  side : Side
  type : OrderType
  status : Status
  deriving DecidableEq, Repr

/-- Constructor `Order(oid, uid, sym, p, q, s, t)`: nothing filled, status `NEW`. -/
def Order.new (oid uid : Nat) (sym : String) (p q : ℚ) (s : Side) (t : OrderType) : Order :=
  { order_id := oid, user_id := uid, symbol := sym, price := p, quantity := q,
    filled_quantity := 0, side := s, type := t, status := Status.NEW }

/-- Structure `PriceLevel`: a price, the cached aggregate and the FIFO of orders. -/
structure PriceLevel where
  price : ℚ
  total_quantity : ℚ
  orders : List Order
  deriving DecidableEq, Repr

/-- Constructor `PriceLevel(p)`. -/
def PriceLevel.new (p : ℚ) : PriceLevel :=
  { price := p, total_quantity := 0, orders := [] }

/-- A `std::map<double, PriceLevel, Compare>`: entries in iteration order. -/
abbrev Ladder := List (ℚ × PriceLevel)

/-- Comparator `std::greater<double>` of `bids_`. -/
def bidBefore (a b : ℚ) : Bool := decide (a > b)

/-- Comparator `std::less<double>` of `asks_`. -/
def askBefore (a b : ℚ) : Bool := decide (a < b)

/-- Conversion `static_cast<uint64_t>(x)` of a non-negative value: truncation, kept in 64 bits. -/
def toU64 (x : ℚ) : Nat := x.floor.toNat % 2 ^ 64

/-- Atomic `fetch_add` on a `uint64_t`: the new stored value. -/
def u64add (a b : Nat) : Nat := (a + b) % 2 ^ 64

/-- Atomic `fetch_sub` on a `uint64_t`: the new stored value (wrapping). -/
def u64sub (a b : Nat) : Nat := (a + (2 ^ 64 - b % 2 ^ 64)) % 2 ^ 64

/-- Lookup `levels.find(price)`. -/
def Ladder.find (levels : Ladder) (price : ℚ) : Option PriceLevel :=
  match levels with
  | [] => none
  | (k, l) :: rest => if k = price then some l else Ladder.find rest price

/-- Insertion `levels.emplace(price, level)` under comparator `before`; a present key is kept. -/
def Ladder.emplace (before : ℚ → ℚ → Bool) (levels : Ladder) (price : ℚ)
    (level : PriceLevel) : Ladder :=
  match levels with
  | [] => [(price, level)]
  | (k, l) :: rest =>
    if before price k then (price, level) :: (k, l) :: rest
    else if before k price then (k, l) :: Ladder.emplace before rest price level
    else (k, l) :: rest

/-- In-place update through the iterator `it` returned by `levels.find(price)`. -/
def Ladder.modify (levels : Ladder) (price : ℚ) (f : PriceLevel → PriceLevel) : Ladder :=
  match levels with
  | [] => []
  | (k, l) :: rest =>
    if k = price then (k, f l) :: rest else (k, l) :: Ladder.modify rest price f

/-- Body of `OrderBook::add_order` on the ladder of the order side (lines 17-24). -/
def Ladder.add_order (before : ℚ → ℚ → Bool) (levels : Ladder) (order : Order) : Ladder :=
  let levels1 :=
    if (Ladder.find levels order.price).isNone then
      Ladder.emplace before levels order.price (PriceLevel.new order.price)
    else levels
  Ladder.modify levels1 order.price (fun l =>
    { l with orders := l.orders ++ [order],
             total_quantity := l.total_quantity + order.quantity })

/-- Class `OrderBook`: both ladders, the volume counters and the last traded price. -/
structure OrderBook where
  symbol : String
  bids : Ladder
  asks : Ladder
  total_bid_volume : Nat
  total_ask_volume : Nat
  last_traded_price : ℚ
  deriving DecidableEq, Repr

/-- Constructor `OrderBook(symbol)`. -/
def OrderBook.new (symbol : String) : OrderBook :=
  { symbol := symbol, bids := [], asks := [], total_bid_volume := 0,
    total_ask_volume := 0, last_traded_price := 0 }

/-- Method `OrderBook::add_order`; the C++ function always returns `true`. -/
def OrderBook.add_order (b : OrderBook) (order : Order) : OrderBook :=
  match order.side with
  | Side.BUY =>
    { b with bids := Ladder.add_order bidBefore b.bids order,
             total_bid_volume := u64add b.total_bid_volume (toU64 (order.quantity * 100000000)) }
  | Side.SELL =>
    { b with asks := Ladder.add_order askBefore b.asks order,
             total_ask_volume := u64add b.total_ask_volume (toU64 (order.quantity * 100000000)) }

/-- One search loop of `OrderBook::cancel_order` over a ladder: the first level, in
iteration order, holding an order with the id loses the first such order and is erased
from the ladder when its queue becomes empty. Returns the ladder and the removed order,
or `none` when no level holds the id. -/
def Ladder.cancel (order_id : Nat) : Ladder → Option (Ladder × Order)
  | [] => none
  | (k, level) :: rest =>
    match level.orders.find? (fun o => decide (o.order_id = order_id)) with
    | some o =>
      let level1 : PriceLevel :=
        { level with total_quantity := level.total_quantity - o.quantity,
                     orders := level.orders.eraseP (fun o => decide (o.order_id = order_id)) }
      some (if level1.orders.isEmpty then rest else (k, level1) :: rest, o)
    | none =>
      match Ladder.cancel order_id rest with
      | some (rest1, o) => some ((k, level) :: rest1, o)
      | none => none

/-- Method `OrderBook::cancel_order`: bids are searched first, then asks. -/
def OrderBook.cancel_order (b : OrderBook) (order_id : Nat) : Bool × OrderBook :=
  match Ladder.cancel order_id b.bids with
  | some (bids, o) =>
    (true, { b with bids := bids,
                    total_bid_volume := u64sub b.total_bid_volume (toU64 (o.quantity * 100000000)) })
  | none =>
    match Ladder.cancel order_id b.asks with
    | some (asks, o) =>
      (true, { b with asks := asks,
                      total_ask_volume := u64sub b.total_ask_volume (toU64 (o.quantity * 100000000)) })
    | none => (false, b)

/-- One element of the `matches` vector: the maker as the fill left it, together with
the `match_quantity` and the level price stored into `last_traded_price_` at that fill. -/
structure Match where
  maker : Order
  quantity : ℚ
  price : ℚ
  deriving DecidableEq, Repr

/-- State of the inner `while` loop of `match_orders` on one price level. -/
structure LevelState where
  incoming : Order
  level : PriceLevel
  volume : Nat
  last_traded_price : ℚ
  matched : List Match
  deriving DecidableEq, Repr

/-- What `resting_order->quantity` reads on lines 105-107 and 146-148. `resting_order`
is a reference to slot 0 of the vector `level.orders`, and the read comes after
`level.orders.erase(level.orders.begin())`: slot 0 then holds the next order of the
queue. When the erased order was the only one, the slot lies past the end of the vector
and still holds the address of the erased order, which `matches` keeps alive. -/
def readAfterErase (erased : Order) (rest : List Order) : ℚ :=
  match rest with
  | [] => erased.quantity
  | next :: _ => next.quantity

/-- Body of the inner loop of `match_orders` (lines 88-110 and 129-151) when the head of
the queue is `resting`, followed by `rest`. -/
def levelStep (price : ℚ) (s : LevelState) (resting : Order) (rest : List Order) : LevelState :=
  let match_quantity :=
    min (s.incoming.quantity - s.incoming.filled_quantity)
        (resting.quantity - resting.filled_quantity)
  let incoming : Order :=
    { s.incoming with filled_quantity := s.incoming.filled_quantity + match_quantity }
  let filled := resting.filled_quantity + match_quantity
  if filled ≥ resting.quantity then
    let maker : Order := { resting with filled_quantity := filled, status := Status.FILLED }
    { incoming := incoming,
      level := { s.level with orders := rest,
                              total_quantity :=
                                s.level.total_quantity - readAfterErase maker rest },
      volume := u64sub s.volume (toU64 (readAfterErase maker rest * 100000000)),
      last_traded_price := price,
      matched := s.matched ++ [{ maker := maker, quantity := match_quantity, price := price }] }
  else
    let maker : Order := { resting with filled_quantity := filled, status := Status.PARTIAL }
    { incoming := incoming,
      level := { s.level with orders := maker :: rest },
      volume := s.volume,
      last_traded_price := price,
      matched := s.matched ++ [{ maker := maker, quantity := match_quantity, price := price }] }

/-- Inner loop of `match_orders` (lines 86-111 and 127-152) at the level of key `price`;
one unit of fuel per evaluation of the loop condition, `none` when fuel runs out. -/
def matchLevel (price : ℚ) : Nat → LevelState → Option LevelState
  | 0, _ => none
  | fuel + 1, s =>
    match s.level.orders with
    | [] => some s
    | resting :: rest =>
      if s.incoming.filled_quantity < s.incoming.quantity then
        matchLevel price fuel (levelStep price s resting rest)
      else some s

/-- State of the outer `while` loop of `match_orders` on the opposite ladder. -/
structure MatchState where
  incoming : Order
  levels : Ladder
  volume : Nat
  last_traded_price : ℚ
  matched : List Match
  deriving DecidableEq, Repr

/-- Inner-loop state on entering the level `level` at the head of the ladder. -/
def enterLevel (s : MatchState) (level : PriceLevel) : LevelState :=
  { incoming := s.incoming, level := level, volume := s.volume,
    last_traded_price := s.last_traded_price, matched := s.matched }

/-- Outer-loop state after the inner loop: the head level is erased when its queue is
empty (lines 113-115 and 154-156). -/
def leaveLevel (t : LevelState) (price : ℚ) (rest : Ladder) : MatchState :=
  { incoming := t.incoming,
    levels := if t.level.orders.isEmpty then rest else (price, t.level) :: rest,
    volume := t.volume,
    last_traded_price := t.last_traded_price,
    matched := t.matched }

/-- Outer loop of `match_orders` (lines 78-116 and 119-157). `worse price limit` is
`price > limit` against asks and `price < limit` against bids. One unit of fuel per
evaluation of the loop condition; the inner loop gets one unit per queued order plus one. -/
def matchLadder (worse : ℚ → ℚ → Bool) : Nat → MatchState → Option MatchState
  | 0, _ => none
  | fuel + 1, s =>
    match s.levels with
    | [] => some s
    | (price, level) :: rest =>
      if s.incoming.filled_quantity < s.incoming.quantity then
        if s.incoming.type = OrderType.LIMIT ∧ worse price s.incoming.price = true then some s
        else
          match matchLevel price (level.orders.length + 1) (enterLevel s level) with
          | none => none
          | some t => matchLadder worse fuel (leaveLevel t price rest)
      else some s

/-- Final status update of `match_orders` (lines 160-164). -/
def finalStatus (o : Order) : Order :=
  if o.filled_quantity ≥ o.quantity then { o with status := Status.FILLED }
  else if o.filled_quantity > 0 then { o with status := Status.PARTIAL }
  else o

/-- Result of `match_orders`: the book, the incoming order object and the `matches`. -/
structure MatchResult where
  book : OrderBook
  incoming : Order
  matched : List Match
  deriving DecidableEq, Repr

/-- Method `OrderBook::match_orders`. The outer loop gets one unit of fuel per level of
the opposite ladder plus one; `none` would mean that a loop did not finish within it. -/
def OrderBook.match_orders (b : OrderBook) (incoming_order : Order) : Option MatchResult :=
  match incoming_order.side with
  | Side.BUY =>
    match matchLadder (fun price limit => decide (price > limit)) (b.asks.length + 1)
        { incoming := incoming_order, levels := b.asks, volume := b.total_ask_volume,
          last_traded_price := b.last_traded_price, matched := [] } with
    | none => none
    | some s =>
      some { book := { b with asks := s.levels, total_ask_volume := s.volume,
                              last_traded_price := s.last_traded_price },
             incoming := finalStatus s.incoming, matched := s.matched }
  | Side.SELL =>
    match matchLadder (fun price limit => decide (price < limit)) (b.bids.length + 1)
        { incoming := incoming_order, levels := b.bids, volume := b.total_bid_volume,
          last_traded_price := b.last_traded_price, matched := [] } with
    | none => none
    | some s =>
      some { book := { b with bids := s.levels, total_bid_volume := s.volume,
                              last_traded_price := s.last_traded_price },
             incoming := finalStatus s.incoming, matched := s.matched }

/-- Method `OrderBook::get_best_bid_ask`: `0.0` stands for an empty side. -/
def OrderBook.get_best_bid_ask (b : OrderBook) : ℚ × ℚ :=
  (match b.bids with
   | [] => 0
   | (k, _) :: _ => k,
   match b.asks with
   | [] => 0
   | (k, _) :: _ => k)

/-- Method `OrderBook::get_depth`: up to `levels` bid entries, then up to `levels` ask
entries, each as the pair of the level key and its cached `total_quantity`. -/
def OrderBook.get_depth (b : OrderBook) (levels : Nat) : List (ℚ × ℚ) :=
  (b.bids.take levels).map (fun e => (e.1, e.2.total_quantity)) ++
  (b.asks.take levels).map (fun e => (e.1, e.2.total_quantity))

/-- Lookup `order_books_.find(symbol)` in an association list. -/
def findBook (books : List (String × OrderBook)) (symbol : String) : Option OrderBook :=
  match books with
  | [] => none
  | (k, b) :: rest => if k = symbol then some b else findBook rest symbol

/-- Store a book back under a symbol that is present (the C++ code mutates it in place). -/
def setBook (books : List (String × OrderBook)) (symbol : String) (book : OrderBook) :
    List (String × OrderBook) :=
  match books with
  | [] => []
  | (k, b) :: rest =>
    if k = symbol then (k, book) :: rest else (k, b) :: setBook rest symbol book

/-- Class `MatchingEngine`: the books and the atomic counters. -/
structure MatchingEngine where
  order_books : List (String × OrderBook)
  next_order_id : Nat
  orders_processed : Nat
  trades_executed : Nat
  deriving DecidableEq, Repr

/-- Method `MatchingEngine::add_symbol`. -/
def MatchingEngine.add_symbol (e : MatchingEngine) (symbol : String) : MatchingEngine :=
  if (findBook e.order_books symbol).isNone then
    { e with order_books := e.order_books ++ [(symbol, OrderBook.new symbol)] }
  else e

/-- Constructor `MatchingEngine()`: ids start at 1, three symbols are registered. -/
def MatchingEngine.new : MatchingEngine :=
  (({ order_books := [], next_order_id := 1, orders_processed := 0, trades_executed := 0 } :
      MatchingEngine).add_symbol "BTCUSDT" |>.add_symbol "ETHUSDT").add_symbol "BNBUSDT"

/-- What a `submit_order` call leaves behind: the returned id, the engine, the order
object as the call left it and the `matches` vector. -/
structure SubmitResult where
  order_id : Nat
  engine : MatchingEngine
  order : Order
  matched : List Match
  deriving DecidableEq, Repr

/-- Method `MatchingEngine::submit_order` (latency statistics are not modelled). -/
def MatchingEngine.submit_order (e : MatchingEngine) (user_id : Nat) (symbol : String)
    (price quantity : ℚ) (side : Side) (type : OrderType) : Option SubmitResult :=
  let order_id := e.next_order_id
  let e1 : MatchingEngine := { e with next_order_id := u64add e.next_order_id 1 }
  let order := Order.new order_id user_id symbol price quantity side type
  match findBook e1.order_books symbol with
  | none => some { order_id := 0, engine := e1, order := order, matched := [] }
  | some book =>
    match book.match_orders order with
    | none => none
    | some r =>
      let book1 :=
        if r.incoming.status ≠ Status.FILLED ∧ type = OrderType.LIMIT then
          r.book.add_order r.incoming
        else r.book
      some { order_id := order_id,
             engine :=
               { e1 with order_books := setBook e1.order_books symbol book1,
                         trades_executed :=
                           if r.matched.isEmpty then e1.trades_executed
                           else u64add e1.trades_executed r.matched.length,
                         orders_processed := u64add e1.orders_processed 1 },
             order := r.incoming,
             matched := r.matched }

/-- Method `MatchingEngine::cancel_order`. -/
def MatchingEngine.cancel_order (e : MatchingEngine) (order_id : Nat) (symbol : String) :
    Bool × MatchingEngine :=
  match findBook e.order_books symbol with
  | none => (false, e)
  | some book =>
    let r := book.cancel_order order_id
    (r.1, { e with order_books := setBook e.order_books symbol r.2 })

/-- Method `MatchingEngine::get_best_bid_ask`. -/
def MatchingEngine.get_best_bid_ask (e : MatchingEngine) (symbol : String) : ℚ × ℚ :=
  match findBook e.order_books symbol with
  | none => (0, 0)
  | some book => book.get_best_bid_ask

/-- A call on the engine: `submit_order` or `cancel_order` with its arguments. -/
inductive Op where
  | submit (user_id : Nat) (symbol : String) (price quantity : ℚ) (side : Side)
      (type : OrderType)
  | cancel (order_id : Nat) (symbol : String)
  deriving DecidableEq, Repr

/-- Engine after one call; `none` only if `submit_order` did not return. -/
def MatchingEngine.step (e : MatchingEngine) : Op → Option MatchingEngine
  | Op.submit u s p q sd t => (e.submit_order u s p q sd t).map (fun r => r.engine)
  | Op.cancel i s => some (e.cancel_order i s).2

/-- Engine after a sequence of calls, first call first. -/
def MatchingEngine.run (e : MatchingEngine) : List Op → Option MatchingEngine
  | [] => some e
  | op :: ops =>
    match e.step op with
    | none => none
    | some e1 => MatchingEngine.run e1 ops

end HighSpeed

/-! ## Advanced engine (`advanced-trading-engine/src/main.cpp`) -/

namespace Advanced

/-- Enumeration `OrderType`. -/
inductive OrderType where
  | MARKET
  | LIMIT
  | STOP_LOSS
  | STOP_LIMIT
  | TAKE_PROFIT
  | TAKE_PROFIT_LIMIT
  | TRAILING_STOP
  | ICEBERG
  | TWAP
  | VWAP
  | BRACKET
  | OCO
  deriving DecidableEq, Repr

/-- Enumeration `OrderSide`. -/
inductive OrderSide where
  | BUY
  | SELL
  deriving DecidableEq, Repr

/-- Enumeration `OrderStatus`. -/
inductive OrderStatus where
  | PENDING
  | OPEN
  | PARTIALLY_FILLED
  | FILLED
  | CANCELLED
  | REJECTED
  | EXPIRED
  deriving DecidableEq, Repr

/-- Enumeration `TradingType`. -/
inductive TradingType where
  | SPOT
  | FUTURES
  | MARGIN
  | OPTIONS
  deriving DecidableEq, Repr

/-- Enumeration `TimeInForce`. -/
inductive TimeInForce where
  | GTC
  | IOC
  | FOK
  | GTD
  deriving DecidableEq, Repr

/-- Structure `Order`; a `Price` is modelled by its `value`, timestamps are not modelled. -/
structure Order where
  id : String
  user_id : String
  symbol : String
  type : OrderType
  side : OrderSide
  trading_type : TradingType
  time_in_force : TimeInForce
  quantity : ℚ
  filled_quantity : ℚ
  price : ℚ
  stop_price : ℚ
  trigger_price : ℚ
  status : OrderStatus
  expiry_time : Int
  iceberg_qty : ℚ
  trail_amount : ℚ
  trail_percent : ℚ
  parent_order_id : String
  child_order_ids : List String
  deriving DecidableEq, Repr

/-- Constructor `Order(order_id, uid, sym, ot, os, qty, prc)`. -/
def Order.new (order_id uid sym : String) (ot : OrderType) (os : OrderSide) (qty prc : ℚ) :
    Order :=
  { id := order_id, user_id := uid, symbol := sym, type := ot, side := os,
    trading_type := TradingType.SPOT, time_in_force := TimeInForce.GTC,
    quantity := qty, filled_quantity := 0, price := prc, stop_price := 0,
    trigger_price := 0, status := OrderStatus.PENDING, expiry_time := 0,
    iceberg_qty := 0, trail_amount := 0, trail_percent := 0,
    parent_order_id := "", child_order_ids := [] }

/-- Structure `Trade`; both fees are the constant `0.001`. -/
structure Trade where
  id : String
  buy_order_id : String
  sell_order_id : String
  symbol : String
  quantity : ℚ
  price : ℚ
  maker_fee : ℚ
  taker_fee : ℚ
  deriving DecidableEq, Repr

/-- Constructor `Trade(trade_id, buy_id, sell_id, sym, qty, prc)`. -/
def Trade.new (trade_id buy_id sell_id sym : String) (qty prc : ℚ) : Trade :=
  { id := trade_id, buy_order_id := buy_id, sell_order_id := sell_id, symbol := sym,
    quantity := qty, price := prc, maker_fee := 1 / 1000, taker_fee := 1 / 1000 }

/-- Structure `OrderBookLevel`. -/
structure OrderBookLevel where
  price : ℚ
  quantity : ℚ
  order_count : Int
  deriving DecidableEq, Repr

/-- Class `OrderBook`: each ladder maps a price to the aggregate quantity resting there. -/
structure OrderBook where
  bids : List (ℚ × ℚ)
  asks : List (ℚ × ℚ)
  symbol : String
  last_price : ℚ
  volume_24h : ℚ
  price_change_24h : ℚ
  deriving DecidableEq, Repr

/-- Constructor `OrderBook(sym)`. -/
def OrderBook.new (sym : String) : OrderBook :=
  { bids := [], asks := [], symbol := sym, last_price := 0, volume_24h := 0,
    price_change_24h := 0 }

/-- Statement `levels[price] += amount` on a `std::map<Price, double, Compare>`: a missing
key is first inserted with value `0.0` at its place under the comparator `before`. -/
def levelAdd (before : ℚ → ℚ → Bool) (levels : List (ℚ × ℚ)) (price amount : ℚ) :
    List (ℚ × ℚ) :=
  match levels with
  | [] => [(price, 0 + amount)]
  | (k, q) :: rest =>
    if before price k then (price, 0 + amount) :: (k, q) :: rest
    else if before k price then (k, q) :: levelAdd before rest price amount
    else (k, q + amount) :: rest

/-- The `find`, subtract and conditional `erase` of `OrderBook::remove_order` on one ladder. -/
def levelRemove (levels : List (ℚ × ℚ)) (price amount : ℚ) : List (ℚ × ℚ) :=
  match levels with
  | [] => []
  | (k, q) :: rest =>
    if k = price then
      if q - amount ≤ 0 then rest else (k, q - amount) :: rest
    else (k, q) :: levelRemove rest price amount

/-- Method `OrderBook::add_order`. -/
def OrderBook.add_order (b : OrderBook) (order : Order) : OrderBook :=
  match order.side with
  | OrderSide.BUY =>
    { b with bids := levelAdd (fun x y => decide (x > y)) b.bids order.price
                       (order.quantity - order.filled_quantity) }
  | OrderSide.SELL =>
    { b with asks := levelAdd (fun x y => decide (x < y)) b.asks order.price
                       (order.quantity - order.filled_quantity) }

/-- Method `OrderBook::remove_order`. -/
def OrderBook.remove_order (b : OrderBook) (order : Order) : OrderBook :=
  let remaining_qty := order.quantity - order.filled_quantity
  match order.side with
  | OrderSide.BUY => { b with bids := levelRemove b.bids order.price remaining_qty }
  | OrderSide.SELL => { b with asks := levelRemove b.asks order.price remaining_qty }

/-- Method `OrderBook::get_best_bid`: `Price(0.0)` for an empty side. -/
def OrderBook.get_best_bid (b : OrderBook) : ℚ :=
  match b.bids with
  | [] => 0
  | (k, _) :: _ => k

/-- Method `OrderBook::get_best_ask`: `Price(0.0)` for an empty side. -/
def OrderBook.get_best_ask (b : OrderBook) : ℚ :=
  match b.asks with
  | [] => 0
  | (k, _) :: _ => k

/-- Method `OrderBook::get_spread`. -/
def OrderBook.get_spread (b : OrderBook) : ℚ :=
  if b.get_best_ask > 0 ∧ b.get_best_bid > 0 then b.get_best_ask - b.get_best_bid else 0

/-- Method `OrderBook::get_bids(depth)`: the first `depth` levels. -/
def OrderBook.get_bids (b : OrderBook) (depth : Int) : List OrderBookLevel :=
  (b.bids.take depth.toNat).map (fun e => { price := e.1, quantity := e.2, order_count := 1 })

/-- Method `OrderBook::get_asks(depth)`: the first `depth` levels. -/
def OrderBook.get_asks (b : OrderBook) (depth : Int) : List OrderBookLevel :=
  (b.asks.take depth.toNat).map (fun e => { price := e.1, quantity := e.2, order_count := 1 })

/-- Lookup `m.find(key)` in an `std::unordered_map` kept as an association list. -/
def mapFind {α : Type} (m : List (String × α)) (key : String) : Option α :=
  match m with
  | [] => none
  | (k, v) :: rest => if k = key then some v else mapFind rest key

/-- Assignment `m[key] = value`: overwrite a present key, else insert. -/
def mapSet {α : Type} (m : List (String × α)) (key : String) (value : α) : List (String × α) :=
  match m with
  | [] => [(key, value)]
  | (k, v) :: rest => if k = key then (k, value) :: rest else (k, v) :: mapSet rest key value

/-- Removal `m.erase(key)`. -/
def mapErase {α : Type} (m : List (String × α)) (key : String) : List (String × α) :=
  match m with
  | [] => []
  | (k, v) :: rest => if k = key then rest else (k, v) :: mapErase rest key

/-- Class `MatchingEngine` (the unused `user_margins` and `user_positions` are left out). -/
structure MatchingEngine where
  order_books : List (String × OrderBook)
  orders : List (String × Order)
  recent_trades : List Trade
  trade_id_counter : Nat
  order_id_counter : Nat
  user_balances : List (String × ℚ)
  bracket_orders : List (String × List String)
  oco_orders : List (String × String)
  deriving DecidableEq, Repr

/-- The fifteen symbols registered by the constructor. -/
def initialSymbols : List String :=
  ["BTCUSDT", "ETHUSDT", "BNBUSDT", "ADAUSDT", "SOLUSDT", "DOTUSDT", "MATICUSDT",
   "AVAXUSDT", "LINKUSDT", "UNIUSDT", "LTCUSDT", "BCHUSDT", "XRPUSDT", "DOGEUSDT",
   "SHIBUSDT"]

/-- Constructor `MatchingEngine()`. -/
def MatchingEngine.new : MatchingEngine :=
  { order_books := initialSymbols.foldl (fun m s => mapSet m s (OrderBook.new s)) [],
    orders := [], recent_trades := [], trade_id_counter := 1, order_id_counter := 1,
    user_balances := [], bracket_orders := [], oco_orders := [] }

/-- Method `generate_order_id`: the id and the engine with the counter advanced. -/
def MatchingEngine.generate_order_id (e : MatchingEngine) : String × MatchingEngine :=
  ("ORD" ++ toString e.order_id_counter,
   { e with order_id_counter := (e.order_id_counter + 1) % 2 ^ 64 })

/-- Method `generate_trade_id`: the id and the engine with the counter advanced. -/
def MatchingEngine.generate_trade_id (e : MatchingEngine) : String × MatchingEngine :=
  ("TRD" ++ toString e.trade_id_counter,
   { e with trade_id_counter := (e.trade_id_counter + 1) % 2 ^ 64 })

/-- Expression `user_balances[key]`: a missing key is inserted with balance `0.0`. -/
def MatchingEngine.balanceRef (e : MatchingEngine) (key : String) : ℚ × MatchingEngine :=
  match mapFind e.user_balances key with
  | some v => (v, e)
  | none => (0, { e with user_balances := mapSet e.user_balances key 0 })

/-- Characters of `s` before the first occurrence of `pat`, all of `s` when there is none. -/
def takeBefore (pat : List Char) : List Char → List Char
  | [] => []
  | c :: cs => if pat.isPrefixOf (c :: cs) then [] else c :: takeBefore pat cs

/-- Expression `symbol.substr(0, symbol.find("USDT"))`. -/
def baseAsset (symbol : String) : String :=
  String.mk (takeBefore "USDT".toList symbol.toList)

/-- Method `validate_order`: the verdict and the engine (a balance lookup may insert a key). -/
def MatchingEngine.validate_order (e : MatchingEngine) (order : Order) : Bool × MatchingEngine :=
  if order.quantity ≤ 0 then (false, e)
  else if order.type = OrderType.LIMIT ∧ order.price ≤ 0 then (false, e)
  else if (mapFind e.order_books order.symbol).isNone then (false, e)
  else
    match order.side with
    | OrderSide.BUY =>
      let required_balance := order.quantity * order.price
      let r := e.balanceRef (order.user_id ++ "_USDT")
      if r.1 < required_balance then (false, r.2) else (true, r.2)
    | OrderSide.SELL =>
      let r := e.balanceRef (order.user_id ++ "_" ++ baseAsset order.symbol)
      if r.1 < order.quantity then (false, r.2) else (true, r.2)

/-- Method `update_user_balance`. -/
def MatchingEngine.update_user_balance (e : MatchingEngine) (user_id asset : String)
    (amount : ℚ) : MatchingEngine :=
  let r := e.balanceRef (user_id ++ "_" ++ asset)
  { r.2 with user_balances := mapSet r.2.user_balances (user_id ++ "_" ++ asset) (r.1 + amount) }

/-- State of the `for` loop of `process_market_order` over the snapshot of levels. -/
structure SweepState where
  order : Order
  engine : MatchingEngine
  book : OrderBook
  deriving DecidableEq, Repr

/-- Body of the `for` loop of `process_market_order` (lines 406-414 and 422-430) for one
level of the snapshot: a trade against the synthetic counterparty id is logged, the
order fill grows, the book statistics are updated. -/
def sweepStep (s : SweepState) (level : OrderBookLevel) : SweepState :=
  let available_qty := min level.quantity (s.order.quantity - s.order.filled_quantity)
  let g := s.engine.generate_trade_id
  let trade :=
    match s.order.side with
    | OrderSide.BUY =>
      Trade.new g.1 s.order.id "ASK_ORDER" s.order.symbol available_qty level.price
    | OrderSide.SELL =>
      Trade.new g.1 "BID_ORDER" s.order.id s.order.symbol available_qty level.price
  { order := { s.order with filled_quantity := s.order.filled_quantity + available_qty },
    engine := { g.2 with recent_trades := g.2.recent_trades ++ [trade] },
    book := { s.book with last_price := level.price,
                          volume_24h := s.book.volume_24h + available_qty } }

/-- The `for` loop of `process_market_order` (lines 403-415 and 419-431) over the levels
returned by `get_asks()` or `get_bids()`; the book ladders themselves are not touched. -/
def sweepLevels (s : SweepState) : List OrderBookLevel → SweepState
  | [] => s
  | level :: rest =>
    if s.order.filled_quantity ≥ s.order.quantity then s
    else sweepLevels (sweepStep s level) rest

/-- Status update at the end of `process_market_order` (lines 434-438). -/
def marketStatus (o : Order) : Order :=
  if o.filled_quantity ≥ o.quantity then { o with status := OrderStatus.FILLED }
  else if o.filled_quantity > 0 then { o with status := OrderStatus.PARTIALLY_FILLED }
  else o

/-- Method `process_market_order`: the returned id, the order as the call left it and the
engine. `none` stands for the dereference of a missing book. -/
def MatchingEngine.process_market_order (e : MatchingEngine) (order : Order) :
    Option (String × Order × MatchingEngine) :=
  match mapFind e.order_books order.symbol with
  | none => none
  | some book =>
    let levels :=
      match order.side with
      | OrderSide.BUY => book.get_asks 20
      | OrderSide.SELL => book.get_bids 20
    let s := sweepLevels { order := order, engine := e, book := book } levels
    let order1 := marketStatus s.order
    some (order1.id, order1,
      { s.engine with order_books := mapSet s.engine.order_books order.symbol s.book,
                      orders := mapSet s.engine.orders order1.id order1 })

/-- Resting step of `process_limit_order` (lines 467-474): an order that is not fully
matched is added to the book `book1` and marked `PARTIALLY_FILLED` or `OPEN`. -/
def restRemainder (e1 : MatchingEngine) (book1 : OrderBook) (order1 : Order) :
    Order × MatchingEngine :=
  if order1.filled_quantity < order1.quantity then
    ({ order1 with status :=
         if order1.filled_quantity > 0 then OrderStatus.PARTIALLY_FILLED
         else OrderStatus.OPEN },
     { e1 with order_books := mapSet e1.order_books order1.symbol (book1.add_order order1) })
  else (order1, e1)

/-- Test of `process_limit_order` (lines 450-464): the limit reaches the best opposite
price, an empty side being reported as price `0`. -/
def crossesBook (book : OrderBook) (order : Order) : Bool :=
  match order.side with
  | OrderSide.BUY => decide (book.get_best_ask > 0 ∧ order.price ≥ book.get_best_ask)
  | OrderSide.SELL => decide (book.get_best_bid > 0 ∧ order.price ≤ book.get_best_bid)

/-- Second half of `process_limit_order` (lines 466-477) on the order and engine left by
the matching attempt: rest the remainder, store the order, return its id. -/
def finishLimit (order1 : Order) (e1 : MatchingEngine) :
    Option (String × Order × MatchingEngine) :=
  match mapFind e1.order_books order1.symbol with
  | none => none
  | some book1 =>
    let p := restRemainder e1 book1 order1
    some (p.1.id, p.1, { p.2 with orders := mapSet p.2.orders p.1.id p.1 })

/-- Method `process_limit_order`. -/
def MatchingEngine.process_limit_order (e : MatchingEngine) (order : Order) :
    Option (String × Order × MatchingEngine) :=
  match mapFind e.order_books order.symbol with
  | none => none
  | some book =>
    if crossesBook book order = true then
      match e.process_market_order order with
      | none => none
      | some r => finishLimit r.2.1 r.2.2
    else finishLimit order e

/-- Method `process_stop_order`: the order is stored with status `PENDING`. -/
def MatchingEngine.process_stop_order (e : MatchingEngine) (order : Order) :
    String × Order × MatchingEngine :=
  let order1 : Order := { order with status := OrderStatus.PENDING }
  (order1.id, order1, { e with orders := mapSet e.orders order1.id order1 })

/-- Method `process_trailing_stop_order`: the order is stored with status `PENDING`. -/
def MatchingEngine.process_trailing_stop_order (e : MatchingEngine) (order : Order) :
    String × Order × MatchingEngine :=
  let order1 : Order := { order with status := OrderStatus.PENDING }
  (order1.id, order1, { e with orders := mapSet e.orders order1.id order1 })

/-- Method `process_oco_order`: the order is stored with status `PENDING`. -/
def MatchingEngine.process_oco_order (e : MatchingEngine) (order : Order) :
    String × Order × MatchingEngine :=
  let order1 : Order := { order with status := OrderStatus.PENDING }
  (order1.id, order1, { e with orders := mapSet e.orders order1.id order1 })

/-- Method `process_iceberg_order`. -/
def MatchingEngine.process_iceberg_order (e : MatchingEngine) (order : Order) :
    Option (String × Order × MatchingEngine) :=
  let order1 : Order :=
    if order.iceberg_qty ≤ 0 then { order with iceberg_qty := order.quantity * (1 / 10) }
    else order
  let visible_order : Order := { order1 with quantity := min order1.iceberg_qty order1.quantity }
  e.process_limit_order visible_order

/-- Method `process_bracket_order`. -/
def MatchingEngine.process_bracket_order (e : MatchingEngine) (order : Order) :
    Option (String × Order × MatchingEngine) :=
  match e.process_limit_order order with
  | none => none
  | some (main_order_id, order1, e1) =>
    if main_order_id ≠ "" then
      let flipped :=
        match order1.side with
        | OrderSide.BUY => OrderSide.SELL
        | OrderSide.SELL => OrderSide.BUY
      let g1 := e1.generate_order_id
      let stop_loss : Order :=
        { order1 with id := g1.1, type := OrderType.STOP_LOSS, side := flipped,
                      parent_order_id := main_order_id }
      let g2 := g1.2.generate_order_id
      let take_profit : Order :=
        { order1 with id := g2.1, type := OrderType.TAKE_PROFIT, side := flipped,
                      parent_order_id := main_order_id }
      let e2 := g2.2
      some (main_order_id, order1,
        { e2 with
            bracket_orders := mapSet e2.bracket_orders main_order_id [stop_loss.id, take_profit.id],
            orders := mapSet (mapSet e2.orders stop_loss.id stop_loss) take_profit.id take_profit })
    else some (main_order_id, order1, e1)

/-- The `switch` of `place_order` on the order type (lines 376-394). -/
def MatchingEngine.dispatch (e : MatchingEngine) (order : Order) :
    Option (String × Order × MatchingEngine) :=
  match order.type with
  | OrderType.MARKET => e.process_market_order order
  | OrderType.LIMIT => e.process_limit_order order
  | OrderType.STOP_LOSS => some (e.process_stop_order order)
  | OrderType.STOP_LIMIT => some (e.process_stop_order order)
  | OrderType.TRAILING_STOP => some (e.process_trailing_stop_order order)
  | OrderType.ICEBERG => e.process_iceberg_order order
  | OrderType.BRACKET => e.process_bracket_order order
  | OrderType.OCO => some (e.process_oco_order order)
  | _ => e.process_limit_order order

/-- Method `place_order`: the returned id (empty on rejection) and the engine; `none`
stands for the dereference of a missing book. -/
def MatchingEngine.place_order (e : MatchingEngine) (order : Order) :
    Option (String × MatchingEngine) :=
  let v := e.validate_order order
  if v.1 = false then some ("", v.2)
  else
    let g := v.2.generate_order_id
    let order1 : Order := { order with id := g.1, status := OrderStatus.OPEN }
    (g.2.dispatch order1).map (fun x => (x.1, x.2.2))

/-- Body of the loop over the children in `cancel_order` (lines 563-568): a child that is
stored is marked `CANCELLED`, whatever its status was. -/
def cancelChild (orders : List (String × Order)) (child_id : String) : List (String × Order) :=
  match mapFind orders child_id with
  | none => orders
  | some child => mapSet orders child_id { child with status := OrderStatus.CANCELLED }

/-- Bracket handling of `cancel_order` (lines 561-570). -/
def cancelBracket (e : MatchingEngine) (order_id : String) : MatchingEngine :=
  match mapFind e.bracket_orders order_id with
  | none => e
  | some children =>
    { e with orders := children.foldl cancelChild e.orders,
             bracket_orders := mapErase e.bracket_orders order_id }

/-- Method `cancel_order`: the returned flag and the engine; `none` stands for the
dereference of a missing book. -/
def MatchingEngine.cancel_order (e : MatchingEngine) (order_id user_id : String) :
    Option (Bool × MatchingEngine) :=
  match mapFind e.orders order_id with
  | none => some (false, e)
  | some order =>
    if order.user_id ≠ user_id then some (false, e)
    else if order.status = OrderStatus.FILLED ∨ order.status = OrderStatus.CANCELLED then
      some (false, e)
    else
      match mapFind e.order_books order.symbol with
      | none => none
      | some book =>
        some (true, cancelBracket
          { e with
              order_books := mapSet e.order_books order.symbol (book.remove_order order),
              orders := mapSet e.orders order_id { order with status := OrderStatus.CANCELLED } }
          order_id)

/-- Adjustment of `update_trailing_stops` (lines 655-667) for one order, given the last
price of its book. -/
def trailStop (current_price : ℚ) (order : Order) : Order :=
  match order.side with
  | OrderSide.SELL =>
    let new_stop := current_price - order.trail_amount
    if new_stop > order.stop_price then { order with stop_price := new_stop } else order
  | OrderSide.BUY =>
    let new_stop := current_price + order.trail_amount
    if new_stop < order.stop_price ∨ order.stop_price = 0 then
      { order with stop_price := new_stop }
    else order

/-- Body of the loop of `update_trailing_stops` for one stored order; `none` stands for
the dereference of a missing book. -/
def MatchingEngine.trailOrder (e : MatchingEngine) (order : Order) : Option Order :=
  if order.type = OrderType.TRAILING_STOP ∧ order.status = OrderStatus.PENDING then
    match mapFind e.order_books order.symbol with
    | none => none
    | some book => some (trailStop book.last_price order)
  else some order

/-- The loop of `update_trailing_stops` over the stored orders; it changes no book, so
every iteration reads the books of the engine `e` the call started with. -/
def trailAll (e : MatchingEngine) : List (String × Order) → Option (List (String × Order))
  | [] => some []
  | (k, order) :: rest =>
    match e.trailOrder order with
    | none => none
    | some order1 =>
      match trailAll e rest with
      | none => none
      | some rest1 => some ((k, order1) :: rest1)

/-- Method `update_trailing_stops`. -/
def MatchingEngine.update_trailing_stops (e : MatchingEngine) : Option MatchingEngine :=
  (trailAll e e.orders).map (fun os => { e with orders := os })

/-- Guard of the loop body of `check_stop_orders` (lines 675-676). -/
def isPendingStop (order : Order) : Bool :=
  decide ((order.type = OrderType.STOP_LOSS ∨ order.type = OrderType.STOP_LIMIT ∨
    order.type = OrderType.TRAILING_STOP) ∧ order.status = OrderStatus.PENDING)

/-- Flag `should_trigger` of `check_stop_orders` (lines 681-687). -/
def shouldTrigger (current_price : ℚ) (order : Order) : Bool :=
  if order.side = OrderSide.BUY ∧ current_price ≥ order.stop_price then true
  else if order.side = OrderSide.SELL ∧ current_price ≤ order.stop_price then true
  else false

/-- Retyping of a triggered order (lines 690-694). -/
def triggeredOrder (order : Order) : Order :=
  { order with type :=
      if order.type = OrderType.STOP_LIMIT then OrderType.LIMIT else OrderType.MARKET }

/-- Triggered branch of `check_stop_orders` (lines 689-701) for the order stored under
`key`: the stored object is retyped and handed, by reference, to `process_market_order`
or `process_limit_order`, so that it carries what the call did to it. -/
def MatchingEngine.triggerStop (e : MatchingEngine) (key : String) (order : Order) :
    Option MatchingEngine :=
  let order1 := triggeredOrder order
  let e1 := { e with orders := mapSet e.orders key order1 }
  let r :=
    if order1.type = OrderType.MARKET then e1.process_market_order order1
    else e1.process_limit_order order1
  r.map (fun x => { x.2.2 with orders := mapSet x.2.2.orders key x.2.1 })

/-- Body of the loop of `check_stop_orders` for the order stored under `key`; `none`
stands for the dereference of a missing book. -/
def MatchingEngine.checkStopAt (e : MatchingEngine) (key : String) : Option MatchingEngine :=
  match mapFind e.orders key with
  | none => some e
  | some order =>
    if isPendingStop order = true then
      match mapFind e.order_books order.symbol with
      | none => none
      | some book =>
        if shouldTrigger book.last_price order = true then e.triggerStop key order
        else some e
    else some e

/-- The loop of `check_stop_orders` over the keys of the stored orders; every iteration
works on the engine the iterations before it left. -/
def checkStopKeys (e : MatchingEngine) : List String → Option MatchingEngine
  | [] => some e
  | key :: rest =>
    match e.checkStopAt key with
    | none => none
    | some e1 => checkStopKeys e1 rest

/-- Method `check_stop_orders`; the stored orders are visited in the order of the
association list. -/
def MatchingEngine.check_stop_orders (e : MatchingEngine) : Option MatchingEngine :=
  checkStopKeys e (e.orders.map Prod.fst)

end Advanced

/-! ## Futures engine (`trading/futures-trading/usd-m/src/main.cpp`)

A `double` is modelled by an exact rational. A quotient whose divisor is 0, which is an
infinity or a NaN in C++, is outside the model; the statements exclude it. -/

namespace Futures

/-- Structure `FuturesContract`. -/
structure FuturesContract where
  symbol : String
  baseAsset : String
  quoteAsset : String
  contractType : String
  contractSize : ℚ
  tickSize : ℚ
  minQuantity : ℚ
  maxQuantity : ℚ
  maxLeverage : ℚ
  maintenanceMarginRate : ℚ
  initialMarginRate : ℚ
  expiryTime : Nat
  isActive : Bool
  fundingRate : ℚ
  nextFundingTime : Nat
  markPrice : ℚ
  indexPrice : ℚ
  deriving DecidableEq, Repr

/-- Structure `FuturesPosition`. -/
structure FuturesPosition where
  userId : Nat
  symbol : String
  side : String
  size : ℚ
  entryPrice : ℚ
  markPrice : ℚ
  liquidationPrice : ℚ
  unrealizedPnl : ℚ
  realizedPnl : ℚ
  marginUsed : ℚ
  maintenanceMargin : ℚ
  leverage : ℚ
  marginType : String
  createdAt : Nat
  updatedAt : Nat
  deriving DecidableEq, Repr

/-- Enumeration `FuturesOrderType`. -/
inductive FuturesOrderType where
  | MARKET
  | LIMIT
  | STOP
  | STOP_MARKET
  | TAKE_PROFIT
  | TAKE_PROFIT_MARKET
  | TRAILING_STOP_MARKET
  deriving DecidableEq, Repr

/-- Structure `FuturesOrder`. -/
structure FuturesOrder where
  id : Nat
  userId : Nat
  symbol : String
  side : String
  type : FuturesOrderType
  positionSide : String
  quantity : ℚ
  price : ℚ
  stopPrice : ℚ
  activationPrice : ℚ
  callbackRate : ℚ
  reduceOnly : Bool
  closePosition : Bool
  timeInForce : String
  workingType : String
  filledQuantity : ℚ
  avgFillPrice : ℚ
  status : String
  createdAt : Nat
  updatedAt : Nat
  deriving DecidableEq, Repr

/-- Structure `MarginAccount`. -/
structure MarginAccount where
  userId : Nat
  totalWalletBalance : ℚ
  totalUnrealizedPnl : ℚ
  totalMarginBalance : ℚ
  totalPositionInitialMargin : ℚ
  totalOpenOrderInitialMargin : ℚ
  totalCrossWalletBalance : ℚ
  totalCrossUnPnl : ℚ
  availableBalance : ℚ
  maxWithdrawAmount : ℚ
  positions : List FuturesPosition
  openOrders : List FuturesOrder
  deriving DecidableEq, Repr

/-- Lookup `m.find(key)` in an `std::unordered_map` kept as an association list. -/
def mapFind {κ α : Type} [DecidableEq κ] (m : List (κ × α)) (key : κ) : Option α :=
  match m with
  | [] => none
  | (k, v) :: rest => if k = key then some v else mapFind rest key

/-- Assignment `m[key] = value`: overwrite a present key, else insert. -/
def mapSet {κ α : Type} [DecidableEq κ] (m : List (κ × α)) (key : κ) (value : α) :
    List (κ × α) :=
  match m with
  | [] => [(key, value)]
  | (k, v) :: rest => if k = key then (k, value) :: rest else (k, v) :: mapSet rest key value

/-- Class `LiquidationEngine`: the queue of positions, its front first. -/
structure LiquidationEngine where
  liquidationQueue : List FuturesPosition
  deriving DecidableEq, Repr

/-- Method `addToLiquidationQueue`. -/
def LiquidationEngine.addToLiquidationQueue (l : LiquidationEngine)
    (position : FuturesPosition) : LiquidationEngine :=
  { l with liquidationQueue := l.liquidationQueue ++ [position] }

/-- Method `executeLiquidation`: the order handed to `sendLiquidationOrder`. The order is
default-initialised, so its strings start empty and its other fields hold what `blank`
holds; `now` is the clock reading. -/
def LiquidationEngine.executeLiquidation (position : FuturesPosition) (now : Nat)
    (blank : FuturesOrder) : FuturesOrder :=
  { blank with
      symbol := position.symbol,
      positionSide := "",
      timeInForce := "",
      workingType := "",
      userId := position.userId,
      side := if position.side = "LONG" then "SELL" else "BUY",
      type := FuturesOrderType.MARKET,
      quantity := |position.size|,
      reduceOnly := true,
      status := "NEW",
      createdAt := now }

/-- One round of the loop of `processLiquidations` on a queue that is not empty: the
front is popped and liquidated; the result is the order sent and the engine left. -/
def LiquidationEngine.processLiquidation (l : LiquidationEngine) (now : Nat)
    (blank : FuturesOrder) : Option (FuturesOrder × LiquidationEngine) :=
  match l.liquidationQueue with
  | [] => none
  | position :: rest =>
    some (LiquidationEngine.executeLiquidation position now blank,
      { l with liquidationQueue := rest })

/-- Class `FundingRateCalculator`. -/
structure FundingRateCalculator where
  fundingRates : List (String × ℚ)
  priceHistory : List (String × List ℚ)
  deriving DecidableEq, Repr

/-- Method `calculateFundingRate`: the returned rate and the calculator. The quotient
is the one of `ℚ`, which is the code's for an index price other than 0. -/
def FundingRateCalculator.calculateFundingRate (c : FundingRateCalculator) (symbol : String)
    (markPrice indexPrice : ℚ) : ℚ × FundingRateCalculator :=
  let premium := (markPrice - indexPrice) / indexPrice
  let interestRate : ℚ := 1 / 10000
  let clampedValue := max (-(5 / 10000)) (min (5 / 10000) (interestRate - premium))
  let fundingRate := premium + clampedValue
  (fundingRate, { c with fundingRates := mapSet c.fundingRates symbol fundingRate })

/-- Method `getFundingRate`. -/
def FundingRateCalculator.getFundingRate (c : FundingRateCalculator) (symbol : String) : ℚ :=
  match mapFind c.fundingRates symbol with
  | some v => v
  | none => 0

/-- Class `MarkPriceCalculator`. -/
structure MarkPriceCalculator where
  markPrices : List (String × ℚ)
  indexPrices : List (String × ℚ)
  deriving DecidableEq, Repr

/-- Method `calculateMarkPrice`: the returned mark price and the calculator;
`timeToFunding` is a `uint64_t`. -/
def MarkPriceCalculator.calculateMarkPrice (c : MarkPriceCalculator) (symbol : String)
    (indexPrice fundingRate : ℚ) (timeToFunding : Nat) : ℚ × MarkPriceCalculator :=
  let timeFactor : ℚ := (timeToFunding : ℚ) / ((8 * 3600 * 1000 : Int) : ℚ)
  let markPrice := indexPrice * (1 + fundingRate * timeFactor)
  (markPrice, { markPrices := mapSet c.markPrices symbol markPrice,
                indexPrices := mapSet c.indexPrices symbol indexPrice })

/-- Method `getMarkPrice`. -/
def MarkPriceCalculator.getMarkPrice (c : MarkPriceCalculator) (symbol : String) : ℚ :=
  match mapFind c.markPrices symbol with
  | some v => v
  | none => 0

/-- Method `getIndexPrice`. -/
def MarkPriceCalculator.getIndexPrice (c : MarkPriceCalculator) (symbol : String) : ℚ :=
  match mapFind c.indexPrices symbol with
  | some v => v
  | none => 0

/-- Method `PositionRiskCalculator::calculateLiquidationPrice`. -/
def calculateLiquidationPrice (position : FuturesPosition)
    (maintenanceMarginRate walletBalance : ℚ) : ℚ :=
  if position.size = 0 then 0
  else
    let side : ℚ := if position.side = "LONG" then 1 else -1
    let marginUsed := position.marginUsed
    let unrealizedPnl := position.unrealizedPnl
    position.entryPrice -
      side * (walletBalance + unrealizedPnl - marginUsed * maintenanceMarginRate) /
        position.size

/-- Method `PositionRiskCalculator::calculateUnrealizedPnl`. -/
def calculateUnrealizedPnl (position : FuturesPosition) (markPrice : ℚ) : ℚ :=
  if position.size = 0 then 0
  else
    let side : ℚ := if position.side = "LONG" then 1 else -1
    side * position.size * (markPrice - position.entryPrice)

/-- Method `PositionRiskCalculator::calculateMarginRatio`; `none` stands for the
infinity returned when no margin is used. -/
def calculateMarginRatio (position : FuturesPosition) (markPrice walletBalance : ℚ) :
    Option ℚ :=
  let unrealizedPnl := calculateUnrealizedPnl position markPrice
  let marginBalance := walletBalance + unrealizedPnl
  if position.marginUsed = 0 then none
  else some (marginBalance / position.marginUsed)

/-- Comparison `marginRatio <= rate` of a margin ratio, possibly infinite, with a rate. -/
def ratioLe (marginRatio : Option ℚ) (rate : ℚ) : Bool :=
  match marginRatio with
  | none => false
  | some r => decide (r ≤ rate)

/-- Class `FuturesTradingEngine`. -/
structure FuturesTradingEngine where
  contracts : List (String × FuturesContract)
  accounts : List (Nat × MarginAccount)
  positions : List (String × List FuturesPosition)
  liquidationEngine : LiquidationEngine
  fundingCalculator : FundingRateCalculator
  markPriceCalculator : MarkPriceCalculator
  deriving DecidableEq, Repr

/-- Body of the inner loop of `monitorPositions` (lines 425-450) for one position of an
account with wallet balance `walletBalance`: the position as the body leaves it and the
liquidation engine. -/
def monitorPosition (contracts : List (String × FuturesContract)) (walletBalance : ℚ)
    (position : FuturesPosition) (l : LiquidationEngine) :
    FuturesPosition × LiquidationEngine :=
  if position.size = 0 then (position, l)
  else
    match mapFind contracts position.symbol with
    | none => (position, l)
    | some contract =>
      let markPrice := contract.markPrice
      if markPrice ≤ 0 then (position, l)
      else
        let position1 : FuturesPosition :=
          { position with unrealizedPnl := calculateUnrealizedPnl position markPrice }
        let marginRatio := calculateMarginRatio position1 markPrice walletBalance
        let l1 :=
          if ratioLe marginRatio contract.maintenanceMarginRate = true then
            l.addToLiquidationQueue position1
          else l
        ({ position1 with liquidationPrice :=
             calculateLiquidationPrice position1 contract.maintenanceMarginRate walletBalance },
         l1)

/-- The inner loop of `monitorPositions` over the positions of one account. -/
def monitorAccountPositions (contracts : List (String × FuturesContract))
    (walletBalance : ℚ) :
    List FuturesPosition → LiquidationEngine → List FuturesPosition × LiquidationEngine
  | [], l => ([], l)
  | position :: rest, l =>
    let r := monitorPosition contracts walletBalance position l
    let s := monitorAccountPositions contracts walletBalance rest r.2
    (r.1 :: s.1, s.2)

/-- The outer loop of `monitorPositions` over the accounts. -/
def monitorAccounts (contracts : List (String × FuturesContract)) :
    List (Nat × MarginAccount) → LiquidationEngine →
      List (Nat × MarginAccount) × LiquidationEngine
  | [], l => ([], l)
  | (userId, account) :: rest, l =>
    let r := monitorAccountPositions contracts account.totalWalletBalance account.positions l
    let s := monitorAccounts contracts rest r.2
    ((userId, { account with positions := r.1 }) :: s.1, s.2)

/-- Method `monitorPositions`. -/
def FuturesTradingEngine.monitorPositions (e : FuturesTradingEngine) : FuturesTradingEngine :=
  let r := monitorAccounts e.contracts e.accounts e.liquidationEngine
  { e with accounts := r.1, liquidationEngine := r.2 }

/-- The loop of `validateOrderRisk` that totals `std::abs(size * markPrice)` over the
positions (lines 497-500). -/
def totalPositionValue (positions : List FuturesPosition) : ℚ :=
  positions.foldl (fun total position => total + |position.size * position.markPrice|) 0

/-- The test `requiredMargin > account.availableBalance` of `validateOrderRisk`, where
`requiredMargin = order.quantity * order.price / contract.maxLeverage`. With a maximum
leverage of 0 the quotient of the doubles is infinite, and above every balance, when the
notional is positive, and it is minus infinity or no number, and above no balance,
otherwise. -/
def marginExceeds (order : FuturesOrder) (contract : FuturesContract)
    (account : MarginAccount) : Bool :=
  if contract.maxLeverage = 0 then decide (0 < order.quantity * order.price)
  else decide (order.quantity * order.price / contract.maxLeverage > account.availableBalance)

/-- Method `validateOrderRisk`. -/
def validateOrderRisk (order : FuturesOrder) (contract : FuturesContract)
    (account : MarginAccount) : Bool :=
  if marginExceeds order contract account = true then false
  else
    let total := totalPositionValue account.positions + order.quantity * order.price
    if total > 10000000 then false else true

/-- Method `sendOrderToMatchingEngine`: it prints and returns `true`. -/
def sendOrderToMatchingEngine (_order : FuturesOrder) : Bool := true

/-- Method `placeOrder`: the returned flag and the engine. -/
def FuturesTradingEngine.placeOrder (e : FuturesTradingEngine) (order : FuturesOrder) :
    Bool × FuturesTradingEngine :=
  match mapFind e.contracts order.symbol with
  | none => (false, e)
  | some contract =>
    if contract.isActive = false then (false, e)
    else
      match mapFind e.accounts order.userId with
      | none => (false, e)
      | some account =>
        if validateOrderRisk order contract account = false then (false, e)
        else (sendOrderToMatchingEngine order, e)

/-- Body of the loop of `initializeContracts` for one symbol, the clock reading `now`;
`blank` holds the fields that the body leaves unset (`markPrice`, `indexPrice`). The
next funding time is eight hours after `now`, as a `uint64_t`. -/
def initializeContract (symbol : String) (now : Nat) (blank : FuturesContract) :
    FuturesContract :=
  { blank with
      symbol := symbol ++ "_PERP",
      baseAsset := Advanced.baseAsset symbol,
      quoteAsset := "USDT",
      contractType := "PERPETUAL",
      contractSize := 1,
      tickSize := 1 / 100,
      minQuantity := 1 / 1000,
      maxQuantity := 1000000,
      maxLeverage := 125,
      maintenanceMarginRate := 5 / 1000,
      initialMarginRate := 1 / 100,
      expiryTime := 0,
      isActive := true,
      fundingRate := 1 / 10000,
      nextFundingTime := (now + 8 * 3600 * 1000) % 2 ^ 64 }

/-- Method `FuturesTradingEngine::getIndexPrice`: a placeholder that returns 50000. -/
def getIndexPrice (_symbol : String) : ℚ := 50000

/-- The `uint64_t` difference `contract.nextFundingTime - currentTime` of
`updateMarkPrices`: it wraps modulo `2 ^ 64`. -/
def timeToFunding (nextFundingTime currentTime : Nat) : Nat :=
  (nextFundingTime % 2 ^ 64 + (2 ^ 64 - currentTime % 2 ^ 64)) % 2 ^ 64

/-- Body of the loop of `updateMarkPrices` for the contract stored under `symbol`, the
clock reading `currentTime`: the contract and the mark-price calculator it leaves. -/
def updateMarkPrice (symbol : String) (contract : FuturesContract) (currentTime : Nat)
    (calculator : MarkPriceCalculator) : FuturesContract × MarkPriceCalculator :=
  let indexPrice := getIndexPrice symbol
  if indexPrice > 0 then
    let r := calculator.calculateMarkPrice symbol indexPrice contract.fundingRate
      (timeToFunding contract.nextFundingTime currentTime)
    ({ contract with markPrice := r.1 }, r.2)
  else (contract, calculator)

/-- The loop of `updateMarkPrices` over the contracts; `clock k` is the clock reading of
the pass over the contract number `k`. -/
def updateContracts (clock : Nat → Nat) :
    Nat → List (String × FuturesContract) → MarkPriceCalculator →
      List (String × FuturesContract) × MarkPriceCalculator
  | _, [], calculator => ([], calculator)
  | k, (symbol, contract) :: rest, calculator =>
    let r := updateMarkPrice symbol contract (clock k) calculator
    let s := updateContracts clock (k + 1) rest r.2
    ((symbol, r.1) :: s.1, s.2)

/-- Method `updateMarkPrices`. -/
def FuturesTradingEngine.updateMarkPrices (e : FuturesTradingEngine) (clock : Nat → Nat) :
    FuturesTradingEngine :=
  let r := updateContracts clock 0 e.contracts e.markPriceCalculator
  { e with contracts := r.1, markPriceCalculator := r.2 }

end Futures

/-! ## Options pricer (`options-trading/src/main.cpp`)

A `double` is modelled by an exact rational. The functions of `<cmath>` that the pricer
calls, and the quotient of two doubles, which has no rational value when the divisor is
0, are taken from a record `Cmath`; the statements hold whatever these return. -/

namespace Options

/-- Enumeration `OptionType`. -/
inductive OptionType where
  | CALL
  | PUT
  deriving DecidableEq, Repr

/-- Structure `Greeks`. -/
structure Greeks where
  delta : ℚ
  gamma : ℚ
  theta : ℚ
  vega : ℚ
  rho : ℚ
  epsilon : ℚ
  deriving DecidableEq, Repr

/-- Constructor `Greeks()`: every field is 0. -/
def Greeks.new : Greeks :=
  { delta := 0, gamma := 0, theta := 0, vega := 0, rho := 0, epsilon := 0 }

/-- The operations on doubles that the pricer takes from `<cmath>` and from the
hardware: `log`, `exp`, `sqrt`, `erfc`, and the quotient `a / b`. -/
structure Cmath where
  log : ℚ → ℚ
  exp : ℚ → ℚ
  sqrt : ℚ → ℚ
  erfc : ℚ → ℚ
  div : ℚ → ℚ → ℚ

/-- Constant `M_SQRT1_2` of `<cmath>`, as its header writes it. -/
def M_SQRT1_2 : ℚ := 70710678118654752440 / 100000000000000000000

/-- Constant `M_PI` of `<cmath>`, as its header writes it. -/
def M_PI : ℚ := 314159265358979323846 / 100000000000000000000

/-- Method `BlackScholesModel::normalCDF`. -/
def normalCDF (m : Cmath) (x : ℚ) : ℚ :=
  1 / 2 * m.erfc (-x * M_SQRT1_2)

/-- Method `BlackScholesModel::normalPDF`. -/
def normalPDF (m : Cmath) (x : ℚ) : ℚ :=
  m.div (m.exp (-(1 / 2) * x * x)) (m.sqrt (2 * M_PI))

/-- The local `d1` of `calculateOptionPrice` and of `calculateGreeks`. -/
def d1 (m : Cmath) (spot_price strike_price time_to_expiry risk_free_rate volatility : ℚ) :
    ℚ :=
  m.div
    (m.log (m.div spot_price strike_price) +
      (risk_free_rate + 1 / 2 * volatility * volatility) * time_to_expiry)
    (volatility * m.sqrt time_to_expiry)

/-- The local `d2` of `calculateOptionPrice` and of `calculateGreeks`. -/
def d2 (m : Cmath) (spot_price strike_price time_to_expiry risk_free_rate volatility : ℚ) :
    ℚ :=
  d1 m spot_price strike_price time_to_expiry risk_free_rate volatility -
    volatility * m.sqrt time_to_expiry

/-- Method `BlackScholesModel::calculateOptionPrice`. -/
def calculateOptionPrice (m : Cmath)
    (spot_price strike_price time_to_expiry risk_free_rate volatility : ℚ)
    (option_type : OptionType) : ℚ :=
  if time_to_expiry ≤ 0 then 0
  else
    let d1 := d1 m spot_price strike_price time_to_expiry risk_free_rate volatility
    let d2 := d2 m spot_price strike_price time_to_expiry risk_free_rate volatility
    match option_type with
    | OptionType.CALL =>
      spot_price * normalCDF m d1 -
        strike_price * m.exp (-risk_free_rate * time_to_expiry) * normalCDF m d2
    | OptionType.PUT =>
      strike_price * m.exp (-risk_free_rate * time_to_expiry) * normalCDF m (-d2) -
        spot_price * normalCDF m (-d1)

/-- Method `BlackScholesModel::calculateGreeks`. -/
def calculateGreeks (m : Cmath)
    (spot_price strike_price time_to_expiry risk_free_rate volatility : ℚ)
    (option_type : OptionType) : Greeks :=
  let greeks := Greeks.new
  if time_to_expiry ≤ 0 then greeks
  else
    let d1 := d1 m spot_price strike_price time_to_expiry risk_free_rate volatility
    let d2 := d2 m spot_price strike_price time_to_expiry risk_free_rate volatility
    let delta :=
      match option_type with
      | OptionType.CALL => normalCDF m d1
      | OptionType.PUT => normalCDF m d1 - 1
    let gamma := m.div (normalPDF m d1) (spot_price * volatility * m.sqrt time_to_expiry)
    let theta_common :=
      m.div (-(spot_price * normalPDF m d1 * volatility)) (2 * m.sqrt time_to_expiry)
    let theta :=
      match option_type with
      | OptionType.CALL =>
        theta_common -
          risk_free_rate * strike_price * m.exp (-risk_free_rate * time_to_expiry) *
            normalCDF m d2
      | OptionType.PUT =>
        theta_common +
          risk_free_rate * strike_price * m.exp (-risk_free_rate * time_to_expiry) *
            normalCDF m (-d2)
    let vega := m.div (spot_price * normalPDF m d1 * m.sqrt time_to_expiry) 100
    let rho :=
      match option_type with
      | OptionType.CALL =>
        m.div (strike_price * time_to_expiry *
          m.exp (-risk_free_rate * time_to_expiry) * normalCDF m d2) 100
      | OptionType.PUT =>
        m.div (-strike_price * time_to_expiry *
          m.exp (-risk_free_rate * time_to_expiry) * normalCDF m (-d2)) 100
    { greeks with delta := delta, gamma := gamma, theta := m.div theta 365, vega := vega,
                  rho := rho }

end Options

/-! ## Matching-engine service (`matching-engine/src/main.cpp`)

A `double` is modelled by an exact rational, a `uint64_t` by a natural number, and a
`std::map` of queues by the list of its levels in the iteration order of the map. The
orders are the values behind the shared pointers of the queues. -/

namespace Service

/-- Enumeration `OrderType`. -/
inductive OrderType where
  | MARKET
  | LIMIT
  | STOP_LOSS
  | STOP_LIMIT
  | TAKE_PROFIT
  | TAKE_PROFIT_LIMIT
  | TRAILING_STOP
  | ICEBERG
  | OCO
  | BRACKET
  deriving DecidableEq, Repr

/-- Enumeration `OrderSide`. -/
inductive OrderSide where
  | BUY
  | SELL
  deriving DecidableEq, Repr

/-- Enumeration `OrderStatus`. -/
inductive OrderStatus where
  | NEW
  | PARTIALLY_FILLED
  | FILLED
  | CANCELED
  | REJECTED
  | EXPIRED
  deriving DecidableEq, Repr

/-- Enumeration `TimeInForce`. -/
inductive TimeInForce where
  | GTC
  | IOC
  | FOK
  | GTD
  deriving DecidableEq, Repr

/-- Structure `Order`. -/
structure Order where
  id : Nat
  symbol : String
  side : OrderSide
  type : OrderType
  timeInForce : TimeInForce
  quantity : ℚ
  price : ℚ
  stopPrice : ℚ
  filledQuantity : ℚ
  status : OrderStatus
  timestamp : Nat
  clientOrderId : String
  userId : Nat
  icebergQty : ℚ
  expireTime : Nat
  deriving DecidableEq, Repr

/-- Constructor `Order(id, symbol, side, type, quantity, price, tif)`, the clock reading
`now`. -/
def Order.new (id : Nat) (symbol : String) (side : OrderSide) (type : OrderType)
    (quantity price : ℚ) (tif : TimeInForce) (now : Nat) : Order :=
  { id := id, symbol := symbol, side := side, type := type, timeInForce := tif,
    quantity := quantity, price := price, stopPrice := 0, filledQuantity := 0,
    status := OrderStatus.NEW, timestamp := now, clientOrderId := "", userId := 0,
    icebergQty := 0, expireTime := 0 }

/-- Structure `Trade`. -/
structure Trade where
  id : Nat
  symbol : String
  buyOrderId : Nat
  sellOrderId : Nat
  buyerId : Nat
  sellerId : Nat
  price : ℚ
  quantity : ℚ
  timestamp : Nat
  fee : ℚ
  feeAsset : String
  deriving DecidableEq, Repr

/-- One side of the book, a `std::map<double, std::queue<std::shared_ptr<Order>>, Compare>`:
its levels from `begin()` to `end()`, each queue from its front. -/
abbrev Ladder := List (ℚ × List Order)

/-- Every order queued in a ladder, level by level. -/
def Ladder.orders (l : Ladder) : List Order := (l.map (fun e => e.2)).flatten

/-- Class `OrderBook`. The map `bids` is ordered by `std::greater<double>`, so it runs
from the highest price to the lowest; `asks` runs from the lowest to the highest. -/
structure OrderBook where
  bids : Ladder
  asks : Ladder
  symbol : String
  deriving DecidableEq, Repr

/-- Constructor `OrderBook(symbol)`. -/
def OrderBook.new (symbol : String) : OrderBook :=
  { bids := [], asks := [], symbol := symbol }

/-- Statement `levels[order->price].push(order)` on a map ordered by `before`: a missing
level is inserted at its place with an empty queue first. -/
def Ladder.push (before : ℚ → ℚ → Bool) : Ladder → Order → Ladder
  | [], order => [(order.price, [order])]
  | (price, queue) :: rest, order =>
    if before order.price price then (order.price, [order]) :: (price, queue) :: rest
    else if before price order.price then (price, queue) :: Ladder.push before rest order
    else (price, queue ++ [order]) :: rest

/-- Method `OrderBook::addOrder`. -/
def OrderBook.addOrder (b : OrderBook) (order : Order) : OrderBook :=
  match order.side with
  | OrderSide.BUY =>
    { b with bids := Ladder.push (fun x y => decide (x > y)) b.bids order }
  | OrderSide.SELL =>
    { b with asks := Ladder.push (fun x y => decide (x < y)) b.asks order }

/-- Method `OrderBook::removeOrder`: its body is empty. -/
def OrderBook.removeOrder (b : OrderBook) (_orderId : Nat) : OrderBook := b

/-- State of the loop of `matchOrders`: the two maps, the `trades` vector and the static
counter of `generateTradeId`. -/
structure MatchState where
  bids : Ladder
  asks : Ladder
  trades : List Trade
  counter : Nat
  deriving DecidableEq, Repr

/-- Body of the loop of `matchOrders` (lines 150-194) when `topBid->price >=
topAsk->price`. Here `topBid`, followed by `restBids`, is the queue of the level
`bids.rbegin()`, whose key is `bidPrice`, and `topAsk`, followed by `restAsks`, is the
queue of the level `asks.begin()`, whose key is `askPrice` and which `higherAsks`
follow. The clock reading of the trade number `k` of the call is `clock k`. An order that
is popped leaves the book with the status `FILLED`. -/
def matchStep (symbol : String) (clock : Nat → Nat) (s : MatchState)
    (bidPrice : ℚ) (topBid : Order) (restBids : List Order)
    (askPrice : ℚ) (topAsk : Order) (restAsks : List Order) (higherAsks : Ladder) :
    MatchState :=
  let tradePrice := topAsk.price
  let tradeQuantity :=
    min (topBid.quantity - topBid.filledQuantity) (topAsk.quantity - topAsk.filledQuantity)
  let trade : Trade :=
    { id := s.counter, symbol := symbol, buyOrderId := topBid.id, sellOrderId := topAsk.id,
      buyerId := topBid.userId, sellerId := topAsk.userId, price := tradePrice,
      quantity := tradeQuantity, timestamp := clock s.trades.length,
      fee := tradeQuantity * tradePrice * (1 / 1000), feeAsset := "USDT" }
  let topBid1 : Order :=
    { topBid with filledQuantity := topBid.filledQuantity + tradeQuantity }
  let topAsk1 : Order :=
    { topAsk with filledQuantity := topAsk.filledQuantity + tradeQuantity }
  let bids1 : Ladder :=
    if topBid1.filledQuantity ≥ topBid1.quantity then
      if restBids.isEmpty then s.bids.dropLast
      else s.bids.dropLast ++ [(bidPrice, restBids)]
    else s.bids.dropLast ++ [(bidPrice, topBid1 :: restBids)]
  let asks1 : Ladder :=
    if topAsk1.filledQuantity ≥ topAsk1.quantity then
      if restAsks.isEmpty then higherAsks
      else (askPrice, restAsks) :: higherAsks
    else (askPrice, topAsk1 :: restAsks) :: higherAsks
  { bids := bids1, asks := asks1, trades := s.trades ++ [trade],
    counter := (s.counter + 1) % 2 ^ 64 }

/-- Loop of `matchOrders` (lines 149-198); one unit of fuel per evaluation of the loop
condition. `none` when the fuel runs out, and when `front()` is called on an empty
queue. -/
def matchLoop (symbol : String) (clock : Nat → Nat) : Nat → MatchState → Option MatchState
  | 0, _ => none
  | fuel + 1, s =>
    match s.bids.getLast? with
    | none => some s
    | some (bidPrice, bidQueue) =>
      match s.asks with
      | [] => some s
      | (askPrice, askQueue) :: higherAsks =>
        match bidQueue with
        | [] => none
        | topBid :: restBids =>
          match askQueue with
          | [] => none
          | topAsk :: restAsks =>
            if topBid.price ≥ topAsk.price then
              matchLoop symbol clock fuel
                (matchStep symbol clock s bidPrice topBid restBids askPrice topAsk restAsks
                  higherAsks)
            else some s

/-- Result of `matchOrders`: the `trades` vector, the book, and the static counter of
`generateTradeId`. -/
structure MatchResult where
  trades : List Trade
  book : OrderBook
  counter : Nat
  deriving DecidableEq, Repr

/-- Method `OrderBook::matchOrders`, the static trade counter at `counter`. The loop gets
one unit of fuel per order of the book plus one. -/
def OrderBook.matchOrders (b : OrderBook) (counter : Nat) (clock : Nat → Nat) :
    Option MatchResult :=
  (matchLoop b.symbol clock
      ((Ladder.orders b.bids).length + (Ladder.orders b.asks).length + 1)
      { bids := b.bids, asks := b.asks, trades := [], counter := counter }).map
    (fun s => { trades := s.trades, book := { b with bids := s.bids, asks := s.asks },
                counter := s.counter })

/-- The loop over `tempQueue` in `getDepth`: the sum of `quantity - filledQuantity`. -/
def totalQuantity (queue : List Order) : ℚ :=
  queue.foldl (fun total order => total + (order.quantity - order.filledQuantity)) 0

/-- One of the two `for` loops of `getDepth` over the levels still ahead of the
iterator, with the value of `count` and the array built so far. An entry holds the price
and the total quantity that the code turns into strings. -/
def depthLoop (limit : Int) : Ladder → Int → List (ℚ × ℚ) → List (ℚ × ℚ)
  | [], _, array => array
  | (price, queue) :: rest, count, array =>
    if count < limit then
      depthLoop limit rest (count + 1) (array ++ [(price, totalQuantity queue)])
    else array

/-- The JSON object that `getDepth` returns. -/
structure Depth where
  bids : List (ℚ × ℚ)
  asks : List (ℚ × ℚ)
  lastUpdateId : Nat
  deriving DecidableEq, Repr

/-- Method `OrderBook::getDepth`, the clock reading `now`. The first loop runs from
`bids.rbegin()` to `bids.rend()`, the second from `asks.begin()` to `asks.end()`. -/
def OrderBook.getDepth (b : OrderBook) (limit : Int) (now : Nat) : Depth :=
  { bids := depthLoop limit b.bids.reverse 0 [],
    asks := depthLoop limit b.asks 0 [],
    lastUpdateId := now }

/-- What `processMarketOrder` leaves: the order object, the trades broadcast, the book
and the static trade counter. -/
structure MarketResult where
  order : Order
  trades : List Trade
  book : OrderBook
  counter : Nat
  deriving DecidableEq, Repr

/-- Method `MatchingEngine::processMarketOrder`: the order is not handed to the book. -/
def processMarketOrder (order : Order) (book : OrderBook) (counter : Nat)
    (clock : Nat → Nat) : Option MarketResult :=
  (book.matchOrders counter clock).map
    (fun r => { order := order, trades := r.trades, book := r.book, counter := r.counter })

/-- Method `MatchingEngine::processLimitOrder`: the trades broadcast, the book and the
static trade counter. -/
def processLimitOrder (order : Order) (book : OrderBook) (counter : Nat)
    (clock : Nat → Nat) : Option MatchResult :=
  (book.addOrder order).matchOrders counter clock

end Service

/-! ## `double` arithmetic

Rounding to the nearest `double` (IEEE 754 binary64, ties to even) as a function on the
rationals. The exponent range is not bounded: overflow to infinity and underflow are
not modelled, and there is no NaN. `binary64` agrees with the machine on every operation
whose exact result lies within the range of the normal `double`s, and on the sums and
differences of `double`s below that range, which the machine computes exactly. -/

namespace Double

/-- The power `2 ^ k` for an integer `k`. -/
def pow2 (k : Int) : ℚ :=
  if 0 ≤ k then ((2 ^ k.toNat : Nat) : ℚ) else 1 / ((2 ^ (-k).toNat : Nat) : ℚ)

/-- Rounding to the nearest integer, a tie going to the even one. -/
def roundEven (x : ℚ) : Int :=
  if x - ⌊x⌋ < 1 / 2 then ⌊x⌋
  else if 1 / 2 < x - ⌊x⌋ then ⌊x⌋ + 1
  else if ⌊x⌋ % 2 = 0 then ⌊x⌋ else ⌊x⌋ + 1

/-- The loop behind `log2`, with `fuel` at least the number of binary digits of `n`. -/
def log2Loop : Nat → Nat → Nat
  | 0, _ => 0
  | fuel + 1, n => if 2 ≤ n then log2Loop fuel (n / 2) + 1 else 0

/-- The integer part of the binary logarithm of `n`, and 0 for `n = 0`. -/
def log2 (n : Nat) : Nat := log2Loop n n

/-- The exponent of `x`: for `x` other than 0 the `e` with `2 ^ e ≤ |x| < 2 ^ (e + 1)`. -/
def binade (x : ℚ) : Int :=
  if pow2 ((log2 x.num.natAbs : Int) - (log2 x.den : Int)) ≤ |x| then
    (log2 x.num.natAbs : Int) - (log2 x.den : Int)
  else (log2 x.num.natAbs : Int) - (log2 x.den : Int) - 1

/-- The `double` nearest to `x`. -/
def binary64 (x : ℚ) : ℚ :=
  if x = 0 then 0
  else (roundEven (x / pow2 (binade x - 52)) : ℚ) * pow2 (binade x - 52)

end Double

/-! ## High-speed engine in `double` arithmetic

The methods of the high-speed engine whose results depend on the values computed, once
more, now with every `double` operation rounded by `Double.binary64` and with the reads
of `match_orders` as the code makes them. -/

namespace HighSpeed.Rounded

/-- Body of `OrderBook::add_order` on the ladder of the order side (lines 17-24); the
sum `total_quantity += order->quantity` is rounded. -/
def Ladder.add_order (before : ℚ → ℚ → Bool) (levels : Ladder) (order : Order) : Ladder :=
  let levels1 :=
    if (Ladder.find levels order.price).isNone then
      Ladder.emplace before levels order.price (PriceLevel.new order.price)
    else levels
  Ladder.modify levels1 order.price (fun l =>
    { l with orders := l.orders ++ [order],
             total_quantity := Double.binary64 (l.total_quantity + order.quantity) })

/-- Method `OrderBook::add_order`; the product `order->quantity * 1e8` is rounded before
the conversion. -/
def OrderBook.add_order (b : OrderBook) (order : Order) : OrderBook :=
  match order.side with
  | Side.BUY =>
    { b with bids := Ladder.add_order bidBefore b.bids order,
             total_bid_volume :=
               u64add b.total_bid_volume (toU64 (Double.binary64 (order.quantity * 100000000))) }
  | Side.SELL =>
    { b with asks := Ladder.add_order askBefore b.asks order,
             total_ask_volume :=
               u64add b.total_ask_volume (toU64 (Double.binary64 (order.quantity * 100000000))) }

/-- One search loop of `OrderBook::cancel_order` over a ladder (lines 34-48 and 51-65);
the difference `total_quantity -= (*it)->quantity` is rounded. -/
def Ladder.cancel (order_id : Nat) : Ladder → Option (Ladder × Order)
  | [] => none
  | (k, level) :: rest =>
    match level.orders.find? (fun o => decide (o.order_id = order_id)) with
    | some o =>
      let level1 : PriceLevel :=
        { level with total_quantity := Double.binary64 (level.total_quantity - o.quantity),
                     orders := level.orders.eraseP (fun o => decide (o.order_id = order_id)) }
      some (if level1.orders.isEmpty then rest else (k, level1) :: rest, o)
    | none =>
      match Ladder.cancel order_id rest with
      | some (rest1, o) => some ((k, level) :: rest1, o)
      | none => none

/-- Method `OrderBook::cancel_order`: bids are searched first, then asks. -/
def OrderBook.cancel_order (b : OrderBook) (order_id : Nat) : Bool × OrderBook :=
  match Ladder.cancel order_id b.bids with
  | some (bids, o) =>
    (true, { b with bids := bids,
                    total_bid_volume :=
                      u64sub b.total_bid_volume (toU64 (Double.binary64 (o.quantity * 100000000))) })
  | none =>
    match Ladder.cancel order_id b.asks with
    | some (asks, o) =>
      (true, { b with asks := asks,
                      total_ask_volume :=
                        u64sub b.total_ask_volume
                          (toU64 (Double.binary64 (o.quantity * 100000000))) })
    | none => (false, b)

/-- Body of the inner loop of `match_orders` (lines 88-110 and 129-151) when the head of
the queue is `resting`, followed by `rest`. -/
def levelStep (price : ℚ) (s : LevelState) (resting : Order) (rest : List Order) : LevelState :=
  let match_quantity :=
    min (Double.binary64 (s.incoming.quantity - s.incoming.filled_quantity))
        (Double.binary64 (resting.quantity - resting.filled_quantity))
  let incoming : Order :=
    { s.incoming with
        filled_quantity := Double.binary64 (s.incoming.filled_quantity + match_quantity) }
  let filled := Double.binary64 (resting.filled_quantity + match_quantity)
  if filled ≥ resting.quantity then
    let maker : Order := { resting with filled_quantity := filled, status := Status.FILLED }
    { incoming := incoming,
      level :=
        { s.level with
            orders := rest,
            total_quantity :=
              Double.binary64 (s.level.total_quantity - readAfterErase maker rest) },
      volume :=
        u64sub s.volume (toU64 (Double.binary64 (readAfterErase maker rest * 100000000))),
      last_traded_price := price,
      matched := s.matched ++ [{ maker := maker, quantity := match_quantity, price := price }] }
  else
    let maker : Order := { resting with filled_quantity := filled, status := Status.PARTIAL }
    { incoming := incoming,
      level := { s.level with orders := maker :: rest },
      volume := s.volume,
      last_traded_price := price,
      matched := s.matched ++ [{ maker := maker, quantity := match_quantity, price := price }] }

/-- Inner loop of `match_orders` (lines 86-111 and 127-152) at the level of key `price`;
one unit of fuel per evaluation of the loop condition, `none` when fuel runs out. -/
def matchLevel (price : ℚ) : Nat → LevelState → Option LevelState
  | 0, _ => none
  | fuel + 1, s =>
    match s.level.orders with
    | [] => some s
    | resting :: rest =>
      if s.incoming.filled_quantity < s.incoming.quantity then
        matchLevel price fuel (levelStep price s resting rest)
      else some s

/-- Outer loop of `match_orders` (lines 78-116 and 119-157). `worse price limit` is
`price > limit` against asks and `price < limit` against bids. One unit of fuel per
evaluation of the loop condition; the inner loop gets two units per queued order plus
three. -/
def matchLadder (worse : ℚ → ℚ → Bool) : Nat → MatchState → Option MatchState
  | 0, _ => none
  | fuel + 1, s =>
    match s.levels with
    | [] => some s
    | (price, level) :: rest =>
      if s.incoming.filled_quantity < s.incoming.quantity then
        if s.incoming.type = OrderType.LIMIT ∧ worse price s.incoming.price = true then some s
        else
          match matchLevel price (2 * level.orders.length + 3) (enterLevel s level) with
          | none => none
          | some t => matchLadder worse fuel (leaveLevel t price rest)
      else some s

/-- Method `OrderBook::match_orders`. The outer loop gets one unit of fuel per level of
the opposite ladder plus one; `none` would mean that a loop did not finish within it. -/
def OrderBook.match_orders (b : OrderBook) (incoming_order : Order) : Option MatchResult :=
  match incoming_order.side with
  | Side.BUY =>
    match matchLadder (fun price limit => decide (price > limit)) (b.asks.length + 1)
        { incoming := incoming_order, levels := b.asks, volume := b.total_ask_volume,
          last_traded_price := b.last_traded_price, matched := [] } with
    | none => none
    | some s =>
      some { book := { b with asks := s.levels, total_ask_volume := s.volume,
                              last_traded_price := s.last_traded_price },
             incoming := finalStatus s.incoming, matched := s.matched }
  | Side.SELL =>
    match matchLadder (fun price limit => decide (price < limit)) (b.bids.length + 1)
        { incoming := incoming_order, levels := b.bids, volume := b.total_bid_volume,
          last_traded_price := b.last_traded_price, matched := [] } with
    | none => none
    | some s =>
      some { book := { b with bids := s.levels, total_bid_volume := s.volume,
                              last_traded_price := s.last_traded_price },
             incoming := finalStatus s.incoming, matched := s.matched }

/-- Method `MatchingEngine::submit_order` (latency statistics are not modelled). -/
def MatchingEngine.submit_order (e : MatchingEngine) (user_id : Nat) (symbol : String)
    (price quantity : ℚ) (side : Side) (type : OrderType) : Option SubmitResult :=
  let order_id := e.next_order_id
  let e1 : MatchingEngine := { e with next_order_id := u64add e.next_order_id 1 }
  let order := Order.new order_id user_id symbol price quantity side type
  match findBook e1.order_books symbol with
  | none => some { order_id := 0, engine := e1, order := order, matched := [] }
  | some book =>
    match OrderBook.match_orders book order with
    | none => none
    | some r =>
      let book1 :=
        if r.incoming.status ≠ Status.FILLED ∧ type = OrderType.LIMIT then
          OrderBook.add_order r.book r.incoming
        else r.book
      some { order_id := order_id,
             engine :=
               { e1 with order_books := setBook e1.order_books symbol book1,
                         trades_executed :=
                           if r.matched.isEmpty then e1.trades_executed
                           else u64add e1.trades_executed r.matched.length,
                         orders_processed := u64add e1.orders_processed 1 },
             order := r.incoming,
             matched := r.matched }

/-- Method `MatchingEngine::cancel_order`. -/
def MatchingEngine.cancel_order (e : MatchingEngine) (order_id : Nat) (symbol : String) :
    Bool × MatchingEngine :=
  match findBook e.order_books symbol with
  | none => (false, e)
  | some book =>
    let r := OrderBook.cancel_order book order_id
    (r.1, { e with order_books := setBook e.order_books symbol r.2 })

/-- Engine after one call; `none` only if `submit_order` did not return. -/
def MatchingEngine.step (e : MatchingEngine) : Op → Option MatchingEngine
  | Op.submit u s p q sd t =>
    (MatchingEngine.submit_order e u s p q sd t).map (fun r => r.engine)
  | Op.cancel i s => some (MatchingEngine.cancel_order e i s).2

/-- Engine after a sequence of calls, first call first. -/
def MatchingEngine.run (e : MatchingEngine) : List Op → Option MatchingEngine
  | [] => some e
  | op :: ops =>
    match MatchingEngine.step e op with
    | none => none
    | some e1 => MatchingEngine.run e1 ops

end HighSpeed.Rounded

/-! ## Futures engine in `double` arithmetic

The risk calculations of `PositionRiskCalculator` and the loop body of
`monitorPositions` once more, with every `double` operation rounded by
`Double.binary64`, in the order in which the expressions of the source evaluate. -/

namespace Futures.Rounded

/-- Method `PositionRiskCalculator::calculateLiquidationPrice`. -/
def calculateLiquidationPrice (position : FuturesPosition)
    (maintenanceMarginRate walletBalance : ℚ) : ℚ :=
  if position.size = 0 then 0
  else
    let side : ℚ := if position.side = "LONG" then 1 else -1
    let marginUsed := position.marginUsed
    let unrealizedPnl := position.unrealizedPnl
    Double.binary64 (position.entryPrice -
      Double.binary64 (Double.binary64 (side *
        Double.binary64 (Double.binary64 (walletBalance + unrealizedPnl) -
          Double.binary64 (marginUsed * maintenanceMarginRate))) / position.size))

/-- Method `PositionRiskCalculator::calculateUnrealizedPnl`. -/
def calculateUnrealizedPnl (position : FuturesPosition) (markPrice : ℚ) : ℚ :=
  if position.size = 0 then 0
  else
    let side : ℚ := if position.side = "LONG" then 1 else -1
    Double.binary64 (Double.binary64 (side * position.size) *
      Double.binary64 (markPrice - position.entryPrice))

/-- Method `PositionRiskCalculator::calculateMarginRatio`; `none` stands for the
infinity returned when no margin is used. -/
def calculateMarginRatio (position : FuturesPosition) (markPrice walletBalance : ℚ) :
    Option ℚ :=
  let unrealizedPnl := calculateUnrealizedPnl position markPrice
  let marginBalance := Double.binary64 (walletBalance + unrealizedPnl)
  if position.marginUsed = 0 then none
  else some (Double.binary64 (marginBalance / position.marginUsed))

/-- Body of the inner loop of `monitorPositions` (lines 425-450) for one position of an
account with wallet balance `walletBalance`: the position as the body leaves it and the
liquidation engine. -/
def monitorPosition (contracts : List (String × FuturesContract)) (walletBalance : ℚ)
    (position : FuturesPosition) (l : LiquidationEngine) :
    FuturesPosition × LiquidationEngine :=
  if position.size = 0 then (position, l)
  else
    match mapFind contracts position.symbol with
    | none => (position, l)
    | some contract =>
      let markPrice := contract.markPrice
      if markPrice ≤ 0 then (position, l)
      else
        let position1 : FuturesPosition :=
          { position with unrealizedPnl := calculateUnrealizedPnl position markPrice }
        let marginRatio := calculateMarginRatio position1 markPrice walletBalance
        let l1 :=
          if ratioLe marginRatio contract.maintenanceMarginRate = true then
            l.addToLiquidationQueue position1
          else l
        ({ position1 with liquidationPrice :=
             calculateLiquidationPrice position1 contract.maintenanceMarginRate walletBalance },
         l1)

end Futures.Rounded

/-! ## Vocabulary of the statements about the high-speed engine -/

namespace HighSpeed

/-- Keys of a ladder in iteration order. -/
def Ladder.keys (l : Ladder) : List ℚ := l.map Prod.fst

/-- Orders resting in a ladder, in matching order: best level first, FIFO inside a level. -/
def Ladder.orders (l : Ladder) : List Order := (l.map (fun e => e.2.orders)).flatten

/-- Every order resting in the book. -/
def OrderBook.resting (b : OrderBook) : List Order := b.bids.orders ++ b.asks.orders

/-- Every level of the book, bids first. -/
def OrderBook.levels (b : OrderBook) : Ladder := b.bids ++ b.asks

/-- The book is not crossed: one side is empty or the best bid is below the best ask. -/
def OrderBook.Uncrossed (b : OrderBook) : Prop :=
  b.bids = [] ∨ b.asks = [] ∨ b.get_best_bid_ask.1 < b.get_best_bid_ask.2

/-- Ladder keys are strictly ordered (the `std::map` invariant) and every bid key is
below every ask key. -/
structure OrderBook.Ordered (b : OrderBook) : Prop where
  bids_sorted : b.bids.keys.Pairwise (fun x y => x > y)
  asks_sorted : b.asks.keys.Pairwise (fun x y => x < y)
  apart : ∀ x ∈ b.bids.keys, ∀ y ∈ b.asks.keys, x < y

/-- A resting order is open: something is filled at most and something is left. -/
def Order.IsOpen (o : Order) : Prop := 0 ≤ o.filled_quantity ∧ o.filled_quantity < o.quantity

/-- Sum of the full quantities of a queue. -/
def queueQuantity (q : List Order) : ℚ := (q.map (fun o => o.quantity)).sum

/-- Sum of the unfilled quantities of a queue. -/
def queueUnfilled (q : List Order) : ℚ :=
  (q.map (fun o => o.quantity - o.filled_quantity)).sum

/-- Level invariant kept by `add_order`, `cancel_order` and `match_orders`: the queue is
not empty and its orders are open. -/
structure LevelOK (e : ℚ × PriceLevel) : Prop where
  nonempty : e.2.orders ≠ []
  isOpen : ∀ o ∈ e.2.orders, o.IsOpen

/-- Every level of the book satisfies the level invariant. -/
def OrderBook.LevelsOK (b : OrderBook) : Prop := ∀ e ∈ b.levels, LevelOK e

/-- The loop condition `incoming_order->filled_quantity < incoming_order->quantity`. -/
def Order.Unfilled (o : Order) : Prop := o.filled_quantity < o.quantity

/-- The Boolean comparator `before` of a ladder decides the strict total order `R`. -/
structure StrictCmp (before : ℚ → ℚ → Bool) (R : ℚ → ℚ → Prop) : Prop where
  iff : ∀ a b, before a b = true ↔ R a b
  trans : ∀ a b c, R a b → R b c → R a c
  irrefl : ∀ a, ¬ R a a
  tri : ∀ a b, a ≠ b → R a b ∨ R b a

/-- The level `add_order` leaves after appending `o` to the queue of `lv`. -/
def pushOrder (lv : PriceLevel) (o : Order) : PriceLevel :=
  { lv with orders := lv.orders ++ [o], total_quantity := lv.total_quantity + o.quantity }

/-- Ladder `l1` is ladder `l` with exactly the order `o` unlinked: `o` is the first order
with the id `id` in iteration order; the other orders keep their level and their place in
the queue; the level of `o` loses the quantity of `o` from its aggregate and is dropped
from the ladder when `o` was its only order. -/
def Ladder.Unlinked (id : Nat) (o : Order) (l l1 : Ladder) : Prop :=
  ∃ (pre : Ladder) (k : ℚ) (level : PriceLevel) (post : Ladder) (q1 q2 : List Order),
    l = pre ++ (k, level) :: post ∧ level.orders = q1 ++ o :: q2 ∧ o.order_id = id ∧
    (∀ x ∈ q1, x.order_id ≠ id) ∧ (∀ e ∈ pre, ∀ x ∈ e.2.orders, x.order_id ≠ id) ∧
    l1 = pre ++
      (if q1 ++ q2 = [] then []
       else [(k, { level with total_quantity := level.total_quantity - o.quantity,
                              orders := q1 ++ q2 })]) ++ post

/-- The `match_quantity` of the loop body for taker `t` and head maker `r`. -/
def matchQuantity (t r : Order) : ℚ :=
  min (t.quantity - t.filled_quantity) (r.quantity - r.filled_quantity)

/-- Inner-loop invariant behind `LevelOK`: queued orders are open and the taker has a
non-negative fill. -/
structure LevelState.OK (s : LevelState) : Prop where
  isOpen : ∀ o ∈ s.level.orders, o.IsOpen
  filled_nonneg : 0 ≤ s.incoming.filled_quantity

/-- Outer-loop invariant behind `LevelOK`. -/
structure MatchState.OK (s : MatchState) : Prop where
  levels : ∀ e ∈ s.levels, LevelOK e
  filled_nonneg : 0 ≤ s.incoming.filled_quantity

/-- Orders `a` and `b` are the same order up to fill and status: all the fields that
matching never writes agree. -/
structure Order.Same (a b : Order) : Prop where
  order_id : a.order_id = b.order_id
  user_id : a.user_id = b.user_id
  symbol : a.symbol = b.symbol
  price : a.price = b.price
  quantity : a.quantity = b.quantity
  side : a.side = b.side
  type : a.type = b.type

/-- Book invariant of the high-speed engine: ordered, uncrossed ladders whose levels
satisfy the level invariant. -/
structure OrderBook.Inv (b : OrderBook) : Prop where
  ordered : b.Ordered
  levelsOK : b.LevelsOK

/-- Representation invariant of a book: each ladder is strictly ordered by its
comparator (the `std::map` invariant), no level has an empty queue (every method of
`OrderBook` erases a level it empties), and the counters are `uint64_t` values. -/
structure OrderBook.WellFormed (b : OrderBook) : Prop where
  bids_sorted : b.bids.keys.Pairwise (fun x y => x > y)
  asks_sorted : b.asks.keys.Pairwise (fun x y => x < y)
  nonempty : ∀ e ∈ b.levels, e.2.orders ≠ []
  bid_volume : b.total_bid_volume < 2 ^ 64
  ask_volume : b.total_ask_volume < 2 ^ 64

/-- Sample order: user 1 sells 2.0 at 100 under id 1. -/
def sellA : Order := Order.new 1 1 "BTCUSDT" 100 2 Side.SELL OrderType.LIMIT

/-- Sample order: user 2 sells 2.0 at 100 under id 2. -/
def sellB : Order := Order.new 2 2 "BTCUSDT" 100 2 Side.SELL OrderType.LIMIT

/-- Sample order: user 3 buys 3.0 at the market under id 3. -/
def buyC : Order := Order.new 3 3 "BTCUSDT" 0 3 Side.BUY OrderType.MARKET

/-- Sample book: `sellA` alone, added to an empty book. -/
def bookA : OrderBook := (OrderBook.new "BTCUSDT").add_order sellA

/-- Sample book: `sellA` then `sellB`, added to an empty book in this order. -/
def bookAB : OrderBook := bookA.add_order sellB

/-- Resting orders of a ladder in matching order, each with the key of its level. -/
def Ladder.entries (l : Ladder) : List (ℚ × Order) :=
  (l.map (fun e => e.2.orders.map (fun o => (e.1, o)))).flatten

/-- The ladder `match_orders` sweeps for a taker of the given side. -/
def OrderBook.opposite (b : OrderBook) (side : Side) : Ladder :=
  match side with
  | Side.BUY => b.asks
  | Side.SELL => b.bids

/-- The taker after one execution of the loop body against the maker `r`. -/
def takerAfter (t r : Order) : Order :=
  { t with filled_quantity := t.filled_quantity + matchQuantity t r }

/-- The maker `r` after one execution of the loop body, with the status it is given. -/
def makerAfter (t r : Order) (st : Status) : Order :=
  { r with filled_quantity := r.filled_quantity + matchQuantity t r, status := st }

/-- The element appended to `matches` by one execution of the loop body. -/
def fillOf (price : ℚ) (t r : Order) (st : Status) : Match :=
  { maker := makerAfter t r st, quantity := matchQuantity t r, price := price }

/-- The maker of a match was filled completely. -/
def Match.Complete (m : Match) : Prop :=
  m.maker.filled_quantity = m.maker.quantity ∧ m.maker.status = Status.FILLED

/-- The price recorded by the last match, the given price when there is no match. -/
def lastPrice (initial : ℚ) (ms : List Match) : ℚ :=
  match ms.getLast? with
  | some m => m.price
  | none => initial

/-- The matches `ms` follow the queue whose order ids are `ids`: their makers are the
first orders of the queue, one match per order and in queue order, and every maker but
possibly the last one was filled completely. -/
def Fifo (ids : List Nat) (ms : List Match) : Prop :=
  (∃ tl, ids = ms.map (fun m => m.maker.order_id) ++ tl) ∧
  ∀ l1 x l2, ms = l1 ++ x :: l2 → l2 ≠ [] → x.Complete

/-- Sample engine: one symbol whose book is `bookA`; the next order id is 2. -/
def engineA : MatchingEngine :=
  { order_books := [("BTCUSDT", bookA)], next_order_id := 2, orders_processed := 1,
    trades_executed := 0 }

/-- Scenario 2 of the specification: a sell of 1.0 at 101 is submitted to a fresh engine,
then a market buy of 0.6. -/
def marketBuyScenario : Option SubmitResult :=
  (MatchingEngine.new.run [Op.submit 1 "BTCUSDT" 101 1 Side.SELL OrderType.LIMIT]).bind
    (fun e0 => e0.submit_order 2 "BTCUSDT" 0 (6 / 10) Side.BUY OrderType.MARKET)

/-- The book of `BTCUSDT` after `marketBuyScenario`. -/
def marketBuyBook : Option OrderBook :=
  marketBuyScenario.bind (fun res => findBook res.engine.order_books "BTCUSDT")

/-- Every book of the engine satisfies `P`. -/
def MatchingEngine.AllBooks (e : MatchingEngine) (P : OrderBook → Prop) : Prop :=
  ∀ symbol b, findBook e.order_books symbol = some b → P b

/-- Sample order: user 3 buys 1.0 at the market under id 4. -/
def buyOne : Order := Order.new 4 3 "BTCUSDT" 0 1 Side.BUY OrderType.MARKET

/-- The taker still has something to fill: the condition
`filled_quantity < quantity` of both loops. -/
def LevelState.Hungry (s : LevelState) : Prop :=
  s.incoming.filled_quantity < s.incoming.quantity

end HighSpeed

/-! ## Vocabulary of the statements about the advanced engine -/

namespace Advanced

/-- Scenario 4 of the specification, the engine before the order: `user1` holds 100000
USDT, `user2` holds 5 BTC and has placed a sell limit of 3.0 at 100, so that 3.0 is
available at prices up to 100. -/
def fokEngine : Option MatchingEngine :=
  (((MatchingEngine.new.update_user_balance "user1" "USDT" 100000).update_user_balance
      "user2" "BTC" 5).place_order
    (Order.new "" "user2" "BTCUSDT" OrderType.LIMIT OrderSide.SELL 3 100)).map (fun x => x.2)

/-- Scenario 4 of the specification, the order: `user1` buys 5.0 at 100, fill or kill. -/
def fokOrder : Order :=
  { Order.new "" "user1" "BTCUSDT" OrderType.LIMIT OrderSide.BUY 5 100 with
    time_in_force := TimeInForce.FOK }

/-- Scenario 4 of the specification, the result of `place_order`. -/
def fokResult : Option (String × MatchingEngine) :=
  fokEngine.bind (fun e => e.place_order fokOrder)

/-- The `BTCUSDT` book of an engine. -/
def btcBook (e : MatchingEngine) : Option OrderBook := mapFind e.order_books "BTCUSDT"

/-- Balance as `validate_order` reads it: a missing key counts as `0.0`. -/
def balanceOf (e : MatchingEngine) (key : String) : ℚ :=
  (mapFind e.user_balances key).getD 0

/-- Successive calls of `place_order`, the returned ids dropped. -/
def placeAll (e : MatchingEngine) : List Order → Option MatchingEngine
  | [] => some e
  | o :: rest => (e.place_order o).bind (fun r => placeAll r.2 rest)

/-- A fresh engine in which `user1` holds 100000 USDT and `user2` holds 10 BTC. -/
def fundedEngine : MatchingEngine :=
  (MatchingEngine.new.update_user_balance "user1" "USDT" 100000).update_user_balance
    "user2" "BTC" 10

/-- On the funded engine `user2` sells 3.0 at 100 and 3.0 at 105, then `user1` places a
buy limit of 5.0 at 100. -/
def twoLevelResult : Option MatchingEngine :=
  placeAll fundedEngine
    [Order.new "" "user2" "BTCUSDT" OrderType.LIMIT OrderSide.SELL 3 100,
     Order.new "" "user2" "BTCUSDT" OrderType.LIMIT OrderSide.SELL 3 105,
     Order.new "" "user1" "BTCUSDT" OrderType.LIMIT OrderSide.BUY 5 100]

/-- On the funded engine `user2` places a sell limit of 1.0 at 100. -/
def crossEngine : Option MatchingEngine :=
  placeAll fundedEngine [Order.new "" "user2" "BTCUSDT" OrderType.LIMIT OrderSide.SELL 1 100]

/-- The buy limit of 1.0 at 100 of `user1` as `place_order` hands it to the processors
after the sell: with the id `ORD2` and the status `OPEN`. -/
def crossBuy : Order :=
  { Order.new "ORD2" "user1" "BTCUSDT" OrderType.LIMIT OrderSide.BUY 1 100 with
    status := OrderStatus.OPEN }

/-- On the funded engine a sell limit of 1.0 at 100 followed by a buy limit of 1.0 at
100. -/
def crossResult : Option MatchingEngine :=
  placeAll fundedEngine
    [Order.new "" "user2" "BTCUSDT" OrderType.LIMIT OrderSide.SELL 1 100,
     Order.new "" "user1" "BTCUSDT" OrderType.LIMIT OrderSide.BUY 1 100]

/-- The ids `process_market_order` writes into a trade of the incoming order `o`: the id
of `o` on its own side and a fixed string on the other side. -/
def TakerTrade (o : Order) (t : Trade) : Prop :=
  (o.side = OrderSide.BUY → t.buy_order_id = o.id ∧ t.sell_order_id = "ASK_ORDER") ∧
  (o.side = OrderSide.SELL → t.sell_order_id = o.id ∧ t.buy_order_id = "BID_ORDER")

/-- What the order processors leave of an order `o` and an engine `e`: the result `r`
holds the id of `o`, the order `o` with a new fill and status, and an engine that stores
this order under its id, has a book for the same symbols, a longer trade log, and the
same order counter, balances and bracket and OCO tables. -/
def Processed (e : MatchingEngine) (o : Order) (r : String × Order × MatchingEngine) : Prop :=
  r.1 = o.id ∧
  (∃ f st, r.2.1 = { o with filled_quantity := f, status := st } ∧
    (st = o.status ∨ st = OrderStatus.OPEN ∨ st = OrderStatus.PARTIALLY_FILLED ∨
      st = OrderStatus.FILLED)) ∧
  (∀ sym, (mapFind r.2.2.order_books sym).isSome = (mapFind e.order_books sym).isSome) ∧
  r.2.2.orders = mapSet e.orders o.id r.2.1 ∧
  (∃ tr, r.2.2.recent_trades = e.recent_trades ++ tr) ∧
  r.2.2.order_id_counter = e.order_id_counter ∧
  r.2.2.user_balances = e.user_balances ∧
  r.2.2.bracket_orders = e.bracket_orders ∧
  r.2.2.oco_orders = e.oco_orders

/-- An `ICEBERG` buy of 1.0 at price 0 on `BTCUSDT`. -/
def icebergAtZero : Order :=
  Order.new "" "user1" "BTCUSDT" OrderType.ICEBERG OrderSide.BUY 1 0

/-- A `STOP_LIMIT` buy of 1.0 at price -5 on `BTCUSDT`. -/
def stopLimitBelowZero : Order :=
  Order.new "" "user1" "BTCUSDT" OrderType.STOP_LIMIT OrderSide.BUY 1 (-5)

/-- A fresh engine in which `user1` holds 100 USDT. -/
def smallEngine : MatchingEngine :=
  MatchingEngine.new.update_user_balance "user1" "USDT" 100

/-- On the small engine `user1` places a buy limit of 1.0 at 100 twice. -/
def twoBuysResult : Option MatchingEngine :=
  placeAll smallEngine
    [Order.new "" "user1" "BTCUSDT" OrderType.LIMIT OrderSide.BUY 1 100,
     Order.new "" "user1" "BTCUSDT" OrderType.LIMIT OrderSide.BUY 1 100]

/-- An order with its status set to `CANCELLED`. -/
def cancelled (o : Order) : Order := { o with status := OrderStatus.CANCELLED }

/-- The engine of `crossEngine`: the funded engine with the sell limit `ORD1` of `user2`
resting. -/
def restingEngine : MatchingEngine := crossEngine.getD MatchingEngine.new

/-- A `TRAILING_STOP` buy of `user1` for 1.0 on `BTCUSDT`, trailing by 2. -/
def trailBuy : Order :=
  { Order.new "" "user1" "BTCUSDT" OrderType.TRAILING_STOP OrderSide.BUY 1 0 with
    trail_amount := 2 }

/-- After the sell limit and the buy limit of 1.0 at 100 have traded at 100, `user1`
places the trailing buy; it is stored as `ORD3` with stop price 0. -/
def trailEngine : MatchingEngine :=
  ((crossResult.bind (fun e => e.place_order trailBuy)).map (fun x => x.2)).getD
    MatchingEngine.new

/-- The stop price of a trailing stop after an update, as the amended C20 states it:
for a sell the larger of the previous stop and the last price less the trail; for a buy
the last price plus the trail when the previous stop is 0, else the smaller of the
previous stop and the last price plus the trail. -/
def trailedStop (side : OrderSide) (previous last trail : ℚ) : ℚ :=
  match side with
  | OrderSide.SELL => max previous (last - trail)
  | OrderSide.BUY => if previous = 0 then last + trail else min previous (last + trail)

/-- Relation between a stored order `o` and the order `o1` that `update_trailing_stops`
leaves in its place: a `PENDING` `TRAILING_STOP` order gets the stop price of
`trailedStop` at the last price of its book and keeps its other fields, every other
order is kept as it is. -/
def TrailedOrder (e : MatchingEngine) (o o1 : Order) : Prop :=
  if o.type = OrderType.TRAILING_STOP ∧ o.status = OrderStatus.PENDING then
    ∃ book, mapFind e.order_books o.symbol = some book ∧
      o1 = { o with stop_price :=
               trailedStop o.side o.stop_price book.last_price o.trail_amount }
  else o1 = o

/-- Relation between a stored entry and the entry `update_trailing_stops` leaves in its
place: the key is kept and the order is updated as `TrailedOrder` says. -/
def TrailRule (e : MatchingEngine) (a b : String × Order) : Prop :=
  b.1 = a.1 ∧ TrailedOrder e a.2 b.2

/-- The statuses `FILLED`, `CANCELLED`, `REJECTED` and `EXPIRED`. -/
def OrderStatus.Terminal (s : OrderStatus) : Prop :=
  s = OrderStatus.FILLED ∨ s = OrderStatus.CANCELLED ∨ s = OrderStatus.REJECTED ∨
    s = OrderStatus.EXPIRED

/-- A call of one of the public methods of the engine. -/
inductive Call where
  | place (order : Order)
  | cancel (order_id user_id : String)
  | trail
  | check
  | balance (user_id asset : String) (amount : ℚ)

/-- The engine after one call, the returned value dropped; `none` stands for the
dereference of a missing book. -/
def MatchingEngine.call (e : MatchingEngine) : Call → Option MatchingEngine
  | Call.place order => (e.place_order order).map (fun x => x.2)
  | Call.cancel order_id user_id => (e.cancel_order order_id user_id).map (fun x => x.2)
  | Call.trail => e.update_trailing_stops
  | Call.check => e.check_stop_orders
  | Call.balance user_id asset amount => some (e.update_user_balance user_id asset amount)

/-- The engine after a sequence of calls. -/
def MatchingEngine.calls (e : MatchingEngine) : List Call → Option MatchingEngine
  | [] => some e
  | c :: rest => (e.call c).bind (fun e1 => e1.calls rest)

/-- An id that `generate_order_id` handed out before the counter reached its value in
`e`, the counter not having wrapped. -/
def Issued (e : MatchingEngine) (id : String) : Prop :=
  ∃ n, n < e.order_id_counter ∧ id = "ORD" ++ toString n

/-- A stored entry is well formed: the key was issued, the order carries the key as its
id, its symbol has a book, and its status is neither `REJECTED` nor `EXPIRED`. -/
def StoredOK (e : MatchingEngine) (p : String × Order) : Prop :=
  Issued e p.1 ∧ p.2.id = p.1 ∧ (mapFind e.order_books p.2.symbol).isSome = true ∧
    p.2.status ≠ OrderStatus.REJECTED ∧ p.2.status ≠ OrderStatus.EXPIRED

/-- A child `c` filed under the bracket parent `parent` is well formed: its id was
issued, and if it is stored it is not `PENDING`, and it is `FILLED` only if the parent,
when stored, is `FILLED` or `CANCELLED`. -/
def ChildOK (e : MatchingEngine) (parent c : String) : Prop :=
  Issued e c ∧ ∀ x, mapFind e.orders c = some x →
    x.status ≠ OrderStatus.PENDING ∧
    (x.status = OrderStatus.FILLED → ∀ y, mapFind e.orders parent = some y →
      y.status = OrderStatus.FILLED ∨ y.status = OrderStatus.CANCELLED)

/-- Invariant of the states reached from a fresh engine: every stored entry and every
child of every bracket entry is well formed, and every bracket parent id was issued. -/
structure MatchingEngine.Sound (e : MatchingEngine) : Prop where
  stored : ∀ p ∈ e.orders, StoredOK e p
  brackets : ∀ q ∈ e.bracket_orders, Issued e q.1 ∧ ∀ c ∈ q.2, ChildOK e q.1 c

/-- Every order that is stored in `e` with a terminal status is stored in `e1` under the
same id with the same status. -/
def TerminalKept (e e1 : MatchingEngine) : Prop :=
  ∀ id x, mapFind e.orders id = some x → x.status.Terminal →
    ∃ x1, mapFind e1.orders id = some x1 ∧ x1.status = x.status

/-- A sequence of calls on a fresh engine: two deposits, a sell limit `ORD1` and a buy
limit `ORD2` that crosses it and is filled, a bracket buy `ORD3` with its children
`ORD4` and `ORD5`, and the cancellation of the child `ORD4`. -/
def startCalls : List Call :=
  [Call.balance "user1" "USDT" 100000,
   Call.balance "user2" "BTC" 10,
   Call.place (Order.new "" "user2" "BTCUSDT" OrderType.LIMIT OrderSide.SELL 1 100),
   Call.place (Order.new "" "user1" "BTCUSDT" OrderType.LIMIT OrderSide.BUY 1 100),
   Call.place (Order.new "" "user1" "BTCUSDT" OrderType.BRACKET OrderSide.BUY 1 90),
   Call.cancel "ORD4" "user1"]

/-- The engine after `startCalls`. -/
def reachedEngine : MatchingEngine :=
  (MatchingEngine.new.calls startCalls).getD MatchingEngine.new

/-- Further calls: the cancellation of the bracket parent `ORD3`, an attempt to cancel
the filled `ORD2`, the two maintenance passes, and a new order. -/
def laterCalls : List Call :=
  [Call.cancel "ORD3" "user1",
   Call.cancel "ORD2" "user1",
   Call.trail,
   Call.check,
   Call.place (Order.new "" "user1" "BTCUSDT" OrderType.MARKET OrderSide.BUY 1 0)]

/-- Calls that fund `user1` and `user2` and store the trailing sell `ORD1` of `user2`
for 1.0 on `BTCUSDT`, trailing by 2, with the initial stop price 0. -/
def peakSetup : List Call :=
  [Call.balance "user1" "USDT" 1000000,
   Call.balance "user2" "BTC" 100,
   Call.place { Order.new "" "user2" "BTCUSDT" OrderType.TRAILING_STOP OrderSide.SELL 1 0 with
                trail_amount := 2 }]

/-- Calls that move the last price of `BTCUSDT` to `p` and then update the trailing
stops: `user2` rests a sell limit of 1.0 at `p`, and `user1` buys `q` at market, the last
trade of which is at `p`. -/
def peakStep (p q : ℚ) : List Call :=
  [Call.place (Order.new "" "user2" "BTCUSDT" OrderType.LIMIT OrderSide.SELL 1 p),
   Call.place (Order.new "" "user1" "BTCUSDT" OrderType.MARKET OrderSide.BUY q 0),
   Call.trail]

/-- The setup followed by the first `n` of the steps to the last prices 100, 105, 103
and 102. -/
def peakCalls (n : Nat) : List Call :=
  peakSetup ++
    ((([(100, 1), (105, 2), (103, 2), (102, 2)] : List (ℚ × ℚ)).take n).map
      (fun x => peakStep x.1 x.2)).flatten

/-- The last price of `BTCUSDT` and the stop price of the trailing sell `ORD1` after
`peakCalls n` on a fresh engine. -/
def peakState (n : Nat) : Option (ℚ × ℚ) :=
  (MatchingEngine.new.calls (peakCalls n)).bind (fun e =>
    (btcBook e).bind (fun b =>
      (mapFind e.orders "ORD1").map (fun o => (b.last_price, o.stop_price))))

/-- The engine after `peakCalls 2`: the trailing sell `ORD1` is `PENDING` with stop price
103 and the last price is 105. -/
def peakEngine : MatchingEngine :=
  (MatchingEngine.new.calls (peakCalls 2)).getD MatchingEngine.new

/-- Relation between a stored entry and the entry that replaces it, as the amended C21
states it: the key is kept, and for a `PENDING` `TRAILING_STOP` order the stop price of
a sell does not fall and the stop price of a buy that was not 0 does not rise. -/
def TrailMonotone (a b : String × Order) : Prop :=
  b.1 = a.1 ∧
  (a.2.type = OrderType.TRAILING_STOP → a.2.status = OrderStatus.PENDING →
    (a.2.side = OrderSide.SELL → a.2.stop_price ≤ b.2.stop_price) ∧
    (a.2.side = OrderSide.BUY → a.2.stop_price ≠ 0 → b.2.stop_price ≤ a.2.stop_price))

/-- The quantity `process_iceberg_order` hands on as the visible order: the smaller of
the display size and the quantity, the display size being `iceberg_qty` when that is
positive and a tenth of the quantity otherwise. -/
def visibleQuantity (o : Order) : ℚ :=
  min (if o.iceberg_qty ≤ 0 then o.quantity * (1 / 10) else o.iceberg_qty) o.quantity

/-- The visible order of `process_iceberg_order`: the order, its `iceberg_qty` defaulted,
with the visible quantity as its quantity. -/
def visibleOrder (o : Order) : Order :=
  { (if o.iceberg_qty ≤ 0 then { o with iceberg_qty := o.quantity * (1 / 10) } else o) with
    quantity := min
      (if o.iceberg_qty ≤ 0 then { o with iceberg_qty := o.quantity * (1 / 10) }
        else o).iceberg_qty
      (if o.iceberg_qty ≤ 0 then { o with iceberg_qty := o.quantity * (1 / 10) }
        else o).quantity }

/-- An `ICEBERG` buy of `user1` for 10.0 at 100 on `BTCUSDT` with display size 2. -/
def icebergBuy : Order :=
  { Order.new "" "user1" "BTCUSDT" OrderType.ICEBERG OrderSide.BUY 10 100 with
    iceberg_qty := 2 }

/-- On the funded engine `user2` rests a sell limit of 5.0 at 100. -/
def icebergEngine : MatchingEngine :=
  (placeAll fundedEngine
    [Order.new "" "user2" "BTCUSDT" OrderType.LIMIT OrderSide.SELL 5 100]).getD
    MatchingEngine.new

/-- The other side. -/
def opposite (s : OrderSide) : OrderSide :=
  match s with
  | OrderSide.BUY => OrderSide.SELL
  | OrderSide.SELL => OrderSide.BUY

/-- No key occurs twice in an association list. -/
def UniqueKeys {α : Type} (m : List (String × α)) : Prop := (m.map Prod.fst).Nodup

/-- How a call may change the stored orders and the bracket table between `e` and `e1`:
the counter does not fall, an issued id is stored after exactly when it was stored
before, the bracket entry of an issued id is kept unless the order under that id is
`CANCELLED` afterwards, and the keys of the bracket table stay unique. -/
def Evolves (e e1 : MatchingEngine) : Prop :=
  e.order_id_counter ≤ e1.order_id_counter ∧
  (∀ id, Issued e id → (mapFind e1.orders id).isSome = (mapFind e.orders id).isSome) ∧
  (∀ p, Issued e p → mapFind e1.bracket_orders p = mapFind e.bracket_orders p ∨
    ∃ y1, mapFind e1.orders p = some y1 ∧ y1.status = OrderStatus.CANCELLED) ∧
  (UniqueKeys e.bracket_orders → UniqueKeys e1.bracket_orders)

/-- The bracket of the parent `p` with the children `c1` and `c2` is in place: the three
ids were issued, both children are stored, the keys of the bracket table are unique, and
as long as the parent is stored with a status other than `CANCELLED` the pair of
children is filed under it. -/
def BracketLive (e : MatchingEngine) (p c1 c2 : String) : Prop :=
  Issued e p ∧ Issued e c1 ∧ Issued e c2 ∧
  (mapFind e.orders c1).isSome = true ∧ (mapFind e.orders c2).isSome = true ∧
  UniqueKeys e.bracket_orders ∧
  ∀ y, mapFind e.orders p = some y → y.status ≠ OrderStatus.CANCELLED →
    mapFind e.bracket_orders p = some [c1, c2]

/-- What `place_order` leaves of an admitted `BRACKET` order `o` on an engine whose
counter is `c`: the parent under `ORD c` with the side of `o`, the children under the
next two ids with the opposite side and the parent's id as `parent_order_id`, and the
pair of the children's ids filed under the parent. -/
def BracketPlaced (e : MatchingEngine) (o : Order) (r : String × MatchingEngine) : Prop :=
  r.1 = "ORD" ++ toString e.order_id_counter ∧
  ∃ parent sl tp,
    r.2.bracket_orders = mapSet e.bracket_orders r.1
      ["ORD" ++ toString (e.order_id_counter + 1),
       "ORD" ++ toString (e.order_id_counter + 2)] ∧
    mapFind r.2.orders r.1 = some parent ∧
    mapFind r.2.orders ("ORD" ++ toString (e.order_id_counter + 1)) = some sl ∧
    mapFind r.2.orders ("ORD" ++ toString (e.order_id_counter + 2)) = some tp ∧
    parent.side = o.side ∧ sl.side = opposite o.side ∧ tp.side = opposite o.side ∧
    sl.parent_order_id = r.1 ∧ tp.parent_order_id = r.1 ∧
    sl.type = OrderType.STOP_LOSS ∧ tp.type = OrderType.TAKE_PROFIT

/-- Calls on a fresh engine: two deposits, a sell limit `ORD1` and a buy limit `ORD2`. -/
def bracketBefore : List Call :=
  [Call.balance "user1" "USDT" 100000,
   Call.balance "user2" "BTC" 10,
   Call.place (Order.new "" "user2" "BTCUSDT" OrderType.LIMIT OrderSide.SELL 1 100),
   Call.place (Order.new "" "user1" "BTCUSDT" OrderType.LIMIT OrderSide.BUY 1 100)]

/-- The engine after `bracketBefore`. -/
def bracketEngine : MatchingEngine :=
  (MatchingEngine.new.calls bracketBefore).getD MatchingEngine.new

/-- A `BRACKET` buy of `user1` for 1.0 at 90 on `BTCUSDT`. -/
def bracketBuy : Order :=
  Order.new "" "user1" "BTCUSDT" OrderType.BRACKET OrderSide.BUY 1 90

/-- The engine after `place_order` of the bracket buy on `bracketEngine`: the parent is
`ORD3` and the children are `ORD4` and `ORD5`. -/
def bracketPlacedEngine : MatchingEngine :=
  ((bracketEngine.place_order bracketBuy).map (fun x => x.2)).getD MatchingEngine.new

/-- Calls between the admission of the bracket and the cancellation of its parent: the
child `ORD4` is cancelled, and the two maintenance passes run. -/
def bracketBetween : List Call :=
  [Call.cancel "ORD4" "user1", Call.trail, Call.check]

/-- Calls on a fresh engine: `user2` and `user3` are given 10 BTC each, `user2` places
the sell limit `ORD1` of 1.0 at 100, which rests, and `user3` places the `STOP_LOSS` sell
`ORD2` of `quantity` with the price 100 and the stop price 95, which is stored as
`PENDING` and never added to the book. -/
def pendingCalls (quantity : ℚ) : List Call :=
  [Call.balance "user2" "BTC" 10,
   Call.balance "user3" "BTC" 10,
   Call.place (Order.new "" "user2" "BTCUSDT" OrderType.LIMIT OrderSide.SELL 1 100),
   Call.place
     { Order.new "" "user3" "BTCUSDT" OrderType.STOP_LOSS OrderSide.SELL quantity 100 with
       stop_price := 95 }]

/-- The engine after `pendingCalls`. -/
def pendingEngine (quantity : ℚ) : MatchingEngine :=
  (MatchingEngine.new.calls (pendingCalls quantity)).getD MatchingEngine.new

/-- The asks of the `BTCUSDT` book after `cancel_order("ORD2", "user3")` on the engine
of `pendingCalls`. -/
def asksAfterCancel (quantity : ℚ) : Option (List (ℚ × ℚ)) :=
  (((pendingEngine quantity).cancel_order "ORD2" "user3").bind (fun r => btcBook r.2)).map
    (fun b => b.asks)

end Advanced

/-! ## Vocabulary of the statements about the futures engine -/

namespace Futures

/-- The value `x` clamped to the interval from `lo` to `hi`. -/
def clamp (x lo hi : ℚ) : ℚ :=
  if x < lo then lo else if hi < x then hi else x

/-- The position `position` of an account with wallet balance `walletBalance` is due for
liquidation at a pass of `monitorPositions`, and `q` is the copy that is enqueued: the
size is not 0, the contract of its symbol exists and has a positive mark price, the
margin ratio at that mark price is finite and at most the maintenance margin rate of the
contract, and `q` is the position with its unrealized P&L brought to that mark price. -/
def Due (contracts : List (String × FuturesContract)) (walletBalance : ℚ)
    (position q : FuturesPosition) : Prop :=
  position.size ≠ 0 ∧
  ∃ contract, mapFind contracts position.symbol = some contract ∧
    0 < contract.markPrice ∧
    (∃ r, calculateMarginRatio position contract.markPrice walletBalance = some r ∧
      r ≤ contract.maintenanceMarginRate) ∧
    q = { position with
            unrealizedPnl := calculateUnrealizedPnl position contract.markPrice }

/-- A long position of user 1 in `BTCUSDT_PERP`: size 1, entry 50000, leverage 10,
margin used 5000. -/
def longPosition : FuturesPosition :=
  { userId := 1, symbol := "BTCUSDT_PERP", side := "LONG", size := 1, entryPrice := 50000,
    markPrice := 50000, liquidationPrice := 0, unrealizedPnl := 0, realizedPnl := 0,
    marginUsed := 5000, maintenanceMargin := 0, leverage := 10, marginType := "ISOLATED",
    createdAt := 0, updatedAt := 0 }

/-- The contract `BTCUSDT_PERP` with the constants of `initializeContracts`, among them
the maintenance margin rate 0.005 and the maximum leverage 125, at the mark price
`mark`. -/
def perpContract (mark : ℚ) : FuturesContract :=
  { symbol := "BTCUSDT_PERP", baseAsset := "BTC", quoteAsset := "USDT",
    contractType := "PERPETUAL", contractSize := 1, tickSize := 1 / 100,
    minQuantity := 1 / 1000, maxQuantity := 1000000, maxLeverage := 125,
    maintenanceMarginRate := 5 / 1000, initialMarginRate := 1 / 100, expiryTime := 0,
    isActive := true, fundingRate := 1 / 10000, nextFundingTime := 0, markPrice := mark,
    indexPrice := 50000 }

/-- The account of user 1: wallet balance 5000, available balance 1000, and the long
position. -/
def longAccount : MarginAccount :=
  { userId := 1, totalWalletBalance := 5000, totalUnrealizedPnl := 0,
    totalMarginBalance := 5000, totalPositionInitialMargin := 5000,
    totalOpenOrderInitialMargin := 0, totalCrossWalletBalance := 0, totalCrossUnPnl := 0,
    availableBalance := 1000, maxWithdrawAmount := 0, positions := [longPosition],
    openOrders := [] }

/-- An engine with the contract `BTCUSDT_PERP` at the mark price `mark`, the account of
user 1, and an empty liquidation queue. -/
def longEngine (mark : ℚ) : FuturesTradingEngine :=
  { contracts := [("BTCUSDT_PERP", perpContract mark)], accounts := [(1, longAccount)],
    positions := [], liquidationEngine := { liquidationQueue := [] },
    fundingCalculator := { fundingRates := [], priceHistory := [] },
    markPriceCalculator := { markPrices := [], indexPrices := [] } }

/-- A limit buy of user 1 for `quantity` at `price` on `BTCUSDT_PERP`. -/
def perpBuy (quantity price : ℚ) : FuturesOrder :=
  { id := 1, userId := 1, symbol := "BTCUSDT_PERP", side := "BUY",
    type := FuturesOrderType.LIMIT, positionSide := "BOTH", quantity := quantity,
    price := price, stopPrice := 0, activationPrice := 0, callbackRate := 0,
    reduceOnly := false, closePosition := false, timeInForce := "GTC",
    workingType := "CONTRACT_PRICE", filledQuantity := 0, avgFillPrice := 0,
    status := "NEW", createdAt := 0, updatedAt := 0 }

end Futures

/-! ## Vocabulary of the statements about the options pricer -/

namespace Options

/-- A sample of the operations, with rational stand-ins for the functions of `<cmath>`:
the quotient is the exact one, and `erfc y + erfc (-y) = 2` holds as it does for the
complementary error function. -/
def sampleCmath : Cmath :=
  { log := fun x => x - 1,
    exp := fun x => 1 + x + x * x / 2,
    sqrt := fun x => (x + 1) / 2,
    erfc := fun y => 1 - y / (1 + |y|),
    div := fun a b => a / b }

end Options

/-! ## Vocabulary of the statements about the matching-engine service -/

namespace Service

/-- The book is not crossed: one side is empty or the highest bid price, the first key
of `bids`, is below the lowest ask price, the first key of `asks`. -/
def OrderBook.Uncrossed (b : OrderBook) : Prop :=
  ∀ x ∈ b.bids.head?.toList, ∀ y ∈ b.asks.head?.toList, x.1 < y.1

/-- The shape that `addOrder` and `matchOrders` keep: the keys of each map are in its
order, no queue is empty, and an order is queued under its own price. -/
structure OrderBook.WellFormed (b : OrderBook) : Prop where
  bids_sorted : (b.bids.map Prod.fst).Pairwise (fun x y => x > y)
  asks_sorted : (b.asks.map Prod.fst).Pairwise (fun x y => x < y)
  queued : ∀ e ∈ b.bids ++ b.asks, e.2 ≠ []
  keyed : ∀ e ∈ b.bids ++ b.asks, ∀ o ∈ e.2, o.price = e.1

/-- A limit order of user `user` with the clock at 0. -/
def limitOrder (id user : Nat) (side : OrderSide) (quantity price : ℚ) : Order :=
  { Order.new id "BTCUSDT" side OrderType.LIMIT quantity price TimeInForce.GTC 0 with
    userId := user }

/-- A market order of user `user` with the clock at 0. -/
def marketOrder (id user : Nat) (side : OrderSide) (quantity : ℚ) : Order :=
  { Order.new id "BTCUSDT" side OrderType.MARKET quantity 0 TimeInForce.GTC 0 with
    userId := user }

/-- The book after `addOrder` of each order of the list in turn. -/
def bookOf (orders : List Order) : OrderBook :=
  orders.foldl OrderBook.addOrder (OrderBook.new "BTCUSDT")

/-- A clock that stands still at 0. -/
def still : Nat → Nat := fun _ => 0

/-- A book with one bid of 1.0 at 90 and one ask of 1.0 at 105. -/
def wideBook : OrderBook :=
  bookOf [limitOrder 1 1 OrderSide.BUY 1 90, limitOrder 2 2 OrderSide.SELL 1 105]

/-- A book with one bid of 1.0 at 100 and no ask. -/
def bidBook : OrderBook := bookOf [limitOrder 1 1 OrderSide.BUY 1 100]

/-- A book with one ask of 1.0 at 101 and no bid. -/
def askBook : OrderBook := bookOf [limitOrder 1 1 OrderSide.SELL 1 101]

/-- A book with bids of 1.0 at 100, 2.0 at 99 and 3.0 at 98, and asks of 1.0 at 101,
2.0 at 102 and 3.0 at 103. -/
def deepBook : OrderBook :=
  bookOf
    [limitOrder 1 1 OrderSide.BUY 1 100, limitOrder 2 1 OrderSide.BUY 2 99,
     limitOrder 3 1 OrderSide.BUY 3 98, limitOrder 4 2 OrderSide.SELL 1 101,
     limitOrder 5 2 OrderSide.SELL 2 102, limitOrder 6 2 OrderSide.SELL 3 103]

/-- The sum of the quantities of the trades. -/
def tradedQuantity (trades : List Trade) : ℚ := (trades.map (fun t => t.quantity)).sum

/-- The entry of `getDepth` for a level: its price and the sum of the unfilled
quantities of its orders. -/
def levelEntry (e : ℚ × List Order) : ℚ × ℚ :=
  (e.1, (e.2.map (fun o => o.quantity - o.filledQuantity)).sum)

/-- The local `tradeQuantity` of `matchOrders`. -/
def tradeQuantity (topBid topAsk : Order) : ℚ :=
  min (topBid.quantity - topBid.filledQuantity) (topAsk.quantity - topAsk.filledQuantity)

/-- An order after `filledQuantity += quantity`. -/
def filledBy (o : Order) (quantity : ℚ) : Order :=
  { o with filledQuantity := o.filledQuantity + quantity }

/-- No queue of the state is empty. -/
def MatchState.Queued (s : MatchState) : Prop :=
  (∀ e ∈ s.bids, e.2 ≠ []) ∧ (∀ e ∈ s.asks, e.2 ≠ [])

/-- The number of orders in the two maps of the state. -/
def MatchState.size (s : MatchState) : Nat :=
  (Ladder.orders s.bids).length + (Ladder.orders s.asks).length

/-- Two order values for the same order: they agree on the id, the user and the price. -/
def Order.Alike (a b : Order) : Prop :=
  a.id = b.id ∧ a.userId = b.userId ∧ a.price = b.price

/-- Every order of the ladder is one of `initial`, up to what was filled. -/
def Ladder.From (initial : List Order) (l : Ladder) : Prop :=
  ∀ x ∈ Ladder.orders l, ∃ x0 ∈ initial, x.Alike x0

/-- The trade is between the bid `x0` and the ask `y0`, whose price is not above the
price of the bid, and it is priced at the price of the ask. -/
def Trade.Between (t : Trade) (x0 y0 : Order) : Prop :=
  y0.price ≤ x0.price ∧ t.price = y0.price ∧
    t.buyOrderId = x0.id ∧ t.sellOrderId = y0.id ∧
    t.buyerId = x0.userId ∧ t.sellerId = y0.userId

end Service

/-! ## Vocabulary of the statements in `double` arithmetic -/

namespace Double

/-- The value `x` is a `double`: rounding leaves it as it is. -/
def IsDouble (x : ℚ) : Prop := binary64 x = x

/-- The unit in the last place of `x`: the distance between neighbouring `double`s of
the magnitude of `x`. -/
def ulp (x : ℚ) : ℚ := pow2 (binade x - 52)

/-- How far the order with quantity `q` and fill `f` is from complete: 0 when complete,
1 when at least half is filled, 2 otherwise. -/
def weightOf (q f : ℚ) : Nat :=
  if q ≤ f then 0 else if q / 2 ≤ f then 1 else 2

end Double

namespace HighSpeed

/-- Quantity and fill of the order are `double`s. -/
def Order.InDouble (o : Order) : Prop :=
  Double.IsDouble o.quantity ∧ Double.IsDouble o.filled_quantity

/-- How far the order is from complete: 0 when complete, 1 when at least half of it is
filled, 2 otherwise. -/
def Order.weight (o : Order) : Nat := Double.weightOf o.quantity o.filled_quantity

/-- Sum of the weights of a queue. -/
def queueWeight (q : List Order) : Nat := (q.map Order.weight).sum

/-- The quantity passed to the call is a `double`. -/
def Op.InDouble : Op → Prop
  | Op.submit _ _ _ q _ _ => Double.IsDouble q
  | Op.cancel _ _ => True

/-- Inner-loop invariant in `double` arithmetic: quantities and fills are `double`s, the
fill of the taker is not negative, and queued orders are open. -/
structure LevelState.Good (s : LevelState) : Prop where
  taker : s.incoming.InDouble
  nonneg : 0 ≤ s.incoming.filled_quantity
  resting : ∀ o ∈ s.level.orders, o.InDouble ∧ o.IsOpen

/-- Outer-loop invariant in `double` arithmetic. -/
structure MatchState.Good (s : MatchState) : Prop where
  taker : s.incoming.InDouble
  nonneg : 0 ≤ s.incoming.filled_quantity
  resting : ∀ o ∈ Ladder.orders s.levels, o.InDouble ∧ o.IsOpen

/-- Book invariant in `double` arithmetic: every resting order has `double`s for
quantity and fill and is open. -/
def OrderBook.Good (b : OrderBook) : Prop := ∀ o ∈ b.resting, o.InDouble ∧ o.IsOpen

/-- The taker still has something to fill: the loop condition on a `MatchState`. -/
def MatchState.Hungry (s : MatchState) : Prop :=
  s.incoming.filled_quantity < s.incoming.quantity

/-- Sum of the weights of the taker and of the queue of the level. -/
def LevelState.weight (s : LevelState) : Nat := s.incoming.weight + queueWeight s.level.orders

/-- Sum of the weights of the taker and of all the orders of the ladder. -/
def MatchState.weight (s : MatchState) : Nat :=
  s.incoming.weight + queueWeight (Ladder.orders s.levels)

end HighSpeed

namespace HighSpeed.Rounded

/-- The `match_quantity` of the loop body for taker `t` and head maker `r`: the smaller
of the two rounded remainders. -/
def matchQuantity (t r : Order) : ℚ :=
  min (Double.binary64 (t.quantity - t.filled_quantity))
      (Double.binary64 (r.quantity - r.filled_quantity))

/-- The taker after one execution of the loop body against the maker `r`. -/
def takerAfter (t r : Order) : Order :=
  { t with filled_quantity := Double.binary64 (t.filled_quantity + matchQuantity t r) }

/-- The fill of the maker `r` after one execution of the loop body. -/
def makerFill (t r : Order) : ℚ := Double.binary64 (r.filled_quantity + matchQuantity t r)

/-- The maker `r` after one execution of the loop body, with the status it is given. -/
def makerAfter (t r : Order) : Order :=
  { r with filled_quantity := makerFill t r,
           status := if makerFill t r ≥ r.quantity then Status.FILLED else Status.PARTIAL }

/-- The element appended to `matches` by one execution of the loop body. -/
def fillOf (price : ℚ) (t r : Order) : Match :=
  { maker := makerAfter t r, quantity := matchQuantity t r, price := price }

/-- The queue of the level after one execution of the loop body: a maker that is
complete has left it. -/
def queueAfter (t r : Order) (rest : List Order) : List Order :=
  if makerFill t r ≥ r.quantity then rest else makerAfter t r :: rest

/-- The matches `ms` are the fills that a taker of quantity `q`, filled `F` so far, makes
one after the other against the keyed queue `E`: each match is with the head of the
queue, for the smaller of the two rounded remainders, at the key of the head; the maker
leaves the queue when its rounded fill reaches its quantity and stays at the head
otherwise. -/
def Fills (q : ℚ) : ℚ → List (ℚ × Order) → List Match → Prop
  | _, _, [] => True
  | _, [], _ :: _ => False
  | F, (k, r) :: rest, m :: ms =>
    F < q ∧ m.price = k ∧
    m.quantity =
      min (Double.binary64 (q - F)) (Double.binary64 (r.quantity - r.filled_quantity)) ∧
    m.maker =
      { r with
          filled_quantity := Double.binary64 (r.filled_quantity + m.quantity),
          status :=
            if Double.binary64 (r.filled_quantity + m.quantity) ≥ r.quantity then Status.FILLED
            else Status.PARTIAL } ∧
    Fills q (Double.binary64 (F + m.quantity))
      (if Double.binary64 (r.filled_quantity + m.quantity) ≥ r.quantity then rest
       else (k, m.maker) :: rest) ms

end HighSpeed.Rounded

namespace HighSpeed.Rounded

/-- The keyed queue after one execution of the loop body at the level of key `k`. -/
def entriesAfter (k : ℚ) (t r : Order) (rest : List (ℚ × Order)) : List (ℚ × Order) :=
  if makerFill t r ≥ r.quantity then rest else (k, makerAfter t r) :: rest

/-- The outer-loop state in which `match_orders` starts for the taker `o`. -/
def startState (b : OrderBook) (o : Order) : MatchState :=
  match o.side with
  | Side.BUY =>
    { incoming := o, levels := b.asks, volume := b.total_ask_volume,
      last_traded_price := b.last_traded_price, matched := [] }
  | Side.SELL =>
    { incoming := o, levels := b.bids, volume := b.total_bid_volume,
      last_traded_price := b.last_traded_price, matched := [] }

/-- The comparison of the limit check of `match_orders` for a taker of the given side. -/
def worseFor (side : Side) : ℚ → ℚ → Bool :=
  match side with
  | Side.BUY => fun price limit => decide (price > limit)
  | Side.SELL => fun price limit => decide (price < limit)

/-- The result that `match_orders` builds from the outer-loop state at exit. -/
def resultOf (b : OrderBook) (side : Side) (s : MatchState) : MatchResult :=
  match side with
  | Side.BUY =>
    { book := { b with asks := s.levels, total_ask_volume := s.volume,
                       last_traded_price := s.last_traded_price },
      incoming := finalStatus s.incoming, matched := s.matched }
  | Side.SELL =>
    { book := { b with bids := s.levels, total_bid_volume := s.volume,
                       last_traded_price := s.last_traded_price },
      incoming := finalStatus s.incoming, matched := s.matched }

end HighSpeed.Rounded

namespace HighSpeed.Rounded

/-- Scenario: sells of 0.3 and of 1.0 rest at 100 in a fresh engine; then a market buy
of 0.9 is submitted. The quantities are the `double`s nearest to the decimals. -/
def roundingScenario : Option SubmitResult :=
  (MatchingEngine.run MatchingEngine.new
    [Op.submit 1 "BTCUSDT" 100 (Double.binary64 (3 / 10)) Side.SELL OrderType.LIMIT,
     Op.submit 2 "BTCUSDT" 100 1 Side.SELL OrderType.LIMIT]).bind
    (fun e => MatchingEngine.submit_order e 3 "BTCUSDT" 0 (Double.binary64 (9 / 10))
      Side.BUY OrderType.MARKET)

/-- Scenario: a sell of 1.7 rests at 100 in a fresh engine and a market buy takes 0.4 of
it; then a sell of 2.2 is added at 100. -/
def twoMakers : Option MatchingEngine :=
  MatchingEngine.run MatchingEngine.new
    [Op.submit 1 "BTCUSDT" 100 (Double.binary64 (17 / 10)) Side.SELL OrderType.LIMIT,
     Op.submit 2 "BTCUSDT" 0 (Double.binary64 (4 / 10)) Side.BUY OrderType.MARKET,
     Op.submit 3 "BTCUSDT" 100 (Double.binary64 (22 / 10)) Side.SELL OrderType.LIMIT]

/-- Scenario: sells of 2.0 and of 5.0 rest at 100 in a fresh engine; then a market buy
of 2.0 is submitted. -/
def aggregateScenario : Option MatchingEngine :=
  MatchingEngine.run MatchingEngine.new
    [Op.submit 1 "BTCUSDT" 100 2 Side.SELL OrderType.LIMIT,
     Op.submit 2 "BTCUSDT" 100 5 Side.SELL OrderType.LIMIT,
     Op.submit 3 "BTCUSDT" 0 2 Side.BUY OrderType.MARKET]

end HighSpeed.Rounded

namespace HighSpeed.Rounded

/-- The level `add_order` leaves after appending `o` to the queue of `lv`. -/
def pushOrder (lv : PriceLevel) (o : Order) : PriceLevel :=
  { lv with orders := lv.orders ++ [o],
            total_quantity := Double.binary64 (lv.total_quantity + o.quantity) }

/-- The level after an order of quantity `q` has been added to it and cancelled again:
the queue is as before, the aggregate is `(total_quantity + q) - q` as computed. -/
def roundTrip (q : ℚ) (lv : PriceLevel) : PriceLevel :=
  { lv with
      total_quantity := Double.binary64 (Double.binary64 (lv.total_quantity + q) - q) }

/-- The book after `add_order(o)` and `cancel_order(o.order_id)`: the book before, with
the aggregate of the level at the price of `o`, if the book had one on the side of `o`,
recomputed. -/
def afterRoundTrip (b : OrderBook) (o : Order) : OrderBook :=
  match o.side with
  | Side.BUY => { b with bids := Ladder.modify b.bids o.price (roundTrip o.quantity) }
  | Side.SELL => { b with asks := Ladder.modify b.asks o.price (roundTrip o.quantity) }

/-- Keys and queues of a ladder, aggregates left out. -/
def queues (l : Ladder) : List (ℚ × List Order) := l.map (fun e => (e.1, e.2.orders))

/-- Sample order: user 1 sells 0.1 at 100 under id 1. -/
def sellTenth : Order :=
  Order.new 1 1 "BTCUSDT" 100 (Double.binary64 (1 / 10)) Side.SELL OrderType.LIMIT

/-- Sample order: user 2 sells 0.2 at 100 under id 2. -/
def sellFifth : Order :=
  Order.new 2 2 "BTCUSDT" 100 (Double.binary64 (2 / 10)) Side.SELL OrderType.LIMIT

/-- Sample book: `sellTenth` alone, added to an empty book. -/
def bookTenth : OrderBook := OrderBook.add_order (OrderBook.new "BTCUSDT") sellTenth

end HighSpeed.Rounded

/-! ## Vocabulary of the statement about `check_stop_orders` -/

namespace Advanced

/-- The trigger condition of a stop order at the last price of its book: a buy whose
stop price the last price has reached from below, or a sell whose stop price it has
reached from above. -/
def StopReached (last_price : ℚ) (o : Order) : Prop :=
  (o.side = OrderSide.BUY ∧ last_price ≥ o.stop_price) ∨
  (o.side = OrderSide.SELL ∧ last_price ≤ o.stop_price)

/-- The order is one that `check_stop_orders` considers: a `PENDING` order of type
`STOP_LOSS`, `STOP_LIMIT` or `TRAILING_STOP`. -/
def Order.IsPendingStop (o : Order) : Prop :=
  (o.type = OrderType.STOP_LOSS ∨ o.type = OrderType.STOP_LIMIT ∨
    o.type = OrderType.TRAILING_STOP) ∧ o.status = OrderStatus.PENDING

/-- What the specification asks of `check_stop_orders` when it comes to the order stored
under `key`, `e` being the engine before and `e1` the engine after: orders stored under
other keys stay as they are; an order that is not a pending stop leaves the engine as it
is; a pending stop has a book, and it is triggered exactly when the last price of this
book has reached its stop price: then the order stored under the key is a `LIMIT` order
if it was a `STOP_LIMIT` and a `MARKET` order otherwise, with the same user and side,
else the engine is left as it is. -/
def StopVisit (e : MatchingEngine) (key : String) (e1 : MatchingEngine) : Prop :=
  (∀ k, k ≠ key → mapFind e1.orders k = mapFind e.orders k) ∧
  (mapFind e.orders key = none → e1 = e) ∧
  ∀ o, mapFind e.orders key = some o →
    (¬ o.IsPendingStop → e1 = e) ∧
    (o.IsPendingStop → ∃ book, mapFind e.order_books o.symbol = some book ∧
      (StopReached book.last_price o →
        ∃ o1, mapFind e1.orders key = some o1 ∧
          o1.type = (if o.type = OrderType.STOP_LIMIT then OrderType.LIMIT
            else OrderType.MARKET) ∧
          o1.user_id = o.user_id ∧ o1.side = o.side) ∧
      (¬ StopReached book.last_price o → e1 = e))

/-- The engine `e1` is what a pass over the keys `keys` makes of the engine `e` when
every key is visited once, in order, each visit working on what the visits before it
left and doing what `StopVisit` asks. -/
def StopPass : MatchingEngine → List String → MatchingEngine → Prop
  | e, [], e1 => e1 = e
  | e, key :: rest, e1 => ∃ e2, StopVisit e key e2 ∧ StopPass e2 rest e1

/-- Calls that fund `user1` and `user2`, let a sell limit and a buy limit of 1.0 at 100
trade at 100, and store the trailing buy of `user1` as `ORD3` with stop price 0. -/
def stopCalls : List Call :=
  [Call.balance "user1" "USDT" 100000,
   Call.balance "user2" "BTC" 10,
   Call.place (Order.new "" "user2" "BTCUSDT" OrderType.LIMIT OrderSide.SELL 1 100),
   Call.place (Order.new "" "user1" "BTCUSDT" OrderType.LIMIT OrderSide.BUY 1 100),
   Call.place trailBuy]

/-- The engine after `stopCalls`. -/
def stopEngine : MatchingEngine :=
  (MatchingEngine.new.calls stopCalls).getD MatchingEngine.new

end Advanced

/-! ## Vocabulary of the statement about the liquidation price in `double` arithmetic -/

namespace Futures.Rounded

/-- The values that `calculateLiquidationPrice` and then `calculateMarginRatio` at the
resulting price compute, one for each operation that rounds. -/
structure RatioTrace where
  maintenance : ℚ
  excess : ℚ
  distance : ℚ
  price : ℚ
  move : ℚ
  pnl : ℚ
  balance : ℚ
  ratio : ℚ
  deriving DecidableEq, Repr

/-- The trace of the two computations for a position whose stored unrealized P&L is 0:
`maintenance = marginUsed * maintenanceMarginRate`, `excess = walletBalance -
maintenance`, `distance = side * excess / size`, `price = entryPrice - distance`, then
`move = price - entryPrice`, `pnl = side * size * move`, `balance = walletBalance + pnl`
and `ratio = balance / marginUsed`, each rounded. -/
def ratioTrace (position : FuturesPosition) (maintenanceMarginRate walletBalance : ℚ) :
    RatioTrace :=
  let side : ℚ := if position.side = "LONG" then 1 else -1
  let maintenance := Double.binary64 (position.marginUsed * maintenanceMarginRate)
  let excess := Double.binary64 (walletBalance - maintenance)
  let distance := Double.binary64 (side * excess / position.size)
  let price := Double.binary64 (position.entryPrice - distance)
  let move := Double.binary64 (price - position.entryPrice)
  let pnl := Double.binary64 (side * position.size * move)
  let balance := Double.binary64 (walletBalance + pnl)
  { maintenance := maintenance, excess := excess, distance := distance, price := price,
    move := move, pnl := pnl, balance := balance,
    ratio := Double.binary64 (balance / position.marginUsed) }

/-- The sum of the magnitudes that the rounding errors of the trace are relative to,
each weighted by what it contributes to `ratio * marginUsed`. -/
def RatioTrace.magnitude (t : RatioTrace) (position : FuturesPosition) : ℚ :=
  |t.maintenance| + |t.excess| +
    position.size * (|t.distance| + |t.price| + |t.move|) + |t.pnl| + |t.balance| +
    |t.ratio| * position.marginUsed

/-- A short position of user 1 in `BTCUSDT_PERP`: size 0.3, entry 2000, margin used 60,
stored unrealized P&L 0. -/
def shortPosition : FuturesPosition :=
  { userId := 1, symbol := "BTCUSDT_PERP", side := "SHORT", size := Double.binary64 (3 / 10),
    entryPrice := 2000, markPrice := 2000, liquidationPrice := 0, unrealizedPnl := 0,
    realizedPnl := 0, marginUsed := 60, maintenanceMargin := 0, leverage := 10,
    marginType := "ISOLATED", createdAt := 0, updatedAt := 0 }

/-- The maintenance margin rate 0.005 of `initializeContracts` as a `double`. -/
def rateOfContracts : ℚ := Double.binary64 (5 / 1000)

/-- The contract `BTCUSDT_PERP` at the mark price `mark` with the maintenance margin
rate 0.005 as a `double`. -/
def perpContractAt (mark : ℚ) : FuturesContract :=
  { perpContract mark with maintenanceMarginRate := rateOfContracts }

end Futures.Rounded

/-! ## High-speed engine: the matching loops -/

namespace HighSpeed

theorem levelStep_orders (price : ℚ) (s : LevelState) (r : Order) (rest : List Order) :
    (levelStep price s r rest).level.orders = rest ∨
    (∃ m, (levelStep price s r rest).level.orders = m :: rest ∧
      (s.incoming.filled_quantity < s.incoming.quantity →
        ¬ (levelStep price s r rest).incoming.filled_quantity <
            (levelStep price s r rest).incoming.quantity)) := by
  unfold levelStep
  by_cases h : r.filled_quantity + min (s.incoming.quantity - s.incoming.filled_quantity)
      (r.quantity - r.filled_quantity) ≥ r.quantity
  · left; simp [h]
  · right
    simp only [h, if_false]
    refine ⟨_, rfl, ?_⟩
    intro _
    have hlt := not_le.mp h
    rcases min_choice (s.incoming.quantity - s.incoming.filled_quantity)
        (r.quantity - r.filled_quantity) with h1 | h1
    · simp only [h1]; linarith
    · rw [h1] at hlt; linarith

/-- The inner loop finishes within one unit of fuel per queued order plus one. -/
theorem matchLevel_terminates (price : ℚ) :
    ∀ (fuel : Nat) (s : LevelState),
      (s.level.orders.length + 1 ≤ fuel ∨
        (¬ s.incoming.filled_quantity < s.incoming.quantity ∧ 1 ≤ fuel)) →
      ∃ t, matchLevel price fuel s = some t := by
  intro fuel
  induction fuel with
  | zero => intro s h; rcases h with h | h <;> omega
  | succ n ih =>
    intro s h
    unfold matchLevel
    cases hq : s.level.orders with
    | nil => exact ⟨s, rfl⟩
    | cons r rest =>
      by_cases hc : s.incoming.filled_quantity < s.incoming.quantity
      · simp only [hc, if_true]
        have hlen : rest.length + 1 ≤ n := by
          rcases h with h | h
          · rw [hq] at h; simpa using h
          · exact absurd hc h.1
        apply ih
        rcases levelStep_orders price s r rest with h1 | ⟨m, h1, h2⟩
        · left; rw [h1]; exact hlen
        · right; exact ⟨h2 hc, by omega⟩
      · simp only [hc, if_false]; exact ⟨s, rfl⟩

/-- Invariant rule for the inner loop: a property kept by every execution of the loop
body holds when the loop exits, and the loop condition is then false. -/
theorem matchLevel_rule (price : ℚ) (I : LevelState → Prop)
    (hstep : ∀ s r rest, s.level.orders = r :: rest →
      s.incoming.filled_quantity < s.incoming.quantity → I s → I (levelStep price s r rest)) :
    ∀ (fuel : Nat) (s t : LevelState), matchLevel price fuel s = some t → I s →
      I t ∧ (t.level.orders = [] ∨ ¬ t.incoming.filled_quantity < t.incoming.quantity) := by
  intro fuel
  induction fuel with
  | zero => intro s t h; simp [matchLevel] at h
  | succ n ih =>
    intro s t h hI
    unfold matchLevel at h
    cases hq : s.level.orders with
    | nil =>
      rw [hq] at h
      simp only [Option.some.injEq] at h
      subst h
      exact ⟨hI, Or.inl hq⟩
    | cons r rest =>
      rw [hq] at h
      by_cases hc : s.incoming.filled_quantity < s.incoming.quantity
      · simp only [hc, if_true] at h
        exact ih _ t h (hstep s r rest hq hc hI)
      · simp only [hc, if_false, Option.some.injEq] at h
        subst h
        exact ⟨hI, Or.inr hc⟩

theorem leaveLevel_levels (t : LevelState) (price : ℚ) (rest : Ladder) :
    (t.level.orders = [] ∧ (leaveLevel t price rest).levels = rest) ∨
    (t.level.orders ≠ [] ∧ (leaveLevel t price rest).levels = (price, t.level) :: rest) := by
  unfold leaveLevel
  cases h : t.level.orders with
  | nil => left; simp
  | cons a l => right; simp

/-- The outer loop finishes within one unit of fuel per level plus one. -/
theorem matchLadder_terminates (worse : ℚ → ℚ → Bool) :
    ∀ (fuel : Nat) (s : MatchState),
      (s.levels.length + 1 ≤ fuel ∨
        (¬ s.incoming.filled_quantity < s.incoming.quantity ∧ 1 ≤ fuel)) →
      ∃ r, matchLadder worse fuel s = some r := by
  intro fuel
  induction fuel with
  | zero => intro s h; rcases h with h | h <;> omega
  | succ n ih =>
    intro s h
    unfold matchLadder
    cases hq : s.levels with
    | nil => exact ⟨s, rfl⟩
    | cons e rest =>
      obtain ⟨price, level⟩ := e
      by_cases hc : s.incoming.filled_quantity < s.incoming.quantity
      · simp only [hc, if_true]
        by_cases hb : s.incoming.type = OrderType.LIMIT ∧ worse price s.incoming.price = true
        · simp only [hb, and_self, if_true]; exact ⟨s, rfl⟩
        · simp only [hb, if_false]
          obtain ⟨t, ht⟩ := matchLevel_terminates price (level.orders.length + 1)
            (enterLevel s level) (Or.inl (by simp [enterLevel]))
          rw [ht]
          have hexit := (matchLevel_rule price (fun _ => True) (fun _ _ _ _ _ _ => trivial)
            _ _ t ht trivial).2
          have hlen : rest.length + 1 ≤ n := by
            rcases h with h | h
            · rw [hq] at h; simpa using h
            · exact absurd hc h.1
          apply ih
          rcases leaveLevel_levels t price rest with ⟨h1, h2⟩ | ⟨h1, h2⟩
          · left; rw [h2]; exact hlen
          · right
            rcases hexit with h3 | h3
            · exact absurd h3 h1
            · exact ⟨h3, by omega⟩
      · simp only [hc, if_false]; exact ⟨s, rfl⟩

/-- Invariant rule for the outer loop: a property kept by every pass over the head level
holds at exit; at exit the ladder is empty, or the taker is complete, or the taker is a
`LIMIT` order and the head level is worse than its limit. -/
theorem matchLadder_rule (worse : ℚ → ℚ → Bool) (I : MatchState → Prop)
    (hstep : ∀ s price level rest t, s.levels = (price, level) :: rest →
      s.incoming.filled_quantity < s.incoming.quantity →
      ¬ (s.incoming.type = OrderType.LIMIT ∧ worse price s.incoming.price = true) →
      matchLevel price (level.orders.length + 1) (enterLevel s level) = some t →
      I s → I (leaveLevel t price rest)) :
    ∀ (fuel : Nat) (s r : MatchState), matchLadder worse fuel s = some r → I s →
      I r ∧ (r.levels = [] ∨ ¬ r.incoming.filled_quantity < r.incoming.quantity ∨
        (r.incoming.type = OrderType.LIMIT ∧
          ∃ price level rest, r.levels = (price, level) :: rest ∧
            worse price r.incoming.price = true)) := by
  intro fuel
  induction fuel with
  | zero => intro s r h; simp [matchLadder] at h
  | succ n ih =>
    intro s r h hI
    unfold matchLadder at h
    cases hq : s.levels with
    | nil =>
      rw [hq] at h
      simp only [Option.some.injEq] at h
      subst h
      exact ⟨hI, Or.inl hq⟩
    | cons e rest =>
      obtain ⟨price, level⟩ := e
      rw [hq] at h
      by_cases hc : s.incoming.filled_quantity < s.incoming.quantity
      · simp only [hc, if_true] at h
        by_cases hb : s.incoming.type = OrderType.LIMIT ∧ worse price s.incoming.price = true
        · simp only [hb, and_self, if_true, Option.some.injEq] at h
          subst h
          exact ⟨hI, Or.inr (Or.inr ⟨hb.1, price, level, rest, hq, hb.2⟩)⟩
        · simp only [hb, if_false] at h
          cases ht : matchLevel price (level.orders.length + 1) (enterLevel s level) with
          | none => rw [ht] at h; simp at h
          | some t =>
            rw [ht] at h
            exact ih _ r h (hstep s price level rest t hq hc hb ht hI)
      · simp only [hc, if_false, Option.some.injEq] at h
        subst h
        exact ⟨hI, Or.inr (Or.inl hc)⟩

/-- The method `match_orders` always returns. -/
theorem match_orders_returns (b : OrderBook) (o : Order) : ∃ r, b.match_orders o = some r := by
  unfold OrderBook.match_orders
  cases o.side with
  | BUY =>
    obtain ⟨s, hs⟩ := matchLadder_terminates (fun price limit => decide (price > limit))
      (b.asks.length + 1)
      { incoming := o, levels := b.asks, volume := b.total_ask_volume,
        last_traded_price := b.last_traded_price, matched := [] } (Or.inl (le_refl _))
    simp only [hs]
    exact ⟨_, rfl⟩
  | SELL =>
    obtain ⟨s, hs⟩ := matchLadder_terminates (fun price limit => decide (price < limit))
      (b.bids.length + 1)
      { incoming := o, levels := b.bids, volume := b.total_bid_volume,
        last_traded_price := b.last_traded_price, matched := [] } (Or.inl (le_refl _))
    simp only [hs]
    exact ⟨_, rfl⟩

end HighSpeed

/-! ## High-speed engine: ladders under `add_order` -/

namespace HighSpeed

theorem bidBefore_iff (a b : ℚ) : bidBefore a b = true ↔ a > b := by simp [bidBefore]

theorem askBefore_iff (a b : ℚ) : askBefore a b = true ↔ a < b := by simp [askBefore]

theorem Ladder.modify_keys (l : Ladder) (p : ℚ) (f : PriceLevel → PriceLevel) :
    (Ladder.modify l p f).keys = l.keys := by
  induction l with
  | nil => rfl
  | cons e rest ih =>
    obtain ⟨k, lv⟩ := e
    unfold Ladder.modify
    by_cases h : k = p
    · simp [h, Ladder.keys]
    · simp only [h, if_false]
      simp only [Ladder.keys, List.map_cons] at ih ⊢
      rw [ih]

theorem Ladder.modify_mem (l : Ladder) (p : ℚ) (f : PriceLevel → PriceLevel)
    (e : ℚ × PriceLevel) (he : e ∈ Ladder.modify l p f) :
    e ∈ l ∨ ∃ lv, (p, lv) ∈ l ∧ e = (p, f lv) := by
  induction l with
  | nil => simp [Ladder.modify] at he
  | cons x rest ih =>
    obtain ⟨k, lv⟩ := x
    unfold Ladder.modify at he
    by_cases h : k = p
    · simp only [h, if_true, List.mem_cons] at he
      rcases he with he | he
      · right; exact ⟨lv, by simp [h], he⟩
      · left; exact List.mem_cons_of_mem _ he
    · simp only [h, if_false, List.mem_cons] at he
      rcases he with he | he
      · left; rw [he]; exact List.mem_cons_self _ _
      · rcases ih he with h1 | ⟨lv1, h1, h2⟩
        · left; exact List.mem_cons_of_mem _ h1
        · right; exact ⟨lv1, List.mem_cons_of_mem _ h1, h2⟩

theorem Ladder.emplace_mem (before : ℚ → ℚ → Bool) (l : Ladder) (p : ℚ) (lv : PriceLevel)
    (e : ℚ × PriceLevel) (he : e ∈ Ladder.emplace before l p lv) : e ∈ l ∨ e = (p, lv) := by
  induction l with
  | nil => simp [Ladder.emplace] at he; exact Or.inr he
  | cons x rest ih =>
    obtain ⟨k, l0⟩ := x
    unfold Ladder.emplace at he
    cases h1 : before p k with
    | true =>
      simp only [h1, if_true, List.mem_cons] at he
      rcases he with he | he | he
      · exact Or.inr he
      · left; exact List.mem_cons.mpr (Or.inl he)
      · left; exact List.mem_cons_of_mem _ he
    | false =>
      simp only [h1, Bool.false_eq_true, if_false] at he
      cases h2 : before k p with
      | true =>
        simp only [h2, if_true, List.mem_cons] at he
        rcases he with he | he
        · left; exact List.mem_cons.mpr (Or.inl he)
        · rcases ih he with h3 | h3
          · left; exact List.mem_cons_of_mem _ h3
          · exact Or.inr h3
      | false =>
        simp only [h2, Bool.false_eq_true, if_false] at he
        exact Or.inl he

theorem Ladder.emplace_sorted (before : ℚ → ℚ → Bool) (R : ℚ → ℚ → Prop)
    (hR : StrictCmp before R) (l : Ladder) (p : ℚ) (lv : PriceLevel)
    (hs : l.keys.Pairwise R) : (Ladder.emplace before l p lv).keys.Pairwise R := by
  induction l with
  | nil => simp [Ladder.emplace, Ladder.keys]
  | cons x rest ih =>
    obtain ⟨k, l0⟩ := x
    simp only [Ladder.keys, List.map_cons, List.pairwise_cons] at hs
    unfold Ladder.emplace
    cases h1 : before p k with
    | true =>
      simp only [if_true, Ladder.keys, List.map_cons, List.pairwise_cons, List.mem_cons]
      refine ⟨?_, hs.1, hs.2⟩
      intro y hy
      rcases hy with hy | hy
      · rw [hy]; exact (hR.iff p k).mp h1
      · exact hR.trans _ _ _ ((hR.iff p k).mp h1) (hs.1 y hy)
    | false =>
      simp only [Bool.false_eq_true, if_false]
      cases h2 : before k p with
      | true =>
        simp only [if_true, Ladder.keys, List.map_cons, List.pairwise_cons]
        refine ⟨?_, ih hs.2⟩
        intro y hy
        obtain ⟨e, he, rfl⟩ := List.mem_map.mp hy
        rcases Ladder.emplace_mem before rest p lv e he with h3 | h3
        · exact hs.1 _ (List.mem_map.mpr ⟨e, h3, rfl⟩)
        · rw [h3]; exact (hR.iff k p).mp h2
      | false =>
        simp only [Bool.false_eq_true, if_false, Ladder.keys, List.map_cons,
          List.pairwise_cons]
        exact hs

theorem Ladder.add_order_sorted (before : ℚ → ℚ → Bool) (R : ℚ → ℚ → Prop)
    (hR : StrictCmp before R) (l : Ladder) (o : Order) (hs : l.keys.Pairwise R) :
    (Ladder.add_order before l o).keys.Pairwise R := by
  unfold Ladder.add_order
  simp only [Ladder.modify_keys]
  split
  · exact Ladder.emplace_sorted before R hR l _ _ hs
  · exact hs

theorem Ladder.add_order_keys (before : ℚ → ℚ → Bool) (l : Ladder) (o : Order) (k : ℚ)
    (hk : k ∈ (Ladder.add_order before l o).keys) : k ∈ l.keys ∨ k = o.price := by
  unfold Ladder.add_order at hk
  simp only [Ladder.modify_keys] at hk
  split at hk
  · obtain ⟨e, he, rfl⟩ := List.mem_map.mp hk
    rcases Ladder.emplace_mem before l _ _ e he with h | h
    · exact Or.inl (List.mem_map.mpr ⟨e, h, rfl⟩)
    · right; rw [h]
  · exact Or.inl hk

theorem Ladder.find_none_of_keys (l : Ladder) (p : ℚ) (h : p ∉ l.keys) :
    Ladder.find l p = none := by
  induction l with
  | nil => rfl
  | cons x rest ih =>
    obtain ⟨k, l0⟩ := x
    simp only [Ladder.keys, List.map_cons, List.mem_cons, not_or] at h
    unfold Ladder.find
    have hk : ¬ k = p := fun hkp => h.1 hkp.symm
    simp only [hk, if_false]
    exact ih h.2

theorem Ladder.add_order_nil (before : ℚ → ℚ → Bool) (o : Order) :
    Ladder.add_order before [] o = [(o.price, pushOrder (PriceLevel.new o.price) o)] := by
  simp [Ladder.add_order, Ladder.find, Ladder.emplace, Ladder.modify, pushOrder]

/-- On a sorted ladder `add_order` is a single scan: append at the level of the order
price, or insert a fresh level in front of the first level that comes after it. -/
theorem Ladder.add_order_cons (before : ℚ → ℚ → Bool) (R : ℚ → ℚ → Prop)
    (hR : StrictCmp before R) (k : ℚ) (lv : PriceLevel) (rest : Ladder) (o : Order)
    (hs : (Ladder.keys ((k, lv) :: rest)).Pairwise R) :
    Ladder.add_order before ((k, lv) :: rest) o =
      if k = o.price then (k, pushOrder lv o) :: rest
      else if before o.price k = true then
        (o.price, pushOrder (PriceLevel.new o.price) o) :: (k, lv) :: rest
      else (k, lv) :: Ladder.add_order before rest o := by
  simp only [Ladder.keys, List.map_cons, List.pairwise_cons] at hs
  by_cases hk : k = o.price
  · simp [Ladder.add_order, Ladder.find, Ladder.modify, hk, pushOrder]
  · simp only [hk, if_false]
    cases h1 : before o.price k with
    | true =>
      have hR1 : R o.price k := (hR.iff _ _).mp h1
      have hnone : Ladder.find rest o.price = none := by
        apply Ladder.find_none_of_keys
        intro hmem
        exact hR.irrefl _ (hR.trans _ _ _ hR1 (hs.1 _ hmem))
      simp [Ladder.add_order, Ladder.find, Ladder.emplace, Ladder.modify, hk, h1, hnone,
        pushOrder]
    | false =>
      have h2 : before k o.price = true := by
        rcases hR.tri k o.price hk with h | h
        · exact (hR.iff _ _).mpr h
        · have := (hR.iff _ _).mpr h
          rw [h1] at this
          exact absurd this (by simp)
      cases hf : Ladder.find rest o.price with
      | none =>
        simp [Ladder.add_order, Ladder.find, Ladder.emplace, Ladder.modify, hk, h1, h2, hf]
      | some x =>
        simp [Ladder.add_order, Ladder.find, Ladder.modify, hk, hf]

/-- Entries of a sorted ladder after `add_order`: an old entry, an old entry at the order
price with the order appended, or the fresh level holding only the order. -/
theorem Ladder.add_order_mem (before : ℚ → ℚ → Bool) (R : ℚ → ℚ → Prop)
    (hR : StrictCmp before R) (l : Ladder) (o : Order) (hs : l.keys.Pairwise R)
    (e : ℚ × PriceLevel) (he : e ∈ Ladder.add_order before l o) :
    e ∈ l ∨ (∃ lv, (o.price, lv) ∈ l ∧ e = (o.price, pushOrder lv o)) ∨
      e = (o.price, pushOrder (PriceLevel.new o.price) o) := by
  induction l with
  | nil =>
    rw [Ladder.add_order_nil] at he
    exact Or.inr (Or.inr (List.mem_singleton.mp he))
  | cons x rest ih =>
    obtain ⟨k, lv⟩ := x
    rw [Ladder.add_order_cons before R hR k lv rest o hs] at he
    simp only [Ladder.keys, List.map_cons, List.pairwise_cons] at hs
    by_cases hk : k = o.price
    · simp only [hk, if_true, List.mem_cons] at he
      rcases he with he | he
      · exact Or.inr (Or.inl ⟨lv, by simp [hk], he⟩)
      · exact Or.inl (List.mem_cons_of_mem _ he)
    · simp only [hk, if_false] at he
      cases h1 : before o.price k with
      | true =>
        simp only [h1, if_true, List.mem_cons] at he
        rcases he with he | he | he
        · exact Or.inr (Or.inr he)
        · exact Or.inl (List.mem_cons.mpr (Or.inl he))
        · exact Or.inl (List.mem_cons_of_mem _ he)
      | false =>
        simp only [h1, Bool.false_eq_true, if_false, List.mem_cons] at he
        rcases he with he | he
        · exact Or.inl (List.mem_cons.mpr (Or.inl he))
        · rcases ih hs.2 he with h | ⟨l1, h, h2⟩ | h
          · exact Or.inl (List.mem_cons_of_mem _ h)
          · exact Or.inr (Or.inl ⟨l1, List.mem_cons_of_mem _ h, h2⟩)
          · exact Or.inr (Or.inr h)

theorem bid_cmp : StrictCmp bidBefore (fun x y => x > y) where
  iff := bidBefore_iff
  trans := fun _ _ _ h1 h2 => lt_trans h2 h1
  irrefl := fun a => lt_irrefl a
  tri := fun _ _ h => (lt_or_gt_of_ne h).symm

theorem ask_cmp : StrictCmp askBefore (fun x y => x < y) where
  iff := askBefore_iff
  trans := fun _ _ _ h1 h2 => lt_trans h1 h2
  irrefl := fun a => lt_irrefl a
  tri := fun _ _ h => lt_or_gt_of_ne h

end HighSpeed

/-! ## High-speed engine: ladders under `cancel_order` -/

namespace HighSpeed

theorem find_eraseP_split (p : Order → Bool) :
    ∀ (l : List Order) (o : Order), l.find? p = some o →
      ∃ q1 q2, l = q1 ++ o :: q2 ∧ p o = true ∧ (∀ x ∈ q1, p x = false) ∧
        l.eraseP p = q1 ++ q2 := by
  intro l
  induction l with
  | nil => intro o h; simp at h
  | cons a rest ih =>
    intro o h
    cases hpa : p a with
    | true =>
      simp only [List.find?_cons, hpa, Option.some.injEq] at h
      subst h
      exact ⟨[], rest, rfl, hpa, by simp, by simp [List.eraseP_cons, hpa]⟩
    | false =>
      simp only [List.find?_cons, hpa] at h
      obtain ⟨q1, q2, h1, h2, h3, h4⟩ := ih o h
      refine ⟨a :: q1, q2, by rw [h1]; rfl, h2, ?_, ?_⟩
      · intro x hx
        rcases List.mem_cons.mp hx with hx | hx
        · rw [hx]; exact hpa
        · exact h3 x hx
      · simp [List.eraseP_cons, hpa, h4]

theorem find_none_all (p : Order → Bool) (l : List Order) (h : l.find? p = none) :
    ∀ x ∈ l, p x = false := by
  intro x hx
  have := List.find?_eq_none.mp h x hx
  simpa using this

/-- A successful `Ladder.cancel` unlinks exactly the first order carrying the id. -/
theorem Ladder.cancel_some (id : Nat) :
    ∀ (l l1 : Ladder) (o : Order), Ladder.cancel id l = some (l1, o) →
      Ladder.Unlinked id o l l1 := by
  intro l
  induction l with
  | nil => intro l1 o h; simp [Ladder.cancel] at h
  | cons e rest ih =>
    intro l1 o h
    obtain ⟨k, level⟩ := e
    unfold Ladder.cancel at h
    cases hf : level.orders.find? (fun x => decide (x.order_id = id)) with
    | some o1 =>
      simp only [hf, Option.some.injEq, Prod.mk.injEq] at h
      obtain ⟨h1, h2⟩ := h
      subst h2
      obtain ⟨q1, q2, hq, hp, hq1, her⟩ := find_eraseP_split _ _ _ hf
      refine ⟨[], k, level, rest, q1, q2, rfl, hq, by simpa using hp, ?_, by simp, ?_⟩
      · intro x hx; simpa using hq1 x hx
      · rw [← h1, her]
        by_cases hempty : q1 ++ q2 = []
        · simp [hempty]
        · have : (q1 ++ q2).isEmpty = false := by
            cases hh : q1 ++ q2 with
            | nil => exact absurd hh hempty
            | cons a b => rfl
          simp [hempty, this]
    | none =>
      simp only [hf] at h
      cases hc : Ladder.cancel id rest with
      | none => simp [hc] at h
      | some r =>
        obtain ⟨rest1, o2⟩ := r
        simp only [hc, Option.some.injEq, Prod.mk.injEq] at h
        obtain ⟨h1, h2⟩ := h
        subst h2
        obtain ⟨pre, k1, lv1, post, q1, q2, e1, e2, e3, e4, e5, e6⟩ := ih rest1 o2 hc
        refine ⟨(k, level) :: pre, k1, lv1, post, q1, q2, by rw [e1]; rfl, e2, e3, e4, ?_, ?_⟩
        · intro e he x hx
          rcases List.mem_cons.mp he with he | he
          · rw [he] at hx
            simpa using find_none_all _ _ hf x hx
          · exact e5 e he x hx
        · rw [← h1, e6]; simp

/-- A `Ladder.cancel` fails exactly when no resting order carries the id. -/
theorem Ladder.cancel_none (id : Nat) (l : Ladder) :
    Ladder.cancel id l = none ↔ ∀ o ∈ l.orders, o.order_id ≠ id := by
  induction l with
  | nil => simp [Ladder.cancel, Ladder.orders]
  | cons e rest ih =>
    obtain ⟨k, level⟩ := e
    unfold Ladder.cancel
    cases hf : level.orders.find? (fun x => decide (x.order_id = id)) with
    | some o1 =>
      have hmem := List.mem_of_find?_eq_some hf
      have hp := List.find?_some hf
      refine ⟨fun h => by simp at h, fun hcontra => ?_⟩
      exfalso
      refine hcontra o1 ?_ (by simpa using hp)
      simp only [Ladder.orders, List.map_cons, List.flatten_cons, List.mem_append]
      exact Or.inl hmem
    | none =>
      have hall := find_none_all _ _ hf
      simp only [Ladder.orders, List.map_cons, List.flatten_cons, List.mem_append] at ih ⊢
      cases hc : Ladder.cancel id rest with
      | none =>
        refine ⟨fun _ => ?_, fun _ => rfl⟩
        intro o ho
        rcases ho with ho | ho
        · simpa using hall o ho
        · exact (ih.mp hc) o ho
      | some r =>
        refine ⟨fun h => by simp at h, fun hcontra => ?_⟩
        exfalso
        have : Ladder.cancel id rest = none := ih.mpr (fun o ho => hcontra o (Or.inr ho))
        rw [hc] at this
        exact absurd this (by simp)

theorem Ladder.Unlinked.keys_sublist {id : Nat} {o : Order} {l l1 : Ladder}
    (h : Ladder.Unlinked id o l l1) : l1.keys.Sublist l.keys := by
  obtain ⟨pre, k, level, post, q1, q2, e1, _, _, _, _, e6⟩ := h
  subst e1 e6
  simp only [Ladder.keys, List.map_append, List.map_cons, List.append_assoc]
  apply List.Sublist.append (List.Sublist.refl _)
  by_cases hempty : q1 ++ q2 = []
  · simp only [hempty, if_true, List.map_nil, List.nil_append]
    exact List.Sublist.cons _ (List.Sublist.refl _)
  · simp only [hempty, if_false, List.map_cons, List.map_nil, List.singleton_append]
    exact List.Sublist.refl _

theorem queueQuantity_append (a b : List Order) :
    queueQuantity (a ++ b) = queueQuantity a + queueQuantity b := by
  simp [queueQuantity]

theorem queueQuantity_cons (o : Order) (b : List Order) :
    queueQuantity (o :: b) = o.quantity + queueQuantity b := by
  simp [queueQuantity]

theorem Ladder.Unlinked.levelOK {id : Nat} {o : Order} {l l1 : Ladder}
    (h : Ladder.Unlinked id o l l1) (hl : ∀ e ∈ l, LevelOK e) : ∀ e ∈ l1, LevelOK e := by
  obtain ⟨pre, k, level, post, q1, q2, e1, e2, _, _, _, e6⟩ := h
  subst e1 e6
  intro e he
  simp only [List.mem_append] at he
  rcases he with (he | he) | he
  · exact hl e (by simp [he])
  · by_cases hempty : q1 ++ q2 = []
    · simp [hempty] at he
    · simp only [hempty, if_false, List.mem_singleton] at he
      have hold := hl (k, level) (by simp)
      subst he
      refine ⟨hempty, ?_⟩
      intro x hx
      apply hold.isOpen x
      rw [e2]
      simp only [List.mem_append, List.mem_cons] at hx ⊢
      tauto
  · exact hl e (by simp [he])

end HighSpeed

/-! ## High-speed engine: invariants of the matching loops -/

namespace HighSpeed

theorem readAfterErase_maker (r : Order) (f : ℚ) (st : Status) (rest : List Order) :
    readAfterErase { r with filled_quantity := f, status := st } rest =
      readAfterErase r rest := by
  cases rest <;> rfl

/-- The two outcomes of the loop body: the maker is completed and leaves the queue, or
it stays at the head partially filled. -/
theorem levelStep_cases (price : ℚ) (s : LevelState) (r : Order) (rest : List Order) :
    (r.filled_quantity + matchQuantity s.incoming r ≥ r.quantity ∧
      levelStep price s r rest =
        { incoming := { s.incoming with
            filled_quantity := s.incoming.filled_quantity + matchQuantity s.incoming r },
          level := { s.level with orders := rest,
                                  total_quantity :=
                                    s.level.total_quantity - readAfterErase r rest },
          volume := u64sub s.volume (toU64 (readAfterErase r rest * 100000000)),
          last_traded_price := price,
          matched := s.matched ++
            [{ maker := { r with
                 filled_quantity := r.filled_quantity + matchQuantity s.incoming r,
                 status := Status.FILLED },
               quantity := matchQuantity s.incoming r, price := price }] }) ∨
    (r.filled_quantity + matchQuantity s.incoming r < r.quantity ∧
      levelStep price s r rest =
        { incoming := { s.incoming with
            filled_quantity := s.incoming.filled_quantity + matchQuantity s.incoming r },
          level := { s.level with orders :=
            { r with filled_quantity := r.filled_quantity + matchQuantity s.incoming r,
                     status := Status.PARTIAL } :: rest },
          volume := s.volume,
          last_traded_price := price,
          matched := s.matched ++
            [{ maker := { r with
                 filled_quantity := r.filled_quantity + matchQuantity s.incoming r,
                 status := Status.PARTIAL },
               quantity := matchQuantity s.incoming r, price := price }] }) := by
  unfold levelStep matchQuantity
  by_cases h : r.filled_quantity + min (s.incoming.quantity - s.incoming.filled_quantity)
      (r.quantity - r.filled_quantity) ≥ r.quantity
  · left; exact ⟨h, by simp [h, readAfterErase_maker]⟩
  · right; exact ⟨not_le.mp h, by simp [h]⟩

theorem matchQuantity_le_taker (t r : Order) :
    matchQuantity t r ≤ t.quantity - t.filled_quantity := min_le_left _ _

theorem matchQuantity_le_maker (t r : Order) :
    matchQuantity t r ≤ r.quantity - r.filled_quantity := min_le_right _ _

theorem matchQuantity_pos (t r : Order) (ht : t.filled_quantity < t.quantity)
    (hr : r.filled_quantity < r.quantity) : 0 < matchQuantity t r := by
  unfold matchQuantity
  exact lt_min (by linarith) (by linarith)

theorem levelStep_ok (price : ℚ) (s : LevelState) (r : Order) (rest : List Order)
    (hq : s.level.orders = r :: rest)
    (hc : s.incoming.filled_quantity < s.incoming.quantity) (hs : s.OK) :
    (levelStep price s r rest).OK := by
  have hr : r.IsOpen := hs.isOpen r (by rw [hq]; exact List.mem_cons_self _ _)
  have hpos := matchQuantity_pos s.incoming r hc hr.2
  have hrest : ∀ o ∈ rest, o.IsOpen := fun o ho =>
    hs.isOpen o (by rw [hq]; exact List.mem_cons_of_mem _ ho)
  have hnn := hs.filled_nonneg
  rcases levelStep_cases price s r rest with ⟨_, h2⟩ | ⟨h1, h2⟩
  · rw [h2]
    refine ⟨hrest, ?_⟩
    simp only; linarith
  · rw [h2]
    refine ⟨?_, ?_⟩
    · intro o ho
      simp only [List.mem_cons] at ho
      rcases ho with ho | ho
      · subst ho
        exact ⟨by simp only; linarith [hr.1], h1⟩
      · exact hrest o ho
    · simp only; linarith

theorem matchLevel_ok (price : ℚ) (fuel : Nat) (s t : LevelState)
    (h : matchLevel price fuel s = some t) (hs : s.OK) : t.OK :=
  (matchLevel_rule price (fun x => x.OK)
    (fun x r rest hq hc hx => levelStep_ok price x r rest hq hc hx) fuel s t h hs).1

theorem matchLadder_ok (worse : ℚ → ℚ → Bool) (fuel : Nat) (s r : MatchState)
    (h : matchLadder worse fuel s = some r) (hs : s.OK) : r.OK := by
  refine (matchLadder_rule worse (fun x => x.OK) ?_ fuel s r h hs).1
  intro x price level rest t hq _ _ ht hx
  have hlv : LevelOK (price, level) := hx.levels _ (by rw [hq]; exact List.mem_cons_self _ _)
  have hin : (enterLevel x level).OK := ⟨hlv.isOpen, hx.filled_nonneg⟩
  have ht1 := matchLevel_ok price _ _ t ht hin
  refine ⟨?_, ht1.filled_nonneg⟩
  intro e he
  rcases leaveLevel_levels t price rest with ⟨_, h2⟩ | ⟨h1, h2⟩
  · rw [h2] at he
    exact hx.levels e (by rw [hq]; exact List.mem_cons_of_mem _ he)
  · rw [h2] at he
    rcases List.mem_cons.mp he with he | he
    · subst he
      exact ⟨h1, ht1.isOpen⟩
    · exact hx.levels e (by rw [hq]; exact List.mem_cons_of_mem _ he)

theorem Order.Same.refl (a : Order) : a.Same a := ⟨rfl, rfl, rfl, rfl, rfl, rfl, rfl⟩

theorem Order.Same.trans {a b c : Order} (h1 : a.Same b) (h2 : b.Same c) : a.Same c :=
  ⟨h1.order_id.trans h2.order_id, h1.user_id.trans h2.user_id, h1.symbol.trans h2.symbol,
   h1.price.trans h2.price, h1.quantity.trans h2.quantity, h1.side.trans h2.side,
   h1.type.trans h2.type⟩

/-- The loops change nothing of the taker but its filled quantity. -/
theorem levelStep_frame (price : ℚ) (s : LevelState) (r : Order) (rest : List Order) :
    (levelStep price s r rest).incoming.Same s.incoming ∧
      (levelStep price s r rest).incoming.status = s.incoming.status := by
  rcases levelStep_cases price s r rest with ⟨_, h2⟩ | ⟨_, h2⟩ <;> rw [h2] <;>
    exact ⟨⟨rfl, rfl, rfl, rfl, rfl, rfl, rfl⟩, rfl⟩

theorem matchLevel_frame (price : ℚ) (o : Order) (fuel : Nat) (s t : LevelState)
    (h : matchLevel price fuel s = some t)
    (hs : s.incoming.Same o ∧ s.incoming.status = o.status) :
    t.incoming.Same o ∧ t.incoming.status = o.status := by
  refine (matchLevel_rule price
    (fun x => x.incoming.Same o ∧ x.incoming.status = o.status) ?_ fuel s t h hs).1
  intro x r rest _ _ hx
  have := levelStep_frame price x r rest
  exact ⟨this.1.trans hx.1, this.2.trans hx.2⟩

theorem matchLadder_frame (worse : ℚ → ℚ → Bool) (o : Order) (fuel : Nat) (s r : MatchState)
    (h : matchLadder worse fuel s = some r)
    (hs : s.incoming.Same o ∧ s.incoming.status = o.status) :
    r.incoming.Same o ∧ r.incoming.status = o.status := by
  refine (matchLadder_rule worse
    (fun x => x.incoming.Same o ∧ x.incoming.status = o.status) ?_ fuel s r h hs).1
  intro x price level rest t _ _ _ ht hx
  exact matchLevel_frame price o _ (enterLevel x level) t ht hx

/-- The ladder left by the outer loop keeps a final segment of the keys it started with. -/
theorem matchLadder_keys (worse : ℚ → ℚ → Bool) (l0 : Ladder) (fuel : Nat) (s r : MatchState)
    (h : matchLadder worse fuel s = some r) (hs : s.levels.keys <:+ l0.keys) :
    r.levels.keys <:+ l0.keys := by
  refine (matchLadder_rule worse (fun x => x.levels.keys <:+ l0.keys) ?_ fuel s r h hs).1
  intro x price level rest t hq _ _ _ hx
  simp only [hq, Ladder.keys, List.map_cons] at hx
  rcases leaveLevel_levels t price rest with ⟨_, h2⟩ | ⟨_, h2⟩
  · rw [h2]
    exact (List.suffix_cons _ _).trans hx
  · rw [h2]
    simpa [Ladder.keys] using hx

end HighSpeed

/-! ## High-speed engine: `match_orders` and `add_order` on a book -/

namespace HighSpeed

theorem matchLadder_exit (worse : ℚ → ℚ → Bool) (fuel : Nat) (s r : MatchState)
    (h : matchLadder worse fuel s = some r) :
    r.levels = [] ∨ ¬ r.incoming.filled_quantity < r.incoming.quantity ∨
      (r.incoming.type = OrderType.LIMIT ∧
        ∃ price level rest, r.levels = (price, level) :: rest ∧
          worse price r.incoming.price = true) :=
  (matchLadder_rule worse (fun _ => True) (fun _ _ _ _ _ _ _ _ _ _ => trivial)
    fuel s r h trivial).2

/-- Unfolding of `match_orders` for a buy: the asks are swept, the bids are untouched. -/
theorem match_orders_buy (b : OrderBook) (o : Order) (r : MatchResult)
    (hside : o.side = Side.BUY) (h : b.match_orders o = some r) :
    ∃ s, matchLadder (fun price limit => decide (price > limit)) (b.asks.length + 1)
        { incoming := o, levels := b.asks, volume := b.total_ask_volume,
          last_traded_price := b.last_traded_price, matched := [] } = some s ∧
      r = { book := { b with asks := s.levels, total_ask_volume := s.volume,
                             last_traded_price := s.last_traded_price },
            incoming := finalStatus s.incoming, matched := s.matched } := by
  unfold OrderBook.match_orders at h
  rw [hside] at h
  simp only at h
  cases hm : matchLadder (fun price limit => decide (price > limit)) (b.asks.length + 1)
      { incoming := o, levels := b.asks, volume := b.total_ask_volume,
        last_traded_price := b.last_traded_price, matched := [] } with
  | none => rw [hm] at h; simp at h
  | some s =>
    rw [hm] at h
    simp only [Option.some.injEq] at h
    exact ⟨s, rfl, h.symm⟩

/-- Unfolding of `match_orders` for a sell: the bids are swept, the asks are untouched. -/
theorem match_orders_sell (b : OrderBook) (o : Order) (r : MatchResult)
    (hside : o.side = Side.SELL) (h : b.match_orders o = some r) :
    ∃ s, matchLadder (fun price limit => decide (price < limit)) (b.bids.length + 1)
        { incoming := o, levels := b.bids, volume := b.total_bid_volume,
          last_traded_price := b.last_traded_price, matched := [] } = some s ∧
      r = { book := { b with bids := s.levels, total_bid_volume := s.volume,
                             last_traded_price := s.last_traded_price },
            incoming := finalStatus s.incoming, matched := s.matched } := by
  unfold OrderBook.match_orders at h
  rw [hside] at h
  simp only at h
  cases hm : matchLadder (fun price limit => decide (price < limit)) (b.bids.length + 1)
      { incoming := o, levels := b.bids, volume := b.total_bid_volume,
        last_traded_price := b.last_traded_price, matched := [] } with
  | none => rw [hm] at h; simp at h
  | some s =>
    rw [hm] at h
    simp only [Option.some.injEq] at h
    exact ⟨s, rfl, h.symm⟩

theorem finalStatus_frame (o : Order) :
    finalStatus o = { o with status := (finalStatus o).status } := by
  unfold finalStatus
  split
  · rfl
  · split <;> rfl

theorem finalStatus_filled_quantity (o : Order) :
    (finalStatus o).filled_quantity = o.filled_quantity ∧
      (finalStatus o).quantity = o.quantity := by
  rw [finalStatus_frame]; exact ⟨rfl, rfl⟩

theorem finalStatus_of_ge (o : Order) (h : o.filled_quantity ≥ o.quantity) :
    (finalStatus o).status = Status.FILLED := by
  simp [finalStatus, h]

theorem finalStatus_filled_iff (o : Order) (hs : o.status ≠ Status.FILLED) :
    (finalStatus o).status = Status.FILLED ↔ o.filled_quantity ≥ o.quantity := by
  unfold finalStatus
  by_cases h1 : o.filled_quantity ≥ o.quantity
  · simp [h1]
  · by_cases h2 : o.filled_quantity > 0
    · simp [h1, h2]
    · simp [h1, h2, hs]

theorem finalStatus_same (o : Order) : (finalStatus o).Same o := by
  rw [finalStatus_frame]; exact ⟨rfl, rfl, rfl, rfl, rfl, rfl, rfl⟩

/-- Facts about the result of `match_orders` that hold for every book: the taker keeps
its identity, a taker not marked `FILLED` has quantity left, and the side of the taker
is left untouched. -/
theorem match_orders_frame (b : OrderBook) (o : Order) (r : MatchResult)
    (h : b.match_orders o = some r) :
    r.incoming.Same o ∧
    (r.incoming.status ≠ Status.FILLED → r.incoming.filled_quantity < r.incoming.quantity) ∧
    (o.side = Side.BUY → r.book.bids = b.bids ∧ r.book.total_bid_volume = b.total_bid_volume) ∧
    (o.side = Side.SELL → r.book.asks = b.asks ∧ r.book.total_ask_volume = b.total_ask_volume) ∧
    r.book.symbol = b.symbol := by
  have key : ∀ (worse : ℚ → ℚ → Bool) (fuel : Nat) (s0 s : MatchState),
      s0.incoming = o → matchLadder worse fuel s0 = some s →
      (finalStatus s.incoming).Same o ∧
      ((finalStatus s.incoming).status ≠ Status.FILLED →
        (finalStatus s.incoming).filled_quantity < (finalStatus s.incoming).quantity) := by
    intro worse fuel s0 s h0 hm
    have hf := matchLadder_frame worse o fuel s0 s hm (by rw [h0]; exact ⟨Order.Same.refl _, rfl⟩)
    constructor
    · exact (finalStatus_same _).trans hf.1
    · intro hne
      rw [(finalStatus_filled_quantity _).1, (finalStatus_filled_quantity _).2]
      by_contra hge
      exact hne (finalStatus_of_ge _ (not_lt.mp hge))
  cases hside : o.side with
  | BUY =>
    obtain ⟨s, hm, hr⟩ := match_orders_buy b o r hside h
    subst hr
    have := key _ _ _ s rfl hm
    exact ⟨this.1, this.2, fun _ => ⟨rfl, rfl⟩, fun hc => by simp at hc, rfl⟩
  | SELL =>
    obtain ⟨s, hm, hr⟩ := match_orders_sell b o r hside h
    subst hr
    have := key _ _ _ s rfl hm
    exact ⟨this.1, this.2, fun hc => by simp at hc, fun _ => ⟨rfl, rfl⟩, rfl⟩

theorem suffix_pairwise {R : ℚ → ℚ → Prop} {a b : List ℚ} (h : a <:+ b)
    (hb : b.Pairwise R) : a.Pairwise R :=
  hb.sublist h.sublist

/-- On a sorted ladder, a `LIMIT` taker that the outer loop leaves unfilled only sees
levels strictly worse than its limit. -/
theorem matchLadder_rest_worse (worse : ℚ → ℚ → Bool) (R : ℚ → ℚ → Prop)
    (hw : ∀ p q, worse p q = true ↔ R q p) (htrans : ∀ a b c, R a b → R b c → R a c)
    (o : Order) (fuel : Nat) (s0 s : MatchState) (h0 : s0.incoming = o)
    (hm : matchLadder worse fuel s0 = some s)
    (hsorted : s0.levels.keys.Pairwise R)
    (hun : s.incoming.filled_quantity < s.incoming.quantity) :
    ∀ k ∈ s.levels.keys, R o.price k := by
  have hkeys := matchLadder_keys worse s0.levels fuel s0 s hm (List.suffix_refl _)
  have hs := suffix_pairwise hkeys hsorted
  have hf := matchLadder_frame worse o fuel s0 s hm (by rw [h0]; exact ⟨Order.Same.refl _, rfl⟩)
  rcases matchLadder_exit worse fuel s0 s hm with h | h | ⟨_, price, level, rest, h1, h2⟩
  · intro k hk; rw [h] at hk; simp [Ladder.keys] at hk
  · exact absurd hun h
  · rw [h1] at hs ⊢
    simp only [Ladder.keys, List.map_cons, List.pairwise_cons] at hs
    have hhead : R o.price price := by
      rw [hf.1.price] at h2
      exact (hw _ _).mp h2
    intro k hk
    simp only [Ladder.keys, List.map_cons, List.mem_cons] at hk
    rcases hk with hk | hk
    · rw [hk]; exact hhead
    · exact htrans _ _ _ hhead (hs.1 k hk)

theorem suffix_mem {a b : List ℚ} (h : a <:+ b) {k : ℚ} (hk : k ∈ a) : k ∈ b :=
  h.sublist.subset hk

/-- The method `match_orders` keeps the book invariant; a taker it leaves unfilled is
strictly better priced than nothing on the opposite side. -/
theorem match_orders_inv (b : OrderBook) (o : Order) (r : MatchResult)
    (hb : b.Inv) (ho : 0 ≤ o.filled_quantity) (h : b.match_orders o = some r) :
    r.book.Inv ∧ 0 ≤ r.incoming.filled_quantity ∧
    (r.incoming.status ≠ Status.FILLED →
      (o.side = Side.BUY → ∀ k ∈ r.book.asks.keys, o.price < k) ∧
      (o.side = Side.SELL → ∀ k ∈ r.book.bids.keys, k < o.price)) := by
  have hfr := match_orders_frame b o r h
  cases hside : o.side with
  | BUY =>
    obtain ⟨s, hm, hr⟩ := match_orders_buy b o r hside h
    have hkeys := matchLadder_keys _ b.asks _ _ s hm (List.suffix_refl _)
    have hok := matchLadder_ok _ _ _ s hm
      ⟨fun e he => hb.levelsOK e (List.mem_append_right _ he), ho⟩
    subst hr
    refine ⟨⟨⟨hb.ordered.bids_sorted, suffix_pairwise hkeys hb.ordered.asks_sorted,
      fun x hx y hy => hb.ordered.apart x hx y (suffix_mem hkeys hy)⟩, ?_⟩, ?_, ?_⟩
    · intro e he
      rcases List.mem_append.mp he with he | he
      · exact hb.levelsOK e (List.mem_append_left _ he)
      · exact hok.levels e he
    · rw [(finalStatus_filled_quantity _).1]; exact hok.filled_nonneg
    · intro hne
      refine ⟨fun _ => ?_, fun hc => by simp at hc⟩
      have hun := hfr.2.1 hne
      simp only [(finalStatus_filled_quantity _).1, (finalStatus_filled_quantity _).2] at hun
      exact matchLadder_rest_worse _ (fun x y => x < y) (fun p q => by simp)
        (fun _ _ _ h1 h2 => lt_trans h1 h2) o _ _ s rfl hm hb.ordered.asks_sorted hun
  | SELL =>
    obtain ⟨s, hm, hr⟩ := match_orders_sell b o r hside h
    have hkeys := matchLadder_keys _ b.bids _ _ s hm (List.suffix_refl _)
    have hok := matchLadder_ok _ _ _ s hm
      ⟨fun e he => hb.levelsOK e (List.mem_append_left _ he), ho⟩
    subst hr
    refine ⟨⟨⟨suffix_pairwise hkeys hb.ordered.bids_sorted, hb.ordered.asks_sorted,
      fun x hx y hy => hb.ordered.apart x (suffix_mem hkeys hx) y hy⟩, ?_⟩, ?_, ?_⟩
    · intro e he
      rcases List.mem_append.mp he with he | he
      · exact hok.levels e he
      · exact hb.levelsOK e (List.mem_append_right _ he)
    · rw [(finalStatus_filled_quantity _).1]; exact hok.filled_nonneg
    · intro hne
      refine ⟨fun hc => by simp at hc, fun _ => ?_⟩
      have hun := hfr.2.1 hne
      simp only [(finalStatus_filled_quantity _).1, (finalStatus_filled_quantity _).2] at hun
      exact matchLadder_rest_worse _ (fun x y => x > y) (fun p q => by simp)
        (fun _ _ _ h1 h2 => lt_trans h2 h1) o _ _ s rfl hm hb.ordered.bids_sorted hun

theorem pushOrder_ok (k : ℚ) (lv : PriceLevel) (o : Order) (ho : o.IsOpen)
    (h : ∀ x ∈ lv.orders, x.IsOpen) : LevelOK (k, pushOrder lv o) := by
  refine ⟨by simp [pushOrder], ?_⟩
  intro x hx
  simp only [pushOrder, List.mem_append, List.mem_singleton] at hx
  rcases hx with hx | hx
  · exact h x hx
  · rw [hx]; exact ho

theorem Ladder.add_order_levelOK (before : ℚ → ℚ → Bool) (R : ℚ → ℚ → Prop)
    (hR : StrictCmp before R) (l : Ladder) (o : Order) (hs : l.keys.Pairwise R)
    (ho : o.IsOpen) (hl : ∀ e ∈ l, LevelOK e) :
    ∀ e ∈ Ladder.add_order before l o, LevelOK e := by
  intro e he
  rcases Ladder.add_order_mem before R hR l o hs e he with h | ⟨lv, h1, h2⟩ | h
  · exact hl e h
  · rw [h2]
    have := hl _ h1
    exact pushOrder_ok _ lv o ho this.isOpen
  · rw [h]
    exact pushOrder_ok _ _ o ho (by simp [PriceLevel.new])

/-- The method `add_order` keeps the book invariant when the order is open and priced
strictly better than the whole opposite side. -/
theorem add_order_inv (b : OrderBook) (o : Order) (hb : b.Inv) (ho : o.IsOpen)
    (hbuy : o.side = Side.BUY → ∀ k ∈ b.asks.keys, o.price < k)
    (hsell : o.side = Side.SELL → ∀ k ∈ b.bids.keys, k < o.price) :
    (b.add_order o).Inv := by
  unfold OrderBook.add_order
  cases hside : o.side with
  | BUY =>
    refine ⟨⟨Ladder.add_order_sorted _ _ bid_cmp _ _ hb.ordered.bids_sorted,
      hb.ordered.asks_sorted, ?_⟩, ?_⟩
    · intro x hx y hy
      rcases Ladder.add_order_keys _ _ _ _ hx with h | h
      · exact hb.ordered.apart x h y hy
      · rw [h]; exact hbuy hside y hy
    · intro e he
      rcases List.mem_append.mp he with he | he
      · exact Ladder.add_order_levelOK _ _ bid_cmp _ _ hb.ordered.bids_sorted ho
          (fun e he => hb.levelsOK e (List.mem_append_left _ he)) e he
      · exact hb.levelsOK e (List.mem_append_right _ he)
  | SELL =>
    refine ⟨⟨hb.ordered.bids_sorted,
      Ladder.add_order_sorted _ _ ask_cmp _ _ hb.ordered.asks_sorted, ?_⟩, ?_⟩
    · intro x hx y hy
      rcases Ladder.add_order_keys _ _ _ _ hy with h | h
      · exact hb.ordered.apart x hx y h
      · rw [h]; exact hsell hside x hx
    · intro e he
      rcases List.mem_append.mp he with he | he
      · exact hb.levelsOK e (List.mem_append_left _ he)
      · exact Ladder.add_order_levelOK _ _ ask_cmp _ _ hb.ordered.asks_sorted ho
          (fun e he => hb.levelsOK e (List.mem_append_right _ he)) e he

/-- The method `cancel_order` keeps the book invariant. -/
theorem cancel_order_inv (b : OrderBook) (id : Nat) (hb : b.Inv) :
    (b.cancel_order id).2.Inv := by
  unfold OrderBook.cancel_order
  cases h1 : Ladder.cancel id b.bids with
  | some r =>
    obtain ⟨bids, o⟩ := r
    have hu := Ladder.cancel_some id _ _ _ h1
    refine ⟨⟨hb.ordered.bids_sorted.sublist hu.keys_sublist, hb.ordered.asks_sorted,
      fun x hx y hy => hb.ordered.apart x (hu.keys_sublist.subset hx) y hy⟩, ?_⟩
    intro e he
    rcases List.mem_append.mp he with he | he
    · exact hu.levelOK (fun e he => hb.levelsOK e (List.mem_append_left _ he)) e he
    · exact hb.levelsOK e (List.mem_append_right _ he)
  | none =>
    cases h2 : Ladder.cancel id b.asks with
    | some r =>
      obtain ⟨asks, o⟩ := r
      have hu := Ladder.cancel_some id _ _ _ h2
      refine ⟨⟨hb.ordered.bids_sorted, hb.ordered.asks_sorted.sublist hu.keys_sublist,
        fun x hx y hy => hb.ordered.apart x hx y (hu.keys_sublist.subset hy)⟩, ?_⟩
      intro e he
      rcases List.mem_append.mp he with he | he
      · exact hb.levelsOK e (List.mem_append_left _ he)
      · exact hu.levelOK (fun e he => hb.levelsOK e (List.mem_append_right _ he)) e he
    | none => exact hb

end HighSpeed

/-! ## High-speed engine: the engine and sequences of calls -/

namespace HighSpeed

theorem findBook_setBook (books : List (String × OrderBook)) (sym sym1 : String)
    (b1 b : OrderBook) (h : findBook (setBook books sym b1) sym1 = some b) :
    (sym1 = sym ∧ b = b1) ∨ (sym1 ≠ sym ∧ findBook books sym1 = some b) := by
  induction books with
  | nil => simp [setBook, findBook] at h
  | cons x rest ih =>
    obtain ⟨k, b0⟩ := x
    unfold setBook at h
    by_cases hk : k = sym
    · simp only [hk, if_true] at h
      unfold findBook at h
      by_cases hs : sym = sym1
      · simp only [hs, if_true, Option.some.injEq] at h
        exact Or.inl ⟨hs.symm, h.symm⟩
      · simp only [hs, if_false] at h
        right
        refine ⟨fun hc => hs hc.symm, ?_⟩
        unfold findBook
        rw [hk]
        simp only [hs, if_false]
        exact h
    · simp only [hk, if_false] at h
      unfold findBook at h
      by_cases hs : k = sym1
      · simp only [hs, if_true, Option.some.injEq] at h
        right
        refine ⟨fun hc => hk (hs.trans hc), ?_⟩
        unfold findBook
        simp only [hs, if_true, h]
      · simp only [hs, if_false] at h
        rcases ih h with h1 | h1
        · exact Or.inl h1
        · right
          refine ⟨h1.1, ?_⟩
          unfold findBook
          simp only [hs, if_false]
          exact h1.2

theorem findBook_setBook_same (books : List (String × OrderBook)) (sym : String)
    (b0 b1 : OrderBook) (h : findBook books sym = some b0) :
    findBook (setBook books sym b1) sym = some b1 := by
  induction books with
  | nil => simp [findBook] at h
  | cons x rest ih =>
    obtain ⟨k, b⟩ := x
    unfold findBook at h
    unfold setBook
    by_cases hk : k = sym
    · simp only [hk, if_true]
      unfold findBook
      simp
    · simp only [hk, if_false] at h ⊢
      unfold findBook
      simp only [hk, if_false]
      exact ih h

theorem AllBooks_setBook (e : MatchingEngine) (P : OrderBook → Prop) (sym : String)
    (b1 : OrderBook) (books : List (String × OrderBook)) (he : e.AllBooks P) (hb : P b1)
    (hbooks : books = setBook e.order_books sym b1) (e1 : MatchingEngine)
    (h1 : e1.order_books = books) : e1.AllBooks P := by
  intro symbol b hf
  rw [h1, hbooks] at hf
  rcases findBook_setBook _ _ _ _ _ hf with ⟨_, h⟩ | ⟨_, h⟩
  · rw [h]; exact hb
  · exact he symbol b h

/-- The method `submit_order` always returns. -/
theorem submit_order_returns (e : MatchingEngine) (u : Nat) (sym : String) (p q : ℚ)
    (sd : Side) (t : OrderType) : ∃ r, e.submit_order u sym p q sd t = some r := by
  unfold MatchingEngine.submit_order
  simp only
  cases hf : findBook e.order_books sym with
  | none => exact ⟨_, rfl⟩
  | some book =>
    obtain ⟨r, hr⟩ := match_orders_returns book (Order.new e.next_order_id u sym p q sd t)
    simp only [hr]
    exact ⟨_, rfl⟩

/-- Unfolding of `submit_order` on a known symbol. -/
theorem submit_order_known (e : MatchingEngine) (u : Nat) (sym : String) (p q : ℚ)
    (sd : Side) (t : OrderType) (book : OrderBook) (res : SubmitResult)
    (hf : findBook e.order_books sym = some book)
    (h : e.submit_order u sym p q sd t = some res) :
    ∃ r, book.match_orders (Order.new e.next_order_id u sym p q sd t) = some r ∧
      res.order_id = e.next_order_id ∧ res.order = r.incoming ∧ res.matched = r.matched ∧
      res.engine.order_books = setBook e.order_books sym
        (if r.incoming.status ≠ Status.FILLED ∧ t = OrderType.LIMIT then
          r.book.add_order r.incoming else r.book) := by
  unfold MatchingEngine.submit_order at h
  simp only [hf] at h
  cases hm : book.match_orders (Order.new e.next_order_id u sym p q sd t) with
  | none => rw [hm] at h; simp at h
  | some r =>
    rw [hm] at h
    simp only [Option.some.injEq] at h
    subst h
    exact ⟨r, rfl, rfl, rfl, rfl, rfl⟩

/-- Unfolding of `submit_order` on an unknown symbol: no book changes. -/
theorem submit_order_unknown (e : MatchingEngine) (u : Nat) (sym : String) (p q : ℚ)
    (sd : Side) (t : OrderType) (res : SubmitResult)
    (hf : findBook e.order_books sym = none)
    (h : e.submit_order u sym p q sd t = some res) :
    res.order_id = 0 ∧ res.engine.order_books = e.order_books ∧ res.matched = [] := by
  unfold MatchingEngine.submit_order at h
  simp only [hf, Option.some.injEq] at h
  subst h
  exact ⟨rfl, rfl, rfl⟩

/-- The book that `submit_order` stores satisfies the book invariant. -/
theorem submit_book_inv (book : OrderBook) (o : Order) (r : MatchResult) (t : OrderType)
    (hb : book.Inv) (ho : o.filled_quantity = 0) (hm : book.match_orders o = some r) :
    (if r.incoming.status ≠ Status.FILLED ∧ t = OrderType.LIMIT then
      r.book.add_order r.incoming else r.book).Inv := by
  have hfr := match_orders_frame book o r hm
  have hinv := match_orders_inv book o r hb (by rw [ho]) hm
  by_cases hc : r.incoming.status ≠ Status.FILLED ∧ t = OrderType.LIMIT
  · rw [if_pos hc]
    have hw := hinv.2.2 hc.1
    apply add_order_inv _ _ hinv.1 ⟨hinv.2.1, hfr.2.1 hc.1⟩
    · intro hside
      rw [hfr.1.price]
      exact hw.1 (hfr.1.side ▸ hside)
    · intro hside
      rw [hfr.1.price]
      exact hw.2 (hfr.1.side ▸ hside)
  · rw [if_neg hc]
    exact hinv.1

theorem submit_order_inv (e : MatchingEngine) (u : Nat) (sym : String) (p q : ℚ)
    (sd : Side) (t : OrderType) (res : SubmitResult) (he : e.AllBooks OrderBook.Inv)
    (h : e.submit_order u sym p q sd t = some res) : res.engine.AllBooks OrderBook.Inv := by
  cases hf : findBook e.order_books sym with
  | none =>
    have := submit_order_unknown e u sym p q sd t res hf h
    intro symbol b hb
    rw [this.2.1] at hb
    exact he symbol b hb
  | some book =>
    obtain ⟨r, hm, _, _, _, hbooks⟩ := submit_order_known e u sym p q sd t book res hf h
    exact AllBooks_setBook e _ sym _ _ he
      (submit_book_inv book _ r t (he sym book hf) rfl hm) rfl res.engine hbooks

theorem engine_cancel_order_inv (e : MatchingEngine) (id : Nat) (sym : String)
    (he : e.AllBooks OrderBook.Inv) : (e.cancel_order id sym).2.AllBooks OrderBook.Inv := by
  unfold MatchingEngine.cancel_order
  cases hf : findBook e.order_books sym with
  | none => exact he
  | some book =>
    exact AllBooks_setBook e _ sym _ _ he (cancel_order_inv book id (he sym book hf)) rfl _ rfl

theorem new_book_inv (sym : String) : (OrderBook.new sym).Inv := by
  refine ⟨⟨?_, ?_, ?_⟩, ?_⟩ <;> simp [OrderBook.new, Ladder.keys, OrderBook.LevelsOK,
    OrderBook.levels]

theorem findBook_append (books : List (String × OrderBook)) (sym s1 : String) (b1 b : OrderBook)
    (h : findBook (books ++ [(s1, b1)]) sym = some b) :
    findBook books sym = some b ∨ b = b1 := by
  induction books with
  | nil =>
    simp only [List.nil_append, findBook] at h
    by_cases hk : s1 = sym
    · simp only [hk, if_true, Option.some.injEq] at h; exact Or.inr h.symm
    · simp [hk] at h
  | cons x rest ih =>
    obtain ⟨k, b0⟩ := x
    simp only [List.cons_append] at h
    unfold findBook at h ⊢
    by_cases hk : k = sym
    · simp only [hk, if_true] at h ⊢; exact Or.inl h
    · simp only [hk, if_false] at h ⊢; exact ih h

theorem add_symbol_inv (e : MatchingEngine) (sym : String) (he : e.AllBooks OrderBook.Inv) :
    (e.add_symbol sym).AllBooks OrderBook.Inv := by
  unfold MatchingEngine.add_symbol
  split
  · intro symbol b hb
    rcases findBook_append _ _ _ _ _ hb with h | h
    · exact he symbol b h
    · rw [h]; exact new_book_inv sym
  · exact he

theorem new_engine_inv : MatchingEngine.new.AllBooks OrderBook.Inv := by
  unfold MatchingEngine.new
  apply add_symbol_inv
  apply add_symbol_inv
  apply add_symbol_inv
  intro symbol b hb
  simp [findBook] at hb

/-- Every sequence of calls runs to completion and keeps the book invariant. -/
theorem run_inv : ∀ (ops : List Op) (e : MatchingEngine), e.AllBooks OrderBook.Inv →
    ∃ e1, e.run ops = some e1 ∧ e1.AllBooks OrderBook.Inv := by
  intro ops
  induction ops with
  | nil => intro e he; exact ⟨e, rfl, he⟩
  | cons op rest ih =>
    intro e he
    unfold MatchingEngine.run
    cases op with
    | submit u sym p q sd t =>
      obtain ⟨res, hres⟩ := submit_order_returns e u sym p q sd t
      simp only [MatchingEngine.step, hres, Option.map_some']
      exact ih _ (submit_order_inv e u sym p q sd t res he hres)
    | cancel id sym =>
      simp only [MatchingEngine.step]
      exact ih _ (engine_cancel_order_inv e id sym he)

/-- An ordered book is not crossed. -/
theorem Ordered.uncrossed (b : OrderBook) (h : b.Ordered) : b.Uncrossed := by
  unfold OrderBook.Uncrossed OrderBook.get_best_bid_ask
  cases hb : b.bids with
  | nil => exact Or.inl rfl
  | cons x xs =>
    cases ha : b.asks with
    | nil => exact Or.inr (Or.inl rfl)
    | cons y ys =>
      right; right
      obtain ⟨kx, lx⟩ := x
      obtain ⟨ky, ly⟩ := y
      exact h.apart kx (by simp [hb, Ladder.keys]) ky (by simp [ha, Ladder.keys])

end HighSpeed

/-! ## High-speed engine: claim C1 -/

namespace HighSpeed

/-- C1. Every sequence of `submit_order` and `cancel_order` calls on a freshly constructed
engine (all books empty) runs to completion, and in the engine it leaves every book has an
empty bid side, or an empty ask side, or a best bid strictly below its best ask. As
every prefix of a sequence is a sequence, this holds after each call. Prices and
quantities need not even be positive. -/
theorem C1_no_crossed_book (ops : List Op) :
    ∃ e, MatchingEngine.new.run ops = some e ∧
      ∀ symbol b, findBook e.order_books symbol = some b → b.Uncrossed := by
  obtain ⟨e, he, hinv⟩ := run_inv ops MatchingEngine.new new_engine_inv
  exact ⟨e, he, fun symbol b hb => Ordered.uncrossed b (hinv symbol b hb).ordered⟩

end HighSpeed

/-! ## High-speed engine: claim C7 -/

namespace HighSpeed

theorem u64sub_u64add (v x : Nat) (hv : v < 2 ^ 64) : u64sub (u64add v x) x = v := by
  unfold u64sub u64add
  norm_num at hv ⊢
  omega

theorem find_append_fresh (id : Nat) (q : List Order) (o : Order) (ho : o.order_id = id)
    (hq : ∀ x ∈ q, x.order_id ≠ id) :
    (q ++ [o]).find? (fun x => decide (x.order_id = id)) = some o ∧
      (q ++ [o]).eraseP (fun x => decide (x.order_id = id)) = q := by
  induction q with
  | nil => simp [ho]
  | cons a rest ih =>
    have ha : ¬ a.order_id = id := hq a (List.mem_cons_self _ _)
    have := ih (fun x hx => hq x (List.mem_cons_of_mem _ hx))
    simp [List.find?_cons, List.eraseP_cons, ha, this.1, this.2]

theorem find_fresh_none (id : Nat) (q : List Order) (hq : ∀ x ∈ q, x.order_id ≠ id) :
    q.find? (fun x => decide (x.order_id = id)) = none := by
  apply List.find?_eq_none.mpr
  intro x hx
  simpa using hq x hx

theorem Ladder.cancel_isSome (id : Nat) (l : Ladder) :
    (Ladder.cancel id l).isSome = true ↔ ∃ o ∈ l.orders, o.order_id = id := by
  have h := Ladder.cancel_none id l
  cases hc : Ladder.cancel id l with
  | none =>
    rw [hc] at h
    simp only [Option.isSome_none, Bool.false_eq_true, false_iff, not_exists, not_and]
    exact fun o ho => h.mp rfl o ho
  | some r =>
    rw [hc] at h
    simp only [Option.isSome_some, true_iff]
    by_contra hno
    have : (some r : Option (Ladder × Order)) = none :=
      h.mpr (fun o ho hid => hno ⟨o, ho, hid⟩)
    exact absurd this (by simp)

/-- C7. For every book, `cancel_order(id)` returns `true` exactly when some resting order
carries the id. When it returns `true`, exactly one order `o` is unlinked, from the bids
if a bid carries the id and else from the asks: `o` is the first order with the id in
iteration order, every other order keeps its level and its place in the queue, the
level of `o` is dropped from the ladder in the same call when `o` was its only order,
and the other ladder is untouched. When it returns `false` the book is unchanged. -/
theorem C7_cancel_order_spec (b : OrderBook) (id : Nat) :
    ((b.cancel_order id).1 = true ↔ ∃ o ∈ b.resting, o.order_id = id) ∧
    ((b.cancel_order id).1 = true →
      ∃ o, (Ladder.Unlinked id o b.bids (b.cancel_order id).2.bids ∧
              (b.cancel_order id).2.asks = b.asks) ∨
           ((∀ x ∈ b.bids.orders, x.order_id ≠ id) ∧
              Ladder.Unlinked id o b.asks (b.cancel_order id).2.asks ∧
              (b.cancel_order id).2.bids = b.bids)) ∧
    ((b.cancel_order id).1 = false → (b.cancel_order id).2 = b) := by
  unfold OrderBook.cancel_order OrderBook.resting
  cases h1 : Ladder.cancel id b.bids with
  | some r =>
    obtain ⟨bids, o⟩ := r
    have hu := Ladder.cancel_some id _ _ _ h1
    have hex : ∃ x ∈ b.bids.orders, x.order_id = id :=
      (Ladder.cancel_isSome id b.bids).mp (by rw [h1]; rfl)
    refine ⟨⟨fun _ => ?_, fun _ => rfl⟩, fun _ => ⟨o, Or.inl ⟨hu, rfl⟩⟩, fun h => by simp at h⟩
    obtain ⟨x, hx, hid⟩ := hex
    exact ⟨x, List.mem_append_left _ hx, hid⟩
  | none =>
    have hnb := (Ladder.cancel_none id b.bids).mp h1
    cases h2 : Ladder.cancel id b.asks with
    | some r =>
      obtain ⟨asks, o⟩ := r
      have hu := Ladder.cancel_some id _ _ _ h2
      have hex : ∃ x ∈ b.asks.orders, x.order_id = id :=
        (Ladder.cancel_isSome id b.asks).mp (by rw [h2]; rfl)
      refine ⟨⟨fun _ => ?_, fun _ => rfl⟩, fun _ => ⟨o, Or.inr ⟨hnb, hu, rfl⟩⟩,
        fun h => by simp at h⟩
      obtain ⟨x, hx, hid⟩ := hex
      exact ⟨x, List.mem_append_right _ hx, hid⟩
    | none =>
      have hna := (Ladder.cancel_none id b.asks).mp h2
      refine ⟨⟨fun h => by simp at h, fun h => ?_⟩, fun h => by simp at h, fun _ => rfl⟩
      obtain ⟨x, hx, hid⟩ := h
      rcases List.mem_append.mp hx with hx | hx
      · exact absurd hid (hnb x hx)
      · exact absurd hid (hna x hx)

end HighSpeed

/-! ## High-speed engine: the matches as a trace of the resting queue -/

namespace HighSpeed

theorem Ladder.entries_cons (k : ℚ) (lv : PriceLevel) (rest : Ladder) :
    Ladder.entries ((k, lv) :: rest) = lv.orders.map (fun o => (k, o)) ++ Ladder.entries rest := by
  simp [Ladder.entries]

theorem Ladder.entries_orders (l : Ladder) : l.entries.map Prod.snd = l.orders := by
  induction l with
  | nil => rfl
  | cons e rest ih =>
    obtain ⟨k, lv⟩ := e
    rw [Ladder.entries_cons]
    simp only [List.map_append, List.map_map, ih, Ladder.orders, List.map_cons,
      List.flatten_cons]
    congr 1
    induction lv.orders with
    | nil => rfl
    | cons a q ih2 => simp

theorem levelStep_full (price : ℚ) (s : LevelState) (r : Order) (rest : List Order)
    (h : r.filled_quantity + matchQuantity s.incoming r ≥ r.quantity) :
    levelStep price s r rest =
      { incoming := takerAfter s.incoming r,
        level := { s.level with orders := rest,
                                total_quantity :=
                                  s.level.total_quantity - readAfterErase r rest },
        volume := u64sub s.volume (toU64 (readAfterErase r rest * 100000000)),
        last_traded_price := price,
        matched := s.matched ++ [fillOf price s.incoming r Status.FILLED] } := by
  rcases levelStep_cases price s r rest with ⟨_, h2⟩ | ⟨h1, _⟩
  · rw [h2]; rfl
  · exact absurd h (not_le.mpr h1)

theorem levelStep_part (price : ℚ) (s : LevelState) (r : Order) (rest : List Order)
    (h : r.filled_quantity + matchQuantity s.incoming r < r.quantity) :
    levelStep price s r rest =
      { incoming := takerAfter s.incoming r,
        level := { s.level with orders := makerAfter s.incoming r Status.PARTIAL :: rest },
        volume := s.volume,
        last_traded_price := price,
        matched := s.matched ++ [fillOf price s.incoming r Status.PARTIAL] } := by
  rcases levelStep_cases price s r rest with ⟨h1, _⟩ | ⟨_, h2⟩
  · exact absurd h1 (not_le.mpr h)
  · rw [h2]; rfl

theorem takerAfter_same (t r : Order) :
    (takerAfter t r).Same t ∧ (takerAfter t r).status = t.status :=
  ⟨⟨rfl, rfl, rfl, rfl, rfl, rfl, rfl⟩, rfl⟩

/-- View rule for the inner loop: a property of the taker, the keyed queue that is
still to be matched and the matches so far, kept by both outcomes of the loop body, is
kept by the loop. -/
theorem matchLevel_view (worse : ℚ → ℚ → Bool) (I : Order → List (ℚ × Order) → List Match → Prop)
    (hfull : ∀ inc k r rest ms, inc.filled_quantity < inc.quantity →
      (inc.type = OrderType.LIMIT → worse k inc.price = false) →
      I inc ((k, r) :: rest) ms → r.filled_quantity + matchQuantity inc r ≥ r.quantity →
      I (takerAfter inc r) rest (ms ++ [fillOf k inc r Status.FILLED]))
    (hpart : ∀ inc k r rest ms, inc.filled_quantity < inc.quantity →
      (inc.type = OrderType.LIMIT → worse k inc.price = false) →
      I inc ((k, r) :: rest) ms → r.filled_quantity + matchQuantity inc r < r.quantity →
      I (takerAfter inc r) ((k, makerAfter inc r Status.PARTIAL) :: rest)
        (ms ++ [fillOf k inc r Status.PARTIAL]))
    (price : ℚ) (tail : List (ℚ × Order)) (fuel : Nat) (s t : LevelState)
    (hg : s.incoming.type = OrderType.LIMIT → worse price s.incoming.price = false)
    (h : matchLevel price fuel s = some t)
    (hs : I s.incoming (s.level.orders.map (fun o => (price, o)) ++ tail) s.matched) :
    I t.incoming (t.level.orders.map (fun o => (price, o)) ++ tail) t.matched := by
  refine (matchLevel_rule price
    (fun x => x.incoming.Same s.incoming ∧
      I x.incoming (x.level.orders.map (fun o => (price, o)) ++ tail) x.matched)
    ?_ fuel s t h ⟨Order.Same.refl _, hs⟩).1.2
  intro x r rest hq hc hx
  have hgx : x.incoming.type = OrderType.LIMIT → worse price x.incoming.price = false := by
    intro hl
    rw [hx.1.price]
    exact hg (hx.1.type ▸ hl)
  have hI := hx.2
  rw [hq] at hI
  simp only [List.map_cons, List.cons_append] at hI
  by_cases hr : r.filled_quantity + matchQuantity x.incoming r ≥ r.quantity
  · rw [levelStep_full price x r rest hr]
    exact ⟨(takerAfter_same _ _).1.trans hx.1, hfull _ _ _ _ _ hc hgx hI hr⟩
  · rw [levelStep_part price x r rest (not_le.mp hr)]
    exact ⟨(takerAfter_same _ _).1.trans hx.1, hpart _ _ _ _ _ hc hgx hI (not_le.mp hr)⟩

/-- View rule for the outer loop: the same property is kept by the whole sweep. -/
theorem matchLadder_view (worse : ℚ → ℚ → Bool) (I : Order → List (ℚ × Order) → List Match → Prop)
    (hfull : ∀ inc k r rest ms, inc.filled_quantity < inc.quantity →
      (inc.type = OrderType.LIMIT → worse k inc.price = false) →
      I inc ((k, r) :: rest) ms → r.filled_quantity + matchQuantity inc r ≥ r.quantity →
      I (takerAfter inc r) rest (ms ++ [fillOf k inc r Status.FILLED]))
    (hpart : ∀ inc k r rest ms, inc.filled_quantity < inc.quantity →
      (inc.type = OrderType.LIMIT → worse k inc.price = false) →
      I inc ((k, r) :: rest) ms → r.filled_quantity + matchQuantity inc r < r.quantity →
      I (takerAfter inc r) ((k, makerAfter inc r Status.PARTIAL) :: rest)
        (ms ++ [fillOf k inc r Status.PARTIAL]))
    (fuel : Nat) (s r : MatchState) (h : matchLadder worse fuel s = some r)
    (hs : I s.incoming s.levels.entries s.matched) :
    I r.incoming r.levels.entries r.matched := by
  refine (matchLadder_rule worse (fun x => I x.incoming x.levels.entries x.matched)
    ?_ fuel s r h hs).1
  intro x price level rest t hq _ hb ht hx
  have hg : x.incoming.type = OrderType.LIMIT → worse price x.incoming.price = false := by
    intro hl
    cases hw : worse price x.incoming.price with
    | false => rfl
    | true => exact absurd ⟨hl, hw⟩ hb
  rw [hq, Ladder.entries_cons] at hx
  have := matchLevel_view worse I hfull hpart price (Ladder.entries rest) _
    (enterLevel x level) t hg ht hx
  rcases leaveLevel_levels t price rest with ⟨h1, h2⟩ | ⟨_, h2⟩
  · simp only [h2]
    rw [h1] at this
    simpa [leaveLevel] using this
  · simp only [h2, Ladder.entries_cons]
    simpa [leaveLevel] using this

/-- View rule for `match_orders`: a property of the view that holds of the incoming
order, the whole opposite side and no matches at entry holds at return of the taker
before the final status update, the opposite side that is left and the `matches`. -/
theorem match_orders_view (I : Order → List (ℚ × Order) → List Match → Prop)
    (hfull : ∀ inc k r rest ms, inc.filled_quantity < inc.quantity →
      (inc.type = OrderType.LIMIT →
        (inc.side = Side.BUY → k ≤ inc.price) ∧ (inc.side = Side.SELL → inc.price ≤ k)) →
      I inc ((k, r) :: rest) ms → r.filled_quantity + matchQuantity inc r ≥ r.quantity →
      I (takerAfter inc r) rest (ms ++ [fillOf k inc r Status.FILLED]))
    (hpart : ∀ inc k r rest ms, inc.filled_quantity < inc.quantity →
      (inc.type = OrderType.LIMIT →
        (inc.side = Side.BUY → k ≤ inc.price) ∧ (inc.side = Side.SELL → inc.price ≤ k)) →
      I inc ((k, r) :: rest) ms → r.filled_quantity + matchQuantity inc r < r.quantity →
      I (takerAfter inc r) ((k, makerAfter inc r Status.PARTIAL) :: rest)
        (ms ++ [fillOf k inc r Status.PARTIAL]))
    (b : OrderBook) (o : Order) (r : MatchResult) (h : b.match_orders o = some r)
    (hs : I o (b.opposite o.side).entries []) :
    ∃ inc, r.incoming = finalStatus inc ∧ inc.Same o ∧ inc.status = o.status ∧
      I inc (r.book.opposite o.side).entries r.matched := by
  cases hside : o.side with
  | BUY =>
    obtain ⟨s, hm, hr⟩ := match_orders_buy b o r hside h
    have hf := matchLadder_frame _ o _ _ s hm ⟨Order.Same.refl _, rfl⟩
    have hv := matchLadder_view (fun price limit => decide (price > limit))
      (fun inc rem ms => inc.side = Side.BUY ∧ I inc rem ms) ?_ ?_ _ _ s hm
      ⟨hside, by rw [hside] at hs; exact hs⟩
    · subst hr
      exact ⟨s.incoming, rfl, hf.1, hf.2, hv.2⟩
    · intro inc k r rest ms hc hg hI hr
      refine ⟨hI.1, hfull inc k r rest ms hc (fun hl => ⟨fun _ => ?_, fun hc2 => ?_⟩) hI.2 hr⟩
      · simpa using hg hl
      · rw [hI.1] at hc2; exact absurd hc2 (by simp)
    · intro inc k r rest ms hc hg hI hr
      refine ⟨hI.1, hpart inc k r rest ms hc (fun hl => ⟨fun _ => ?_, fun hc2 => ?_⟩) hI.2 hr⟩
      · simpa using hg hl
      · rw [hI.1] at hc2; exact absurd hc2 (by simp)
  | SELL =>
    obtain ⟨s, hm, hr⟩ := match_orders_sell b o r hside h
    have hf := matchLadder_frame _ o _ _ s hm ⟨Order.Same.refl _, rfl⟩
    have hv := matchLadder_view (fun price limit => decide (price < limit))
      (fun inc rem ms => inc.side = Side.SELL ∧ I inc rem ms) ?_ ?_ _ _ s hm
      ⟨hside, by rw [hside] at hs; exact hs⟩
    · subst hr
      exact ⟨s.incoming, rfl, hf.1, hf.2, hv.2⟩
    · intro inc k r rest ms hc hg hI hr
      refine ⟨hI.1, hfull inc k r rest ms hc (fun hl => ⟨fun hc2 => ?_, fun _ => ?_⟩) hI.2 hr⟩
      · rw [hI.1] at hc2; exact absurd hc2 (by simp)
      · simpa using hg hl
    · intro inc k r rest ms hc hg hI hr
      refine ⟨hI.1, hpart inc k r rest ms hc (fun hl => ⟨fun hc2 => ?_, fun _ => ?_⟩) hI.2 hr⟩
      · rw [hI.1] at hc2; exact absurd hc2 (by simp)
      · simpa using hg hl

end HighSpeed

/-! ## High-speed engine: claim C3 -/

namespace HighSpeed

theorem Ladder.mem_entries (l : Ladder) (k : ℚ) (o : Order) :
    (k, o) ∈ l.entries ↔ ∃ lv, (k, lv) ∈ l ∧ o ∈ lv.orders := by
  induction l with
  | nil => simp [Ladder.entries]
  | cons e rest ih =>
    obtain ⟨k1, lv1⟩ := e
    rw [Ladder.entries_cons]
    simp only [List.mem_append, List.mem_map, Prod.mk.injEq, List.mem_cons, ih]
    constructor
    · rintro (⟨a, ha, rfl, rfl⟩ | ⟨lv, h1, h2⟩)
      · exact ⟨lv1, Or.inl ⟨rfl, rfl⟩, ha⟩
      · exact ⟨lv, Or.inr h1, h2⟩
    · rintro ⟨lv, ⟨rfl, rfl⟩ | h1, h2⟩
      · exact Or.inl ⟨o, h2, rfl, rfl⟩
      · exact Or.inr ⟨lv, h1, h2⟩

theorem makerAfter_same (t r : Order) (st : Status) : (makerAfter t r st).Same r :=
  ⟨rfl, rfl, rfl, rfl, rfl, rfl, rfl⟩

theorem lastPrice_snoc (initial : ℚ) (ms : List Match) (m : Match) :
    lastPrice initial (ms ++ [m]) = m.price := by
  simp [lastPrice]

theorem matchLevel_lastPrice (initial price : ℚ) (fuel : Nat) (s t : LevelState)
    (h : matchLevel price fuel s = some t)
    (hs : s.last_traded_price = lastPrice initial s.matched) :
    t.last_traded_price = lastPrice initial t.matched := by
  refine (matchLevel_rule price (fun x => x.last_traded_price = lastPrice initial x.matched)
    ?_ fuel s t h hs).1
  intro x r rest _ _ _
  rcases levelStep_cases price x r rest with ⟨_, h2⟩ | ⟨_, h2⟩ <;> rw [h2] <;>
    simp only [lastPrice_snoc]

theorem matchLadder_lastPrice (worse : ℚ → ℚ → Bool) (initial : ℚ) (fuel : Nat)
    (s r : MatchState) (h : matchLadder worse fuel s = some r)
    (hs : s.last_traded_price = lastPrice initial s.matched) :
    r.last_traded_price = lastPrice initial r.matched := by
  refine (matchLadder_rule worse (fun x => x.last_traded_price = lastPrice initial x.matched)
    ?_ fuel s r h hs).1
  intro x price level rest t _ _ _ ht hx
  exact matchLevel_lastPrice initial price _ (enterLevel x level) t ht hx

theorem match_orders_lastPrice (b : OrderBook) (o : Order) (r : MatchResult)
    (h : b.match_orders o = some r) :
    r.book.last_traded_price = lastPrice b.last_traded_price r.matched := by
  cases hside : o.side with
  | BUY =>
    obtain ⟨s, hm, hr⟩ := match_orders_buy b o r hside h
    subst hr
    exact matchLadder_lastPrice _ b.last_traded_price _ _ s hm rfl
  | SELL =>
    obtain ⟨s, hm, hr⟩ := match_orders_sell b o r hside h
    subst hr
    exact matchLadder_lastPrice _ b.last_traded_price _ _ s hm rfl

/-- C3. The method `match_orders` returns on every book and every incoming order, and
for its result: (1) every fill is recorded at the key of the level in which its maker
rested before the call; (2) when the taker is a `LIMIT` order no fill is priced worse
than its limit, at most the limit for a buy and at least the limit for a sell; (3) the
last traded price stored in the book is the level price of the last fill (unchanged
when nothing was filled); (4) when every resting order carries the price of its level,
as `add_order` files it, each fill price is the price of the maker. The taker's own
price is never used as a fill price. -/
theorem C3_price_improvement (b : OrderBook) (o : Order) :
    ∃ r, b.match_orders o = some r ∧
      (∀ m ∈ r.matched, ∃ lv o0, (m.price, lv) ∈ b.opposite o.side ∧ o0 ∈ lv.orders ∧
        m.maker.Same o0) ∧
      (o.type = OrderType.LIMIT → ∀ m ∈ r.matched,
        (o.side = Side.BUY → m.price ≤ o.price) ∧ (o.side = Side.SELL → m.price ≥ o.price)) ∧
      r.book.last_traded_price = lastPrice b.last_traded_price r.matched ∧
      ((∀ e ∈ b.opposite o.side, ∀ x ∈ e.2.orders, x.price = e.1) →
        ∀ m ∈ r.matched, m.price = m.maker.price) := by
  obtain ⟨r, hr⟩ := match_orders_returns b o
  have hv := match_orders_view
    (fun inc rem ms =>
      (∀ x ∈ rem, ∃ o0, (x.1, o0) ∈ (b.opposite o.side).entries ∧ x.2.Same o0) ∧
      ∀ m ∈ ms, (∃ o0, (m.price, o0) ∈ (b.opposite o.side).entries ∧ m.maker.Same o0) ∧
        (inc.type = OrderType.LIMIT →
          (inc.side = Side.BUY → m.price ≤ inc.price) ∧
          (inc.side = Side.SELL → inc.price ≤ m.price)))
    ?_ ?_ b o r hr ⟨fun x hx => ⟨x.2, hx, Order.Same.refl _⟩, by simp⟩
  · obtain ⟨inc, _, hsame, _, _, hms⟩ := hv
    have hassoc : ∀ m ∈ r.matched, ∃ lv o0, (m.price, lv) ∈ b.opposite o.side ∧
        o0 ∈ lv.orders ∧ m.maker.Same o0 := by
      intro m hm
      obtain ⟨o0, h1, h2⟩ := (hms m hm).1
      obtain ⟨lv, h3, h4⟩ := (Ladder.mem_entries _ _ _).mp h1
      exact ⟨lv, o0, h3, h4, h2⟩
    refine ⟨r, hr, hassoc, ?_, match_orders_lastPrice b o r hr, ?_⟩
    · intro hl m hm
      have := (hms m hm).2 (hsame.type.trans hl)
      rw [hsame.side, hsame.price] at this
      exact this
    · intro hcons m hm
      obtain ⟨lv, o0, h1, h2, h3⟩ := hassoc m hm
      rw [h3.price]
      exact (hcons _ h1 o0 h2).symm
  · intro inc k r0 rest ms _ hg hI _
    refine ⟨fun x hx => hI.1 x (List.mem_cons_of_mem _ hx), ?_⟩
    intro m hm
    rcases List.mem_append.mp hm with hm | hm
    · exact hI.2 m hm
    · rw [List.mem_singleton] at hm
      subst hm
      obtain ⟨o0, h1, h2⟩ := hI.1 (k, r0) (List.mem_cons_self _ _)
      exact ⟨⟨o0, h1, (makerAfter_same _ _ _).trans h2⟩, hg⟩
  · intro inc k r0 rest ms _ hg hI _
    obtain ⟨o0, h1, h2⟩ := hI.1 (k, r0) (List.mem_cons_self _ _)
    refine ⟨?_, ?_⟩
    · intro x hx
      rcases List.mem_cons.mp hx with hx | hx
      · subst hx
        exact ⟨o0, h1, (makerAfter_same _ _ _).trans h2⟩
      · exact hI.1 x (List.mem_cons_of_mem _ hx)
    · intro m hm
      rcases List.mem_append.mp hm with hm | hm
      · exact hI.2 m hm
      · rw [List.mem_singleton] at hm
        subst hm
        exact ⟨⟨o0, h1, (makerAfter_same _ _ _).trans h2⟩, hg⟩

end HighSpeed

/-! ## High-speed engine: claim C2 -/

namespace HighSpeed

theorem matchQuantity_eq_taker (t r : Order)
    (h : r.filled_quantity + matchQuantity t r < r.quantity) :
    matchQuantity t r = t.quantity - t.filled_quantity := by
  unfold matchQuantity at h ⊢
  rcases min_choice (t.quantity - t.filled_quantity) (r.quantity - r.filled_quantity) with h1 | h1
  · exact h1
  · rw [h1] at h; linarith

theorem snoc_split {α : Type} (ms : List α) (m : α) (l1 : List α) (x : α) (l2 : List α)
    (h : ms ++ [m] = l1 ++ x :: l2) :
    (l2 = [] ∧ ms = l1 ∧ m = x) ∨ ∃ l3, l2 = l3 ++ [m] ∧ ms = l1 ++ x :: l3 := by
  rcases List.eq_nil_or_concat l2 with h2 | ⟨l3, y, h2⟩
  · left
    subst h2
    have := List.append_inj' h rfl
    simp only [List.cons.injEq, and_true] at this
    exact ⟨rfl, this.1, this.2⟩
  · right
    rw [List.concat_eq_append] at h2
    subst h2
    have : ms ++ [m] = (l1 ++ x :: l3) ++ [y] := by rw [h]; simp
    have := List.append_inj' this rfl
    simp only [List.cons.injEq, and_true] at this
    exact ⟨l3, by rw [this.2], this.1⟩

theorem Ladder.orders_split (l : Ladder) (k : ℚ) (lv : PriceLevel) (h : (k, lv) ∈ l) :
    ∃ X Z, l.orders = X ++ lv.orders ++ Z := by
  obtain ⟨l1, l2, rfl⟩ := List.append_of_mem h
  exact ⟨Ladder.orders l1, Ladder.orders l2, by simp [Ladder.orders]⟩

/-- The matches of `match_orders` follow the opposite side in queue order. -/
theorem match_orders_fifo (b : OrderBook) (o : Order) (r : MatchResult)
    (h : b.match_orders o = some r) :
    Fifo ((b.opposite o.side).orders.map (fun x => x.order_id)) r.matched := by
  have hids : (b.opposite o.side).orders.map (fun x => x.order_id) =
      (b.opposite o.side).entries.map (fun x => x.2.order_id) := by
    rw [← Ladder.entries_orders, List.map_map]; rfl
  rw [hids]
  have hv := match_orders_view
    (fun inc rem ms =>
      ((b.opposite o.side).entries.map (fun x => x.2.order_id) =
          ms.map (fun m => m.maker.order_id) ++ rem.map (fun x => x.2.order_id) ∧
        ∀ m ∈ ms, m.Complete) ∨
      (¬ inc.filled_quantity < inc.quantity ∧
        Fifo ((b.opposite o.side).entries.map (fun x => x.2.order_id)) ms))
    ?_ ?_ b o r h (Or.inl ⟨by simp, by simp⟩)
  · obtain ⟨inc, _, _, _, hI⟩ := hv
    rcases hI with ⟨h1, h2⟩ | ⟨_, h2⟩
    · refine ⟨⟨_, h1⟩, ?_⟩
      intro l1 x l2 hms _
      exact h2 x (by rw [hms]; simp)
    · exact h2
  · intro inc k r0 rest ms hc _ hI hr
    rcases hI with ⟨h1, h2⟩ | ⟨h1, _⟩
    · left
      refine ⟨by rw [h1]; simp [fillOf, makerAfter], ?_⟩
      intro m hm
      rcases List.mem_append.mp hm with hm | hm
      · exact h2 m hm
      · rw [List.mem_singleton] at hm
        subst hm
        have := matchQuantity_le_maker inc r0
        exact ⟨by simp only [fillOf, makerAfter]; linarith, rfl⟩
    · exact absurd hc h1
  · intro inc k r0 rest ms hc _ hI hr
    rcases hI with ⟨h1, h2⟩ | ⟨h1, _⟩
    · right
      refine ⟨?_, ⟨rest.map (fun x => x.2.order_id), by rw [h1]; simp [fillOf, makerAfter]⟩, ?_⟩
      · simp only [takerAfter, matchQuantity_eq_taker inc r0 hr]
        intro hlt
        linarith
      · intro l1 x l2 hms hne
        rcases snoc_split _ _ _ _ _ hms with ⟨h3, _, _⟩ | ⟨l3, _, h4⟩
        · exact absurd h3 hne
        · exact h2 x (by rw [h4]; simp)
    · exact absurd hc h1

/-- C2. The method `match_orders` returns, and fills each level in queue order: whenever
maker A stands before maker B in the queue of one level of the side that is swept, and
the ids on that side are distinct, every fill that the call gives to B (of positive
quantity or not) comes after a fill of A that filled A completely and marked it
`FILLED`. For example, with sells of 2.0 by A and then 2.0 by B resting at 100, a market
buy of 3.0 fills A by 2.0 (status `FILLED`) and then B by 1.0 (status `PARTIAL`). -/
theorem C2_price_time_priority (b : OrderBook) (o : Order) :
    (∃ r, b.match_orders o = some r ∧
      ∀ (k : ℚ) (lv : PriceLevel) (pre mid post : List Order) (A B : Order),
        (k, lv) ∈ b.opposite o.side → lv.orders = pre ++ A :: (mid ++ B :: post) →
        ((b.opposite o.side).orders.map (fun x => x.order_id)).Nodup →
        ∀ mB ∈ r.matched, mB.maker.order_id = B.order_id →
          ∃ l1 mA l2, r.matched = l1 ++ mA :: l2 ∧ mB ∈ l2 ∧
            mA.maker.order_id = A.order_id ∧ mA.Complete) ∧
    (bookAB.match_orders buyC).map
        (fun r => r.matched.map (fun m => (m.maker.order_id, m.quantity, m.maker.status))) =
      some [(1, 2, Status.FILLED), (2, 1, Status.PARTIAL)] := by
  refine ⟨?_, by decide!⟩
  obtain ⟨r, hr⟩ := match_orders_returns b o
  refine ⟨r, hr, ?_⟩
  intro k lv pre mid post A B hlv hq hnd mB hmB hid
  obtain ⟨⟨tl, htl⟩, hcomp⟩ := match_orders_fifo b o r hr
  obtain ⟨X, Z, hXZ⟩ := Ladder.orders_split _ k lv hlv
  obtain ⟨m1, m2, hm⟩ := List.append_of_mem hmB
  have e1 : (b.opposite o.side).orders.map (fun x => x.order_id) =
      (X.map (fun x => x.order_id) ++ pre.map (fun x => x.order_id) ++
        A.order_id :: mid.map (fun x => x.order_id)) ++
      B.order_id :: (post.map (fun x => x.order_id) ++ Z.map (fun x => x.order_id)) := by
    rw [hXZ, hq]; simp
  have e2 : (b.opposite o.side).orders.map (fun x => x.order_id) =
      m1.map (fun m => m.maker.order_id) ++
      B.order_id :: (m2.map (fun m => m.maker.order_id) ++ tl) := by
    rw [htl, hm]; simp [hid]
  rw [e1] at hnd
  have hnm := List.nodup_middle.mp hnd
  have hnot := (List.nodup_cons.mp hnm).1
  simp only [List.mem_append, not_or] at hnot
  have hsplit := (List.append_cons_inj_of_not_mem
    (by simp only [List.mem_append, not_or]; exact hnot.1)
    (by simp only [List.mem_append, not_or]; exact hnot.2)).mp (e1.symm.trans e2)
  obtain ⟨u1, u2, hu, hu1, hu2⟩ := List.map_eq_append_iff.mp hsplit.1.symm
  obtain ⟨mA, u3, hu3, hA, _⟩ := List.map_eq_cons_iff.mp hu2
  refine ⟨u1, mA, u3 ++ mB :: m2, ?_, by simp, hA, ?_⟩
  · rw [hm, hu, hu3]; simp
  · apply hcomp u1 mA (u3 ++ mB :: m2)
    · rw [hm, hu, hu3]; simp
    · simp

end HighSpeed

/-! ## High-speed engine: claim C9 -/

namespace HighSpeed

theorem Ladder.find_isSome_keys (l : Ladder) (p : ℚ) (h : (Ladder.find l p).isNone = false) :
    p ∈ l.keys := by
  induction l with
  | nil => simp [Ladder.find] at h
  | cons e rest ih =>
    obtain ⟨k, lv⟩ := e
    unfold Ladder.find at h
    by_cases hk : k = p
    · simp [Ladder.keys, hk]
    · simp only [hk, if_false] at h
      simp only [Ladder.keys, List.map_cons, List.mem_cons]
      exact Or.inr (ih h)

theorem Ladder.emplace_key (before : ℚ → ℚ → Bool) (R : ℚ → ℚ → Prop)
    (hR : StrictCmp before R) (l : Ladder) (p : ℚ) (lv : PriceLevel) :
    p ∈ (Ladder.emplace before l p lv).keys := by
  induction l with
  | nil => simp [Ladder.emplace, Ladder.keys]
  | cons e rest ih =>
    obtain ⟨k, l0⟩ := e
    unfold Ladder.emplace
    cases h1 : before p k with
    | true => simp [Ladder.keys]
    | false =>
      cases h2 : before k p with
      | true =>
        simp only [Bool.false_eq_true, if_false, if_true, Ladder.keys, List.map_cons,
          List.mem_cons]
        exact Or.inr ih
      | false =>
        have hkp : k = p := by
          by_contra hne
          rcases hR.tri k p hne with h | h
          · have := (hR.iff _ _).mpr h; rw [h2] at this; exact absurd this (by simp)
          · have := (hR.iff _ _).mpr h; rw [h1] at this; exact absurd this (by simp)
        simp [Ladder.keys, hkp]

theorem Ladder.modify_push_mem (l : Ladder) (o : Order) (h : o.price ∈ l.keys) :
    o ∈ (Ladder.modify l o.price (fun lv =>
      { lv with orders := lv.orders ++ [o],
                total_quantity := lv.total_quantity + o.quantity })).orders := by
  induction l with
  | nil => simp [Ladder.keys] at h
  | cons e rest ih =>
    obtain ⟨k, lv⟩ := e
    unfold Ladder.modify
    by_cases hk : k = o.price
    · simp [hk, Ladder.orders]
    · simp only [hk, if_false]
      simp only [Ladder.keys, List.map_cons, List.mem_cons] at h
      rcases h with h | h
      · exact absurd h.symm hk
      · have := ih h
        simp only [Ladder.orders, List.map_cons, List.flatten_cons, List.mem_append] at this ⊢
        exact Or.inr this

/-- The order handed to `add_order` rests in the ladder afterwards. -/
theorem Ladder.add_order_self (before : ℚ → ℚ → Bool) (R : ℚ → ℚ → Prop)
    (hR : StrictCmp before R) (l : Ladder) (o : Order) :
    o ∈ (Ladder.add_order before l o).orders := by
  unfold Ladder.add_order
  apply Ladder.modify_push_mem
  cases hf : (Ladder.find l o.price).isNone with
  | true => simp only [if_true]; exact Ladder.emplace_key before R hR l _ _
  | false => simp only [Bool.false_eq_true, if_false]; exact Ladder.find_isSome_keys l _ hf

theorem book_add_order_self (b : OrderBook) (o : Order) : o ∈ (b.add_order o).resting := by
  unfold OrderBook.add_order OrderBook.resting
  cases o.side with
  | BUY => exact List.mem_append_left _ (Ladder.add_order_self _ _ bid_cmp _ _)
  | SELL => exact List.mem_append_right _ (Ladder.add_order_self _ _ ask_cmp _ _)

/-- Every order resting after `match_orders` rested before it, up to fill and status. -/
theorem match_orders_resting (b : OrderBook) (o : Order) (r : MatchResult)
    (h : b.match_orders o = some r) : ∀ x ∈ r.book.resting, ∃ x0 ∈ b.resting, x.Same x0 := by
  have hv := match_orders_view
    (fun _ rem _ => ∀ x ∈ rem, ∃ o0, (x.1, o0) ∈ (b.opposite o.side).entries ∧ x.2.Same o0)
    ?_ ?_ b o r h (fun x hx => ⟨x.2, hx, Order.Same.refl _⟩)
  · obtain ⟨_, _, _, _, hI⟩ := hv
    have hopp : ∀ x ∈ (r.book.opposite o.side).orders,
        ∃ x0 ∈ (b.opposite o.side).orders, x.Same x0 := by
      intro x hx
      rw [← Ladder.entries_orders] at hx
      obtain ⟨y, hy, rfl⟩ := List.mem_map.mp hx
      obtain ⟨o0, h1, h2⟩ := hI y hy
      refine ⟨o0, ?_, h2⟩
      rw [← Ladder.entries_orders]
      exact List.mem_map.mpr ⟨_, h1, rfl⟩
    have hfr := match_orders_frame b o r h
    intro x hx
    cases hside : o.side with
    | BUY =>
      rw [hside] at hopp
      rcases List.mem_append.mp hx with hx | hx
      · rw [(hfr.2.2.1 hside).1] at hx
        exact ⟨x, List.mem_append_left _ hx, Order.Same.refl _⟩
      · obtain ⟨x0, h1, h2⟩ := hopp x hx
        exact ⟨x0, List.mem_append_right _ h1, h2⟩
    | SELL =>
      rw [hside] at hopp
      rcases List.mem_append.mp hx with hx | hx
      · obtain ⟨x0, h1, h2⟩ := hopp x hx
        exact ⟨x0, List.mem_append_left _ h1, h2⟩
      · rw [(hfr.2.2.2.1 hside).1] at hx
        exact ⟨x, List.mem_append_right _ hx, Order.Same.refl _⟩
  · intro inc k r0 rest ms _ _ hI _ x hx
    exact hI x (List.mem_cons_of_mem _ hx)
  · intro inc k r0 rest ms _ _ hI _ x hx
    rcases List.mem_cons.mp hx with hx | hx
    · subst hx
      obtain ⟨o0, h1, h2⟩ := hI (k, r0) (List.mem_cons_self _ _)
      exact ⟨o0, h1, (makerAfter_same _ _ _).trans h2⟩
    · exact hI x (List.mem_cons_of_mem _ hx)

/-- C9. On a known symbol whose book holds no order with the id about to be assigned,
`submit_order` returns that id, and afterwards an order with that id rests in the book
if and only if the order type is `LIMIT` and the crossing left it with
`filled_quantity < quantity`; in that case what rests is the incoming order as the
crossing left it. In particular the unfilled remainder of a `MARKET` order is never
added. For example a market buy of 0.6 against a resting sell of 1.0 at 101 fills 0.6,
leaves no bid, and leaves the sell with 0.4 unfilled at 101. -/
theorem C9_rests_iff_limit_unfilled (e : MatchingEngine) (u : Nat) (sym : String) (p q : ℚ)
    (sd : Side) (t : OrderType) (book : OrderBook)
    (hf : findBook e.order_books sym = some book)
    (hfresh : ∀ x ∈ book.resting, x.order_id ≠ e.next_order_id) :
    (∃ res book1, e.submit_order u sym p q sd t = some res ∧
      findBook res.engine.order_books sym = some book1 ∧
      res.order_id = e.next_order_id ∧
      ((∃ x ∈ book1.resting, x.order_id = res.order_id) ↔
        (t = OrderType.LIMIT ∧ res.order.filled_quantity < res.order.quantity)) ∧
      (t = OrderType.LIMIT → res.order.filled_quantity < res.order.quantity →
        res.order ∈ book1.resting)) ∧
    (marketBuyScenario.map (fun res => res.order.filled_quantity) = some (6 / 10) ∧
      marketBuyScenario.map (fun res => res.order.status) = some Status.FILLED ∧
      marketBuyBook.map (fun b => b.bids.length) = some 0 ∧
      marketBuyBook.map (fun b => b.asks.entries.map
        (fun x => (x.1, x.2.order_id, x.2.quantity - x.2.filled_quantity))) =
        some [(101, 1, 4 / 10)]) := by
  refine ⟨?_, by decide!⟩
  obtain ⟨res, hres⟩ := submit_order_returns e u sym p q sd t
  obtain ⟨r, hm, hid, hord, _, hbooks⟩ := submit_order_known e u sym p q sd t book res hf hres
  have hfind := findBook_setBook_same e.order_books sym book
    (if r.incoming.status ≠ Status.FILLED ∧ t = OrderType.LIMIT then
      r.book.add_order r.incoming else r.book) hf
  rw [← hbooks] at hfind
  have hfr := match_orders_frame book _ r hm
  have hrest := match_orders_resting book _ r hm
  have hold : ∀ x ∈ r.book.resting, x.order_id ≠ e.next_order_id := by
    intro x hx
    obtain ⟨x0, h1, h2⟩ := hrest x hx
    rw [h2.order_id]
    exact hfresh x0 h1
  have hstat : r.incoming.status = Status.FILLED ↔
      r.incoming.filled_quantity ≥ r.incoming.quantity := by
    obtain ⟨inc, h1, _, h3, _⟩ := match_orders_view (fun _ _ _ => True)
      (fun _ _ _ _ _ _ _ _ _ => trivial) (fun _ _ _ _ _ _ _ _ _ => trivial) book _ r hm trivial
    rw [h1, (finalStatus_filled_quantity _).1, (finalStatus_filled_quantity _).2]
    exact finalStatus_filled_iff inc (by rw [h3]; simp [Order.new])
  refine ⟨res, _, hres, hfind, hid, ?_, ?_⟩
  · rw [hid, hord]
    by_cases hc : r.incoming.status ≠ Status.FILLED ∧ t = OrderType.LIMIT
    · rw [if_pos hc]
      constructor
      · intro _
        exact ⟨hc.2, hfr.2.1 hc.1⟩
      · intro _
        exact ⟨r.incoming, book_add_order_self _ _, hfr.1.order_id⟩
    · rw [if_neg hc]
      constructor
      · rintro ⟨x, hx, hxid⟩
        exact absurd hxid (hold x hx)
      · rintro ⟨h1, h2⟩
        exfalso
        apply hc
        refine ⟨fun hs => ?_, h1⟩
        exact absurd h2 (not_lt.mpr (hstat.mp hs))
  · intro h1 h2
    rw [hord] at h2 ⊢
    have hc : r.incoming.status ≠ Status.FILLED ∧ t = OrderType.LIMIT :=
      ⟨fun hs => absurd h2 (not_lt.mpr (hstat.mp hs)), h1⟩
    rw [if_pos hc]
    exact book_add_order_self _ _

/-- Witness of C9 on the sample engine: a limit buy of 1.0 at 99 does not cross the
sell resting at 100. -/
theorem C9_rests_iff_limit_unfilled_witness :
    findBook engineA.order_books "BTCUSDT" = some bookA ∧
    (∀ x ∈ bookA.resting, x.order_id ≠ engineA.next_order_id) ∧
    ((∃ res book1, engineA.submit_order 4 "BTCUSDT" 99 1 Side.BUY OrderType.LIMIT = some res ∧
      findBook res.engine.order_books "BTCUSDT" = some book1 ∧
      res.order_id = engineA.next_order_id ∧
      ((∃ x ∈ book1.resting, x.order_id = res.order_id) ↔
        (OrderType.LIMIT = OrderType.LIMIT ∧
          res.order.filled_quantity < res.order.quantity)) ∧
      (OrderType.LIMIT = OrderType.LIMIT → res.order.filled_quantity < res.order.quantity →
        res.order ∈ book1.resting)) ∧
    (marketBuyScenario.map (fun res => res.order.filled_quantity) = some (6 / 10) ∧
      marketBuyScenario.map (fun res => res.order.status) = some Status.FILLED ∧
      marketBuyBook.map (fun b => b.bids.length) = some 0 ∧
      marketBuyBook.map (fun b => b.asks.entries.map
        (fun x => (x.1, x.2.order_id, x.2.quantity - x.2.filled_quantity))) =
        some [(101, 1, 4 / 10)])) :=
  ⟨by decide!, by decide!,
   C9_rests_iff_limit_unfilled engineA 4 "BTCUSDT" 99 1 Side.BUY OrderType.LIMIT bookA
     (by decide!) (by decide!)⟩

end HighSpeed

/-! ## Advanced engine: claim C10 -/

namespace Advanced

theorem mapFind_mapSet_same {α : Type} (m : List (String × α)) (k : String) (v : α) :
    mapFind (mapSet m k v) k = some v := by
  induction m with
  | nil => simp [mapSet, mapFind]
  | cons x rest ih =>
    obtain ⟨k1, v1⟩ := x
    unfold mapSet
    by_cases h : k1 = k
    · simp [h, mapFind]
    · simp only [h, if_false]
      unfold mapFind
      simp only [h, if_false]
      exact ih

theorem ord_id_ne_empty (n : Nat) : "ORD" ++ toString n ≠ "" := by
  intro h
  have := congrArg String.length h
  simp only [String.length_append] at this
  have h3 : "ORD".length = 3 := by decide
  have h0 : "".length = 0 := by decide
  omega

theorem balanceRef_frame (e : MatchingEngine) (key : String) :
    (e.balanceRef key).2.order_books = e.order_books ∧
    (e.balanceRef key).2.orders = e.orders ∧
    (e.balanceRef key).2.recent_trades = e.recent_trades := by
  unfold MatchingEngine.balanceRef
  cases mapFind e.user_balances key <;> exact ⟨rfl, rfl, rfl⟩

/-- The method `validate_order` touches neither the books, nor the stored orders, nor the
trade log, and it accepts only orders on a symbol that has a book. -/
theorem validate_order_frame (e : MatchingEngine) (o : Order) :
    (e.validate_order o).2.order_books = e.order_books ∧
    (e.validate_order o).2.orders = e.orders ∧
    (e.validate_order o).2.recent_trades = e.recent_trades ∧
    ((e.validate_order o).1 = true → (mapFind e.order_books o.symbol).isNone = false) := by
  unfold MatchingEngine.validate_order
  by_cases h1 : o.quantity ≤ 0
  · simp [h1]
  · by_cases h2 : o.type = OrderType.LIMIT ∧ o.price ≤ 0
    · simp [h1, h2]
    · cases h3 : (mapFind e.order_books o.symbol).isNone with
      | true => simp [h1, h2, h3]
      | false =>
        simp only [h1, h2, h3, if_false, Bool.false_eq_true]
        cases o.side with
        | BUY =>
          have := balanceRef_frame e (o.user_id ++ "_USDT")
          simp only
          split <;> exact ⟨this.1, this.2.1, this.2.2, fun _ => trivial⟩
        | SELL =>
          have := balanceRef_frame e (o.user_id ++ "_" ++ baseAsset o.symbol)
          simp only
          split <;> exact ⟨this.1, this.2.1, this.2.2, fun _ => trivial⟩

theorem sweepStep_frame (s : SweepState) (level : OrderBookLevel) :
    (sweepStep s level).order.id = s.order.id ∧
      (sweepStep s level).order.symbol = s.order.symbol ∧
      (sweepStep s level).engine.order_books = s.engine.order_books ∧
      (sweepStep s level).engine.orders = s.engine.orders :=
  ⟨rfl, rfl, rfl, rfl⟩

theorem sweepLevels_frame (levels : List OrderBookLevel) :
    ∀ s : SweepState, (sweepLevels s levels).order.id = s.order.id ∧
      (sweepLevels s levels).order.symbol = s.order.symbol ∧
      (sweepLevels s levels).engine.order_books = s.engine.order_books ∧
      (sweepLevels s levels).engine.orders = s.engine.orders := by
  induction levels with
  | nil => intro s; exact ⟨rfl, rfl, rfl, rfl⟩
  | cons level rest ih =>
    intro s
    unfold sweepLevels
    by_cases h : s.order.filled_quantity ≥ s.order.quantity
    · rw [if_pos h]; exact ⟨rfl, rfl, rfl, rfl⟩
    · rw [if_neg h]
      have h1 := ih (sweepStep s level)
      have h2 := sweepStep_frame s level
      exact ⟨h1.1.trans h2.1, h1.2.1.trans h2.2.1, h1.2.2.1.trans h2.2.2.1,
        h1.2.2.2.trans h2.2.2.2⟩

theorem marketStatus_frame (o : Order) :
    (marketStatus o).id = o.id ∧ (marketStatus o).symbol = o.symbol := by
  unfold marketStatus
  split
  · exact ⟨rfl, rfl⟩
  · split <;> exact ⟨rfl, rfl⟩

/-- On a symbol that has a book, `process_market_order` returns the id of the order and
leaves a book under the symbol. -/
theorem process_market_order_some (e : MatchingEngine) (o : Order)
    (h : (mapFind e.order_books o.symbol).isNone = false) :
    ∃ r, e.process_market_order o = some r ∧ r.1 = o.id ∧ r.2.1.id = o.id ∧
      r.2.1.symbol = o.symbol ∧ (mapFind r.2.2.order_books o.symbol).isNone = false := by
  unfold MatchingEngine.process_market_order
  cases hb : mapFind e.order_books o.symbol with
  | none => rw [hb] at h; simp at h
  | some book =>
    have hfr := sweepLevels_frame
      (match o.side with
       | OrderSide.BUY => book.get_asks 20
       | OrderSide.SELL => book.get_bids 20) { order := o, engine := e, book := book }
    have hms := marketStatus_frame (sweepLevels { order := o, engine := e, book := book }
      (match o.side with
       | OrderSide.BUY => book.get_asks 20
       | OrderSide.SELL => book.get_bids 20)).order
    refine ⟨_, rfl, hms.1.trans hfr.1, hms.1.trans hfr.1, hms.2.trans hfr.2.1, ?_⟩
    simp only [mapFind_mapSet_same, Option.isNone_some]

theorem restRemainder_frame (e1 : MatchingEngine) (book1 : OrderBook) (o1 : Order) :
    (restRemainder e1 book1 o1).1.id = o1.id ∧
      (restRemainder e1 book1 o1).1.symbol = o1.symbol := by
  unfold restRemainder
  split <;> exact ⟨rfl, rfl⟩

theorem finishLimit_some (o1 : Order) (e1 : MatchingEngine)
    (h : (mapFind e1.order_books o1.symbol).isNone = false) :
    ∃ r, finishLimit o1 e1 = some r ∧ r.1 = o1.id ∧ r.2.1.id = o1.id := by
  unfold finishLimit
  cases hb : mapFind e1.order_books o1.symbol with
  | none => rw [hb] at h; simp at h
  | some book1 =>
    exact ⟨_, rfl, (restRemainder_frame e1 book1 o1).1, (restRemainder_frame e1 book1 o1).1⟩

/-- On a symbol that has a book, `process_limit_order` returns the id of the order. -/
theorem process_limit_order_some (e : MatchingEngine) (o : Order)
    (h : (mapFind e.order_books o.symbol).isNone = false) :
    ∃ r, e.process_limit_order o = some r ∧ r.1 = o.id ∧ r.2.1.id = o.id := by
  unfold MatchingEngine.process_limit_order
  cases hb : mapFind e.order_books o.symbol with
  | none => rw [hb] at h; simp at h
  | some book =>
    by_cases hc : crossesBook book o = true
    · obtain ⟨r0, hr0, _, h2, h3, h4⟩ := process_market_order_some e o h
      simp only [hc, if_true, hr0]
      obtain ⟨r, hr, h5, h6⟩ := finishLimit_some r0.2.1 r0.2.2 (by rw [h3]; exact h4)
      exact ⟨r, hr, h5.trans h2, h6.trans h2⟩
    · simp only [hc, if_false]
      exact finishLimit_some o e h

theorem process_iceberg_order_some (e : MatchingEngine) (o : Order)
    (h : (mapFind e.order_books o.symbol).isNone = false) :
    ∃ r, e.process_iceberg_order o = some r ∧ r.1 = o.id := by
  unfold MatchingEngine.process_iceberg_order
  simp only
  split
  · obtain ⟨r, hr, h1, _⟩ := process_limit_order_some e
      { o with iceberg_qty := o.quantity * (1 / 10),
               quantity := min (o.quantity * (1 / 10)) o.quantity } h
    exact ⟨r, hr, h1⟩
  · obtain ⟨r, hr, h1, _⟩ := process_limit_order_some e
      { o with quantity := min o.iceberg_qty o.quantity } h
    exact ⟨r, hr, h1⟩

theorem process_bracket_order_some (e : MatchingEngine) (o : Order)
    (h : (mapFind e.order_books o.symbol).isNone = false) :
    ∃ r, e.process_bracket_order o = some r ∧ r.1 = o.id := by
  unfold MatchingEngine.process_bracket_order
  obtain ⟨r, hr, h1, _⟩ := process_limit_order_some e o h
  obtain ⟨i0, o1, e1⟩ := r
  simp only [hr]
  simp only at h1
  split
  · exact ⟨_, rfl, h1⟩
  · exact ⟨_, rfl, h1⟩

theorem dispatch_some (e : MatchingEngine) (o : Order)
    (h : (mapFind e.order_books o.symbol).isNone = false) :
    ∃ r, e.dispatch o = some r ∧ r.1 = o.id := by
  unfold MatchingEngine.dispatch
  split
  · obtain ⟨r, hr, h1, _⟩ := process_market_order_some e o h
    exact ⟨r, hr, h1⟩
  · obtain ⟨r, hr, h1, _⟩ := process_limit_order_some e o h
    exact ⟨r, hr, h1⟩
  · exact ⟨_, rfl, rfl⟩
  · exact ⟨_, rfl, rfl⟩
  · exact ⟨_, rfl, rfl⟩
  · exact process_iceberg_order_some e o h
  · exact process_bracket_order_some e o h
  · exact ⟨_, rfl, rfl⟩
  · obtain ⟨r, hr, h1, _⟩ := process_limit_order_some e o h
    exact ⟨r, hr, h1⟩

/-- An order that passes validation is admitted: `place_order` returns its fresh id. -/
theorem place_order_valid (e : MatchingEngine) (o : Order)
    (hv : (e.validate_order o).1 = true) :
    ∃ e1, e.place_order o =
      some ("ORD" ++ toString (e.validate_order o).2.order_id_counter, e1) := by
  have hfr := validate_order_frame e o
  have hbook : (mapFind (e.validate_order o).2.generate_order_id.2.order_books
      o.symbol).isNone = false := by
    show (mapFind (e.validate_order o).2.order_books o.symbol).isNone = false
    rw [hfr.1]; exact hfr.2.2.2 hv
  obtain ⟨r, hr, h1⟩ := dispatch_some (e.validate_order o).2.generate_order_id.2
    { o with id := (e.validate_order o).2.generate_order_id.1,
             status := OrderStatus.OPEN } hbook
  unfold MatchingEngine.place_order
  simp only [hv, Bool.true_eq_false, if_false, hr, Option.map_some']
  exact ⟨_, by rw [h1]; rfl⟩

/-- C10, as the claim states it, fails. In scenario 4 only 3.0 is on offer at prices up
to 100, and the buy of 5.0 at 100 is marked fill or kill; yet `place_order` returns the
id `ORD2`, a trade of 3.0 at 100 is logged, the order is stored as partially filled,
and its remainder of 2.0 is rested on the bid side. -/
theorem C10_counterexample :
    fokOrder.time_in_force = TimeInForce.FOK ∧
    (fokEngine.bind btcBook).map (fun b => (b.bids, b.asks)) = some ([], [(100, 3)]) ∧
    fokEngine.map (fun e => e.recent_trades.length) = some 0 ∧
    fokResult.map (fun x => x.1) = some "ORD2" ∧
    fokResult.map (fun x => x.2.recent_trades.map (fun t => (t.quantity, t.price))) =
      some [(3, 100)] ∧
    (fokResult.bind (fun x => btcBook x.2)).map (fun b => (b.bids, b.asks)) =
      some ([(100, 2)], [(100, 3)]) ∧
    (fokResult.bind (fun x => mapFind x.2.orders "ORD2")).map
      (fun o => (o.status, o.filled_quantity)) = some (OrderStatus.PARTIALLY_FILLED, 3) := by
  decide!

/-- C10, amended. The method `place_order` never consults `time_in_force`: the verdict
of `validate_order` on an order marked `FOK` is the verdict on the same order without
the mark, and `place_order` always returns. For every order marked `FOK` it returns the
empty id exactly when `validate_order` rejects the order (quantity not positive, `LIMIT`
price not positive, no book for the symbol, or balance too small), whether or not the
order could be filled in full; whenever it returns the empty id, the order books, the
stored orders and the trade log are those before the call. -/
theorem C10_fok_only_validated (e : MatchingEngine) (o : Order) :
    e.validate_order { o with time_in_force := TimeInForce.FOK } = e.validate_order o ∧
    ∃ id e1, e.place_order { o with time_in_force := TimeInForce.FOK } = some (id, e1) ∧
      (id = "" ↔ (e.validate_order { o with time_in_force := TimeInForce.FOK }).1 = false) ∧
      (id = "" → e1.order_books = e.order_books ∧ e1.orders = e.orders ∧
        e1.recent_trades = e.recent_trades) := by
  refine ⟨rfl, ?_⟩
  have hfr := validate_order_frame e { o with time_in_force := TimeInForce.FOK }
  cases hv : (e.validate_order { o with time_in_force := TimeInForce.FOK }).1 with
  | false =>
    refine ⟨"", (e.validate_order { o with time_in_force := TimeInForce.FOK }).2, ?_, by simp,
      fun _ => ⟨hfr.1, hfr.2.1, hfr.2.2.1⟩⟩
    unfold MatchingEngine.place_order
    simp only [hv, if_true]
  | true =>
    obtain ⟨e1, he1⟩ := place_order_valid e _ hv
    refine ⟨_, e1, he1, ?_, ?_⟩
    · constructor
      · intro h; exact absurd h (ord_id_ne_empty _)
      · intro h; exact absurd h (by simp)
    · intro h; exact absurd h (ord_id_ne_empty _)

end Advanced


/-! ## Advanced engine: what the order processors change -/

namespace Advanced

theorem mapFind_mapSet_ne {α : Type} (m : List (String × α)) (k k1 : String) (v : α)
    (h : k1 ≠ k) : mapFind (mapSet m k v) k1 = mapFind m k1 := by
  induction m with
  | nil =>
    unfold mapSet mapFind
    rw [if_neg (Ne.symm h)]
    rfl
  | cons x rest ih =>
    obtain ⟨k2, v2⟩ := x
    unfold mapSet
    by_cases h2 : k2 = k
    · rw [if_pos h2]
      unfold mapFind
      rw [if_neg (by rw [h2]; exact Ne.symm h), if_neg (by rw [h2]; exact Ne.symm h)]
    · rw [if_neg h2]
      unfold mapFind
      by_cases h3 : k2 = k1
      · rw [if_pos h3, if_pos h3]
      · rw [if_neg h3, if_neg h3]
        exact ih

theorem mapFind_mapSet_isSome {α : Type} (m : List (String × α)) (k k1 : String) (v : α)
    (h : (mapFind m k).isSome = true) :
    (mapFind (mapSet m k v) k1).isSome = (mapFind m k1).isSome := by
  by_cases hk : k1 = k
  · rw [hk, mapFind_mapSet_same, h]
    rfl
  · rw [mapFind_mapSet_ne m k k1 v hk]

theorem mapSet_mapSet {α : Type} (m : List (String × α)) (k : String) (v w : α) :
    mapSet (mapSet m k v) k w = mapSet m k w := by
  induction m with
  | nil => simp [mapSet]
  | cons x rest ih =>
    obtain ⟨k2, v2⟩ := x
    by_cases h2 : k2 = k
    · simp only [mapSet, h2, if_true]
    · simp only [mapSet, h2, if_false, ih]

theorem mapFind_mem {α : Type} (m : List (String × α)) (k : String) (v : α)
    (h : mapFind m k = some v) : (k, v) ∈ m := by
  induction m with
  | nil => simp [mapFind] at h
  | cons x rest ih =>
    obtain ⟨k2, v2⟩ := x
    unfold mapFind at h
    by_cases h2 : k2 = k
    · rw [if_pos h2] at h
      cases h
      rw [h2]
      exact List.mem_cons_self _ _
    · rw [if_neg h2] at h
      exact List.mem_cons_of_mem _ (ih h)

theorem mem_mapSet {α : Type} (m : List (String × α)) (k : String) (v : α)
    (p : String × α) (h : p ∈ mapSet m k v) : p ∈ m ∨ p = (k, v) := by
  induction m with
  | nil =>
    simp only [mapSet, List.mem_singleton] at h
    exact Or.inr h
  | cons x rest ih =>
    obtain ⟨k2, v2⟩ := x
    unfold mapSet at h
    by_cases h2 : k2 = k
    · rw [if_pos h2] at h
      rcases List.mem_cons.mp h with h3 | h3
      · right; rw [h3, h2]
      · left; exact List.mem_cons_of_mem _ h3
    · rw [if_neg h2] at h
      rcases List.mem_cons.mp h with h3 | h3
      · left; rw [h3]; exact List.mem_cons_self _ _
      · rcases ih h3 with h4 | h4
        · left; exact List.mem_cons_of_mem _ h4
        · right; exact h4

theorem sweepLevels_shape (levels : List OrderBookLevel) :
    ∀ s : SweepState, ∃ f tr tc lp v,
      (∀ t ∈ tr, TakerTrade s.order t) ∧
      sweepLevels s levels =
        { order := { s.order with filled_quantity := f },
          engine := { s.engine with recent_trades := s.engine.recent_trades ++ tr,
                                    trade_id_counter := tc },
          book := { s.book with last_price := lp, volume_24h := v } } := by
  induction levels with
  | nil =>
    intro s
    refine ⟨s.order.filled_quantity, [], s.engine.trade_id_counter, s.book.last_price,
      s.book.volume_24h, ?_, ?_⟩
    · intro t ht; cases ht
    · simp [sweepLevels]
  | cons level rest ih =>
    intro s
    unfold sweepLevels
    by_cases h : s.order.filled_quantity ≥ s.order.quantity
    · rw [if_pos h]
      refine ⟨s.order.filled_quantity, [], s.engine.trade_id_counter, s.book.last_price,
        s.book.volume_24h, ?_, ?_⟩
      · intro t ht; cases ht
      · simp
    · rw [if_neg h]
      obtain ⟨f, tr, tc, lp, v, htr, heq⟩ := ih (sweepStep s level)
      refine ⟨f,
        (match s.order.side with
         | OrderSide.BUY =>
           Trade.new s.engine.generate_trade_id.1 s.order.id "ASK_ORDER" s.order.symbol
             (min level.quantity (s.order.quantity - s.order.filled_quantity)) level.price
         | OrderSide.SELL =>
           Trade.new s.engine.generate_trade_id.1 "BID_ORDER" s.order.id s.order.symbol
             (min level.quantity (s.order.quantity - s.order.filled_quantity)) level.price)
          :: tr, tc, lp, v, ?_, ?_⟩
      rotate_left
      · rw [heq]
        simp only [sweepStep, MatchingEngine.generate_trade_id, List.append_assoc,
          List.singleton_append]
      · intro t ht
        rcases List.mem_cons.mp ht with h1 | h1
        · rw [h1]
          unfold TakerTrade
          cases hs : s.order.side <;> simp [Trade.new]
        · exact htr t h1

end Advanced

/-! ## Advanced engine: `process_market_order` and `process_limit_order` -/

namespace Advanced

theorem marketStatus_shape (o : Order) :
    ∃ st, marketStatus o = { o with status := st } ∧
      (st = o.status ∨ st = OrderStatus.PARTIALLY_FILLED ∨ st = OrderStatus.FILLED) := by
  unfold marketStatus
  split
  · exact ⟨_, rfl, Or.inr (Or.inr rfl)⟩
  · split
    · exact ⟨_, rfl, Or.inr (Or.inl rfl)⟩
    · exact ⟨o.status, rfl, Or.inl rfl⟩

/-- The method `process_market_order` on a symbol that has a book: it returns, the order
keeps all but its fill and status, the book keeps all but `last_price` and `volume_24h`,
the order is stored under its id, and the new trades carry the id of the order on its
own side and a fixed string on the other. -/
theorem process_market_order_shape (e : MatchingEngine) (o : Order) (book : OrderBook)
    (hb : mapFind e.order_books o.symbol = some book) :
    ∃ f st tr tc lp v,
      (st = o.status ∨ st = OrderStatus.PARTIALLY_FILLED ∨ st = OrderStatus.FILLED) ∧
      (∀ t ∈ tr, TakerTrade o t) ∧
      e.process_market_order o =
        some (o.id, { o with filled_quantity := f, status := st },
          { e with
              order_books := mapSet e.order_books o.symbol
                { book with last_price := lp, volume_24h := v },
              orders := mapSet e.orders o.id { o with filled_quantity := f, status := st },
              recent_trades := e.recent_trades ++ tr,
              trade_id_counter := tc }) := by
  obtain ⟨f, tr, tc, lp, v, htr, heq⟩ := sweepLevels_shape
    (match o.side with
     | OrderSide.BUY => book.get_asks 20
     | OrderSide.SELL => book.get_bids 20) { order := o, engine := e, book := book }
  obtain ⟨st, hst, hcases⟩ := marketStatus_shape { o with filled_quantity := f }
  refine ⟨f, st, tr, tc, lp, v, hcases, htr, ?_⟩
  unfold MatchingEngine.process_market_order
  rw [hb]
  simp only
  rw [heq]
  simp only
  rw [hst]

theorem process_market_order_processed (e : MatchingEngine) (o : Order)
    (hb : (mapFind e.order_books o.symbol).isSome = true) :
    ∃ r, e.process_market_order o = some r ∧ Processed e o r := by
  cases hbk : mapFind e.order_books o.symbol with
  | none => rw [hbk] at hb; cases hb
  | some book =>
    obtain ⟨f, st, tr, tc, lp, v, hst, _, heq⟩ := process_market_order_shape e o book hbk
    refine ⟨_, heq, rfl, ⟨f, st, rfl, ?_⟩, ?_, rfl, ⟨tr, rfl⟩, rfl, rfl, rfl, rfl⟩
    · rcases hst with h | h | h
      · exact Or.inl h
      · exact Or.inr (Or.inr (Or.inl h))
      · exact Or.inr (Or.inr (Or.inr h))
    · intro sym
      exact mapFind_mapSet_isSome _ _ _ _ hb

theorem finishLimit_processed (e : MatchingEngine) (o : Order)
    (hb : (mapFind e.order_books o.symbol).isSome = true) :
    ∃ r, finishLimit o e = some r ∧ Processed e o r := by
  cases hbk : mapFind e.order_books o.symbol with
  | none => rw [hbk] at hb; cases hb
  | some book =>
    unfold finishLimit
    rw [hbk]
    simp only
    unfold restRemainder
    by_cases hf : o.filled_quantity < o.quantity
    · rw [if_pos hf]
      refine ⟨_, rfl, rfl, ⟨o.filled_quantity, _, rfl, ?_⟩, ?_, rfl, ⟨[], by simp⟩, rfl, rfl,
        rfl, rfl⟩
      · by_cases hp : o.filled_quantity > 0
        · rw [if_pos hp]; exact Or.inr (Or.inr (Or.inl rfl))
        · rw [if_neg hp]; exact Or.inr (Or.inl rfl)
      · intro sym
        exact mapFind_mapSet_isSome _ _ _ _ hb
    · rw [if_neg hf]
      exact ⟨_, rfl, rfl, ⟨o.filled_quantity, o.status, rfl, Or.inl rfl⟩, fun _ => rfl, rfl,
        ⟨[], by simp⟩, rfl, rfl, rfl, rfl⟩

theorem processed_trans (e e1 : MatchingEngine) (o : Order)
    (r1 r2 : String × Order × MatchingEngine) (h1 : Processed e o r1) (he : r1.2.2 = e1)
    (h2 : Processed e1 r1.2.1 r2) : Processed e o r2 := by
  subst he
  obtain ⟨a1, ⟨f1, st1, a2, a3⟩, a4, a5, ⟨tr1, a6⟩, a7, a8, a9, a10⟩ := h1
  obtain ⟨b1, ⟨f2, st2, b2, b3⟩, b4, b5, ⟨tr2, b6⟩, b7, b8, b9, b10⟩ := h2
  have hid : r1.2.1.id = o.id := by rw [a2]
  refine ⟨by rw [b1, hid], ⟨f2, st2, ?_, ?_⟩, ?_, ?_, ⟨tr1 ++ tr2, ?_⟩, by rw [b7, a7],
    by rw [b8, a8], by rw [b9, a9], by rw [b10, a10]⟩
  · rw [b2, a2]
  · rw [a2] at b3
    rcases b3 with h | h | h | h
    · rw [h]; exact a3
    · exact Or.inr (Or.inl h)
    · exact Or.inr (Or.inr (Or.inl h))
    · exact Or.inr (Or.inr (Or.inr h))
  · intro sym; rw [b4, a4]
  · rw [b5, a5, hid, mapSet_mapSet]
  · rw [b6, a6, List.append_assoc]

/-- On a symbol that has a book, `process_limit_order` returns and leaves the engine as
described by `Processed`. -/
theorem process_limit_order_processed (e : MatchingEngine) (o : Order)
    (hb : (mapFind e.order_books o.symbol).isSome = true) :
    ∃ r, e.process_limit_order o = some r ∧ Processed e o r := by
  cases hbk : mapFind e.order_books o.symbol with
  | none => rw [hbk] at hb; cases hb
  | some book =>
    unfold MatchingEngine.process_limit_order
    rw [hbk]
    simp only
    by_cases hc : crossesBook book o = true
    · rw [if_pos hc]
      obtain ⟨r0, hr0, hp0⟩ := process_market_order_processed e o hb
      rw [hr0]
      simp only
      have hsym : r0.2.1.symbol = o.symbol := by
        obtain ⟨_, ⟨f, st, h, _⟩, _⟩ := hp0
        rw [h]
      have hb1 : (mapFind r0.2.2.order_books r0.2.1.symbol).isSome = true := by
        rw [hp0.2.2.1, hsym]; exact hb
      obtain ⟨r, hr, hp⟩ := finishLimit_processed r0.2.2 r0.2.1 hb1
      exact ⟨r, hr, processed_trans e r0.2.2 o r0 r hp0 rfl hp⟩
    · rw [if_neg hc]
      exact finishLimit_processed e o hb

end Advanced

/-! ## Advanced engine: claims C11, C12 and C13 -/

namespace Advanced

/-- C11, the code at the failing input. With 3.0 offered at 100 and 3.0 at 105, the buy
limit of 5.0 at 100 is admitted as `ORD3` and is filled by two trades: 3.0 at 100 and
2.0 at 105, a price above its limit; the sweep does not stop at the level priced 105. -/
theorem C11_limit_buy_trades_above_limit :
    (twoLevelResult.bind (fun e => mapFind e.orders "ORD3")).map
      (fun o => (o.type, o.side, o.price, o.status)) =
      some (OrderType.LIMIT, OrderSide.BUY, 100, OrderStatus.FILLED) ∧
    twoLevelResult.map
      (fun e => e.recent_trades.map (fun t => (t.buy_order_id, t.quantity, t.price))) =
      some [("ORD3", 3, 100), ("ORD3", 2, 105)] := by
  decide!

/-- C12, as the claim states it, fails. After a sell limit of 1.0 at 100 and a buy limit
of 1.0 at 100 one trade of 1.0 at 100 is logged and the buy order `ORD2` is `FILLED`,
but the sell order `ORD1` is still `OPEN` with nothing filled and the ask level of 1.0
at 100 is still in the book. -/
theorem C12_counterexample :
    crossResult.map (fun e => e.recent_trades.map (fun t => (t.quantity, t.price))) =
      some [(1, 100)] ∧
    (crossResult.bind (fun e => mapFind e.orders "ORD2")).map
      (fun o => (o.status, o.filled_quantity)) = some (OrderStatus.FILLED, 1) ∧
    (crossResult.bind (fun e => mapFind e.orders "ORD1")).map
      (fun o => (o.status, o.filled_quantity)) = some (OrderStatus.OPEN, 0) ∧
    (crossResult.bind btcBook).map (fun b => (b.bids, b.asks)) = some ([], [(100, 1)]) := by
  decide!

/-- C12, amended. Crossing an incoming order, which is the method `process_market_order`
also for a limit order, returns on every symbol that has a book and changes no price
level and no resting order: both ladders of the book of the symbol are as before, the
books of the other symbols are as before, and every stored order other than the incoming
one is as before; the incoming order is stored with its new fill and status. In
particular, after a sell limit of 1.0 at 100 followed by a buy limit of 1.0 at 100 the
buy order is `FILLED`, the sell order is still `OPEN`, and the ask level of 1.0 at 100 is
still in the book. -/
theorem C12_crossing_leaves_book (e : MatchingEngine) (o : Order) (book : OrderBook)
    (hb : mapFind e.order_books o.symbol = some book) :
    (∃ r, e.process_market_order o = some r ∧
      (∃ book1, mapFind r.2.2.order_books o.symbol = some book1 ∧
        book1.bids = book.bids ∧ book1.asks = book.asks) ∧
      (∀ sym, sym ≠ o.symbol → mapFind r.2.2.order_books sym = mapFind e.order_books sym) ∧
      (∀ id, id ≠ o.id → mapFind r.2.2.orders id = mapFind e.orders id) ∧
      mapFind r.2.2.orders o.id = some r.2.1) ∧
    (crossResult.bind (fun e => mapFind e.orders "ORD2")).map (fun o => o.status) =
      some OrderStatus.FILLED ∧
    (crossResult.bind (fun e => mapFind e.orders "ORD1")).map (fun o => o.status) =
      some OrderStatus.OPEN ∧
    (crossResult.bind btcBook).map (fun b => b.asks) = some [(100, 1)] := by
  obtain ⟨f, st, tr, tc, lp, v, _, _, heq⟩ := process_market_order_shape e o book hb
  refine ⟨⟨_, heq, ⟨_, mapFind_mapSet_same _ _ _, rfl, rfl⟩, ?_, ?_,
    mapFind_mapSet_same _ _ _⟩, by decide!, by decide!, by decide!⟩
  · intro sym hs
    exact mapFind_mapSet_ne _ _ _ _ hs
  · intro id hid
    exact mapFind_mapSet_ne _ _ _ _ hid

/-- C12, the amended statement at the crossing of the buy limit of 1.0 at 100 with the
book that holds the sell limit of 1.0 at 100. -/
theorem C12_crossing_leaves_book_witness :
    ∃ e book, crossEngine = some e ∧ mapFind e.order_books crossBuy.symbol = some book ∧
      book.asks = [(100, 1)] ∧
      ∃ r, e.process_market_order crossBuy = some r ∧
        (∃ book1, mapFind r.2.2.order_books crossBuy.symbol = some book1 ∧
          book1.bids = book.bids ∧ book1.asks = book.asks) ∧
        (∀ sym, sym ≠ crossBuy.symbol →
          mapFind r.2.2.order_books sym = mapFind e.order_books sym) ∧
        (∀ id, id ≠ crossBuy.id → mapFind r.2.2.orders id = mapFind e.orders id) ∧
        mapFind r.2.2.orders crossBuy.id = some r.2.1 := by
  have h1 : crossEngine.isSome = true := by decide!
  have h2 : ((crossEngine.bind btcBook).map (fun b => b.asks)) = some [(100, 1)] := by decide!
  cases he : crossEngine with
  | none => rw [he] at h1; cases h1
  | some e =>
    rw [he] at h2
    cases hbk : btcBook e with
    | none => simp [hbk] at h2
    | some book =>
      have h3 : book.asks = [(100, 1)] := by simpa [hbk] using h2
      exact ⟨e, book, rfl, hbk, h3, (C12_crossing_leaves_book e crossBuy book hbk).1⟩

/-- C13, as the claim states it, fails. The trade logged when the buy limit `ORD2`
crosses the resting sell limit `ORD1` names `ORD2` as buyer and the string `ASK_ORDER`
as seller; `ORD1` is stored, and no order is stored under `ASK_ORDER`. -/
theorem C13_counterexample :
    crossResult.map
      (fun e => e.recent_trades.map (fun t => (t.buy_order_id, t.sell_order_id))) =
      some [("ORD2", "ASK_ORDER")] ∧
    crossResult.map (fun e => e.orders.map (fun x => x.1)) = some ["ORD1", "ORD2"] ∧
    crossResult.map (fun e => (mapFind e.orders "ASK_ORDER").isSome) = some false := by
  decide!

/-- C13, amended. Trades are appended to `recent_trades` by `process_market_order`,
which returns on every symbol that has a book. Every trade it appends carries the id of
the incoming order on the side of that order (`buy_order_id` for a buy, `sell_order_id`
for a sell), and when the call returns the incoming order is stored under that id; on
the maker side the trade carries the fixed string `ASK_ORDER` (for a buy) or `BID_ORDER`
(for a sell). -/
theorem C13_trade_names_taker_only (e : MatchingEngine) (o : Order) (book : OrderBook)
    (hb : mapFind e.order_books o.symbol = some book) :
    ∃ r tr, e.process_market_order o = some r ∧
      r.2.2.recent_trades = e.recent_trades ++ tr ∧
      (∀ t ∈ tr,
        (o.side = OrderSide.BUY → t.buy_order_id = o.id ∧ t.sell_order_id = "ASK_ORDER") ∧
        (o.side = OrderSide.SELL → t.sell_order_id = o.id ∧ t.buy_order_id = "BID_ORDER")) ∧
      (mapFind r.2.2.orders o.id).isSome = true := by
  obtain ⟨f, st, tr, tc, lp, v, _, htr, heq⟩ := process_market_order_shape e o book hb
  refine ⟨_, tr, heq, rfl, htr, ?_⟩
  simp only [mapFind_mapSet_same, Option.isSome_some]

/-- C13, the amended statement at a market buy of 1.0 on the book that holds the sell
limit of 1.0 at 100. -/
theorem C13_trade_names_taker_only_witness :
    ∃ e book, crossEngine = some e ∧ mapFind e.order_books "BTCUSDT" = some book ∧
      ∃ r tr, e.process_market_order
          (Order.new "ORD2" "user1" "BTCUSDT" OrderType.MARKET OrderSide.BUY 1 0) = some r ∧
        r.2.2.recent_trades = e.recent_trades ++ tr ∧
        (∀ t ∈ tr, (OrderSide.BUY = OrderSide.BUY →
            t.buy_order_id = "ORD2" ∧ t.sell_order_id = "ASK_ORDER") ∧
          (OrderSide.BUY = OrderSide.SELL →
            t.sell_order_id = "ORD2" ∧ t.buy_order_id = "BID_ORDER")) ∧
        (mapFind r.2.2.orders "ORD2").isSome = true := by
  have h1 : (crossEngine.bind btcBook).isSome = true := by decide!
  cases he : crossEngine with
  | none => rw [he] at h1; cases h1
  | some e =>
    rw [he] at h1
    cases hbk : btcBook e with
    | none => rw [Option.some_bind, hbk] at h1; cases h1
    | some book =>
      exact ⟨e, book, rfl, hbk, C13_trade_names_taker_only e
        (Order.new "ORD2" "user1" "BTCUSDT" OrderType.MARKET OrderSide.BUY 1 0) book hbk⟩

end Advanced

/-! ## Advanced engine: claims C14, C15 and C16 -/

namespace Advanced

theorem balanceRef_fst (e : MatchingEngine) (key : String) :
    (e.balanceRef key).1 = balanceOf e key := by
  unfold MatchingEngine.balanceRef balanceOf
  cases mapFind e.user_balances key <;> rfl

theorem balanceRef_balanceOf (e : MatchingEngine) (key key1 : String) :
    balanceOf (e.balanceRef key).2 key1 = balanceOf e key1 := by
  unfold MatchingEngine.balanceRef
  cases h : mapFind e.user_balances key with
  | some v => rfl
  | none =>
    unfold balanceOf
    simp only
    by_cases hk : key1 = key
    · rw [hk, mapFind_mapSet_same, h]; rfl
    · rw [mapFind_mapSet_ne _ _ _ _ hk]

theorem balanceRef_counter (e : MatchingEngine) (key : String) :
    (e.balanceRef key).2.order_id_counter = e.order_id_counter ∧
    (e.balanceRef key).2.bracket_orders = e.bracket_orders := by
  unfold MatchingEngine.balanceRef
  cases mapFind e.user_balances key <;> exact ⟨rfl, rfl⟩

/-- The method `validate_order` leaves every balance, the order counter and the bracket
table as they were. -/
theorem validate_order_balances (e : MatchingEngine) (o : Order) :
    (∀ key, balanceOf (e.validate_order o).2 key = balanceOf e key) ∧
    (e.validate_order o).2.order_id_counter = e.order_id_counter ∧
    (e.validate_order o).2.bracket_orders = e.bracket_orders := by
  unfold MatchingEngine.validate_order
  split
  · exact ⟨fun _ => rfl, rfl, rfl⟩
  · split
    · exact ⟨fun _ => rfl, rfl, rfl⟩
    · split
      · exact ⟨fun _ => rfl, rfl, rfl⟩
      · cases o.side with
        | BUY =>
          simp only
          split <;>
            exact ⟨fun key => balanceRef_balanceOf e _ key, (balanceRef_counter e _).1,
              (balanceRef_counter e _).2⟩
        | SELL =>
          simp only
          split <;>
            exact ⟨fun key => balanceRef_balanceOf e _ key, (balanceRef_counter e _).1,
              (balanceRef_counter e _).2⟩

/-- The order `process_bracket_order` hands to `process_limit_order` is processed as any
limit order; then the two children get the next two ids, copy the processed order with
the opposite side, and are stored, and the pair of their ids is filed under the id of
the parent. -/
theorem process_bracket_order_shape (e : MatchingEngine) (o : Order)
    (hb : (mapFind e.order_books o.symbol).isSome = true) :
    ∃ o1 e1, Processed e o (o.id, o1, e1) ∧
      e.process_bracket_order o = some (o.id, o1,
        if o.id ≠ "" then
          { e1 with
              order_id_counter := ((e1.order_id_counter + 1) % 2 ^ 64 + 1) % 2 ^ 64,
              bracket_orders := mapSet e1.bracket_orders o.id
                ["ORD" ++ toString e1.order_id_counter,
                 "ORD" ++ toString ((e1.order_id_counter + 1) % 2 ^ 64)],
              orders := mapSet
                (mapSet e1.orders ("ORD" ++ toString e1.order_id_counter)
                  { o1 with id := "ORD" ++ toString e1.order_id_counter,
                            type := OrderType.STOP_LOSS,
                            side := (match o1.side with
                              | OrderSide.BUY => OrderSide.SELL
                              | OrderSide.SELL => OrderSide.BUY),
                            parent_order_id := o.id })
                ("ORD" ++ toString ((e1.order_id_counter + 1) % 2 ^ 64))
                { o1 with id := "ORD" ++ toString ((e1.order_id_counter + 1) % 2 ^ 64),
                          type := OrderType.TAKE_PROFIT,
                          side := (match o1.side with
                            | OrderSide.BUY => OrderSide.SELL
                            | OrderSide.SELL => OrderSide.BUY),
                          parent_order_id := o.id } }
        else e1) := by
  obtain ⟨r, hr, hp⟩ := process_limit_order_processed e o hb
  obtain ⟨i, o1, e1⟩ := r
  have hi : i = o.id := hp.1
  subst hi
  refine ⟨o1, e1, hp, ?_⟩
  unfold MatchingEngine.process_bracket_order
  rw [hr]
  simp only
  by_cases hid : o.id ≠ ""
  · rw [if_pos hid, if_pos hid]
    rfl
  · rw [if_neg hid, if_neg hid]

/-- On a symbol that has a book the `switch` of `place_order` returns and leaves every
balance as it was. -/
theorem dispatch_balances (e : MatchingEngine) (o : Order)
    (hb : (mapFind e.order_books o.symbol).isSome = true) :
    ∃ r, e.dispatch o = some r ∧ r.2.2.user_balances = e.user_balances := by
  have hlim : ∃ r, e.process_limit_order o = some r ∧
      r.2.2.user_balances = e.user_balances := by
    obtain ⟨r, hr, hp⟩ := process_limit_order_processed e o hb
    exact ⟨r, hr, hp.2.2.2.2.2.2.1⟩
  unfold MatchingEngine.dispatch
  split
  · obtain ⟨r, hr, hp⟩ := process_market_order_processed e o hb
    exact ⟨r, hr, hp.2.2.2.2.2.2.1⟩
  · exact hlim
  · exact ⟨_, rfl, rfl⟩
  · exact ⟨_, rfl, rfl⟩
  · exact ⟨_, rfl, rfl⟩
  · unfold MatchingEngine.process_iceberg_order
    simp only
    obtain ⟨r, hr, hp⟩ := process_limit_order_processed e
      { (if o.iceberg_qty ≤ 0 then { o with iceberg_qty := o.quantity * (1 / 10) } else o) with
        quantity := min
          (if o.iceberg_qty ≤ 0 then { o with iceberg_qty := o.quantity * (1 / 10) }
            else o).iceberg_qty
          (if o.iceberg_qty ≤ 0 then { o with iceberg_qty := o.quantity * (1 / 10) }
            else o).quantity }
      (by split <;> exact hb)
    exact ⟨r, hr, hp.2.2.2.2.2.2.1⟩
  · obtain ⟨o1, e1, hp, heq⟩ := process_bracket_order_shape e o hb
    refine ⟨_, heq, ?_⟩
    have h1 : e1.user_balances = e.user_balances := hp.2.2.2.2.2.2.1
    split
    · exact h1
    · exact h1
  · exact ⟨_, rfl, rfl⟩
  · exact hlim

/-- C14, as the claim states it, fails. On a fresh engine an `ICEBERG` buy of 1.0 at
price 0 is admitted as `ORD1`, stored, and its visible part of 0.1 is rested on the bid
side at price 0; a `STOP_LIMIT` buy of 1.0 at price -5 is admitted as `ORD1` and
stored. -/
theorem C14_counterexample :
    icebergAtZero.type = OrderType.ICEBERG ∧ icebergAtZero.price ≤ 0 ∧
    (MatchingEngine.new.place_order icebergAtZero).map (fun x => x.1) = some "ORD1" ∧
    (MatchingEngine.new.place_order icebergAtZero).map
      (fun x => x.2.orders.map (fun y => (y.1, y.2.type, y.2.price))) =
      some [("ORD1", OrderType.ICEBERG, 0)] ∧
    ((MatchingEngine.new.place_order icebergAtZero).bind (fun x => btcBook x.2)).map
      (fun b => b.bids) = some [(0, 1 / 10)] ∧
    stopLimitBelowZero.type = OrderType.STOP_LIMIT ∧ stopLimitBelowZero.price ≤ 0 ∧
    (MatchingEngine.new.place_order stopLimitBelowZero).map
      (fun x => (x.1, x.2.orders.map (fun y => (y.1, y.2.type, y.2.price)))) =
      some ("ORD1", [("ORD1", OrderType.STOP_LIMIT, -5)]) := by
  decide!

/-- C14, amended. The method `place_order` rejects every order whose quantity is not
positive, whatever its type, and every order of type `LIMIT` whose price is not
positive: it returns the empty id and leaves the whole engine, so the order map, the
order books and the trade log, as it was. -/
theorem C14_rejects_quantity_and_limit_price (e : MatchingEngine) (o : Order)
    (h : o.quantity ≤ 0 ∨ (o.type = OrderType.LIMIT ∧ o.price ≤ 0)) :
    e.place_order o = some ("", e) := by
  have hv : e.validate_order o = (false, e) := by
    unfold MatchingEngine.validate_order
    by_cases h1 : o.quantity ≤ 0
    · rw [if_pos h1]
    · rw [if_neg h1]
      rcases h with h | h
      · exact absurd h h1
      · rw [if_pos h]
  unfold MatchingEngine.place_order
  simp only [hv, if_true]

/-- C14, the amended statement at an `ICEBERG` order of quantity 0 and at a `LIMIT`
order of price 0, both on the funded engine. -/
theorem C14_rejects_quantity_and_limit_price_witness :
    fundedEngine.place_order
        (Order.new "" "user1" "BTCUSDT" OrderType.ICEBERG OrderSide.BUY 0 100) =
      some ("", fundedEngine) ∧
    fundedEngine.place_order
        (Order.new "" "user1" "BTCUSDT" OrderType.LIMIT OrderSide.BUY 1 0) =
      some ("", fundedEngine) :=
  ⟨C14_rejects_quantity_and_limit_price fundedEngine _ (Or.inl (le_refl (0 : ℚ))),
   C14_rejects_quantity_and_limit_price fundedEngine _ (Or.inr ⟨rfl, le_refl (0 : ℚ)⟩)⟩

theorem validate_order_unfunded (e : MatchingEngine) (o : Order)
    (h : (o.side = OrderSide.BUY ∧ balanceOf e (o.user_id ++ "_USDT") < o.quantity * o.price) ∨
      (o.side = OrderSide.SELL ∧
        balanceOf e (o.user_id ++ "_" ++ baseAsset o.symbol) < o.quantity) ∨
      mapFind e.order_books o.symbol = none) :
    (e.validate_order o).1 = false := by
  unfold MatchingEngine.validate_order
  split
  · rfl
  · split
    · rfl
    · split
      · rfl
      · rename_i hbook
        rcases h with ⟨hs, hlt⟩ | ⟨hs, hlt⟩ | hnone
        · rw [hs]
          simp only
          rw [balanceRef_fst, if_pos hlt]
        · rw [hs]
          simp only
          rw [balanceRef_fst, if_pos hlt]
        · rw [hnone] at hbook
          exact absurd rfl hbook

/-- C15. The method `place_order` rejects every `BUY` order whose quantity times price
exceeds the USDT balance of the user, every `SELL` order whose quantity exceeds the
balance of the user in the base asset of the symbol, and every order on a symbol without
a book: it returns the empty id, and the stored orders, the order books and the trade
log are as before. A balance that was never set counts as 0. -/
theorem C15_rejects_unfunded_and_unknown (e : MatchingEngine) (o : Order)
    (h : (o.side = OrderSide.BUY ∧ balanceOf e (o.user_id ++ "_USDT") < o.quantity * o.price) ∨
      (o.side = OrderSide.SELL ∧
        balanceOf e (o.user_id ++ "_" ++ baseAsset o.symbol) < o.quantity) ∨
      mapFind e.order_books o.symbol = none) :
    ∃ e1, e.place_order o = some ("", e1) ∧ e1.orders = e.orders ∧
      e1.order_books = e.order_books ∧ e1.recent_trades = e.recent_trades := by
  have hv := validate_order_unfunded e o h
  have hfr := validate_order_frame e o
  refine ⟨(e.validate_order o).2, ?_, hfr.2.1, hfr.1, hfr.2.2.1⟩
  unfold MatchingEngine.place_order
  simp only [hv, if_true]

/-- C15 at three orders on the funded engine, where `user1` holds 100000 USDT and no
BTC: a buy of 2000 at 100, a sell of 1 at 100, and a buy on the unknown symbol `XYZ`. -/
theorem C15_rejects_unfunded_and_unknown_witness :
    balanceOf fundedEngine "user1_USDT" = 100000 ∧
    baseAsset "BTCUSDT" = "BTC" ∧ balanceOf fundedEngine "user1_BTC" = 0 ∧
    mapFind fundedEngine.order_books "XYZ" = none ∧
    (∃ e1, fundedEngine.place_order
        (Order.new "" "user1" "BTCUSDT" OrderType.LIMIT OrderSide.BUY 2000 100) =
        some ("", e1) ∧ e1.orders = fundedEngine.orders ∧
      e1.order_books = fundedEngine.order_books ∧
      e1.recent_trades = fundedEngine.recent_trades) ∧
    (∃ e1, fundedEngine.place_order
        (Order.new "" "user1" "BTCUSDT" OrderType.LIMIT OrderSide.SELL 1 100) =
        some ("", e1) ∧ e1.orders = fundedEngine.orders ∧
      e1.order_books = fundedEngine.order_books ∧
      e1.recent_trades = fundedEngine.recent_trades) ∧
    (∃ e1, fundedEngine.place_order
        (Order.new "" "user1" "XYZ" OrderType.LIMIT OrderSide.BUY 1 100) =
        some ("", e1) ∧ e1.orders = fundedEngine.orders ∧
      e1.order_books = fundedEngine.order_books ∧
      e1.recent_trades = fundedEngine.recent_trades) :=
  ⟨by decide!, by decide!, by decide!, by decide!,
   C15_rejects_unfunded_and_unknown fundedEngine _ (Or.inl ⟨rfl, by decide!⟩),
   C15_rejects_unfunded_and_unknown fundedEngine _ (Or.inr (Or.inl ⟨rfl, by decide!⟩)),
   C15_rejects_unfunded_and_unknown fundedEngine _ (Or.inr (Or.inr (by decide!)))⟩

/-- C16, as the claim states it, fails. With a balance of 100 USDT `user1` places a buy
limit of 1.0 at 100 twice: both are admitted, as `ORD1` and `ORD2`, both rest `OPEN` on
the bid side, which holds 2.0 at 100, a notional of 200, and the balance is still
100. -/
theorem C16_counterexample :
    balanceOf smallEngine "user1_USDT" = 100 ∧
    twoBuysResult.map (fun e => e.orders.map (fun x => (x.1, x.2.status))) =
      some [("ORD1", OrderStatus.OPEN), ("ORD2", OrderStatus.OPEN)] ∧
    twoBuysResult.map (fun e => e.orders.map (fun x => (x.2.user_id, x.2.side))) =
      some [("user1", OrderSide.BUY), ("user1", OrderSide.BUY)] ∧
    twoBuysResult.map (fun e => e.orders.map (fun x => x.2.quantity * x.2.price)) =
      some [100, 100] ∧
    (twoBuysResult.bind btcBook).map (fun b => b.bids) = some [(100, 2)] ∧
    twoBuysResult.map (fun e => balanceOf e "user1_USDT") = some 100 := by
  decide!

/-- C16, amended. The method `place_order` always returns, and whether it admits the
order or rejects it, every balance of every user is the same after the call as before:
nothing is set aside for an admitted order, and each order is checked on its own against
the whole balance. -/
theorem C16_admission_reserves_nothing (e : MatchingEngine) (o : Order) :
    ∃ id e1, e.place_order o = some (id, e1) ∧
      ∀ key, balanceOf e1 key = balanceOf e key := by
  have hbal := (validate_order_balances e o).1
  have hfr := validate_order_frame e o
  cases hv : (e.validate_order o).1 with
  | false =>
    unfold MatchingEngine.place_order
    simp only [hv, if_true]
    exact ⟨_, _, rfl, hbal⟩
  | true =>
    unfold MatchingEngine.place_order
    simp only [hv, Bool.true_eq_false, if_false]
    have hbook : (mapFind (e.validate_order o).2.generate_order_id.2.order_books
        o.symbol).isSome = true := by
      show (mapFind (e.validate_order o).2.order_books o.symbol).isSome = true
      rw [hfr.1]
      have := hfr.2.2.2 hv
      cases hm : mapFind e.order_books o.symbol with
      | none => rw [hm] at this; cases this
      | some b => rfl
    obtain ⟨r, hr, hub⟩ := dispatch_balances (e.validate_order o).2.generate_order_id.2
      { o with id := (e.validate_order o).2.generate_order_id.1,
               status := OrderStatus.OPEN } hbook
    rw [hr]
    refine ⟨_, _, rfl, ?_⟩
    intro key
    rw [← hbal key]
    unfold balanceOf
    rw [hub]
    rfl

end Advanced

/-! ## Advanced engine: claim C17 -/

namespace Advanced

theorem cancelChild_find (m : List (String × Order)) (c id : String) :
    mapFind (cancelChild m c) id =
      if id = c then (mapFind m id).map cancelled else mapFind m id := by
  unfold cancelChild
  by_cases h : id = c
  · rw [if_pos h, h]
    cases hc : mapFind m c with
    | none => simp [hc]
    | some child => simp only [mapFind_mapSet_same, Option.map_some']; rfl
  · rw [if_neg h]
    cases hc : mapFind m c with
    | none => rfl
    | some child => exact mapFind_mapSet_ne _ _ _ _ h

theorem cancelled_cancelled (o : Order) : cancelled (cancelled o) = cancelled o := rfl

theorem cancelChildren_find (cs : List String) :
    ∀ (m : List (String × Order)) (id : String),
      mapFind (cs.foldl cancelChild m) id =
        if id ∈ cs then (mapFind m id).map cancelled else mapFind m id := by
  induction cs with
  | nil => intro m id; simp
  | cons c rest ih =>
    intro m id
    rw [List.foldl_cons, ih, cancelChild_find]
    by_cases h1 : id = c
    · by_cases h2 : id ∈ rest
      · subst h1
        simp only [h2, List.mem_cons, true_or, if_true]
        cases mapFind m id <;> rfl
      · subst h1
        simp [h2]
    · by_cases h2 : id ∈ rest
      · simp [h1, h2]
      · simp [h1, h2]

theorem cancelBracket_find (e : MatchingEngine) (order_id id : String) :
    ∃ cs : List String, mapFind (cancelBracket e order_id).orders id =
      if id ∈ cs then (mapFind e.orders id).map cancelled else mapFind e.orders id := by
  unfold cancelBracket
  cases mapFind e.bracket_orders order_id with
  | none => exact ⟨[], by simp⟩
  | some children => exact ⟨children, cancelChildren_find children e.orders id⟩

/-- C17. In a state in which the book of the order named by the call exists, the method
`cancel_order` returns, and it returns `true` exactly when an order is stored under the
id, its `user_id` is that of the caller and its status is neither `FILLED` nor
`CANCELLED`. When it returns `true` the order is stored with status `CANCELLED`; when it
returns `false` the engine, so every order and every book level, is as before. -/
theorem C17_cancel_order_spec (e : MatchingEngine) (order_id user_id : String)
    (hbook : ∀ o, mapFind e.orders order_id = some o →
      (mapFind e.order_books o.symbol).isSome = true) :
    ∃ ok e1, e.cancel_order order_id user_id = some (ok, e1) ∧
      (ok = true ↔ ∃ o, mapFind e.orders order_id = some o ∧ o.user_id = user_id ∧
        o.status ≠ OrderStatus.FILLED ∧ o.status ≠ OrderStatus.CANCELLED) ∧
      (ok = true →
        (mapFind e1.orders order_id).map (fun o => o.status) = some OrderStatus.CANCELLED) ∧
      (ok = false → e1 = e) := by
  unfold MatchingEngine.cancel_order
  cases ho : mapFind e.orders order_id with
  | none =>
    refine ⟨false, e, rfl, ?_, ?_, fun _ => rfl⟩
    · constructor
      · intro h; cases h
      · rintro ⟨o, h, _⟩; cases h
    · intro h; cases h
  | some order =>
    simp only
    by_cases hu : order.user_id ≠ user_id
    · rw [if_pos hu]
      refine ⟨false, e, rfl, ?_, ?_, fun _ => rfl⟩
      · constructor
        · intro h; cases h
        · rintro ⟨o, h, h1, _⟩
          cases h
          exact absurd h1 hu
      · intro h; cases h
    · rw [if_neg hu]
      by_cases hs : order.status = OrderStatus.FILLED ∨ order.status = OrderStatus.CANCELLED
      · rw [if_pos hs]
        refine ⟨false, e, rfl, ?_, ?_, fun _ => rfl⟩
        · constructor
          · intro h; cases h
          · rintro ⟨o, h, _, h2, h3⟩
            cases h
            rcases hs with hs | hs
            · exact absurd hs h2
            · exact absurd hs h3
        · intro h; cases h
      · rw [if_neg hs]
        have hb := hbook order ho
        cases hbk : mapFind e.order_books order.symbol with
        | none => rw [hbk] at hb; cases hb
        | some book =>
          simp only
          refine ⟨true, _, rfl, ?_, ?_, ?_⟩
          · constructor
            · intro _
              exact ⟨order, rfl, not_not.mp hu, fun h => hs (Or.inl h), fun h => hs (Or.inr h)⟩
            · intro _; rfl
          · intro _
            obtain ⟨cs, hcs⟩ := cancelBracket_find
              { e with
                  order_books := mapSet e.order_books order.symbol (book.remove_order order),
                  orders := mapSet e.orders order_id
                    { order with status := OrderStatus.CANCELLED } } order_id order_id
            rw [hcs]
            simp only [mapFind_mapSet_same]
            split <;> rfl
          · intro h; cases h

/-- C17 at the engine in which the sell limit `ORD1` of `user2` rests: `user2` cancels
it. -/
theorem C17_cancel_order_spec_witness :
    (mapFind restingEngine.orders "ORD1").map (fun o => (o.user_id, o.status)) =
      some ("user2", OrderStatus.OPEN) ∧
    ∃ ok e1, restingEngine.cancel_order "ORD1" "user2" = some (ok, e1) ∧
      (ok = true ↔ ∃ o, mapFind restingEngine.orders "ORD1" = some o ∧ o.user_id = "user2" ∧
        o.status ≠ OrderStatus.FILLED ∧ o.status ≠ OrderStatus.CANCELLED) ∧
      (ok = true →
        (mapFind e1.orders "ORD1").map (fun o => o.status) = some OrderStatus.CANCELLED) ∧
      (ok = false → e1 = restingEngine) := by
  refine ⟨by decide!, C17_cancel_order_spec restingEngine "ORD1" "user2" ?_⟩
  intro o ho
  have h : (mapFind restingEngine.orders "ORD1").map
      (fun o => (mapFind restingEngine.order_books o.symbol).isSome) = some true := by decide!
  rw [ho] at h
  simpa using h

end Advanced

/-! ## Advanced engine: the trigger of a stop and claim C20 -/

namespace Advanced

theorem shouldTrigger_iff (p : ℚ) (o : Order) :
    shouldTrigger p o = true ↔
      (o.side = OrderSide.BUY ∧ p ≥ o.stop_price) ∨
      (o.side = OrderSide.SELL ∧ p ≤ o.stop_price) := by
  unfold shouldTrigger
  by_cases h1 : o.side = OrderSide.BUY ∧ p ≥ o.stop_price
  · rw [if_pos h1]
    exact ⟨fun _ => Or.inl h1, fun _ => rfl⟩
  · rw [if_neg h1]
    by_cases h2 : o.side = OrderSide.SELL ∧ p ≤ o.stop_price
    · rw [if_pos h2]
      exact ⟨fun _ => Or.inr h2, fun _ => rfl⟩
    · rw [if_neg h2]
      constructor
      · intro h; cases h
      · rintro (h | h)
        · exact absurd h h1
        · exact absurd h h2

/-- The triggered branch of `check_stop_orders` on an order whose book exists: the
retyped order is processed as a market or limit order and stored under the key. -/
theorem triggerStop_shape (e : MatchingEngine) (key : String) (o : Order)
    (hb : (mapFind e.order_books o.symbol).isSome = true) :
    ∃ r, Processed { e with orders := mapSet e.orders key (triggeredOrder o) }
        (triggeredOrder o) r ∧
      e.triggerStop key o = some { r.2.2 with orders := mapSet r.2.2.orders key r.2.1 } := by
  unfold MatchingEngine.triggerStop
  simp only
  by_cases hm : (triggeredOrder o).type = OrderType.MARKET
  · rw [if_pos hm]
    obtain ⟨r, hr, hp⟩ := process_market_order_processed
      { e with orders := mapSet e.orders key (triggeredOrder o) } (triggeredOrder o) hb
    exact ⟨r, hp, by rw [hr]; rfl⟩
  · rw [if_neg hm]
    obtain ⟨r, hr, hp⟩ := process_limit_order_processed
      { e with orders := mapSet e.orders key (triggeredOrder o) } (triggeredOrder o) hb
    exact ⟨r, hp, by rw [hr]; rfl⟩

theorem trailStop_eq (p : ℚ) (o : Order) :
    trailStop p o =
      { o with stop_price := trailedStop o.side o.stop_price p o.trail_amount } := by
  cases o with
  | mk id user_id symbol type side trading_type time_in_force quantity filled_quantity price
      stop_price trigger_price status expiry_time iceberg_qty trail_amount trail_percent
      parent_order_id child_order_ids =>
    cases side with
    | SELL =>
      simp only [trailStop, trailedStop]
      by_cases h : p - trail_amount > stop_price
      · rw [if_pos h, max_eq_right (le_of_lt h)]
      · rw [if_neg h, max_eq_left (not_lt.mp h)]
    | BUY =>
      simp only [trailStop, trailedStop]
      by_cases h0 : stop_price = 0
      · rw [if_pos (Or.inr h0), if_pos h0]
      · rw [if_neg h0]
        by_cases h : p + trail_amount < stop_price
        · rw [if_pos (Or.inl h), min_eq_right (le_of_lt h)]
        · rw [if_neg (fun hc => hc.elim h h0), min_eq_left (not_lt.mp h)]

theorem trailAll_rule (e : MatchingEngine) :
    ∀ os : List (String × Order),
      (∀ p ∈ os, p.2.type = OrderType.TRAILING_STOP → p.2.status = OrderStatus.PENDING →
        (mapFind e.order_books p.2.symbol).isSome = true) →
      ∃ os1, trailAll e os = some os1 ∧ List.Forall₂ (TrailRule e) os os1 := by
  intro os
  induction os with
  | nil => intro _; exact ⟨[], rfl, List.Forall₂.nil⟩
  | cons x rest ih =>
    intro hb
    obtain ⟨k, o⟩ := x
    obtain ⟨rest1, hr1, hf⟩ := ih (fun p hp => hb p (List.mem_cons_of_mem _ hp))
    unfold trailAll
    unfold MatchingEngine.trailOrder
    by_cases hc : o.type = OrderType.TRAILING_STOP ∧ o.status = OrderStatus.PENDING
    · rw [if_pos hc]
      have hbk := hb (k, o) (List.mem_cons_self _ _) hc.1 hc.2
      cases hbook : mapFind e.order_books o.symbol with
      | none => rw [hbook] at hbk; cases hbk
      | some book =>
        simp only
        rw [hr1]
        refine ⟨_, rfl, List.Forall₂.cons ⟨rfl, ?_⟩ hf⟩
        unfold TrailedOrder
        rw [if_pos hc]
        exact ⟨book, hbook, trailStop_eq _ _⟩
    · rw [if_neg hc]
      simp only
      rw [hr1]
      refine ⟨_, rfl, List.Forall₂.cons ⟨rfl, ?_⟩ hf⟩
      unfold TrailedOrder
      rw [if_neg hc]

/-- C20, as the claim states it, fails. The trailing buy `ORD3` is stored `PENDING`
with a trail of 2 and the initial stop price 0, and the last price of its book is 100;
`update_trailing_stops` sets its stop price to 102, whereas the smaller of the previous
stop 0 and 100 + 2 is 0. -/
theorem C20_counterexample :
    (mapFind trailEngine.orders "ORD3").map
      (fun o => (o.type, o.side, o.status)) =
      some (OrderType.TRAILING_STOP, OrderSide.BUY, OrderStatus.PENDING) ∧
    (mapFind trailEngine.orders "ORD3").map
      (fun o => (o.stop_price, o.trail_amount)) = some (0, 2) ∧
    (btcBook trailEngine).map (fun b => b.last_price) = some 100 ∧
    (trailEngine.update_trailing_stops.bind (fun e => mapFind e.orders "ORD3")).map
      (fun o => o.stop_price) = some 102 ∧
    min (0 : ℚ) (100 + 2) = 0 := by
  decide!

/-- C20, amended. In a state in which every `PENDING` `TRAILING_STOP` order has a book,
`update_trailing_stops` returns and changes nothing but stored orders; it keeps every
key, leaves every order that is not a `PENDING` `TRAILING_STOP` as it is, and gives every
`PENDING` `TRAILING_STOP` order, its other fields kept, the stop price
max(previous stop, last price - trail_amount) for a sell and, for a buy,
last price + trail_amount when the previous stop is 0 and
min(previous stop, last price + trail_amount) otherwise. -/
theorem C20_trailing_stop_rule (e : MatchingEngine)
    (hb : ∀ p ∈ e.orders, p.2.type = OrderType.TRAILING_STOP →
      p.2.status = OrderStatus.PENDING → (mapFind e.order_books p.2.symbol).isSome = true) :
    ∃ os, e.update_trailing_stops = some { e with orders := os } ∧
      List.Forall₂ (TrailRule e) e.orders os := by
  obtain ⟨os1, h1, h2⟩ := trailAll_rule e e.orders hb
  refine ⟨os1, ?_, h2⟩
  unfold MatchingEngine.update_trailing_stops
  rw [h1]
  rfl

/-- C20, the amended statement at the engine that holds the trailing buy `ORD3`. -/
theorem C20_trailing_stop_rule_witness :
    ∃ os, trailEngine.update_trailing_stops = some { trailEngine with orders := os } ∧
      List.Forall₂ (TrailRule trailEngine) trailEngine.orders os :=
  C20_trailing_stop_rule trailEngine (by decide!)

end Advanced

/-! ## Advanced engine: order ids are pairwise different -/

namespace Advanced

theorem digitChar_value (d : Nat) (h : d < 10) : (Nat.digitChar d).toNat - 48 = d := by
  interval_cases d <;> rfl

theorem toDigitsCore_value (fuel : Nat) :
    ∀ (n : Nat) (ds : List Char), n < fuel →
      (Nat.toDigitsCore 10 fuel n ds).foldl (fun a c => 10 * a + (c.toNat - 48)) 0 =
        ds.foldl (fun a c => 10 * a + (c.toNat - 48)) n := by
  induction fuel with
  | zero => intro n ds h; omega
  | succ fuel ih =>
    intro n ds h
    unfold Nat.toDigitsCore
    simp only
    by_cases h0 : n / 10 = 0
    · rw [if_pos h0]
      rw [List.foldl_cons, digitChar_value _ (Nat.mod_lt _ (by decide))]
      have : n % 10 = n := Nat.mod_eq_of_lt (by omega)
      rw [this, Nat.mul_zero, Nat.zero_add]
    · rw [if_neg h0]
      have hlt : n / 10 < fuel := by omega
      rw [ih (n / 10) _ hlt, List.foldl_cons,
        digitChar_value _ (Nat.mod_lt _ (by decide))]
      have : 10 * (n / 10) + n % 10 = n := Nat.div_add_mod n 10
      rw [this]

theorem toDigits_injective (n m : Nat) (h : Nat.toDigits 10 n = Nat.toDigits 10 m) :
    n = m := by
  have h1 := toDigitsCore_value (n + 1) n [] (Nat.lt_succ_self n)
  have h2 := toDigitsCore_value (m + 1) m [] (Nat.lt_succ_self m)
  unfold Nat.toDigits at h
  rw [h] at h1
  rw [h1] at h2
  exact h2

/-- Two ids built by `generate_order_id` from different counter values differ. -/
theorem ord_id_injective (n m : Nat) (h : "ORD" ++ toString n = "ORD" ++ toString m) :
    n = m := by
  have h1 := congrArg String.data h
  simp only [String.data_append, List.append_cancel_left_eq] at h1
  exact toDigits_injective n m h1

theorem issued_mono (e e1 : MatchingEngine) (id : String)
    (hc : e.order_id_counter ≤ e1.order_id_counter) (h : Issued e id) : Issued e1 id := by
  obtain ⟨n, hn, hid⟩ := h
  exact ⟨n, lt_of_lt_of_le hn hc, hid⟩

theorem issued_ne_fresh (e : MatchingEngine) (id : String) (n : Nat)
    (hn : e.order_id_counter ≤ n) (h : Issued e id) : id ≠ "ORD" ++ toString n := by
  obtain ⟨m, hm, hid⟩ := h
  intro heq
  rw [hid] at heq
  have := ord_id_injective m n heq
  omega

end Advanced

/-! ## Advanced engine: the invariant of the reachable states -/

namespace Advanced

theorem StoredOK_mono (e e1 : MatchingEngine) (p : String × Order)
    (hc : e.order_id_counter ≤ e1.order_id_counter)
    (hbk : ∀ sym, (mapFind e1.order_books sym).isSome = (mapFind e.order_books sym).isSome)
    (h : StoredOK e p) : StoredOK e1 p :=
  ⟨issued_mono e e1 _ hc h.1, h.2.1, by rw [hbk]; exact h.2.2.1, h.2.2.2⟩

/-- The invariant looks only at the stored orders, the bracket table, which symbols have
a book, and how far the counter has come. -/
theorem sound_mono (e e1 : MatchingEngine) (hs : e.Sound) (ho : e1.orders = e.orders)
    (hbr : e1.bracket_orders = e.bracket_orders)
    (hbk : ∀ sym, (mapFind e1.order_books sym).isSome = (mapFind e.order_books sym).isSome)
    (hc : e.order_id_counter ≤ e1.order_id_counter) : e1.Sound := by
  constructor
  · intro p hp
    rw [ho] at hp
    exact StoredOK_mono e e1 p hc hbk (hs.stored p hp)
  · intro q hq
    rw [hbr] at hq
    obtain ⟨h1, h2⟩ := hs.brackets q hq
    refine ⟨issued_mono e e1 _ hc h1, fun c hcq => ?_⟩
    obtain ⟨h3, h4⟩ := h2 c hcq
    refine ⟨issued_mono e e1 _ hc h3, ?_⟩
    rw [ho]
    exact h4

/-- Storing an order under a fresh id keeps the invariant. -/
theorem sound_insert (e : MatchingEngine) (hs : e.Sound) (n : Nat)
    (hn : e.order_id_counter ≤ n) (o1 : Order) (hid : o1.id = "ORD" ++ toString n)
    (hbook : (mapFind e.order_books o1.symbol).isSome = true)
    (hst : o1.status ≠ OrderStatus.REJECTED ∧ o1.status ≠ OrderStatus.EXPIRED) :
    MatchingEngine.Sound
      { e with orders := mapSet e.orders ("ORD" ++ toString n) o1,
               order_id_counter := n + 1 } := by
  have hc : e.order_id_counter ≤ n + 1 := Nat.le_succ_of_le hn
  constructor
  · intro p hp
    rcases mem_mapSet _ _ _ _ hp with h | h
    · exact StoredOK_mono e _ p hc (fun _ => rfl) (hs.stored p h)
    · rw [h]
      exact ⟨⟨n, Nat.lt_succ_self n, rfl⟩, hid, hbook, hst⟩
  · intro q hq
    obtain ⟨h1, h2⟩ := hs.brackets q hq
    refine ⟨issued_mono e _ _ hc h1, fun c hcq => ?_⟩
    obtain ⟨h3, h4⟩ := h2 c hcq
    refine ⟨issued_mono e _ _ hc h3, ?_⟩
    show ∀ x, mapFind (mapSet e.orders ("ORD" ++ toString n) o1) c = some x → _
    rw [mapFind_mapSet_ne _ _ _ _ (issued_ne_fresh e c n hn h3)]
    intro x hx
    refine ⟨(h4 x hx).1, fun hf => ?_⟩
    show ∀ y, mapFind (mapSet e.orders ("ORD" ++ toString n) o1) q.1 = some y → _
    rw [mapFind_mapSet_ne _ _ _ _ (issued_ne_fresh e q.1 n hn h1)]
    exact (h4 x hx).2 hf

/-- Filing two issued children under an issued parent keeps the invariant when the
children are well formed. -/
theorem sound_add_bracket (e : MatchingEngine) (hs : e.Sound) (parent a b : String)
    (hp : Issued e parent) (ha : ChildOK e parent a) (hb : ChildOK e parent b) :
    MatchingEngine.Sound
      { e with bracket_orders := mapSet e.bracket_orders parent [a, b] } := by
  constructor
  · intro p hpm
    exact StoredOK_mono e _ p (le_refl _) (fun _ => rfl) (hs.stored p hpm)
  · intro q hq
    rcases mem_mapSet _ _ _ _ hq with h | h
    · exact hs.brackets q h
    · rw [h]
      refine ⟨hp, fun c hc => ?_⟩
      simp only [List.mem_cons, List.mem_singleton, List.not_mem_nil, or_false] at hc
      rcases hc with hc | hc
      · rw [hc]; exact ha
      · rw [hc]; exact hb

/-- Replacing a stored `PENDING` order by an order with the same id and symbol keeps the
invariant and leaves every other stored order as it is. -/
theorem sound_update (e e1 : MatchingEngine) (hs : e.Sound) (k : String) (o o1 : Order)
    (ho : mapFind e.orders k = some o) (hpen : o.status = OrderStatus.PENDING)
    (hid : o1.id = k) (hsym : o1.symbol = o.symbol)
    (hst : o1.status ≠ OrderStatus.REJECTED ∧ o1.status ≠ OrderStatus.EXPIRED)
    (hord : e1.orders = mapSet e.orders k o1)
    (hbr : e1.bracket_orders = e.bracket_orders)
    (hbk : ∀ sym, (mapFind e1.order_books sym).isSome = (mapFind e.order_books sym).isSome)
    (hc : e1.order_id_counter = e.order_id_counter) :
    e1.Sound ∧ ∀ id x, mapFind e.orders id = some x → x.status.Terminal →
      mapFind e1.orders id = some x := by
  have hko := hs.stored (k, o) (mapFind_mem _ _ _ ho)
  constructor
  · constructor
    · intro p hp
      rw [hord] at hp
      rcases mem_mapSet _ _ _ _ hp with h | h
      · exact StoredOK_mono e e1 p (le_of_eq hc.symm) hbk (hs.stored p h)
      · rw [h]
        refine ⟨issued_mono e e1 _ (le_of_eq hc.symm) hko.1, hid, ?_, hst⟩
        rw [hbk]
        show (mapFind e.order_books o1.symbol).isSome = true
        rw [hsym]
        exact hko.2.2.1
    · intro q hq
      rw [hbr] at hq
      obtain ⟨h1, h2⟩ := hs.brackets q hq
      refine ⟨issued_mono e e1 _ (le_of_eq hc.symm) h1, fun c hcq => ?_⟩
      obtain ⟨h3, h4⟩ := h2 c hcq
      refine ⟨issued_mono e e1 _ (le_of_eq hc.symm) h3, ?_⟩
      rw [hord]
      by_cases hck : c = k
      · exfalso
        rw [hck] at h4
        exact (h4 o ho).1 hpen
      · rw [mapFind_mapSet_ne _ _ _ _ hck]
        intro x hx
        refine ⟨(h4 x hx).1, fun hf => ?_⟩
        by_cases hqk : q.1 = k
        · exfalso
          have h5 := (h4 x hx).2 hf o (by rw [hqk]; exact ho)
          rw [hpen] at h5
          rcases h5 with h5 | h5 <;> cases h5
        · rw [mapFind_mapSet_ne _ _ _ _ hqk]
          exact (h4 x hx).2 hf
  · intro id x hx hterm
    rw [hord]
    by_cases hik : id = k
    · exfalso
      rw [hik, ho] at hx
      cases hx
      rw [hpen] at hterm
      rcases hterm with h | h | h | h <;> cases h
    · rw [mapFind_mapSet_ne _ _ _ _ hik]
      exact hx

end Advanced

/-! ## Advanced engine: the invariant under the stop maintenance -/

namespace Advanced

theorem TerminalKept_refl (e : MatchingEngine) : TerminalKept e e :=
  fun _ x hx _ => ⟨x, hx, rfl⟩

theorem TerminalKept_of_eq (e e1 : MatchingEngine) (h : e1.orders = e.orders) :
    TerminalKept e e1 := by
  intro id x hx _
  exact ⟨x, by rw [h]; exact hx, rfl⟩

theorem TerminalKept_trans (e e1 e2 : MatchingEngine) (h1 : TerminalKept e e1)
    (h2 : TerminalKept e1 e2) : TerminalKept e e2 := by
  intro id x hx ht
  obtain ⟨x1, hx1, hs1⟩ := h1 id x hx ht
  obtain ⟨x2, hx2, hs2⟩ := h2 id x1 hx1 (by rw [hs1]; exact ht)
  exact ⟨x2, hx2, hs2.trans hs1⟩

theorem isPendingStop_pending (o : Order) (h : isPendingStop o = true) :
    o.status = OrderStatus.PENDING := by
  unfold isPendingStop at h
  exact (of_decide_eq_true h).2

/-- One visit of the loop of `check_stop_orders` returns in a state with the invariant,
keeps the invariant and the counter, and leaves every order with a terminal status as
it is. -/
theorem checkStopAt_sound (e : MatchingEngine) (key : String) (hs : e.Sound) :
    ∃ e1, e.checkStopAt key = some e1 ∧ e1.Sound ∧
      e1.order_id_counter = e.order_id_counter ∧ TerminalKept e e1 := by
  unfold MatchingEngine.checkStopAt
  cases ho : mapFind e.orders key with
  | none => exact ⟨e, rfl, hs, rfl, TerminalKept_refl e⟩
  | some o =>
    simp only
    by_cases hp : isPendingStop o = true
    · rw [if_pos hp]
      have hko := hs.stored (key, o) (mapFind_mem _ _ _ ho)
      have hpen := isPendingStop_pending o hp
      cases hbk : mapFind e.order_books o.symbol with
      | none =>
        have := hko.2.2.1
        rw [hbk] at this
        cases this
      | some book =>
        simp only
        by_cases htr : shouldTrigger book.last_price o = true
        · rw [if_pos htr]
          obtain ⟨r, hpr, heq⟩ := triggerStop_shape e key o hko.2.2.1
          obtain ⟨_, ⟨f, st, h2, h3⟩, h4, h5, _, h7, _, h9, _⟩ := hpr
          have hid : r.2.1.id = key := by rw [h2]; exact hko.2.1
          have hupd := sound_update e { r.2.2 with orders := mapSet r.2.2.orders key r.2.1 }
            hs key o r.2.1 ho hpen hid (by rw [h2]; rfl)
            (by
              rw [h2]
              show st ≠ OrderStatus.REJECTED ∧ st ≠ OrderStatus.EXPIRED
              have hto : (triggeredOrder o).status = OrderStatus.PENDING := hpen
              rw [hto] at h3
              rcases h3 with h | h | h | h <;> rw [h] <;> exact ⟨by decide, by decide⟩)
            (by
              show mapSet r.2.2.orders key r.2.1 = mapSet e.orders key r.2.1
              rw [h5]
              have hto : (triggeredOrder o).id = key := hko.2.1
              rw [hto]
              show mapSet (mapSet (mapSet e.orders key (triggeredOrder o)) key r.2.1) key r.2.1
                = mapSet e.orders key r.2.1
              rw [mapSet_mapSet, mapSet_mapSet])
            h9 h4 h7
          refine ⟨_, heq, hupd.1, h7, ?_⟩
          intro id x hx ht
          exact ⟨x, hupd.2 id x hx ht, rfl⟩
        · rw [if_neg htr]
          exact ⟨e, rfl, hs, rfl, TerminalKept_refl e⟩
    · rw [if_neg hp]
      exact ⟨e, rfl, hs, rfl, TerminalKept_refl e⟩

theorem checkStopKeys_sound (keys : List String) :
    ∀ e : MatchingEngine, e.Sound →
      ∃ e1, checkStopKeys e keys = some e1 ∧ e1.Sound ∧
        e1.order_id_counter = e.order_id_counter ∧ TerminalKept e e1 := by
  induction keys with
  | nil => intro e hs; exact ⟨e, rfl, hs, rfl, TerminalKept_refl e⟩
  | cons key rest ih =>
    intro e hs
    obtain ⟨e1, h1, hs1, hc1, hk1⟩ := checkStopAt_sound e key hs
    obtain ⟨e2, h2, hs2, hc2, hk2⟩ := ih e1 hs1
    unfold checkStopKeys
    rw [h1]
    exact ⟨e2, h2, hs2, hc2.trans hc1, TerminalKept_trans e e1 e2 hk1 hk2⟩

theorem TrailedOrder_frame (e : MatchingEngine) (o o1 : Order) (h : TrailedOrder e o o1) :
    o1.id = o.id ∧ o1.symbol = o.symbol ∧ o1.status = o.status := by
  unfold TrailedOrder at h
  split at h
  · obtain ⟨book, _, h1⟩ := h
    rw [h1]
    exact ⟨rfl, rfl, rfl⟩
  · rw [h]
    exact ⟨rfl, rfl, rfl⟩

theorem trailRule_mem (e : MatchingEngine) (os os1 : List (String × Order))
    (h : List.Forall₂ (TrailRule e) os os1) :
    ∀ p ∈ os1, ∃ a ∈ os, TrailRule e a p := by
  induction h with
  | nil => intro p hp; cases hp
  | cons hab _ ih =>
    intro p hp
    rcases List.mem_cons.mp hp with h1 | h1
    · rw [h1]
      exact ⟨_, List.mem_cons_self _ _, hab⟩
    · obtain ⟨a, ha, hr⟩ := ih p h1
      exact ⟨a, List.mem_cons_of_mem _ ha, hr⟩

theorem trailRule_find (e : MatchingEngine) (os os1 : List (String × Order))
    (h : List.Forall₂ (TrailRule e) os os1) (k : String) :
    (mapFind os k = none ∧ mapFind os1 k = none) ∨
    ∃ x x1, mapFind os k = some x ∧ mapFind os1 k = some x1 ∧ TrailedOrder e x x1 := by
  induction h with
  | nil => exact Or.inl ⟨rfl, rfl⟩
  | @cons a b l1 l2 hab _ ih =>
    obtain ⟨ka, oa⟩ := a
    obtain ⟨kb, ob⟩ := b
    obtain ⟨hk, hr⟩ := hab
    simp only at hk hr
    subst hk
    unfold mapFind
    by_cases hkk : kb = k
    · rw [if_pos hkk, if_pos hkk]
      exact Or.inr ⟨oa, ob, rfl, rfl, hr⟩
    · rw [if_neg hkk, if_neg hkk]
      exact ih

/-- In a state with the invariant `update_trailing_stops` returns, keeps the invariant
and the counter, and keeps the status of every stored order. -/
theorem update_trailing_stops_sound (e : MatchingEngine) (hs : e.Sound) :
    ∃ e1, e.update_trailing_stops = some e1 ∧ e1.Sound ∧
      e1.order_id_counter = e.order_id_counter ∧ TerminalKept e e1 := by
  obtain ⟨os1, h1, h2⟩ := trailAll_rule e e.orders
    (fun p hp _ _ => (hs.stored p hp).2.2.1)
  have hfind := trailRule_find e e.orders os1 h2
  refine ⟨{ e with orders := os1 }, ?_, ?_, rfl, ?_⟩
  · unfold MatchingEngine.update_trailing_stops
    rw [h1]
    rfl
  · constructor
    · intro p hp
      obtain ⟨a, ha, hka, hr⟩ := trailRule_mem e e.orders os1 h2 p hp
      obtain ⟨h3, h4, h5⟩ := TrailedOrder_frame e a.2 p.2 hr
      obtain ⟨g1, g2, g3, g4⟩ := hs.stored a ha
      refine ⟨?_, ?_, ?_, ?_⟩
      · rw [hka]; exact g1
      · rw [h3, hka]; exact g2
      · rw [h4]; exact g3
      · rw [h5]; exact g4
    · intro q hq
      obtain ⟨g1, g2⟩ := hs.brackets q hq
      refine ⟨g1, fun c hc => ?_⟩
      obtain ⟨g3, g4⟩ := g2 c hc
      refine ⟨g3, ?_⟩
      intro x1 hx1
      change mapFind os1 c = some x1 at hx1
      rcases hfind c with ⟨_, hn⟩ | ⟨x, xb, hx, hxb, hr⟩
      · rw [hn] at hx1; cases hx1
      · rw [hxb] at hx1
        obtain ⟨_, _, hst⟩ := TrailedOrder_frame e x xb hr
        have hxx : xb = x1 := Option.some.inj hx1
        rw [← hxx, hst]
        refine ⟨(g4 x hx).1, fun hf y1 hy1 => ?_⟩
        change mapFind os1 q.1 = some y1 at hy1
        rcases hfind q.1 with ⟨_, hn⟩ | ⟨y, yb, hy, hyb, hr1⟩
        · rw [hn] at hy1; cases hy1
        · rw [hyb] at hy1
          obtain ⟨_, _, hst1⟩ := TrailedOrder_frame e y yb hr1
          have hyy : yb = y1 := Option.some.inj hy1
          rw [← hyy, hst1]
          exact (g4 x hx).2 hf y hy
  · intro id x hx _
    rcases hfind id with ⟨hn, _⟩ | ⟨xa, x1, hxa, hx1, hr⟩
    · rw [hn] at hx; cases hx
    · rw [hxa] at hx
      have hxx : xa = x := Option.some.inj hx
      rw [← hxx]
      exact ⟨x1, hx1, (TrailedOrder_frame e xa x1 hr).2.2⟩

end Advanced

/-! ## Advanced engine: the invariant under `cancel_order` -/

namespace Advanced

theorem mem_mapErase {α : Type} (m : List (String × α)) (k : String) (q : String × α)
    (h : q ∈ mapErase m k) : q ∈ m := by
  induction m with
  | nil => exact h
  | cons x rest ih =>
    obtain ⟨k2, v2⟩ := x
    unfold mapErase at h
    by_cases h2 : k2 = k
    · rw [if_pos h2] at h
      exact List.mem_cons_of_mem _ h
    · rw [if_neg h2] at h
      rcases List.mem_cons.mp h with h3 | h3
      · rw [h3]; exact List.mem_cons_self _ _
      · exact List.mem_cons_of_mem _ (ih h3)

theorem cancelChild_mem (m : List (String × Order)) (c : String) (p : String × Order)
    (h : p ∈ cancelChild m c) :
    ∃ a ∈ m, p.1 = a.1 ∧ (p.2 = a.2 ∨ p.2 = cancelled a.2) := by
  unfold cancelChild at h
  cases hc : mapFind m c with
  | none =>
    rw [hc] at h
    exact ⟨p, h, rfl, Or.inl rfl⟩
  | some child =>
    rw [hc] at h
    rcases mem_mapSet _ _ _ _ h with h1 | h1
    · exact ⟨p, h1, rfl, Or.inl rfl⟩
    · rw [h1]
      exact ⟨(c, child), mapFind_mem _ _ _ hc, rfl, Or.inr rfl⟩

theorem cancelChildren_mem (cs : List String) :
    ∀ (m : List (String × Order)) (p : String × Order), p ∈ cs.foldl cancelChild m →
      ∃ a ∈ m, p.1 = a.1 ∧ (p.2 = a.2 ∨ p.2 = cancelled a.2) := by
  induction cs with
  | nil => intro m p h; exact ⟨p, h, rfl, Or.inl rfl⟩
  | cons c rest ih =>
    intro m p h
    rw [List.foldl_cons] at h
    obtain ⟨b, hb, h1, h2⟩ := ih (cancelChild m c) p h
    obtain ⟨a, ha, h3, h4⟩ := cancelChild_mem m c b hb
    refine ⟨a, ha, h1.trans h3, ?_⟩
    rcases h2 with h2 | h2 <;> rcases h4 with h4 | h4
    · exact Or.inl (h2.trans h4)
    · exact Or.inr (h2.trans h4)
    · exact Or.inr (by rw [h2, h4])
    · exact Or.inr (by rw [h2, h4]; rfl)

/-- What the bracket handling of `cancel_order` does to the stored orders and to the
bracket table. -/
theorem cancelBracket_spec (e : MatchingEngine) (k : String) :
    (∀ id, mapFind (cancelBracket e k).orders id = mapFind e.orders id ∨
      ∃ x, mapFind e.orders id = some x ∧
        mapFind (cancelBracket e k).orders id = some (cancelled x) ∧
        ∃ cs, mapFind e.bracket_orders k = some cs ∧ id ∈ cs) ∧
    (∀ p ∈ (cancelBracket e k).orders,
      ∃ a ∈ e.orders, p.1 = a.1 ∧ (p.2 = a.2 ∨ p.2 = cancelled a.2)) ∧
    (∀ q ∈ (cancelBracket e k).bracket_orders, q ∈ e.bracket_orders) ∧
    (cancelBracket e k).order_books = e.order_books ∧
    (cancelBracket e k).order_id_counter = e.order_id_counter := by
  unfold cancelBracket
  cases hb : mapFind e.bracket_orders k with
  | none =>
    exact ⟨fun _ => Or.inl rfl, fun p hp => ⟨p, hp, rfl, Or.inl rfl⟩, fun _ hq => hq, rfl, rfl⟩
  | some cs =>
    refine ⟨fun id => ?_, fun p hp => cancelChildren_mem cs e.orders p hp,
      fun q hq => mem_mapErase _ _ _ hq, rfl, rfl⟩
    show mapFind (cs.foldl cancelChild e.orders) id = mapFind e.orders id ∨ _
    rw [cancelChildren_find]
    by_cases hid : id ∈ cs
    · rw [if_pos hid]
      cases hx : mapFind e.orders id with
      | none => exact Or.inl rfl
      | some x => exact Or.inr ⟨x, rfl, rfl, cs, rfl, hid⟩
    · rw [if_neg hid]
      exact Or.inl rfl

/-- A step that marks as `CANCELLED` a stored order that is neither `FILLED` nor
`CANCELLED`, and possibly the children filed under it, and drops no more than bracket
entries, keeps the invariant and every terminal status. -/
theorem sound_cancel (e e1 : MatchingEngine) (hs : e.Sound) (k : String) (o : Order)
    (ho : mapFind e.orders k = some o)
    (hnt : o.status ≠ OrderStatus.FILLED ∧ o.status ≠ OrderStatus.CANCELLED)
    (hfind : ∀ id, mapFind e1.orders id = mapFind e.orders id ∨
      ∃ x, mapFind e.orders id = some x ∧ mapFind e1.orders id = some (cancelled x) ∧
        (id = k ∨ ∃ cs, mapFind e.bracket_orders k = some cs ∧ id ∈ cs))
    (hmem : ∀ p ∈ e1.orders, ∃ a ∈ e.orders, p.1 = a.1 ∧ (p.2 = a.2 ∨ p.2 = cancelled a.2))
    (hbr : ∀ q ∈ e1.bracket_orders, q ∈ e.bracket_orders)
    (hbk : ∀ sym, (mapFind e1.order_books sym).isSome = (mapFind e.order_books sym).isSome)
    (hc : e1.order_id_counter = e.order_id_counter) :
    e1.Sound ∧ TerminalKept e e1 := by
  have hle : e.order_id_counter ≤ e1.order_id_counter := le_of_eq hc.symm
  have hstatus : ∀ id y1, mapFind e1.orders id = some y1 →
      ∃ y, mapFind e.orders id = some y ∧
        (y1.status = y.status ∨ y1.status = OrderStatus.CANCELLED) := by
    intro id y1 hy1
    rcases hfind id with h | ⟨x, hx, hx1, _⟩
    · exact ⟨y1, by rw [← h]; exact hy1, Or.inl rfl⟩
    · rw [hx1] at hy1
      have : cancelled x = y1 := Option.some.inj hy1
      exact ⟨x, hx, Or.inr (by rw [← this]; rfl)⟩
  constructor
  · constructor
    · intro p hp
      obtain ⟨a, ha, h1, h2⟩ := hmem p hp
      obtain ⟨g1, g2, g3, g4, g5⟩ := hs.stored a ha
      refine ⟨?_, ?_, ?_, ?_⟩
      · rw [h1]; exact issued_mono e e1 _ hle g1
      · rcases h2 with h2 | h2 <;> rw [h2, h1] <;> exact g2
      · rw [hbk]
        rcases h2 with h2 | h2 <;> rw [h2] <;> exact g3
      · rcases h2 with h2 | h2
        · rw [h2]; exact ⟨g4, g5⟩
        · rw [h2]
          exact ⟨fun h => OrderStatus.noConfusion h, fun h => OrderStatus.noConfusion h⟩
    · intro q hq
      obtain ⟨g1, g2⟩ := hs.brackets q (hbr q hq)
      refine ⟨issued_mono e e1 _ hle g1, fun c hcq => ?_⟩
      obtain ⟨g3, g4⟩ := g2 c hcq
      refine ⟨issued_mono e e1 _ hle g3, fun x1 hx1 => ?_⟩
      obtain ⟨x, hx, hxs⟩ := hstatus c x1 hx1
      refine ⟨?_, fun hf y1 hy1 => ?_⟩
      · rcases hxs with h | h
        · rw [h]; exact (g4 x hx).1
        · rw [h]; decide
      · obtain ⟨y, hy, hys⟩ := hstatus q.1 y1 hy1
        rcases hys with h | h
        · rw [h]
          rcases hxs with h3 | h3
          · exact (g4 x hx).2 (by rw [← h3]; exact hf) y hy
          · rw [h3] at hf; cases hf
        · exact Or.inr h
  · intro id x hx hterm
    rcases hfind id with h | ⟨xa, hxa, hx1, hwho⟩
    · exact ⟨x, by rw [h]; exact hx, rfl⟩
    · rw [hxa] at hx
      have hxx : xa = x := Option.some.inj hx
      rw [hxx] at hx1 hxa
      refine ⟨cancelled x, hx1, ?_⟩
      show OrderStatus.CANCELLED = x.status
      have hstored := hs.stored (id, x) (mapFind_mem _ _ _ hxa)
      rcases hwho with hk | ⟨cs, hcs, hin⟩
      · exfalso
        rw [hk, ho] at hxa
        have hox : o = x := Option.some.inj hxa
        rw [← hox] at hterm hstored
        rcases hterm with h | h | h | h
        · exact hnt.1 h
        · exact hnt.2 h
        · exact hstored.2.2.2.1 h
        · exact hstored.2.2.2.2 h
      · have hchild := (hs.brackets (k, cs) (mapFind_mem _ _ _ hcs)).2 id hin
        rcases hterm with h | h | h | h
        · exfalso
          have := (hchild.2 x hxa).2 h o ho
          rcases this with h5 | h5
          · exact hnt.1 h5
          · exact hnt.2 h5
        · exact h.symm
        · exact absurd h hstored.2.2.2.1
        · exact absurd h hstored.2.2.2.2

/-- In a state with the invariant `cancel_order` returns, keeps the invariant and the
counter, and keeps the status of every order whose status is terminal. -/
theorem cancel_order_sound (e : MatchingEngine) (order_id user_id : String)
    (hs : e.Sound) :
    ∃ r, e.cancel_order order_id user_id = some r ∧ r.2.Sound ∧
      r.2.order_id_counter = e.order_id_counter ∧ TerminalKept e r.2 := by
  unfold MatchingEngine.cancel_order
  cases ho : mapFind e.orders order_id with
  | none => exact ⟨_, rfl, hs, rfl, TerminalKept_refl e⟩
  | some o =>
    simp only
    by_cases hu : o.user_id ≠ user_id
    · rw [if_pos hu]
      exact ⟨_, rfl, hs, rfl, TerminalKept_refl e⟩
    · rw [if_neg hu]
      by_cases hst : o.status = OrderStatus.FILLED ∨ o.status = OrderStatus.CANCELLED
      · rw [if_pos hst]
        exact ⟨_, rfl, hs, rfl, TerminalKept_refl e⟩
      · rw [if_neg hst]
        have hko := hs.stored (order_id, o) (mapFind_mem _ _ _ ho)
        cases hbk : mapFind e.order_books o.symbol with
        | none =>
          have := hko.2.2.1
          rw [hbk] at this
          cases this
        | some book =>
          simp only
          obtain ⟨f1, f2, f3, f4, f5⟩ := cancelBracket_spec
            { e with
                order_books := mapSet e.order_books o.symbol (book.remove_order o),
                orders := mapSet e.orders order_id
                  { o with status := OrderStatus.CANCELLED } } order_id
          have hsc := sound_cancel e _ hs order_id o ho
            ⟨fun h => hst (Or.inl h), fun h => hst (Or.inr h)⟩ ?_ ?_ f3 ?_ f5
          · exact ⟨_, rfl, hsc.1, f5, hsc.2⟩
          · intro id
            by_cases hid : id = order_id
            · right
              rcases f1 id with h | ⟨x, hx, hx1, _⟩
              · refine ⟨o, by rw [hid]; exact ho, ?_, Or.inl hid⟩
                rw [h, hid]
                exact mapFind_mapSet_same _ _ _
              · refine ⟨o, by rw [hid]; exact ho, ?_, Or.inl hid⟩
                rw [hx1]
                have h2 : mapFind (mapSet e.orders order_id
                    { o with status := OrderStatus.CANCELLED }) id = some x := hx
                rw [hid, mapFind_mapSet_same] at h2
                rw [← Option.some.inj h2]
                rfl
            · have hne : mapFind (mapSet e.orders order_id
                  { o with status := OrderStatus.CANCELLED }) id = mapFind e.orders id :=
                mapFind_mapSet_ne _ _ _ _ hid
              rcases f1 id with h | ⟨x, hx, hx1, hcs⟩
              · left
                exact h.trans hne
              · right
                exact ⟨x, hne ▸ hx, hx1, Or.inr hcs⟩
          · intro p hp
            obtain ⟨a, ha, h1, h2⟩ := f2 p hp
            rcases mem_mapSet _ _ _ _ ha with h3 | h3
            · exact ⟨a, h3, h1, h2⟩
            · refine ⟨(order_id, o), mapFind_mem _ _ _ ho, by rw [h1, h3], ?_⟩
              rw [h3] at h2
              rcases h2 with h2 | h2
              · exact Or.inr h2
              · exact Or.inr h2
          · intro sym
            rw [f4]
            exact mapFind_mapSet_isSome _ _ _ _ (by rw [hbk]; rfl)

end Advanced

/-! ## Advanced engine: the invariant under `place_order` -/

namespace Advanced

theorem issued_find_insert (e : MatchingEngine) (n : Nat) (hn : e.order_id_counter ≤ n)
    (o1 : Order) (id : String) (h : Issued e id) :
    mapFind (mapSet e.orders ("ORD" ++ toString n) o1) id = mapFind e.orders id :=
  mapFind_mapSet_ne _ _ _ _ (issued_ne_fresh e id n hn h)

/-- Processing an order that carries a fresh id keeps the invariant and leaves every
order stored before as it is. -/
theorem sound_processed (e eg : MatchingEngine) (hs : e.Sound) (n : Nat)
    (hn : e.order_id_counter ≤ n) (hgo : eg.orders = e.orders)
    (hgb : eg.bracket_orders = e.bracket_orders)
    (hgk : eg.order_books = e.order_books) (hgc : eg.order_id_counter = n + 1)
    (o1 : Order) (hid : o1.id = "ORD" ++ toString n)
    (hbook : (mapFind e.order_books o1.symbol).isSome = true)
    (hst : o1.status ≠ OrderStatus.REJECTED ∧ o1.status ≠ OrderStatus.EXPIRED)
    (r : String × Order × MatchingEngine) (hp : Processed eg o1 r) :
    r.2.2.Sound ∧ r.2.2.order_id_counter = n + 1 ∧
      mapFind r.2.2.orders ("ORD" ++ toString n) = some r.2.1 ∧
      (∀ id, Issued e id → mapFind r.2.2.orders id = mapFind e.orders id) ∧
      (∀ sym, (mapFind r.2.2.order_books sym).isSome = (mapFind e.order_books sym).isSome) := by
  obtain ⟨_, ⟨f, st, h2, h3⟩, h4, h5, _, h7, _, h9, _⟩ := hp
  have hord : r.2.2.orders = mapSet e.orders ("ORD" ++ toString n) r.2.1 := by
    rw [h5, hgo, hid]
  have hbks : ∀ sym, (mapFind r.2.2.order_books sym).isSome =
      (mapFind e.order_books sym).isSome := by
    intro sym; rw [h4, hgk]
  have hst1 : r.2.1.status ≠ OrderStatus.REJECTED ∧ r.2.1.status ≠ OrderStatus.EXPIRED := by
    rw [h2]
    show st ≠ OrderStatus.REJECTED ∧ st ≠ OrderStatus.EXPIRED
    rcases h3 with h | h | h | h
    · rw [h]; exact hst
    · rw [h]; exact ⟨fun h => OrderStatus.noConfusion h, fun h => OrderStatus.noConfusion h⟩
    · rw [h]; exact ⟨fun h => OrderStatus.noConfusion h, fun h => OrderStatus.noConfusion h⟩
    · rw [h]; exact ⟨fun h => OrderStatus.noConfusion h, fun h => OrderStatus.noConfusion h⟩
  have hins := sound_insert e hs n hn r.2.1 (by rw [h2]; exact hid) (by rw [h2]; exact hbook)
    hst1
  refine ⟨sound_mono _ r.2.2 hins hord (h9.trans hgb) hbks (le_of_eq (h7.trans hgc).symm),
    h7.trans hgc, ?_, ?_, hbks⟩
  · rw [hord]; exact mapFind_mapSet_same _ _ _
  · intro id hi
    rw [hord]
    exact issued_find_insert e n hn _ id hi

/-- Storing the two children of a bracket parent under the next two ids and filing them
under the parent keeps the invariant and leaves every order stored before as it is. -/
theorem sound_children (e1 R : MatchingEngine) (hs1 : e1.Sound) (c : Nat)
    (hc1 : e1.order_id_counter = c + 1) (o1 sl tp : Order)
    (hparent : mapFind e1.orders ("ORD" ++ toString c) = some o1)
    (hst : o1.status = OrderStatus.OPEN ∨ o1.status = OrderStatus.PARTIALLY_FILLED ∨
      o1.status = OrderStatus.FILLED)
    (hsl : sl.id = "ORD" ++ toString (c + 1) ∧ sl.symbol = o1.symbol ∧ sl.status = o1.status)
    (htp : tp.id = "ORD" ++ toString (c + 2) ∧ tp.symbol = o1.symbol ∧ tp.status = o1.status)
    (hRo : R.orders = mapSet (mapSet e1.orders ("ORD" ++ toString (c + 1)) sl)
      ("ORD" ++ toString (c + 2)) tp)
    (hRb : R.bracket_orders = mapSet e1.bracket_orders ("ORD" ++ toString c)
      ["ORD" ++ toString (c + 1), "ORD" ++ toString (c + 2)])
    (hRk : R.order_books = e1.order_books) (hRc : R.order_id_counter = c + 3) :
    R.Sound ∧ ∀ id, Issued e1 id → mapFind R.orders id = mapFind e1.orders id := by
  have hpar := hs1.stored _ (mapFind_mem _ _ _ hparent)
  have hbook : (mapFind e1.order_books o1.symbol).isSome = true := hpar.2.2.1
  have hnot : o1.status ≠ OrderStatus.REJECTED ∧ o1.status ≠ OrderStatus.EXPIRED ∧
      o1.status ≠ OrderStatus.PENDING := by
    rcases hst with h | h | h <;> rw [h] <;>
      exact ⟨fun h => OrderStatus.noConfusion h, fun h => OrderStatus.noConfusion h,
        fun h => OrderStatus.noConfusion h⟩
  have h01 : "ORD" ++ toString c ≠ "ORD" ++ toString (c + 1) := by
    intro h; have := ord_id_injective _ _ h; omega
  have h02 : "ORD" ++ toString c ≠ "ORD" ++ toString (c + 2) := by
    intro h; have := ord_id_injective _ _ h; omega
  have h12 : "ORD" ++ toString (c + 1) ≠ "ORD" ++ toString (c + 2) := by
    intro h; have := ord_id_injective _ _ h; omega
  have hB := sound_insert e1 hs1 (c + 1) (le_of_eq hc1) sl hsl.1
    (by rw [hsl.2.1]; exact hbook) (by rw [hsl.2.2]; exact ⟨hnot.1, hnot.2.1⟩)
  have hC := sound_insert _ hB (c + 2) (le_refl _) tp htp.1
    (by rw [htp.2.1]; exact hbook) (by rw [htp.2.2]; exact ⟨hnot.1, hnot.2.1⟩)
  have hfind_par : mapFind (mapSet (mapSet e1.orders ("ORD" ++ toString (c + 1)) sl)
      ("ORD" ++ toString (c + 2)) tp) ("ORD" ++ toString c) = some o1 := by
    rw [mapFind_mapSet_ne _ _ _ _ h02, mapFind_mapSet_ne _ _ _ _ h01]
    exact hparent
  have hfind_sl : mapFind (mapSet (mapSet e1.orders ("ORD" ++ toString (c + 1)) sl)
      ("ORD" ++ toString (c + 2)) tp) ("ORD" ++ toString (c + 1)) = some sl := by
    rw [mapFind_mapSet_ne _ _ _ _ h12]
    exact mapFind_mapSet_same _ _ _
  have hfind_tp : mapFind (mapSet (mapSet e1.orders ("ORD" ++ toString (c + 1)) sl)
      ("ORD" ++ toString (c + 2)) tp) ("ORD" ++ toString (c + 2)) = some tp :=
    mapFind_mapSet_same _ _ _
  have hchild : ∀ (ch : Order) (k : Nat), k < c + 2 + 1 → ch.status = o1.status →
      mapFind (mapSet (mapSet e1.orders ("ORD" ++ toString (c + 1)) sl)
        ("ORD" ++ toString (c + 2)) tp) ("ORD" ++ toString k) = some ch →
      ChildOK
        { e1 with
            orders := mapSet (mapSet e1.orders ("ORD" ++ toString (c + 1)) sl)
              ("ORD" ++ toString (c + 2)) tp,
            order_id_counter := c + 2 + 1 }
        ("ORD" ++ toString c) ("ORD" ++ toString k) := by
    intro ch k hk hcs hfind
    refine ⟨⟨k, hk, rfl⟩, fun x hx => ?_⟩
    have hxx : mapFind (mapSet (mapSet e1.orders ("ORD" ++ toString (c + 1)) sl)
        ("ORD" ++ toString (c + 2)) tp) ("ORD" ++ toString k) = some x := hx
    rw [hfind] at hxx
    have hxe : ch = x := Option.some.inj hxx
    rw [← hxe, hcs]
    refine ⟨hnot.2.2, fun hf y hy => ?_⟩
    have hyy : mapFind (mapSet (mapSet e1.orders ("ORD" ++ toString (c + 1)) sl)
        ("ORD" ++ toString (c + 2)) tp) ("ORD" ++ toString c) = some y := hy
    rw [hfind_par] at hyy
    rw [← Option.some.inj hyy]
    exact Or.inl hf
  have hD := sound_add_bracket _ hC ("ORD" ++ toString c) ("ORD" ++ toString (c + 1))
    ("ORD" ++ toString (c + 2)) ⟨c, by show c < c + 2 + 1; omega, rfl⟩
    (hchild sl (c + 1) (by omega) hsl.2.2 hfind_sl)
    (hchild tp (c + 2) (by omega) htp.2.2 hfind_tp)
  refine ⟨sound_mono _ R hD hRo hRb (fun sym => by rw [hRk]) (le_of_eq hRc.symm), ?_⟩
  intro id hi
  rw [hRo]
  obtain ⟨n, hn, hid⟩ := hi
  rw [hc1] at hn
  have g1 : id ≠ "ORD" ++ toString (c + 2) := by
    rw [hid]; intro h; have := ord_id_injective _ _ h; omega
  have g2 : id ≠ "ORD" ++ toString (c + 1) := by
    rw [hid]; intro h; have := ord_id_injective _ _ h; omega
  rw [mapFind_mapSet_ne _ _ _ _ g1, mapFind_mapSet_ne _ _ _ _ g2]

theorem pending_processed (e : MatchingEngine) (o : Order) :
    Processed e { o with status := OrderStatus.PENDING }
      (o.id, { o with status := OrderStatus.PENDING },
        { e with orders := mapSet e.orders o.id { o with status := OrderStatus.PENDING } }) :=
  ⟨rfl, ⟨o.filled_quantity, OrderStatus.PENDING, rfl, Or.inl rfl⟩, fun _ => rfl, rfl,
    ⟨[], by simp⟩, rfl, rfl, rfl, rfl⟩

/-- For every type but `BRACKET` the `switch` of `place_order` processes the order, or
for an iceberg its visible part, as `Processed` describes. -/
theorem dispatch_processed (e : MatchingEngine) (o : Order)
    (hb : (mapFind e.order_books o.symbol).isSome = true)
    (hst : o.status = OrderStatus.OPEN) (ht : o.type ≠ OrderType.BRACKET) :
    ∃ r o1, e.dispatch o = some r ∧ Processed e o1 r ∧ o1.id = o.id ∧
      o1.symbol = o.symbol ∧ o1.status ≠ OrderStatus.REJECTED ∧
      o1.status ≠ OrderStatus.EXPIRED := by
  have hopen : o.status ≠ OrderStatus.REJECTED ∧ o.status ≠ OrderStatus.EXPIRED := by
    rw [hst]
    exact ⟨fun h => OrderStatus.noConfusion h, fun h => OrderStatus.noConfusion h⟩
  have hlim : ∃ r o1, e.process_limit_order o = some r ∧ Processed e o1 r ∧ o1.id = o.id ∧
      o1.symbol = o.symbol ∧ o1.status ≠ OrderStatus.REJECTED ∧
      o1.status ≠ OrderStatus.EXPIRED := by
    obtain ⟨r, hr, hp⟩ := process_limit_order_processed e o hb
    exact ⟨r, o, hr, hp, rfl, rfl, hopen⟩
  have hpen : ∃ r o1, some (o.id, { o with status := OrderStatus.PENDING },
      { e with orders := mapSet e.orders o.id { o with status := OrderStatus.PENDING } }) =
        some r ∧ Processed e o1 r ∧ o1.id = o.id ∧
      o1.symbol = o.symbol ∧ o1.status ≠ OrderStatus.REJECTED ∧
      o1.status ≠ OrderStatus.EXPIRED :=
    ⟨_, _, rfl, pending_processed e o, rfl, rfl, fun h => OrderStatus.noConfusion h,
      fun h => OrderStatus.noConfusion h⟩
  unfold MatchingEngine.dispatch
  split
  · obtain ⟨r, hr, hp⟩ := process_market_order_processed e o hb
    exact ⟨r, o, hr, hp, rfl, rfl, hopen⟩
  · exact hlim
  · exact hpen
  · exact hpen
  · exact hpen
  · unfold MatchingEngine.process_iceberg_order
    simp only
    obtain ⟨r, hr, hp⟩ := process_limit_order_processed e
      { (if o.iceberg_qty ≤ 0 then { o with iceberg_qty := o.quantity * (1 / 10) } else o) with
        quantity := min
          (if o.iceberg_qty ≤ 0 then { o with iceberg_qty := o.quantity * (1 / 10) }
            else o).iceberg_qty
          (if o.iceberg_qty ≤ 0 then { o with iceberg_qty := o.quantity * (1 / 10) }
            else o).quantity }
      (by split <;> exact hb)
    refine ⟨r, _, hr, hp, ?_, ?_, ?_⟩
    · split <;> rfl
    · split <;> rfl
    · split <;> exact hopen
  · rename_i h
    exact absurd h ht
  · exact hpen
  · exact hlim

/-- In a state with the invariant in which the counter is at least three steps from
wrapping, `place_order` returns, keeps the invariant, advances the counter by at most
three, and leaves every order stored before as it is. -/
theorem place_order_sound (e : MatchingEngine) (o : Order) (hs : e.Sound)
    (hc : e.order_id_counter + 3 < 2 ^ 64) :
    ∃ r, e.place_order o = some r ∧ r.2.Sound ∧
      e.order_id_counter ≤ r.2.order_id_counter ∧
      r.2.order_id_counter ≤ e.order_id_counter + 3 ∧ TerminalKept e r.2 := by
  have hfr := validate_order_frame e o
  have hvb := validate_order_balances e o
  have hsv : (e.validate_order o).2.Sound :=
    sound_mono e _ hs hfr.2.1 hvb.2.2 (fun sym => by rw [hfr.1]) (le_of_eq hvb.2.1.symm)
  cases hv : (e.validate_order o).1 with
  | false =>
    unfold MatchingEngine.place_order
    simp only [hv, if_true]
    exact ⟨_, rfl, hsv, le_of_eq hvb.2.1.symm, by rw [hvb.2.1]; omega,
      TerminalKept_of_eq e _ hfr.2.1⟩
  | true =>
    have hbook : (mapFind e.order_books o.symbol).isSome = true := by
      have := hfr.2.2.2 hv
      cases hm : mapFind e.order_books o.symbol with
      | none => rw [hm] at this; cases this
      | some b => rfl
    have hmod1 : (e.order_id_counter + 1) % 2 ^ 64 = e.order_id_counter + 1 :=
      Nat.mod_eq_of_lt (by omega)
    have hgc : (e.validate_order o).2.generate_order_id.2.order_id_counter =
        e.order_id_counter + 1 := by
      show ((e.validate_order o).2.order_id_counter + 1) % 2 ^ 64 = _
      rw [hvb.2.1, hmod1]
    have hgid : (e.validate_order o).2.generate_order_id.1 =
        "ORD" ++ toString e.order_id_counter := by
      show "ORD" ++ toString (e.validate_order o).2.order_id_counter = _
      rw [hvb.2.1]
    have hkept : ∀ R : MatchingEngine,
        (∀ id, Issued e id → mapFind R.orders id = mapFind e.orders id) →
        TerminalKept e R := by
      intro R hR id x hx _
      have hi := (hs.stored (id, x) (mapFind_mem _ _ _ hx)).1
      exact ⟨x, by rw [hR id hi]; exact hx, rfl⟩
    unfold MatchingEngine.place_order
    simp only [hv, Bool.true_eq_false, if_false]
    by_cases hty : o.type = OrderType.BRACKET
    · have hdisp : (e.validate_order o).2.generate_order_id.2.dispatch
          { o with id := (e.validate_order o).2.generate_order_id.1,
                   status := OrderStatus.OPEN } =
          (e.validate_order o).2.generate_order_id.2.process_bracket_order
          { o with id := (e.validate_order o).2.generate_order_id.1,
                   status := OrderStatus.OPEN } := by
        unfold MatchingEngine.dispatch
        simp only [hty]
      rw [hdisp]
      obtain ⟨o1, e1, hp, heq⟩ := process_bracket_order_shape
        (e.validate_order o).2.generate_order_id.2
        { o with id := (e.validate_order o).2.generate_order_id.1,
                 status := OrderStatus.OPEN }
        (by
          show (mapFind (e.validate_order o).2.order_books o.symbol).isSome = true
          rw [hfr.1]; exact hbook)
      rw [heq]
      simp only [Option.map_some']
      have hidne : (e.validate_order o).2.generate_order_id.1 ≠ "" := by
        rw [hgid]; exact ord_id_ne_empty _
      rw [if_pos hidne]
      have hsp := sound_processed e (e.validate_order o).2.generate_order_id.2 hs
        e.order_id_counter (le_refl _) hfr.2.1 hvb.2.2 hfr.1 hgc
        { o with id := (e.validate_order o).2.generate_order_id.1,
                 status := OrderStatus.OPEN } hgid hbook
        ⟨fun h => OrderStatus.noConfusion h, fun h => OrderStatus.noConfusion h⟩ _ hp
      obtain ⟨s1, s2, s3, s4, s5⟩ := hsp
      simp only at s1 s2 s3 s4 s5
      obtain ⟨_, ⟨f, st, h2, h3⟩, _⟩ := hp
      simp only at h2 h3
      have hst1 : o1.status = OrderStatus.OPEN ∨ o1.status = OrderStatus.PARTIALLY_FILLED ∨
          o1.status = OrderStatus.FILLED := by
        rw [h2]
        show st = _ ∨ st = _ ∨ st = _
        rcases h3 with h | h | h | h
        · exact Or.inl h
        · exact Or.inl h
        · exact Or.inr (Or.inl h)
        · exact Or.inr (Or.inr h)
      have hmod2 : (e1.order_id_counter + 1) % 2 ^ 64 = e.order_id_counter + 2 := by
        rw [s2]; exact Nat.mod_eq_of_lt (by omega)
      have hmod3 : ((e1.order_id_counter + 1) % 2 ^ 64 + 1) % 2 ^ 64 =
          e.order_id_counter + 3 := by
        rw [hmod2]; exact Nat.mod_eq_of_lt (by omega)
      have key : ∀ (R : MatchingEngine) (sl tp : Order),
          (sl.id = "ORD" ++ toString (e.order_id_counter + 1) ∧ sl.symbol = o1.symbol ∧
            sl.status = o1.status) →
          (tp.id = "ORD" ++ toString (e.order_id_counter + 2) ∧ tp.symbol = o1.symbol ∧
            tp.status = o1.status) →
          R.orders = mapSet
            (mapSet e1.orders ("ORD" ++ toString (e.order_id_counter + 1)) sl)
            ("ORD" ++ toString (e.order_id_counter + 2)) tp →
          R.bracket_orders = mapSet e1.bracket_orders ("ORD" ++ toString e.order_id_counter)
            ["ORD" ++ toString (e.order_id_counter + 1),
             "ORD" ++ toString (e.order_id_counter + 2)] →
          R.order_books = e1.order_books →
          R.order_id_counter = e.order_id_counter + 3 →
          R.Sound ∧ e.order_id_counter ≤ R.order_id_counter ∧
            R.order_id_counter ≤ e.order_id_counter + 3 ∧ TerminalKept e R := by
        intro R sl tp hsl htp hRo hRb hRk hRc
        have hch := sound_children e1 R s1 e.order_id_counter s2 o1 sl tp s3 hst1 hsl htp
          hRo hRb hRk hRc
        refine ⟨hch.1, by rw [hRc]; omega, by rw [hRc], ?_⟩
        apply hkept
        intro id hi
        rw [hch.2 id (issued_mono e e1 id (by rw [s2]; omega) hi)]
        exact s4 id hi
      refine ⟨_, rfl, ?_⟩
      refine key _
        { o1 with id := "ORD" ++ toString e1.order_id_counter,
                  type := OrderType.STOP_LOSS,
                  side := (match o1.side with
                    | OrderSide.BUY => OrderSide.SELL
                    | OrderSide.SELL => OrderSide.BUY),
                  parent_order_id := (e.validate_order o).2.generate_order_id.1 }
        { o1 with id := "ORD" ++ toString ((e1.order_id_counter + 1) % 2 ^ 64),
                  type := OrderType.TAKE_PROFIT,
                  side := (match o1.side with
                    | OrderSide.BUY => OrderSide.SELL
                    | OrderSide.SELL => OrderSide.BUY),
                  parent_order_id := (e.validate_order o).2.generate_order_id.1 }
        ⟨?_, rfl, rfl⟩ ⟨?_, rfl, rfl⟩ ?_ ?_ rfl hmod3
      · show "ORD" ++ toString e1.order_id_counter = _
        rw [s2]
      · show "ORD" ++ toString ((e1.order_id_counter + 1) % 2 ^ 64) = _
        rw [hmod2]
      · show mapSet (mapSet e1.orders ("ORD" ++ toString e1.order_id_counter) _)
          ("ORD" ++ toString ((e1.order_id_counter + 1) % 2 ^ 64)) _ = _
        rw [hmod2, s2]
      · show mapSet e1.bracket_orders (e.validate_order o).2.generate_order_id.1
          ["ORD" ++ toString e1.order_id_counter,
           "ORD" ++ toString ((e1.order_id_counter + 1) % 2 ^ 64)] = _
        rw [hmod2, s2, hgid]
    · obtain ⟨r, o1, hr, hp, h1, h2, h3⟩ := dispatch_processed
        (e.validate_order o).2.generate_order_id.2
        { o with id := (e.validate_order o).2.generate_order_id.1,
                 status := OrderStatus.OPEN }
        (by
          show (mapFind (e.validate_order o).2.order_books o.symbol).isSome = true
          rw [hfr.1]; exact hbook)
        rfl hty
      rw [hr]
      simp only [Option.map_some']
      have hsp := sound_processed e (e.validate_order o).2.generate_order_id.2 hs
        e.order_id_counter (le_refl _) hfr.2.1 hvb.2.2 hfr.1 hgc o1 (h1.trans hgid)
        (by rw [h2]; exact hbook) h3 r hp
      obtain ⟨s1, s2, _, s4, _⟩ := hsp
      exact ⟨_, rfl, s1, by rw [s2]; omega, by rw [s2]; omega, hkept _ s4⟩

end Advanced

/-! ## Advanced engine: claim C18 -/

namespace Advanced

theorem new_sound : MatchingEngine.new.Sound := by
  constructor
  · intro p hp; cases hp
  · intro q hq; cases hq

theorem update_user_balance_frame (e : MatchingEngine) (user_id asset : String)
    (amount : ℚ) :
    (e.update_user_balance user_id asset amount).orders = e.orders ∧
    (e.update_user_balance user_id asset amount).bracket_orders = e.bracket_orders ∧
    (e.update_user_balance user_id asset amount).order_books = e.order_books ∧
    (e.update_user_balance user_id asset amount).order_id_counter = e.order_id_counter := by
  unfold MatchingEngine.update_user_balance MatchingEngine.balanceRef
  cases mapFind e.user_balances (user_id ++ "_" ++ asset) <;> exact ⟨rfl, rfl, rfl, rfl⟩

/-- In a state with the invariant in which the counter is at least three steps from
wrapping, every call returns, keeps the invariant, advances the counter by at most
three, and keeps every terminal status. -/
theorem call_sound (e : MatchingEngine) (c : Call) (hs : e.Sound)
    (hc : e.order_id_counter + 3 < 2 ^ 64) :
    ∃ e1, e.call c = some e1 ∧ e1.Sound ∧ e1.order_id_counter ≤ e.order_id_counter + 3 ∧
      TerminalKept e e1 := by
  cases c with
  | place order =>
    obtain ⟨r, hr, h1, _, h3, h4⟩ := place_order_sound e order hs hc
    exact ⟨r.2, by show (e.place_order order).map _ = _; rw [hr]; rfl, h1, h3, h4⟩
  | cancel order_id user_id =>
    obtain ⟨r, hr, h1, h2, h3⟩ := cancel_order_sound e order_id user_id hs
    exact ⟨r.2, by show (e.cancel_order order_id user_id).map _ = _; rw [hr]; rfl, h1,
      by rw [h2]; omega, h3⟩
  | trail =>
    obtain ⟨e1, hr, h1, h2, h3⟩ := update_trailing_stops_sound e hs
    exact ⟨e1, hr, h1, by rw [h2]; omega, h3⟩
  | check =>
    obtain ⟨e1, hr, h1, h2, h3⟩ := checkStopKeys_sound (e.orders.map Prod.fst) e hs
    exact ⟨e1, hr, h1, by rw [h2]; omega, h3⟩
  | balance user_id asset amount =>
    obtain ⟨f1, f2, f3, f4⟩ := update_user_balance_frame e user_id asset amount
    exact ⟨_, rfl, sound_mono e _ hs f1 f2 (fun sym => by rw [f3]) (le_of_eq f4.symm),
      by rw [f4]; omega, TerminalKept_of_eq e _ f1⟩

theorem calls_sound (cs : List Call) :
    ∀ e : MatchingEngine, e.Sound → e.order_id_counter + 3 * cs.length < 2 ^ 64 →
      ∃ e1, e.calls cs = some e1 ∧ e1.Sound ∧
        e1.order_id_counter ≤ e.order_id_counter + 3 * cs.length ∧ TerminalKept e e1 := by
  induction cs with
  | nil => intro e hs _; exact ⟨e, rfl, hs, le_refl _, TerminalKept_refl e⟩
  | cons c rest ih =>
    intro e hs hc
    rw [List.length_cons] at hc
    obtain ⟨e1, h1, hs1, hc1, hk1⟩ := call_sound e c hs (by omega)
    obtain ⟨e2, h2, hs2, hc2, hk2⟩ := ih e1 hs1 (by omega)
    refine ⟨e2, ?_, hs2, ?_, TerminalKept_trans e e1 e2 hk1 hk2⟩
    · unfold MatchingEngine.calls
      rw [h1]
      exact h2
    · rw [List.length_cons]; omega

/-- C18. Let `e1` be the state a fresh engine reaches by any sequence of calls of
`place_order`, `cancel_order`, `update_trailing_stops`, `check_stop_orders` and
`update_user_balance`, and let any further such calls follow, the two sequences together
being short enough for the 64-bit order counter not to wrap (each call issues at most
three ids). Then the further calls return, and every order that is stored in `e1` with
status `FILLED`, `CANCELLED`, `REJECTED` or `EXPIRED` is stored after them under the
same id with the same status; this covers the cancellation of a bracket parent, which
rewrites the status of its children. -/
theorem C18_terminal_status_kept (before after : List Call) (e1 : MatchingEngine)
    (hlen : 3 * (before.length + after.length) + 1 < 2 ^ 64)
    (h1 : MatchingEngine.new.calls before = some e1) :
    ∃ e2, e1.calls after = some e2 ∧
      ∀ id x, mapFind e1.orders id = some x → x.status.Terminal →
        ∃ x2, mapFind e2.orders id = some x2 ∧ x2.status = x.status := by
  have hnew : MatchingEngine.new.order_id_counter = 1 := rfl
  obtain ⟨ea, ha, hsa, hca, _⟩ := calls_sound before MatchingEngine.new new_sound
    (by rw [hnew]; omega)
  rw [h1] at ha
  have hea : e1 = ea := Option.some.inj ha
  rw [← hea] at hsa hca
  rw [hnew] at hca
  obtain ⟨e2, h2, _, _, hk⟩ := calls_sound after e1 hsa (by omega)
  exact ⟨e2, h2, hk⟩

/-- C18 at the engine reached by `startCalls`, in which `ORD2` is `FILLED` and the
bracket child `ORD4` is `CANCELLED`, followed by `laterCalls`, which cancel the bracket
parent `ORD3`. -/
theorem C18_terminal_status_kept_witness :
    reachedEngine.orders.map (fun p => (p.1, p.2.status)) =
      [("ORD1", OrderStatus.OPEN), ("ORD2", OrderStatus.FILLED), ("ORD3", OrderStatus.OPEN),
       ("ORD4", OrderStatus.CANCELLED), ("ORD5", OrderStatus.OPEN)] ∧
    reachedEngine.bracket_orders = [("ORD3", ["ORD4", "ORD5"])] ∧
    ∃ e2, reachedEngine.calls laterCalls = some e2 ∧
      ∀ id x, mapFind reachedEngine.orders id = some x → x.status.Terminal →
        ∃ x2, mapFind e2.orders id = some x2 ∧ x2.status = x.status := by
  refine ⟨by decide!, by decide!, C18_terminal_status_kept startCalls laterCalls
    reachedEngine (by decide) ?_⟩
  have h : (MatchingEngine.new.calls startCalls).isSome = true := by decide!
  unfold reachedEngine
  cases hc : MatchingEngine.new.calls startCalls with
  | none => rw [hc] at h; cases h
  | some e => rfl

end Advanced

/-! ## Advanced engine: claim C21 -/

namespace Advanced

theorem trailedStop_monotone (side : OrderSide) (previous last trail : ℚ) :
    (side = OrderSide.SELL → previous ≤ trailedStop side previous last trail) ∧
    (side = OrderSide.BUY → previous ≠ 0 → trailedStop side previous last trail ≤ previous) := by
  cases side with
  | SELL =>
    refine ⟨fun _ => le_max_left _ _, fun h => ?_⟩
    cases h
  | BUY =>
    refine ⟨fun h => ?_, fun _ h0 => ?_⟩
    · cases h
    · unfold trailedStop
      simp only
      rw [if_neg h0]
      exact min_le_left _ _

theorem trailRule_monotone (e : MatchingEngine) (a b : String × Order)
    (h : TrailRule e a b) : TrailMonotone a b := by
  obtain ⟨hk, hr⟩ := h
  refine ⟨hk, fun ht hs => ?_⟩
  unfold TrailedOrder at hr
  rw [if_pos ⟨ht, hs⟩] at hr
  obtain ⟨book, _, hb⟩ := hr
  rw [hb]
  exact trailedStop_monotone _ _ _ _

/-- C21, as the claim states it, fails. The trailing buy `ORD3` is stored `PENDING`
with a trail of 2 and stop price 0 while the last price of its book is 100; after
`update_trailing_stops` its stop price is 102, which is above its value before the
call. -/
theorem C21_counterexample :
    (mapFind trailEngine.orders "ORD3").map
      (fun o => (o.type, o.side, o.status)) =
      some (OrderType.TRAILING_STOP, OrderSide.BUY, OrderStatus.PENDING) ∧
    (mapFind trailEngine.orders "ORD3").map (fun o => o.stop_price) = some 0 ∧
    (trailEngine.update_trailing_stops.bind (fun e => mapFind e.orders "ORD3")).map
      (fun o => o.stop_price) = some 102 ∧
    ¬ ((102 : ℚ) ≤ 0) := by
  decide!

/-- C21, amended. In a state in which every `PENDING` `TRAILING_STOP` order has a book,
every call of `update_trailing_stops` returns, changes only stored orders, keeps every
key, and for every `PENDING` `TRAILING_STOP` order leaves the stop price of a sell at
least at its value before the call, and the stop price of a buy at most at its value
before the call whenever that value was not 0. For the trailing sell with trail 2 the
last prices 100, 105, 103 and 102 give the stop prices 98, 103, 103 and 103. -/
theorem C21_trailing_stop_monotone (e : MatchingEngine)
    (hb : ∀ p ∈ e.orders, p.2.type = OrderType.TRAILING_STOP →
      p.2.status = OrderStatus.PENDING → (mapFind e.order_books p.2.symbol).isSome = true) :
    (∃ os, e.update_trailing_stops = some { e with orders := os } ∧
      List.Forall₂ TrailMonotone e.orders os) ∧
    peakState 1 = some (100, 98) ∧ peakState 2 = some (105, 103) ∧
    peakState 3 = some (103, 103) ∧ peakState 4 = some (102, 103) := by
  refine ⟨?_, by decide!, by decide!, by decide!, by decide!⟩
  obtain ⟨os1, h1, h2⟩ := trailAll_rule e e.orders hb
  refine ⟨os1, ?_, h2.imp (fun a b h => trailRule_monotone e a b h)⟩
  unfold MatchingEngine.update_trailing_stops
  rw [h1]
  rfl

/-- C21, the amended statement at the engine that holds the trailing sell `ORD1` with
stop price 103. -/
theorem C21_trailing_stop_monotone_witness :
    (mapFind peakEngine.orders "ORD1").map (fun o => (o.type, o.side, o.status)) =
      some (OrderType.TRAILING_STOP, OrderSide.SELL, OrderStatus.PENDING) ∧
    (∃ os, peakEngine.update_trailing_stops = some { peakEngine with orders := os } ∧
      List.Forall₂ TrailMonotone peakEngine.orders os) ∧
    peakState 1 = some (100, 98) ∧ peakState 2 = some (105, 103) ∧
    peakState 3 = some (103, 103) ∧ peakState 4 = some (102, 103) :=
  ⟨by decide!, C21_trailing_stop_monotone peakEngine (by decide!)⟩

end Advanced

/-! ## Advanced engine: claim C23 -/

namespace Advanced

theorem sweepLevels_filled_ge (levels : List OrderBookLevel)
    (hl : ∀ l ∈ levels, 0 ≤ l.quantity) :
    ∀ s : SweepState, s.order.filled_quantity ≤ (sweepLevels s levels).order.filled_quantity := by
  induction levels with
  | nil => intro s; exact le_refl _
  | cons level rest ih =>
    intro s
    unfold sweepLevels
    by_cases h : s.order.filled_quantity ≥ s.order.quantity
    · rw [if_pos h]
    · rw [if_neg h]
      have h1 := ih (fun l hlm => hl l (List.mem_cons_of_mem _ hlm)) (sweepStep s level)
      have h2 : s.order.filled_quantity ≤ (sweepStep s level).order.filled_quantity := by
        show s.order.filled_quantity ≤ s.order.filled_quantity +
          min level.quantity (s.order.quantity - s.order.filled_quantity)
        have h3 : 0 ≤ level.quantity := hl level (List.mem_cons_self _ _)
        have h4 : 0 ≤ s.order.quantity - s.order.filled_quantity := by
          have := not_le.mp h
          linarith
        have h5 : 0 ≤ min level.quantity (s.order.quantity - s.order.filled_quantity) :=
          le_min h3 h4
        linarith
      exact le_trans h2 h1

theorem marketStatus_filled (o : Order) :
    ∃ st, marketStatus o = { o with status := st } ∧
      (st = OrderStatus.FILLED → o.status = OrderStatus.FILLED ∨ o.quantity ≤ o.filled_quantity) := by
  unfold marketStatus
  by_cases h1 : o.filled_quantity ≥ o.quantity
  · rw [if_pos h1]
    exact ⟨_, rfl, fun _ => Or.inr h1⟩
  · rw [if_neg h1]
    by_cases h2 : o.filled_quantity > 0
    · rw [if_pos h2]
      exact ⟨_, rfl, fun h => OrderStatus.noConfusion h⟩
    · rw [if_neg h2]
      exact ⟨o.status, rfl, fun h => Or.inl h⟩

theorem get_levels_nonneg (book : OrderBook) (side : OrderSide)
    (hlev : ∀ l ∈ book.bids ++ book.asks, 0 ≤ l.2) (l : OrderBookLevel)
    (hl : l ∈ (match side with
      | OrderSide.BUY => book.get_asks 20
      | OrderSide.SELL => book.get_bids 20 : List OrderBookLevel)) : 0 ≤ l.quantity := by
  cases side with
  | BUY =>
    simp only [OrderBook.get_asks, List.mem_map] at hl
    obtain ⟨x, hx, hxl⟩ := hl
    rw [← hxl]
    exact hlev x (List.mem_append_right _ (List.mem_of_mem_take hx))
  | SELL =>
    simp only [OrderBook.get_bids, List.mem_map] at hl
    obtain ⟨x, hx, hxl⟩ := hl
    rw [← hxl]
    exact hlev x (List.mem_append_left _ (List.mem_of_mem_take hx))

/-- The method `process_market_order` on a symbol that has a book, with the link between
the fill and the status: the status `FILLED` is set only when the fill has reached the
quantity, and the fill does not fall when the levels of the book are not negative. -/
theorem process_market_order_fill (e : MatchingEngine) (o : Order) (book : OrderBook)
    (hb : mapFind e.order_books o.symbol = some book) :
    ∃ f st tr tc lp v,
      (st = OrderStatus.FILLED → o.status = OrderStatus.FILLED ∨ o.quantity ≤ f) ∧
      ((∀ l ∈ book.bids ++ book.asks, 0 ≤ l.2) → o.filled_quantity ≤ f) ∧
      e.process_market_order o =
        some (o.id, { o with filled_quantity := f, status := st },
          { e with
              order_books := mapSet e.order_books o.symbol
                { book with last_price := lp, volume_24h := v },
              orders := mapSet e.orders o.id { o with filled_quantity := f, status := st },
              recent_trades := e.recent_trades ++ tr,
              trade_id_counter := tc }) := by
  obtain ⟨f, tr, tc, lp, v, _, heq⟩ := sweepLevels_shape
    (match o.side with
     | OrderSide.BUY => book.get_asks 20
     | OrderSide.SELL => book.get_bids 20) { order := o, engine := e, book := book }
  obtain ⟨st, hst, hfilled⟩ := marketStatus_filled { o with filled_quantity := f }
  refine ⟨f, st, tr, tc, lp, v, hfilled, ?_, ?_⟩
  · intro hlev
    have h1 := sweepLevels_filled_ge _ (get_levels_nonneg book o.side hlev)
      { order := o, engine := e, book := book }
    rw [heq] at h1
    exact h1
  · unfold MatchingEngine.process_market_order
    rw [hb]
    simp only
    rw [heq]
    simp only
    rw [hst]

/-- What `process_limit_order` leaves in the book of the symbol: the ladders as they
were when the order ends fully matched, and otherwise the ladders with the remainder of
the order added; the status `FILLED` is reached only by a fill of the whole quantity. -/
theorem process_limit_order_book (e : MatchingEngine) (o : Order) (book : OrderBook)
    (hb : mapFind e.order_books o.symbol = some book)
    (hst : o.status ≠ OrderStatus.FILLED) :
    ∃ r book1, e.process_limit_order o = some r ∧ r.1 = o.id ∧
      mapFind r.2.2.orders o.id = some r.2.1 ∧
      (r.2.1.quantity = o.quantity ∧ r.2.1.side = o.side ∧ r.2.1.price = o.price) ∧
      (r.2.1.status = OrderStatus.FILLED → o.quantity ≤ r.2.1.filled_quantity) ∧
      ((∀ l ∈ book.bids ++ book.asks, 0 ≤ l.2) → o.filled_quantity ≤ r.2.1.filled_quantity) ∧
      mapFind r.2.2.order_books o.symbol = some book1 ∧
      (r.2.1.filled_quantity < o.quantity →
        book1.bids = (book.add_order r.2.1).bids ∧ book1.asks = (book.add_order r.2.1).asks) ∧
      (¬ r.2.1.filled_quantity < o.quantity →
        book1.bids = book.bids ∧ book1.asks = book.asks) := by
  unfold MatchingEngine.process_limit_order
  rw [hb]
  simp only
  by_cases hc : crossesBook book o = true
  · rw [if_pos hc]
    obtain ⟨f, st, tr, tc, lp, v, hfs, hfl, heq⟩ := process_market_order_fill e o book hb
    rw [heq]
    simp only
    unfold finishLimit
    simp only [mapFind_mapSet_same]
    unfold restRemainder
    simp only
    by_cases hf : f < o.quantity
    · rw [if_pos hf]
      refine ⟨_, _, rfl, rfl, mapFind_mapSet_same _ _ _, ⟨rfl, rfl, rfl⟩, ?_, hfl,
        mapFind_mapSet_same _ _ _, ?_, ?_⟩
      · intro h
        exfalso
        by_cases hp : f > 0
        · rw [if_pos hp] at h; cases h
        · rw [if_neg hp] at h; cases h
      · intro _
        unfold OrderBook.add_order
        cases o.side <;> exact ⟨rfl, rfl⟩
      · intro h; exact absurd hf h
    · rw [if_neg hf]
      refine ⟨_, _, rfl, rfl, mapFind_mapSet_same _ _ _, ⟨rfl, rfl, rfl⟩, ?_, hfl,
        mapFind_mapSet_same _ _ _, ?_, ?_⟩
      · intro h
        rcases hfs h with h1 | h1
        · exact absurd h1 hst
        · exact h1
      · intro h; exact absurd h hf
      · intro _; exact ⟨rfl, rfl⟩
  · rw [if_neg hc]
    unfold finishLimit
    rw [hb]
    simp only
    unfold restRemainder
    by_cases hf : o.filled_quantity < o.quantity
    · rw [if_pos hf]
      refine ⟨_, _, rfl, rfl, mapFind_mapSet_same _ _ _, ⟨rfl, rfl, rfl⟩, ?_, fun _ => le_refl _,
        mapFind_mapSet_same _ _ _, ?_, ?_⟩
      · intro h
        exfalso
        by_cases hp : o.filled_quantity > 0
        · rw [if_pos hp] at h; cases h
        · rw [if_neg hp] at h; cases h
      · intro _
        unfold OrderBook.add_order
        cases o.side <;> exact ⟨rfl, rfl⟩
      · intro h; exact absurd hf h
    · rw [if_neg hf]
      refine ⟨_, book, rfl, rfl, mapFind_mapSet_same _ _ _, ⟨rfl, rfl, rfl⟩,
        fun h => absurd h hst,
        fun _ => le_refl _, hb,
        fun h => absurd h hf, fun _ => ⟨rfl, rfl⟩⟩

theorem add_order_amount (book : OrderBook) (x y : Order) (hs : x.side = y.side)
    (hp : x.price = y.price)
    (hq : x.quantity - x.filled_quantity = y.quantity - y.filled_quantity) :
    book.add_order x = book.add_order y := by
  unfold OrderBook.add_order
  rw [hs, hp, hq]

theorem visibleOrder_frame (o : Order) :
    (visibleOrder o).quantity = visibleQuantity o ∧ (visibleOrder o).id = o.id ∧
    (visibleOrder o).symbol = o.symbol ∧ (visibleOrder o).side = o.side ∧
    (visibleOrder o).price = o.price ∧ (visibleOrder o).status = o.status ∧
    (visibleOrder o).filled_quantity = o.filled_quantity := by
  unfold visibleOrder visibleQuantity
  by_cases h : o.iceberg_qty ≤ 0
  · simp only [if_pos h, and_self]
  · simp only [if_neg h, and_self]

theorem process_iceberg_order_eq (e : MatchingEngine) (o : Order) :
    e.process_iceberg_order o = e.process_limit_order (visibleOrder o) := rfl

/-- C23, as the claim states it, fails. With 5.0 on offer at 100, the `ICEBERG` buy of
10.0 at 100 with display size 2 is admitted as `ORD2`; the order stored under `ORD2` has
quantity 2, not 10, and with a filled quantity of 2 its status is `FILLED`. -/
theorem C23_counterexample :
    icebergBuy.type = OrderType.ICEBERG ∧ icebergBuy.quantity = 10 ∧
    icebergBuy.iceberg_qty = 2 ∧
    (btcBook icebergEngine).map (fun b => b.asks) = some [(100, 5)] ∧
    (icebergEngine.place_order icebergBuy).map (fun x => x.1) = some "ORD2" ∧
    ((icebergEngine.place_order icebergBuy).bind (fun x => mapFind x.2.orders "ORD2")).map
      (fun o => (o.quantity, o.filled_quantity)) = some (2, 2) ∧
    ((icebergEngine.place_order icebergBuy).bind (fun x => mapFind x.2.orders "ORD2")).map
      (fun o => o.status) = some OrderStatus.FILLED := by
  decide!

/-- C23, amended. For every `ICEBERG` order admitted by `place_order` on a symbol whose
book is `book`, the order stored under the returned id has as its quantity the visible
quantity, the smaller of the display size and the requested quantity; its status is
`FILLED` only when its filled quantity has reached that visible quantity; and the book of
the symbol afterwards has either the ladders of `book`, or those ladders with one amount
added at the price and on the side of the order, which is the visible quantity less the
filled quantity and so, for an order that arrives with no negative fill on a book without
negative levels, at most the visible quantity. -/
theorem C23_iceberg_visible_part (e e1 : MatchingEngine) (o : Order) (id : String)
    (book : OrderBook) (hty : o.type = OrderType.ICEBERG)
    (hplace : e.place_order o = some (id, e1)) (hadm : id ≠ "")
    (hbook : mapFind e.order_books o.symbol = some book) :
    ∃ stored book1, mapFind e1.orders id = some stored ∧
      stored.quantity = visibleQuantity o ∧
      (stored.status = OrderStatus.FILLED → visibleQuantity o ≤ stored.filled_quantity) ∧
      mapFind e1.order_books o.symbol = some book1 ∧
      ((book1.bids = book.bids ∧ book1.asks = book.asks) ∨
        ∃ a, 0 < a ∧ a = visibleQuantity o - stored.filled_quantity ∧
          (0 ≤ o.filled_quantity → (∀ l ∈ book.bids ++ book.asks, 0 ≤ l.2) →
            a ≤ visibleQuantity o) ∧
          book1.bids = (book.add_order { o with quantity := a, filled_quantity := 0 }).bids ∧
          book1.asks =
            (book.add_order { o with quantity := a, filled_quantity := 0 }).asks) := by
  have hfr := validate_order_frame e o
  have hv : (e.validate_order o).1 = true := by
    cases hv : (e.validate_order o).1 with
    | true => rfl
    | false =>
      exfalso
      unfold MatchingEngine.place_order at hplace
      simp only [hv, if_true] at hplace
      have h1 := Option.some.inj hplace
      exact hadm (congrArg Prod.fst h1).symm
  unfold MatchingEngine.place_order at hplace
  simp only [hv, Bool.true_eq_false, if_false] at hplace
  have hdisp : (e.validate_order o).2.generate_order_id.2.dispatch
      { o with id := (e.validate_order o).2.generate_order_id.1,
               status := OrderStatus.OPEN } =
      (e.validate_order o).2.generate_order_id.2.process_limit_order
        (visibleOrder { o with id := (e.validate_order o).2.generate_order_id.1,
                               status := OrderStatus.OPEN }) := by
    unfold MatchingEngine.dispatch
    simp only [hty]
    rfl
  rw [hdisp] at hplace
  obtain ⟨v1, v2, v3, v4, v5, v6, v7⟩ := visibleOrder_frame
    { o with id := (e.validate_order o).2.generate_order_id.1, status := OrderStatus.OPEN }
  have hvq : visibleQuantity
      { o with id := (e.validate_order o).2.generate_order_id.1,
               status := OrderStatus.OPEN } = visibleQuantity o := rfl
  rw [hvq] at v1
  have hb : mapFind (e.validate_order o).2.generate_order_id.2.order_books
      (visibleOrder { o with id := (e.validate_order o).2.generate_order_id.1,
                             status := OrderStatus.OPEN }).symbol = some book := by
    rw [v3]
    show mapFind (e.validate_order o).2.order_books o.symbol = some book
    rw [hfr.1]
    exact hbook
  obtain ⟨r, book1, hr, h1, h2, ⟨h3, h3s, h3p⟩, h4, h5, h6, h7, h8⟩ :=
    process_limit_order_book _ _ book hb
      (by rw [v6]; exact fun h => OrderStatus.noConfusion h)
  rw [hr] at hplace
  simp only [Option.map_some', Option.some.injEq, Prod.mk.injEq] at hplace
  obtain ⟨hid, he1⟩ := hplace
  rw [v2] at h1 h2
  rw [v3] at h6
  rw [v1] at h3 h4 h7 h8
  rw [v7] at h5
  have hidr : (e.validate_order o).2.generate_order_id.1 = id := by
    rw [← hid, h1]
  refine ⟨r.2.1, book1, ?_, h3, ?_, ?_, ?_⟩
  · rw [← he1, ← hidr]; exact h2
  · intro hf
    exact h4 hf
  · rw [← he1]; exact h6
  · by_cases hf : r.2.1.filled_quantity < visibleQuantity o
    · right
      obtain ⟨g1, g2⟩ := h7 hf
      have hadd : book.add_order r.2.1 =
          book.add_order { o with quantity := visibleQuantity o - r.2.1.filled_quantity,
                                  filled_quantity := 0 } := by
        apply add_order_amount
        · rw [h3s, v4]
        · rw [h3p, v5]
        · rw [h3]
          show _ = visibleQuantity o - r.2.1.filled_quantity - 0
          rw [sub_zero]
      refine ⟨visibleQuantity o - r.2.1.filled_quantity, by linarith, rfl, ?_, ?_, ?_⟩
      · intro hfill hlev
        have := h5 hlev
        linarith
      · rw [g1, hadd]
      · rw [g2, hadd]
    · left
      exact h8 hf

/-- C23, the amended statement at the iceberg buy of 10.0 with display size 2 on the
book that offers 5.0 at 100. -/
theorem C23_iceberg_visible_part_witness :
    ∃ e1 book, icebergEngine.place_order icebergBuy = some ("ORD2", e1) ∧
      mapFind icebergEngine.order_books icebergBuy.symbol = some book ∧
      ∃ stored book1, mapFind e1.orders "ORD2" = some stored ∧
        stored.quantity = visibleQuantity icebergBuy ∧
        (stored.status = OrderStatus.FILLED →
          visibleQuantity icebergBuy ≤ stored.filled_quantity) ∧
        mapFind e1.order_books icebergBuy.symbol = some book1 ∧
        ((book1.bids = book.bids ∧ book1.asks = book.asks) ∨
          ∃ a, 0 < a ∧ a = visibleQuantity icebergBuy - stored.filled_quantity ∧
            (0 ≤ icebergBuy.filled_quantity → (∀ l ∈ book.bids ++ book.asks, 0 ≤ l.2) →
              a ≤ visibleQuantity icebergBuy) ∧
            book1.bids =
              (book.add_order { icebergBuy with quantity := a, filled_quantity := 0 }).bids ∧
            book1.asks =
              (book.add_order { icebergBuy with quantity := a, filled_quantity := 0 }).asks) := by
  have h1 : (icebergEngine.place_order icebergBuy).map (fun x => x.1) = some "ORD2" := by
    decide!
  have h2 : (mapFind icebergEngine.order_books icebergBuy.symbol).isSome = true := by decide!
  cases hp : icebergEngine.place_order icebergBuy with
  | none => rw [hp] at h1; cases h1
  | some r =>
    obtain ⟨id, e1⟩ := r
    rw [hp] at h1
    have hid : id = "ORD2" := Option.some.inj h1
    subst hid
    cases hb : mapFind icebergEngine.order_books icebergBuy.symbol with
    | none => rw [hb] at h2; cases h2
    | some book =>
      exact ⟨e1, book, rfl, rfl, C23_iceberg_visible_part icebergEngine e1 icebergBuy "ORD2"
        book rfl hp (by decide) hb⟩

end Advanced

/-! ## Advanced engine: keys of the tables -/

namespace Advanced

theorem mem_keys_mapSet {α : Type} (m : List (String × α)) (k : String) (v : α)
    (x : String) (h : x ∈ (mapSet m k v).map Prod.fst) : x ∈ m.map Prod.fst ∨ x = k := by
  obtain ⟨p, hp, hx⟩ := List.mem_map.mp h
  rcases mem_mapSet m k v p hp with h1 | h1
  · exact Or.inl (List.mem_map.mpr ⟨p, h1, hx⟩)
  · right
    rw [← hx, h1]

theorem uniqueKeys_mapSet {α : Type} (m : List (String × α)) (k : String) (v : α)
    (h : UniqueKeys m) : UniqueKeys (mapSet m k v) := by
  unfold UniqueKeys at h ⊢
  induction m with
  | nil => simp [mapSet]
  | cons x rest ih =>
    obtain ⟨k2, v2⟩ := x
    rw [List.map_cons, List.nodup_cons] at h
    unfold mapSet
    by_cases h2 : k2 = k
    · rw [if_pos h2, List.map_cons, List.nodup_cons]
      exact h
    · rw [if_neg h2, List.map_cons, List.nodup_cons]
      refine ⟨fun hm => ?_, ih h.2⟩
      rcases mem_keys_mapSet rest k v k2 hm with h3 | h3
      · exact h.1 h3
      · exact h2 h3

theorem mem_keys_mapErase {α : Type} (m : List (String × α)) (k : String) (x : String)
    (h : x ∈ (mapErase m k).map Prod.fst) : x ∈ m.map Prod.fst := by
  obtain ⟨p, hp, hx⟩ := List.mem_map.mp h
  exact List.mem_map.mpr ⟨p, mem_mapErase m k p hp, hx⟩

theorem uniqueKeys_mapErase {α : Type} (m : List (String × α)) (k : String)
    (h : UniqueKeys m) : UniqueKeys (mapErase m k) := by
  unfold UniqueKeys at h ⊢
  induction m with
  | nil => exact h
  | cons x rest ih =>
    obtain ⟨k2, v2⟩ := x
    rw [List.map_cons, List.nodup_cons] at h
    unfold mapErase
    by_cases h2 : k2 = k
    · rw [if_pos h2]
      exact h.2
    · rw [if_neg h2, List.map_cons, List.nodup_cons]
      exact ⟨fun hm => h.1 (mem_keys_mapErase rest k k2 hm), ih h.2⟩

theorem mapFind_none_of_not_key {α : Type} (m : List (String × α)) (k : String)
    (h : k ∉ m.map Prod.fst) : mapFind m k = none := by
  cases hf : mapFind m k with
  | none => rfl
  | some v =>
    exfalso
    exact h (List.mem_map.mpr ⟨(k, v), mapFind_mem m k v hf, rfl⟩)

theorem mapFind_mapErase_self {α : Type} (m : List (String × α)) (k : String)
    (h : UniqueKeys m) : mapFind (mapErase m k) k = none := by
  unfold UniqueKeys at h
  induction m with
  | nil => rfl
  | cons x rest ih =>
    obtain ⟨k2, v2⟩ := x
    rw [List.map_cons, List.nodup_cons] at h
    unfold mapErase
    by_cases h2 : k2 = k
    · rw [if_pos h2]
      apply mapFind_none_of_not_key
      rw [← h2]
      exact h.1
    · rw [if_neg h2]
      unfold mapFind
      rw [if_neg h2]
      exact ih h.2

theorem mapFind_mapErase_ne {α : Type} (m : List (String × α)) (k p : String)
    (h : p ≠ k) : mapFind (mapErase m k) p = mapFind m p := by
  induction m with
  | nil => rfl
  | cons x rest ih =>
    obtain ⟨k2, v2⟩ := x
    unfold mapErase
    by_cases h2 : k2 = k
    · rw [if_pos h2]
      conv_rhs => unfold mapFind
      rw [if_neg (by rw [h2]; exact Ne.symm h)]
    · rw [if_neg h2]
      unfold mapFind
      by_cases h3 : k2 = p
      · rw [if_pos h3, if_pos h3]
      · rw [if_neg h3, if_neg h3]
        exact ih

theorem mapFind_mapSet_isSome_of_isSome {α : Type} (m : List (String × α)) (k k1 : String)
    (v : α) (h : (mapFind m k1).isSome = true) :
    (mapFind (mapSet m k v) k1).isSome = true := by
  by_cases hk : k1 = k
  · rw [hk, mapFind_mapSet_same]
    rfl
  · rw [mapFind_mapSet_ne m k k1 v hk]
    exact h

end Advanced

/-! ## Advanced engine: what a call changes in the tables -/

namespace Advanced

/-- In a state with the invariant in which the counter is at least three steps from
wrapping, `place_order` returns, leaves every order stored before as it is, and leaves
the bracket table as it is unless it admits a `BRACKET` order, in which case the parent
and the two children are stored and filed as `BracketPlaced` describes. -/
theorem place_order_shape (e : MatchingEngine) (o : Order) (hs : e.Sound)
    (hc : e.order_id_counter + 3 < 2 ^ 64) :
    ∃ r, e.place_order o = some r ∧ e.order_id_counter ≤ r.2.order_id_counter ∧
      (∀ id, Issued e id → mapFind r.2.orders id = mapFind e.orders id) ∧
      ((o.type = OrderType.BRACKET ∧ r.1 ≠ "") → BracketPlaced e o r) ∧
      (¬ (o.type = OrderType.BRACKET ∧ r.1 ≠ "") →
        r.2.bracket_orders = e.bracket_orders) := by
  have hfr := validate_order_frame e o
  have hvb := validate_order_balances e o
  cases hv : (e.validate_order o).1 with
  | false =>
    unfold MatchingEngine.place_order
    simp only [hv, if_true]
    refine ⟨_, rfl, le_of_eq hvb.2.1.symm, fun id _ => by rw [hfr.2.1], ?_, fun _ => hvb.2.2⟩
    rintro ⟨_, h⟩
    exact absurd rfl h
  | true =>
    have hbook : (mapFind e.order_books o.symbol).isSome = true := by
      have := hfr.2.2.2 hv
      cases hm : mapFind e.order_books o.symbol with
      | none => rw [hm] at this; cases this
      | some b => rfl
    have hmod1 : (e.order_id_counter + 1) % 2 ^ 64 = e.order_id_counter + 1 :=
      Nat.mod_eq_of_lt (by omega)
    have hgc : (e.validate_order o).2.generate_order_id.2.order_id_counter =
        e.order_id_counter + 1 := by
      show ((e.validate_order o).2.order_id_counter + 1) % 2 ^ 64 = _
      rw [hvb.2.1, hmod1]
    have hgid : (e.validate_order o).2.generate_order_id.1 =
        "ORD" ++ toString e.order_id_counter := by
      show "ORD" ++ toString (e.validate_order o).2.order_id_counter = _
      rw [hvb.2.1]
    unfold MatchingEngine.place_order
    simp only [hv, Bool.true_eq_false, if_false]
    by_cases hty : o.type = OrderType.BRACKET
    · have hdisp : (e.validate_order o).2.generate_order_id.2.dispatch
          { o with id := (e.validate_order o).2.generate_order_id.1,
                   status := OrderStatus.OPEN } =
          (e.validate_order o).2.generate_order_id.2.process_bracket_order
          { o with id := (e.validate_order o).2.generate_order_id.1,
                   status := OrderStatus.OPEN } := by
        unfold MatchingEngine.dispatch
        simp only [hty]
      rw [hdisp]
      obtain ⟨o1, e1, hp, heq⟩ := process_bracket_order_shape
        (e.validate_order o).2.generate_order_id.2
        { o with id := (e.validate_order o).2.generate_order_id.1,
                 status := OrderStatus.OPEN }
        (by
          show (mapFind (e.validate_order o).2.order_books o.symbol).isSome = true
          rw [hfr.1]; exact hbook)
      rw [heq]
      simp only [Option.map_some']
      have hidne : (e.validate_order o).2.generate_order_id.1 ≠ "" := by
        rw [hgid]; exact ord_id_ne_empty _
      rw [if_pos hidne]
      have hsp := sound_processed e (e.validate_order o).2.generate_order_id.2 hs
        e.order_id_counter (le_refl _) hfr.2.1 hvb.2.2 hfr.1 hgc
        { o with id := (e.validate_order o).2.generate_order_id.1,
                 status := OrderStatus.OPEN } hgid hbook
        ⟨fun h => OrderStatus.noConfusion h, fun h => OrderStatus.noConfusion h⟩ _ hp
      obtain ⟨s1, s2, s3, s4, s5⟩ := hsp
      simp only at s1 s2 s3 s4 s5
      obtain ⟨_, ⟨f, st, h2, h3⟩, _, _, _, _, _, h9, _⟩ := hp
      simp only at h2 h3 h9
      have hside : o1.side = o.side := by rw [h2]
      have hmod2 : (e1.order_id_counter + 1) % 2 ^ 64 = e.order_id_counter + 2 := by
        rw [s2]; exact Nat.mod_eq_of_lt (by omega)
      have hmod3 : ((e1.order_id_counter + 1) % 2 ^ 64 + 1) % 2 ^ 64 =
          e.order_id_counter + 3 := by
        rw [hmod2]; exact Nat.mod_eq_of_lt (by omega)
      have h01 : "ORD" ++ toString e.order_id_counter ≠
          "ORD" ++ toString (e.order_id_counter + 1) := by
        intro h; have := ord_id_injective _ _ h; omega
      have h02 : "ORD" ++ toString e.order_id_counter ≠
          "ORD" ++ toString (e.order_id_counter + 2) := by
        intro h; have := ord_id_injective _ _ h; omega
      have h12 : "ORD" ++ toString (e.order_id_counter + 1) ≠
          "ORD" ++ toString (e.order_id_counter + 2) := by
        intro h; have := ord_id_injective _ _ h; omega
      have key : ∀ (i : String) (R : MatchingEngine) (sl tp : Order),
          i = "ORD" ++ toString e.order_id_counter →
          (sl.side = opposite o.side ∧ sl.parent_order_id = i ∧
            sl.type = OrderType.STOP_LOSS) →
          (tp.side = opposite o.side ∧ tp.parent_order_id = i ∧
            tp.type = OrderType.TAKE_PROFIT) →
          R.orders = mapSet
            (mapSet e1.orders ("ORD" ++ toString (e.order_id_counter + 1)) sl)
            ("ORD" ++ toString (e.order_id_counter + 2)) tp →
          R.bracket_orders = mapSet e.bracket_orders i
            ["ORD" ++ toString (e.order_id_counter + 1),
             "ORD" ++ toString (e.order_id_counter + 2)] →
          R.order_id_counter = e.order_id_counter + 3 →
          e.order_id_counter ≤ R.order_id_counter ∧
            (∀ id, Issued e id → mapFind R.orders id = mapFind e.orders id) ∧
            ((o.type = OrderType.BRACKET ∧ i ≠ "") → BracketPlaced e o (i, R)) ∧
            (¬ (o.type = OrderType.BRACKET ∧ i ≠ "") →
              R.bracket_orders = e.bracket_orders) := by
        intro i R sl tp hi hsl htp hRo hRb hRc
        refine ⟨by rw [hRc]; omega, ?_, fun _ => ?_, fun hn => ?_⟩
        · intro id hid
          rw [hRo, mapFind_mapSet_ne _ _ _ _ (issued_ne_fresh e id _ (by omega) hid),
            mapFind_mapSet_ne _ _ _ _ (issued_ne_fresh e id _ (by omega) hid)]
          exact s4 id hid
        · refine ⟨hi, o1, sl, tp, hRb, ?_, ?_, ?_, hside, hsl.1, htp.1, hsl.2.1, htp.2.1,
            hsl.2.2, htp.2.2⟩
          · show mapFind R.orders i = some o1
            rw [hi, hRo, mapFind_mapSet_ne _ _ _ _ h02, mapFind_mapSet_ne _ _ _ _ h01]
            exact s3
          · show mapFind R.orders _ = some sl
            rw [hRo, mapFind_mapSet_ne _ _ _ _ h12]
            exact mapFind_mapSet_same _ _ _
          · show mapFind R.orders _ = some tp
            rw [hRo]
            exact mapFind_mapSet_same _ _ _
        · exact absurd ⟨hty, by rw [hi]; exact ord_id_ne_empty _⟩ hn
      refine ⟨_, rfl, ?_⟩
      refine key _ _
        { o1 with id := "ORD" ++ toString e1.order_id_counter,
                  type := OrderType.STOP_LOSS,
                  side := (match o1.side with
                    | OrderSide.BUY => OrderSide.SELL
                    | OrderSide.SELL => OrderSide.BUY),
                  parent_order_id := (e.validate_order o).2.generate_order_id.1 }
        { o1 with id := "ORD" ++ toString ((e1.order_id_counter + 1) % 2 ^ 64),
                  type := OrderType.TAKE_PROFIT,
                  side := (match o1.side with
                    | OrderSide.BUY => OrderSide.SELL
                    | OrderSide.SELL => OrderSide.BUY),
                  parent_order_id := (e.validate_order o).2.generate_order_id.1 }
        hgid ⟨?_, rfl, rfl⟩ ⟨?_, rfl, rfl⟩ ?_ ?_ ?_
      · show (match o1.side with
          | OrderSide.BUY => OrderSide.SELL
          | OrderSide.SELL => OrderSide.BUY) = opposite o.side
        rw [hside]; rfl
      · show (match o1.side with
          | OrderSide.BUY => OrderSide.SELL
          | OrderSide.SELL => OrderSide.BUY) = opposite o.side
        rw [hside]; rfl
      · show mapSet (mapSet e1.orders ("ORD" ++ toString e1.order_id_counter) _)
          ("ORD" ++ toString ((e1.order_id_counter + 1) % 2 ^ 64)) _ = _
        rw [hmod2, s2]
      · show mapSet e1.bracket_orders (e.validate_order o).2.generate_order_id.1
          ["ORD" ++ toString e1.order_id_counter,
           "ORD" ++ toString ((e1.order_id_counter + 1) % 2 ^ 64)] = _
        have h9e : e1.bracket_orders = e.bracket_orders := h9.trans hvb.2.2
        rw [hmod2, s2, h9e]
      · exact hmod3
    · obtain ⟨r, o1, hr, hp, h1, h2, h3⟩ := dispatch_processed
        (e.validate_order o).2.generate_order_id.2
        { o with id := (e.validate_order o).2.generate_order_id.1,
                 status := OrderStatus.OPEN }
        (by
          show (mapFind (e.validate_order o).2.order_books o.symbol).isSome = true
          rw [hfr.1]; exact hbook)
        rfl hty
      rw [hr]
      simp only [Option.map_some']
      have hsp := sound_processed e (e.validate_order o).2.generate_order_id.2 hs
        e.order_id_counter (le_refl _) hfr.2.1 hvb.2.2 hfr.1 hgc o1 (h1.trans hgid)
        (by rw [h2]; exact hbook) h3 r hp
      obtain ⟨_, s2, _, s4, _⟩ := hsp
      refine ⟨_, rfl, by rw [s2]; omega, s4, fun h => absurd h.1 hty, fun _ => ?_⟩
      exact hp.2.2.2.2.2.2.2.1.trans hvb.2.2

theorem evolves_of_eq (e e1 : MatchingEngine) (ho : e1.orders = e.orders)
    (hb : e1.bracket_orders = e.bracket_orders)
    (hc : e.order_id_counter ≤ e1.order_id_counter) : Evolves e e1 :=
  ⟨hc, fun _ _ => by rw [ho], fun _ _ => Or.inl (by rw [hb]), fun h => by rw [hb]; exact h⟩

theorem evolves_trans (e e1 e2 : MatchingEngine) (h1 : Evolves e e1) (h2 : Evolves e1 e2)
    (hk : TerminalKept e1 e2) : Evolves e e2 := by
  obtain ⟨a1, a2, a3, a4⟩ := h1
  obtain ⟨b1, b2, b3, b4⟩ := h2
  refine ⟨le_trans a1 b1, fun id hi => ?_, fun p hp => ?_, fun h => b4 (a4 h)⟩
  · rw [b2 id (issued_mono e e1 id a1 hi), a2 id hi]
  · rcases b3 p (issued_mono e e1 p a1 hp) with h | h
    · rcases a3 p hp with g | ⟨y1, hy1, hs1⟩
      · exact Or.inl (h.trans g)
      · obtain ⟨x2, hx2, hs2⟩ := hk p y1 hy1 (by rw [hs1]; exact Or.inr (Or.inl rfl))
        exact Or.inr ⟨x2, hx2, hs2.trans hs1⟩
    · exact Or.inr h

/-- One visit of the loop of `check_stop_orders` in a state with the invariant keeps the
bracket table, the counter and the set of stored ids. -/
theorem checkStopAt_shape (e : MatchingEngine) (key : String) (hs : e.Sound) :
    ∃ e1, e.checkStopAt key = some e1 ∧ e1.bracket_orders = e.bracket_orders ∧
      e1.order_id_counter = e.order_id_counter ∧
      ∀ id, (mapFind e1.orders id).isSome = (mapFind e.orders id).isSome := by
  unfold MatchingEngine.checkStopAt
  cases ho : mapFind e.orders key with
  | none => exact ⟨e, rfl, rfl, rfl, fun _ => rfl⟩
  | some o =>
    simp only
    by_cases hp : isPendingStop o = true
    · rw [if_pos hp]
      have hko := hs.stored (key, o) (mapFind_mem _ _ _ ho)
      cases hbk : mapFind e.order_books o.symbol with
      | none =>
        have := hko.2.2.1
        rw [hbk] at this
        cases this
      | some book =>
        simp only
        by_cases htr : shouldTrigger book.last_price o = true
        · rw [if_pos htr]
          obtain ⟨r, hpr, heq⟩ := triggerStop_shape e key o hko.2.2.1
          obtain ⟨_, _, _, h5, _, h7, _, h9, _⟩ := hpr
          refine ⟨_, heq, h9, h7, fun id => ?_⟩
          show (mapFind (mapSet r.2.2.orders key r.2.1) id).isSome = _
          rw [h5]
          have hto : (triggeredOrder o).id = key := hko.2.1
          rw [hto]
          show (mapFind (mapSet (mapSet (mapSet e.orders key (triggeredOrder o)) key r.2.1)
            key r.2.1) id).isSome = _
          rw [mapSet_mapSet, mapSet_mapSet]
          exact mapFind_mapSet_isSome _ _ _ _ (by rw [ho]; rfl)
        · rw [if_neg htr]
          exact ⟨e, rfl, rfl, rfl, fun _ => rfl⟩
    · rw [if_neg hp]
      exact ⟨e, rfl, rfl, rfl, fun _ => rfl⟩

theorem checkStopKeys_evolves (keys : List String) :
    ∀ e e2 : MatchingEngine, e.Sound → checkStopKeys e keys = some e2 → Evolves e e2 := by
  induction keys with
  | nil =>
    intro e e2 _ h
    have : e = e2 := Option.some.inj h
    rw [← this]
    exact evolves_of_eq e e rfl rfl (le_refl _)
  | cons key rest ih =>
    intro e e2 hs h
    obtain ⟨e1, h1, hb1, hc1, ho1⟩ := checkStopAt_shape e key hs
    obtain ⟨ea, ha, hsa, _, _⟩ := checkStopAt_sound e key hs
    rw [h1] at ha
    have hea : e1 = ea := Option.some.inj ha
    rw [← hea] at hsa
    unfold checkStopKeys at h
    rw [h1] at h
    simp only at h
    obtain ⟨eb, hb, _, _, hkb⟩ := checkStopKeys_sound rest e1 hsa
    rw [h] at hb
    have heb : e2 = eb := Option.some.inj hb
    rw [← heb] at hkb
    have hev1 : Evolves e e1 :=
      ⟨le_of_eq hc1.symm, fun id _ => ho1 id, fun _ _ => Or.inl (by rw [hb1]),
        fun hu => by rw [hb1]; exact hu⟩
    exact evolves_trans e e1 e2 hev1 (ih e1 e2 hsa h) hkb

theorem update_trailing_stops_evolves (e e1 : MatchingEngine) (hs : e.Sound)
    (h : e.update_trailing_stops = some e1) : Evolves e e1 := by
  obtain ⟨os1, h1, h2⟩ := trailAll_rule e e.orders
    (fun p hp _ _ => (hs.stored p hp).2.2.1)
  unfold MatchingEngine.update_trailing_stops at h
  rw [h1] at h
  have he : { e with orders := os1 } = e1 := Option.some.inj h
  rw [← he]
  refine ⟨le_refl _, fun id _ => ?_, fun _ _ => Or.inl rfl, fun hu => hu⟩
  show (mapFind os1 id).isSome = _
  rcases trailRule_find e e.orders os1 h2 id with ⟨g1, g2⟩ | ⟨x, x1, g1, g2, _⟩
  · rw [g1, g2]
  · rw [g1, g2]; rfl

theorem cancel_order_evolves (e : MatchingEngine) (order_id user_id : String)
    (r : Bool × MatchingEngine) (h : e.cancel_order order_id user_id = some r) :
    Evolves e r.2 := by
  unfold MatchingEngine.cancel_order at h
  cases ho : mapFind e.orders order_id with
  | none =>
    rw [ho] at h
    rw [← Option.some.inj h]
    exact evolves_of_eq e e rfl rfl (le_refl _)
  | some o =>
    rw [ho] at h
    simp only at h
    by_cases hu : o.user_id ≠ user_id
    · rw [if_pos hu] at h
      rw [← Option.some.inj h]
      exact evolves_of_eq e e rfl rfl (le_refl _)
    · rw [if_neg hu] at h
      by_cases hst : o.status = OrderStatus.FILLED ∨ o.status = OrderStatus.CANCELLED
      · rw [if_pos hst] at h
        rw [← Option.some.inj h]
        exact evolves_of_eq e e rfl rfl (le_refl _)
      · rw [if_neg hst] at h
        cases hbk : mapFind e.order_books o.symbol with
        | none => rw [hbk] at h; cases h
        | some book =>
          rw [hbk] at h
          simp only at h
          rw [← Option.some.inj h]
          simp only
          have hm : ∀ id, (mapFind (mapSet e.orders order_id
              { o with status := OrderStatus.CANCELLED }) id).isSome =
              (mapFind e.orders id).isSome :=
            fun id => mapFind_mapSet_isSome _ _ _ _ (by rw [ho]; rfl)
          unfold cancelBracket
          cases hb : mapFind e.bracket_orders order_id with
          | none =>
            simp only [hb]
            exact ⟨le_refl _, fun id _ => hm id, fun _ _ => Or.inl rfl, fun hu => hu⟩
          | some cs =>
            simp only [hb]
            refine ⟨le_refl _, fun id _ => ?_, fun p _ => ?_,
              fun hu => uniqueKeys_mapErase _ _ hu⟩
            · show (mapFind (cs.foldl cancelChild _) id).isSome = _
              rw [cancelChildren_find, ← hm id]
              split
              · cases mapFind (mapSet e.orders order_id
                  { o with status := OrderStatus.CANCELLED }) id <;> rfl
              · rfl
            · by_cases hpk : p = order_id
              · right
                rw [hpk]
                show ∃ y1, mapFind (cs.foldl cancelChild _) order_id = some y1 ∧ _
                rw [cancelChildren_find, mapFind_mapSet_same]
                split
                · exact ⟨_, rfl, rfl⟩
                · exact ⟨_, rfl, rfl⟩
              · left
                exact mapFind_mapErase_ne _ _ _ hpk

theorem place_order_evolves (e : MatchingEngine) (o : Order) (hs : e.Sound)
    (hc : e.order_id_counter + 3 < 2 ^ 64) (r : String × MatchingEngine)
    (h : e.place_order o = some r) : Evolves e r.2 := by
  obtain ⟨ra, ha, h1, h2, h3, h4⟩ := place_order_shape e o hs hc
  rw [h] at ha
  have hra : r = ra := Option.some.inj ha
  rw [← hra] at h1 h2 h3 h4
  by_cases hb : o.type = OrderType.BRACKET ∧ r.1 ≠ ""
  · obtain ⟨g1, _, _, _, g2, _⟩ := h3 hb
    refine ⟨h1, fun id hi => by rw [h2 id hi], fun p hp => Or.inl ?_, fun hu => ?_⟩
    · rw [g2, g1]
      exact mapFind_mapSet_ne _ _ _ _ (issued_ne_fresh e p _ (le_refl _) hp)
    · rw [g2]
      exact uniqueKeys_mapSet _ _ _ hu
  · have g := h4 hb
    exact ⟨h1, fun id hi => by rw [h2 id hi], fun _ _ => Or.inl (by rw [g]),
      fun hu => by rw [g]; exact hu⟩

/-- In a state with the invariant in which the counter is at least three steps from
wrapping, every call changes the stored orders and the bracket table only as `Evolves`
allows. -/
theorem call_evolves (e e1 : MatchingEngine) (c : Call) (hs : e.Sound)
    (hc : e.order_id_counter + 3 < 2 ^ 64) (h : e.call c = some e1) : Evolves e e1 := by
  cases c with
  | place order =>
    change (e.place_order order).map (fun x => x.2) = some e1 at h
    cases hp : e.place_order order with
    | none => rw [hp] at h; cases h
    | some r =>
      rw [hp] at h
      rw [← Option.some.inj h]
      exact place_order_evolves e order hs hc r hp
  | cancel order_id user_id =>
    change (e.cancel_order order_id user_id).map (fun x => x.2) = some e1 at h
    cases hp : e.cancel_order order_id user_id with
    | none => rw [hp] at h; cases h
    | some r =>
      rw [hp] at h
      rw [← Option.some.inj h]
      exact cancel_order_evolves e order_id user_id r hp
  | trail => exact update_trailing_stops_evolves e e1 hs h
  | check => exact checkStopKeys_evolves _ e e1 hs h
  | balance user_id asset amount =>
    obtain ⟨f1, f2, _, f4⟩ := update_user_balance_frame e user_id asset amount
    rw [← Option.some.inj h]
    exact evolves_of_eq e _ f1 f2 (le_of_eq f4.symm)

theorem calls_evolves (cs : List Call) :
    ∀ e e2 : MatchingEngine, e.Sound → e.order_id_counter + 3 * cs.length < 2 ^ 64 →
      e.calls cs = some e2 → Evolves e e2 := by
  induction cs with
  | nil =>
    intro e e2 _ _ h
    rw [← Option.some.inj h]
    exact evolves_of_eq e e rfl rfl (le_refl _)
  | cons c rest ih =>
    intro e e2 hs hc h
    rw [List.length_cons] at hc
    obtain ⟨e1, h1, hs1, hc1, _⟩ := call_sound e c hs (by omega)
    unfold MatchingEngine.calls at h
    rw [h1] at h
    have h2 : e1.calls rest = some e2 := h
    obtain ⟨eb, hb, _, _, hkb⟩ := calls_sound rest e1 hs1 (by omega)
    rw [h2] at hb
    rw [← Option.some.inj hb] at hkb
    exact evolves_trans e e1 e2 (call_evolves e e1 c hs (by omega) h1)
      (ih e1 e2 hs1 (by omega) h2) hkb

/-- A bracket that is in place stays in place under every change that `Evolves` allows
and that keeps the terminal statuses. -/
theorem bracketLive_evolves (e e1 : MatchingEngine) (p c1 c2 : String)
    (hev : Evolves e e1) (hk : TerminalKept e e1) (hl : BracketLive e p c1 c2) :
    BracketLive e1 p c1 c2 := by
  obtain ⟨a1, a2, a3, a4⟩ := hev
  obtain ⟨l1, l2, l3, l4, l5, l6, l7⟩ := hl
  refine ⟨issued_mono e e1 _ a1 l1, issued_mono e e1 _ a1 l2, issued_mono e e1 _ a1 l3,
    by rw [a2 c1 l2]; exact l4, by rw [a2 c2 l3]; exact l5, a4 l6, fun y1 hy1 hne => ?_⟩
  rcases a3 p l1 with h | ⟨y, hy, hs⟩
  · rw [h]
    have hsome : (mapFind e.orders p).isSome = true := by
      rw [← a2 p l1, hy1]; rfl
    cases hy : mapFind e.orders p with
    | none => rw [hy] at hsome; cases hsome
    | some y =>
      apply l7 y hy
      intro hcanc
      obtain ⟨x1, hx1, hs1⟩ := hk p y hy (by rw [hcanc]; exact Or.inr (Or.inl rfl))
      rw [hy1] at hx1
      rw [Option.some.inj hx1, hs1] at hne
      exact hne hcanc
  · rw [hy1] at hy
    rw [Option.some.inj hy] at hne
    exact absurd hs hne

end Advanced

/-! ## Advanced engine: claim C22 -/

namespace Advanced

/-- A successful `cancel_order` on the parent of a bracket that is in place marks both
children `CANCELLED` and removes the bracket entry. -/
theorem cancel_order_true_children (e e3 : MatchingEngine) (k user_id c1 c2 : String)
    (h : e.cancel_order k user_id = some (true, e3)) (hl : BracketLive e k c1 c2) :
    (mapFind e3.orders c1).map (fun x => x.status) = some OrderStatus.CANCELLED ∧
    (mapFind e3.orders c2).map (fun x => x.status) = some OrderStatus.CANCELLED ∧
    mapFind e3.bracket_orders k = none := by
  obtain ⟨_, _, _, l4, l5, l6, l7⟩ := hl
  unfold MatchingEngine.cancel_order at h
  cases ho : mapFind e.orders k with
  | none => rw [ho] at h; cases h
  | some o =>
    rw [ho] at h
    simp only at h
    by_cases hu : o.user_id ≠ user_id
    · rw [if_pos hu] at h; cases h
    · rw [if_neg hu] at h
      by_cases hst : o.status = OrderStatus.FILLED ∨ o.status = OrderStatus.CANCELLED
      · rw [if_pos hst] at h; cases h
      · rw [if_neg hst] at h
        cases hbk : mapFind e.order_books o.symbol with
        | none => rw [hbk] at h; cases h
        | some book =>
          rw [hbk] at h
          simp only at h
          have he3 := congrArg Prod.snd (Option.some.inj h)
          simp only at he3
          have hbr := l7 o ho (fun hc => hst (Or.inr hc))
          rw [← he3]
          unfold cancelBracket
          simp only [hbr]
          have hchild : ∀ c, c ∈ [c1, c2] → (mapFind e.orders c).isSome = true →
              (mapFind (List.foldl cancelChild
                (mapSet e.orders k { o with status := OrderStatus.CANCELLED }) [c1, c2])
                c).map (fun x => x.status) = some OrderStatus.CANCELLED := by
            intro c hc hsome
            rw [cancelChildren_find, if_pos hc]
            have hm := mapFind_mapSet_isSome_of_isSome e.orders k c
              { o with status := OrderStatus.CANCELLED } hsome
            cases hx : mapFind (mapSet e.orders k
                { o with status := OrderStatus.CANCELLED }) c with
            | none => rw [hx] at hm; cases hm
            | some x => rfl
          exact ⟨hchild c1 (List.mem_cons_self _ _) l4,
            hchild c2 (List.mem_cons_of_mem _ (List.mem_cons_self _ _)) l5,
            mapFind_mapErase_self _ _ l6⟩

/-- C22. Let `e0` be the state a fresh engine reaches by any sequence of calls, the
64-bit order counter not wrapping, and let `place_order` admit the `BRACKET` order `o`
there under the id `id`. Then two children are stored and their ids are filed under
`id`: both have the side opposite to that of `o`, which is the side of the stored
parent, and `id` as their `parent_order_id`. Whatever calls follow, a later
`cancel_order` on `id` that returns `true` leaves both children stored with status
`CANCELLED` and no bracket entry under `id`. -/
theorem C22_bracket_children (before : List Call) (e0 e1 : MatchingEngine) (o : Order)
    (id : String) (hlen : 3 * (before.length + 1) + 1 < 2 ^ 64)
    (h0 : MatchingEngine.new.calls before = some e0)
    (hty : o.type = OrderType.BRACKET)
    (hplace : e0.place_order o = some (id, e1)) (hadm : id ≠ "") :
    ∃ c1 c2 sl tp, mapFind e1.bracket_orders id = some [c1, c2] ∧
      (mapFind e1.orders id).map (fun x => x.side) = some o.side ∧
      mapFind e1.orders c1 = some sl ∧ mapFind e1.orders c2 = some tp ∧
      sl.side = opposite o.side ∧ tp.side = opposite o.side ∧
      sl.parent_order_id = id ∧ tp.parent_order_id = id ∧
      ∀ (between : List Call) (e2 e3 : MatchingEngine) (user_id : String),
        3 * (before.length + 1 + between.length) + 1 < 2 ^ 64 →
        e1.calls between = some e2 →
        e2.cancel_order id user_id = some (true, e3) →
        (mapFind e3.orders c1).map (fun x => x.status) = some OrderStatus.CANCELLED ∧
        (mapFind e3.orders c2).map (fun x => x.status) = some OrderStatus.CANCELLED ∧
        mapFind e3.bracket_orders id = none := by
  have hnew : MatchingEngine.new.order_id_counter = 1 := rfl
  obtain ⟨ea, ha, hs0, hc0, _⟩ := calls_sound before MatchingEngine.new new_sound
    (by rw [hnew]; omega)
  rw [h0] at ha
  rw [← Option.some.inj ha] at hs0 hc0
  rw [hnew] at hc0
  have hev0 := calls_evolves before MatchingEngine.new e0 new_sound (by rw [hnew]; omega) h0
  have hu0 : UniqueKeys e0.bracket_orders := hev0.2.2.2 List.nodup_nil
  obtain ⟨ra, hra, hs1, _, hc1, _⟩ := place_order_sound e0 o hs0 (by omega)
  rw [hplace] at hra
  rw [← Option.some.inj hra] at hs1 hc1
  simp only at hs1 hc1
  have hev1 := place_order_evolves e0 o hs0 (by omega) (id, e1) hplace
  obtain ⟨rb, hrb, _, _, hplaced, _⟩ := place_order_shape e0 o hs0 (by omega)
  rw [hplace] at hrb
  rw [← Option.some.inj hrb] at hplaced
  obtain ⟨_, parent, sl, tp, g1, g2, g3, g4, g5, g6, g7, g8, g9, _, _⟩ :=
    hplaced ⟨hty, hadm⟩
  simp only at g1 g2 g3 g4 g8 g9
  have hbr : mapFind e1.bracket_orders id =
      some ["ORD" ++ toString (e0.order_id_counter + 1),
            "ORD" ++ toString (e0.order_id_counter + 2)] := by
    rw [g1]; exact mapFind_mapSet_same _ _ _
  have hlive : BracketLive e1 id ("ORD" ++ toString (e0.order_id_counter + 1))
      ("ORD" ++ toString (e0.order_id_counter + 2)) :=
    ⟨(hs1.stored _ (mapFind_mem _ _ _ g2)).1, (hs1.stored _ (mapFind_mem _ _ _ g3)).1,
      (hs1.stored _ (mapFind_mem _ _ _ g4)).1, by rw [g3]; rfl, by rw [g4]; rfl,
      hev1.2.2.2 hu0, fun _ _ _ => hbr⟩
  refine ⟨_, _, sl, tp, hbr, by rw [g2, Option.map_some', g5], g3, g4, g6, g7, g8, g9, ?_⟩
  intro between e2 e3 user_id hlen2 hbetween hcancel
  obtain ⟨eb, hb, _, _, hk2⟩ := calls_sound between e1 hs1 (by omega)
  rw [hbetween] at hb
  rw [← Option.some.inj hb] at hk2
  have hev2 := calls_evolves between e1 e2 hs1 (by omega) hbetween
  exact cancel_order_true_children e2 e3 id user_id _ _ hcancel
    (bracketLive_evolves e1 e2 id _ _ hev2 hk2 hlive)

/-- C22 at the bracket buy `ORD3` placed after `bracketBefore`, whose children are
`ORD4` and `ORD5`; after `bracketBetween` the cancellation of `ORD3` by `user1` returns
`true`. -/
theorem C22_bracket_children_witness :
    MatchingEngine.new.calls bracketBefore = some bracketEngine ∧
    bracketEngine.place_order bracketBuy = some ("ORD3", bracketPlacedEngine) ∧
    ((bracketPlacedEngine.calls bracketBetween).bind
      (fun e2 => e2.cancel_order "ORD3" "user1")).map (fun r => r.1) = some true ∧
    ∃ c1 c2 sl tp, mapFind bracketPlacedEngine.bracket_orders "ORD3" = some [c1, c2] ∧
      (mapFind bracketPlacedEngine.orders "ORD3").map (fun x => x.side) =
        some bracketBuy.side ∧
      mapFind bracketPlacedEngine.orders c1 = some sl ∧
      mapFind bracketPlacedEngine.orders c2 = some tp ∧
      sl.side = opposite bracketBuy.side ∧ tp.side = opposite bracketBuy.side ∧
      sl.parent_order_id = "ORD3" ∧ tp.parent_order_id = "ORD3" ∧
      ∀ (between : List Call) (e2 e3 : MatchingEngine) (user_id : String),
        3 * (bracketBefore.length + 1 + between.length) + 1 < 2 ^ 64 →
        bracketPlacedEngine.calls between = some e2 →
        e2.cancel_order "ORD3" user_id = some (true, e3) →
        (mapFind e3.orders c1).map (fun x => x.status) = some OrderStatus.CANCELLED ∧
        (mapFind e3.orders c2).map (fun x => x.status) = some OrderStatus.CANCELLED ∧
        mapFind e3.bracket_orders "ORD3" = none := by
  have h0 : MatchingEngine.new.calls bracketBefore = some bracketEngine := by
    have h : (MatchingEngine.new.calls bracketBefore).isSome = true := by decide!
    unfold bracketEngine
    cases hc : MatchingEngine.new.calls bracketBefore with
    | none => rw [hc] at h; cases h
    | some e => rfl
  have hplace : bracketEngine.place_order bracketBuy = some ("ORD3", bracketPlacedEngine) := by
    have h : (bracketEngine.place_order bracketBuy).map (fun x => x.1) = some "ORD3" := by
      decide!
    unfold bracketPlacedEngine
    cases hc : bracketEngine.place_order bracketBuy with
    | none => rw [hc] at h; cases h
    | some r =>
      obtain ⟨i, e1⟩ := r
      rw [hc] at h
      have hi : i = "ORD3" := Option.some.inj h
      rw [hi]
      rfl
  exact ⟨h0, hplace, by decide!,
    C22_bracket_children bracketBefore bracketEngine bracketPlacedEngine bracketBuy "ORD3"
      (by decide) h0 rfl hplace (by decide)⟩

end Advanced

/-! ## Futures engine: claims C24, C25 and C26 -/

namespace Futures

theorem futures_mapFind_mapSet_same {κ α : Type} [DecidableEq κ] (m : List (κ × α)) (k : κ) (v : α) :
    mapFind (mapSet m k v) k = some v := by
  induction m with
  | nil => simp [mapSet, mapFind]
  | cons x rest ih =>
    obtain ⟨k1, v1⟩ := x
    unfold mapSet
    by_cases h : k1 = k
    · simp [h, mapFind]
    · simp only [h, if_false]
      unfold mapFind
      simp only [h, if_false]
      exact ih

theorem max_min_eq_clamp (x lo hi : ℚ) (h : lo ≤ hi) : max lo (min hi x) = clamp x lo hi := by
  unfold clamp
  by_cases h1 : x < lo
  · rw [if_pos h1, min_eq_right (le_trans (le_of_lt h1) h), max_eq_left (le_of_lt h1)]
  · rw [if_neg h1]
    by_cases h2 : hi < x
    · rw [if_pos h2, min_eq_left (le_of_lt h2), max_eq_right h]
    · rw [if_neg h2, min_eq_right (not_lt.mp h2), max_eq_right (not_lt.mp h1)]

/-- C24. For every index price other than 0 and every mark price,
`calculateFundingRate` returns premium + clamp(0.0001 - premium, -0.0005, +0.0005) with
premium = (mark - index) / index, and `getFundingRate` for the symbol returns that value
afterwards; for a symbol that has no stored rate `getFundingRate` returns 0. -/
theorem C24_funding_rate (c : FundingRateCalculator) (symbol : String)
    (markPrice indexPrice : ℚ) (_hindex : indexPrice ≠ 0) :
    (c.calculateFundingRate symbol markPrice indexPrice).1 =
      (markPrice - indexPrice) / indexPrice +
        clamp (1 / 10000 - (markPrice - indexPrice) / indexPrice) (-(5 / 10000))
          (5 / 10000) ∧
    (c.calculateFundingRate symbol markPrice indexPrice).2.getFundingRate symbol =
      (c.calculateFundingRate symbol markPrice indexPrice).1 ∧
    ∀ other, mapFind c.fundingRates other = none → c.getFundingRate other = 0 := by
  refine ⟨?_, ?_, ?_⟩
  · show (markPrice - indexPrice) / indexPrice +
      max (-(5 / 10000)) (min (5 / 10000) (1 / 10000 - (markPrice - indexPrice) / indexPrice))
      = _
    rw [max_min_eq_clamp _ _ _ (by norm_num)]
  · unfold FundingRateCalculator.getFundingRate FundingRateCalculator.calculateFundingRate
    simp only [futures_mapFind_mapSet_same]
  · intro other h
    unfold FundingRateCalculator.getFundingRate
    rw [h]

/-- C24 at the mark price 50500 and the index price 50000 on a calculator that has
stored nothing: the premium is 0.01 and the rate is 0.0095. -/
theorem C24_funding_rate_witness :
    ((50000 : ℚ) ≠ 0) ∧
    (({ fundingRates := [], priceHistory := [] } : FundingRateCalculator).calculateFundingRate
      "BTCUSDT_PERP" 50500 50000).1 = 95 / 10000 ∧
    (({ fundingRates := [], priceHistory := [] } : FundingRateCalculator).calculateFundingRate
      "BTCUSDT_PERP" 50500 50000).1 =
      (50500 - 50000) / 50000 +
        clamp (1 / 10000 - (50500 - 50000) / 50000) (-(5 / 10000)) (5 / 10000) ∧
    (({ fundingRates := [], priceHistory := [] } : FundingRateCalculator).calculateFundingRate
      "BTCUSDT_PERP" 50500 50000).2.getFundingRate "BTCUSDT_PERP" =
      (({ fundingRates := [], priceHistory := [] } :
        FundingRateCalculator).calculateFundingRate "BTCUSDT_PERP" 50500 50000).1 ∧
    ∀ other, mapFind ({ fundingRates := [], priceHistory := [] } :
      FundingRateCalculator).fundingRates other = none →
      ({ fundingRates := [], priceHistory := [] } :
        FundingRateCalculator).getFundingRate other = 0 :=
  ⟨by norm_num, by decide!,
    C24_funding_rate { fundingRates := [], priceHistory := [] } "BTCUSDT_PERP" 50500 50000
      (by norm_num)⟩

/-- C25. The method `calculateMarkPrice` returns index x (1 + rate x t / 28,800,000) for
a time to funding of `t` milliseconds, and `getMarkPrice` and `getIndexPrice` for the
symbol return that mark price and that index price afterwards. -/
theorem C25_mark_price (c : MarkPriceCalculator) (symbol : String)
    (indexPrice fundingRate : ℚ) (timeToFunding : Nat) :
    (c.calculateMarkPrice symbol indexPrice fundingRate timeToFunding).1 =
      indexPrice * (1 + fundingRate * (timeToFunding : ℚ) / 28800000) ∧
    (c.calculateMarkPrice symbol indexPrice fundingRate timeToFunding).2.getMarkPrice symbol =
      indexPrice * (1 + fundingRate * (timeToFunding : ℚ) / 28800000) ∧
    (c.calculateMarkPrice symbol indexPrice fundingRate timeToFunding).2.getIndexPrice symbol =
      indexPrice := by
  have hval : (c.calculateMarkPrice symbol indexPrice fundingRate timeToFunding).1 =
      indexPrice * (1 + fundingRate * (timeToFunding : ℚ) / 28800000) := by
    show indexPrice * (1 + fundingRate * ((timeToFunding : ℚ) / ((8 * 3600 * 1000 : Int) : ℚ)))
      = _
    have h8 : ((8 * 3600 * 1000 : Int) : ℚ) = 28800000 := by norm_num
    rw [h8, mul_div_assoc]
  refine ⟨hval, ?_, ?_⟩
  · rw [← hval]
    unfold MarkPriceCalculator.getMarkPrice MarkPriceCalculator.calculateMarkPrice
    simp only [futures_mapFind_mapSet_same]
  · unfold MarkPriceCalculator.getIndexPrice MarkPriceCalculator.calculateMarkPrice
    simp only [futures_mapFind_mapSet_same]

/-- C26. The method `calculateLiquidationPrice` returns 0 for a position of size 0; for
a position of another size it returns
entry - (wallet + unrealizedPnl - marginUsed x MMR) / size when the side is `LONG` and
entry + (wallet + unrealizedPnl - marginUsed x MMR) / size when the side is `SHORT`. -/
theorem C26_liquidation_price (position : FuturesPosition)
    (maintenanceMarginRate walletBalance : ℚ) :
    (position.size = 0 →
      calculateLiquidationPrice position maintenanceMarginRate walletBalance = 0) ∧
    (position.size ≠ 0 → position.side = "LONG" →
      calculateLiquidationPrice position maintenanceMarginRate walletBalance =
        position.entryPrice -
          (walletBalance + position.unrealizedPnl -
            position.marginUsed * maintenanceMarginRate) / position.size) ∧
    (position.size ≠ 0 → position.side = "SHORT" →
      calculateLiquidationPrice position maintenanceMarginRate walletBalance =
        position.entryPrice +
          (walletBalance + position.unrealizedPnl -
            position.marginUsed * maintenanceMarginRate) / position.size) := by
  unfold calculateLiquidationPrice
  refine ⟨fun h => by rw [if_pos h], fun h hs => ?_, fun h hs => ?_⟩
  · rw [if_neg h]
    simp only [hs, if_true, one_mul]
  · rw [if_neg h]
    have hne : ("SHORT" : String) ≠ "LONG" := by decide
    simp only [hs, hne, if_false]
    ring

end Futures

/-! ## Futures engine: claims C27 and C28 -/

namespace Futures

theorem calculateMarginRatio_unrealized (position : FuturesPosition) (x markPrice wallet : ℚ) :
    calculateMarginRatio { position with unrealizedPnl := x } markPrice wallet =
      calculateMarginRatio position markPrice wallet := rfl

theorem ratioLe_iff (marginRatio : Option ℚ) (rate : ℚ) :
    ratioLe marginRatio rate = true ↔ ∃ r, marginRatio = some r ∧ r ≤ rate := by
  cases marginRatio with
  | none =>
    constructor
    · intro h; cases h
    · rintro ⟨r, h, _⟩; cases h
  | some a =>
    unfold ratioLe
    constructor
    · intro h; exact ⟨a, rfl, of_decide_eq_true h⟩
    · rintro ⟨r, h, hr⟩
      cases h
      exact decide_eq_true hr

/-- The body of the inner loop of `monitorPositions` appends to the queue exactly the
copies of the position that are due. -/
theorem monitorPosition_queue (contracts : List (String × FuturesContract)) (wallet : ℚ)
    (position : FuturesPosition) (l : LiquidationEngine) :
    ∃ new, (monitorPosition contracts wallet position l).2.liquidationQueue =
        l.liquidationQueue ++ new ∧
      ∀ q, q ∈ new ↔ Due contracts wallet position q := by
  unfold monitorPosition
  by_cases hsize : position.size = 0
  · rw [if_pos hsize]
    refine ⟨[], by simp, fun q => ⟨fun h => absurd h (List.not_mem_nil _), fun h => absurd hsize h.1⟩⟩
  · rw [if_neg hsize]
    cases hc : mapFind contracts position.symbol with
    | none =>
      refine ⟨[], by simp, fun q => ⟨fun h => absurd h (List.not_mem_nil _), ?_⟩⟩
      rintro ⟨_, contract, h, _⟩
      rw [hc] at h
      cases h
    | some contract =>
      simp only
      by_cases hm : contract.markPrice ≤ 0
      · rw [if_pos hm]
        refine ⟨[], by simp, fun q => ⟨fun h => absurd h (List.not_mem_nil _), ?_⟩⟩
        rintro ⟨_, c2, h, hpos, _⟩
        rw [hc] at h
        rw [← Option.some.inj h] at hpos
        exact absurd hpos (not_lt.mpr hm)
      · rw [if_neg hm]
        simp only
        rw [calculateMarginRatio_unrealized]
        by_cases hr : ratioLe (calculateMarginRatio position contract.markPrice wallet)
            contract.maintenanceMarginRate = true
        · rw [if_pos hr]
          refine ⟨[{ position with
            unrealizedPnl := calculateUnrealizedPnl position contract.markPrice }], rfl,
            fun q => ⟨fun h => ?_, ?_⟩⟩
          · rw [List.mem_singleton] at h
            exact ⟨hsize, contract, hc, not_le.mp hm, (ratioLe_iff _ _).mp hr, h⟩
          · rintro ⟨_, c2, h, _, _, hq⟩
            rw [hc] at h
            rw [← Option.some.inj h] at hq
            rw [hq]
            exact List.mem_singleton_self _
        · rw [if_neg hr]
          refine ⟨[], by simp, fun q => ⟨fun h => absurd h (List.not_mem_nil _), ?_⟩⟩
          rintro ⟨_, c2, h, _, hle, _⟩
          rw [hc] at h
          rw [← Option.some.inj h] at hle
          exact absurd ((ratioLe_iff _ _).mpr hle) hr

theorem monitorAccountPositions_queue (contracts : List (String × FuturesContract))
    (wallet : ℚ) (positions : List FuturesPosition) :
    ∀ l : LiquidationEngine,
      ∃ new, (monitorAccountPositions contracts wallet positions l).2.liquidationQueue =
          l.liquidationQueue ++ new ∧
        ∀ q, q ∈ new ↔ ∃ position ∈ positions, Due contracts wallet position q := by
  induction positions with
  | nil =>
    intro l
    refine ⟨[], by simp [monitorAccountPositions], fun q => ⟨fun h => absurd h (List.not_mem_nil _), ?_⟩⟩
    rintro ⟨p, hp, _⟩
    cases hp
  | cons position rest ih =>
    intro l
    obtain ⟨n1, h1, g1⟩ := monitorPosition_queue contracts wallet position l
    obtain ⟨n2, h2, g2⟩ := ih (monitorPosition contracts wallet position l).2
    refine ⟨n1 ++ n2, ?_, fun q => ?_⟩
    · show (monitorAccountPositions contracts wallet rest
        (monitorPosition contracts wallet position l).2).2.liquidationQueue = _
      rw [h2, h1, List.append_assoc]
    · rw [List.mem_append, g1, g2]
      constructor
      · rintro (h | ⟨p, hp, h⟩)
        · exact ⟨position, List.mem_cons_self _ _, h⟩
        · exact ⟨p, List.mem_cons_of_mem _ hp, h⟩
      · rintro ⟨p, hp, h⟩
        rcases List.mem_cons.mp hp with hp1 | hp1
        · left; rw [← hp1]; exact h
        · right; exact ⟨p, hp1, h⟩

theorem monitorAccounts_queue (contracts : List (String × FuturesContract))
    (accounts : List (Nat × MarginAccount)) :
    ∀ l : LiquidationEngine,
      ∃ new, (monitorAccounts contracts accounts l).2.liquidationQueue =
          l.liquidationQueue ++ new ∧
        ∀ q, q ∈ new ↔ ∃ a ∈ accounts, ∃ position ∈ a.2.positions,
          Due contracts a.2.totalWalletBalance position q := by
  induction accounts with
  | nil =>
    intro l
    refine ⟨[], by simp [monitorAccounts], fun q => ⟨fun h => absurd h (List.not_mem_nil _), ?_⟩⟩
    rintro ⟨a, ha, _⟩
    cases ha
  | cons x rest ih =>
    intro l
    obtain ⟨userId, account⟩ := x
    obtain ⟨n1, h1, g1⟩ := monitorAccountPositions_queue contracts account.totalWalletBalance
      account.positions l
    obtain ⟨n2, h2, g2⟩ := ih (monitorAccountPositions contracts account.totalWalletBalance
      account.positions l).2
    refine ⟨n1 ++ n2, ?_, fun q => ?_⟩
    · show (monitorAccounts contracts rest (monitorAccountPositions contracts
        account.totalWalletBalance account.positions l).2).2.liquidationQueue = _
      rw [h2, h1, List.append_assoc]
    · rw [List.mem_append, g1, g2]
      constructor
      · rintro (⟨p, hp, h⟩ | ⟨a, ha, p, hp, h⟩)
        · exact ⟨(userId, account), List.mem_cons_self _ _, p, hp, h⟩
        · exact ⟨a, List.mem_cons_of_mem _ ha, p, hp, h⟩
      · rintro ⟨a, ha, p, hp, h⟩
        rcases List.mem_cons.mp ha with ha1 | ha1
        · left; rw [ha1] at hp h; exact ⟨p, hp, h⟩
        · right; exact ⟨a, ha1, p, hp, h⟩

/-- C27. A pass of `monitorPositions` appends positions to the liquidation queue and
removes none; a position `q` is appended exactly when it is the copy, with the
unrealized P&L brought to the mark price, of a position of some account whose size is
not 0, whose contract exists with a mark price above 0, and whose margin ratio
`calculateMarginRatio(position, mark, wallet)`, taken with the wallet balance of that
account, is at most the maintenance margin rate of the contract. -/
theorem C27_liquidation_only_when_due (e : FuturesTradingEngine) :
    ∃ new, e.monitorPositions.liquidationEngine.liquidationQueue =
        e.liquidationEngine.liquidationQueue ++ new ∧
      ∀ q, q ∈ new ↔ ∃ a ∈ e.accounts, ∃ position ∈ a.2.positions,
        position.size ≠ 0 ∧
        ∃ contract, mapFind e.contracts position.symbol = some contract ∧
          0 < contract.markPrice ∧
          (∃ r, calculateMarginRatio position contract.markPrice a.2.totalWalletBalance =
              some r ∧ r ≤ contract.maintenanceMarginRate) ∧
          q = { position with
                  unrealizedPnl := calculateUnrealizedPnl position contract.markPrice } :=
  monitorAccounts_queue e.contracts e.accounts e.liquidationEngine

/-- C28, as the claim states it, fails. For the long position of size 1 with entry
50000, margin used 5000, wallet balance 5000 and maintenance margin rate 0.005, at the
mark price 45225 the margin ratio is 225 / 5000 = 0.045, which is above 0.005, and
`monitorPositions` leaves the liquidation queue empty. -/
theorem C28_counterexample :
    calculateUnrealizedPnl longPosition 45225 = -4775 ∧
    calculateMarginRatio longPosition 45225 5000 = some (45 / 1000) ∧
    ratioLe (calculateMarginRatio longPosition 45225 5000) (5 / 1000) = false ∧
    (longEngine 45225).monitorPositions.liquidationEngine.liquidationQueue = [] := by
  decide!

/-- C28, amended. For the long position of size 1 with entry 50000, leverage 10, margin
used 5000, wallet balance 5000 and maintenance margin rate 0.005, `monitorPositions`
finds the margin ratio (5000 + mark - 50000) / 5000 and enqueues the position exactly
when the mark price is above 0 and at most 45025; at the mark price 45225 the ratio is
0.045 and the queue stays empty, at 45025 the ratio is 0.005 and the position is
enqueued. -/
theorem C28_long_liquidated_from_45025 (mark : ℚ) :
    ((longEngine mark).monitorPositions.liquidationEngine.liquidationQueue =
      if 0 < mark ∧ mark ≤ 45025 then [{ longPosition with unrealizedPnl := mark - 50000 }]
      else []) ∧
    calculateMarginRatio longPosition mark 5000 = some ((5000 + (mark - 50000)) / 5000) ∧
    (longEngine 45225).monitorPositions.liquidationEngine.liquidationQueue = [] ∧
    (longEngine 45025).monitorPositions.liquidationEngine.liquidationQueue =
      [{ longPosition with unrealizedPnl := -4975 }] := by
  have hratio : calculateMarginRatio longPosition mark 5000 =
      some ((5000 + (mark - 50000)) / 5000) := by
    simp [calculateMarginRatio, calculateUnrealizedPnl, longPosition]
  refine ⟨?_, hratio, by decide!, by decide!⟩
  have hupnl : calculateUnrealizedPnl longPosition (perpContract mark).markPrice =
      mark - 50000 := by
    simp [calculateUnrealizedPnl, longPosition, perpContract]
  have hstep : monitorPosition [("BTCUSDT_PERP", perpContract mark)] 5000 longPosition
      { liquidationQueue := [] } =
      if mark ≤ 0 then (longPosition, { liquidationQueue := [] })
      else
        ({ longPosition with
            unrealizedPnl := mark - 50000,
            liquidationPrice := calculateLiquidationPrice
              { longPosition with unrealizedPnl := mark - 50000 } (5 / 1000) 5000 },
         if mark ≤ 45025 then
           { liquidationQueue := [{ longPosition with unrealizedPnl := mark - 50000 }] }
         else { liquidationQueue := [] }) := by
    unfold monitorPosition
    have hs : ¬ longPosition.size = 0 := by decide!
    have hf : mapFind [("BTCUSDT_PERP", perpContract mark)] longPosition.symbol =
        some (perpContract mark) := by
      simp [mapFind, longPosition]
    rw [if_neg hs, hf]
    simp only
    show (if mark ≤ 0 then _ else _) = _
    by_cases hm : mark ≤ 0
    · rw [if_pos hm, if_pos hm]
    · rw [if_neg hm, if_neg hm, calculateMarginRatio_unrealized, hupnl]
      show (_, if ratioLe (calculateMarginRatio longPosition mark 5000) (5 / 1000) = true
        then _ else _) = _
      rw [hratio]
      have hle : ratioLe (some ((5000 + (mark - 50000)) / 5000)) (5 / 1000) = true ↔
          mark ≤ 45025 := by
        rw [ratioLe_iff]
        constructor
        · rintro ⟨r, hr, hle⟩
          rw [← Option.some.inj hr] at hle
          rw [div_le_iff₀ (by norm_num)] at hle
          linarith
        · intro h
          refine ⟨_, rfl, ?_⟩
          rw [div_le_iff₀ (by norm_num)]
          linarith
      by_cases h45 : mark ≤ 45025
      · rw [if_pos (hle.mpr h45), if_pos h45]
        rfl
      · rw [if_neg (fun hc => h45 (hle.mp hc)), if_neg h45]
        rfl
  show (monitorAccounts [("BTCUSDT_PERP", perpContract mark)] [(1, longAccount)]
    { liquidationQueue := [] }).2.liquidationQueue = _
  show (monitorPosition [("BTCUSDT_PERP", perpContract mark)] 5000 longPosition
    { liquidationQueue := [] }).2.liquidationQueue = _
  rw [hstep]
  by_cases hm : mark ≤ 0
  · have hc : ¬ (0 < mark ∧ mark ≤ 45025) := fun hc => absurd hc.1 (not_lt.mpr hm)
    rw [if_pos hm, if_neg hc]
  · rw [if_neg hm]
    by_cases h45 : mark ≤ 45025
    · have hc : 0 < mark ∧ mark ≤ 45025 := ⟨not_le.mp hm, h45⟩
      rw [if_pos hc]
      simp only [if_pos h45]
    · have hc : ¬ (0 < mark ∧ mark ≤ 45025) := fun hc => h45 hc.2
      rw [if_neg hc]
      simp only [if_neg h45]

end Futures

/-! ## Futures engine: claims C29 and C30 -/

namespace Futures

/-- C29. The order that `executeLiquidation` synthesises for a position is of type
MARKET with `reduceOnly = true`, has the user and the symbol of the position, has the
absolute value of the position size as its quantity, and has the side SELL when the
position is LONG and BUY otherwise; the worker of `processLiquidations` hands it the
position at the front of the queue, which it pops. -/
theorem C29_liquidation_order (position : FuturesPosition) (now : Nat)
    (blank : FuturesOrder) :
    (LiquidationEngine.executeLiquidation position now blank).type = FuturesOrderType.MARKET ∧
    (LiquidationEngine.executeLiquidation position now blank).reduceOnly = true ∧
    (LiquidationEngine.executeLiquidation position now blank).userId = position.userId ∧
    (LiquidationEngine.executeLiquidation position now blank).symbol = position.symbol ∧
    (LiquidationEngine.executeLiquidation position now blank).quantity = |position.size| ∧
    (position.side = "LONG" →
      (LiquidationEngine.executeLiquidation position now blank).side = "SELL") ∧
    (position.side ≠ "LONG" →
      (LiquidationEngine.executeLiquidation position now blank).side = "BUY") ∧
    (∀ (l : LiquidationEngine) (rest : List FuturesPosition),
      l.liquidationQueue = position :: rest →
      l.processLiquidation now blank =
        some (LiquidationEngine.executeLiquidation position now blank,
          { l with liquidationQueue := rest })) := by
  refine ⟨rfl, rfl, rfl, rfl, rfl, ?_, ?_, ?_⟩
  · intro h
    show (if position.side = "LONG" then "SELL" else "BUY") = "SELL"
    rw [if_pos h]
  · intro h
    show (if position.side = "LONG" then "SELL" else "BUY") = "BUY"
    rw [if_neg h]
  · intro l rest h
    unfold LiquidationEngine.processLiquidation
    rw [h]

theorem marginExceeds_false (order : FuturesOrder) (contract : FuturesContract)
    (account : MarginAccount) (hlev : contract.maxLeverage ≠ 0) :
    marginExceeds order contract account = false ↔
      order.quantity * order.price / contract.maxLeverage ≤ account.availableBalance := by
  unfold marginExceeds
  rw [if_neg hlev, decide_eq_false_iff_not, not_lt]

theorem placeOrder_true (e : FuturesTradingEngine) (order : FuturesOrder) :
    (e.placeOrder order).1 = true ↔
      ∃ contract account, mapFind e.contracts order.symbol = some contract ∧
        contract.isActive = true ∧ mapFind e.accounts order.userId = some account ∧
        validateOrderRisk order contract account = true := by
  unfold FuturesTradingEngine.placeOrder
  cases hc : mapFind e.contracts order.symbol with
  | none =>
    constructor
    · intro h; cases h
    · rintro ⟨_, _, h, _⟩; cases h
  | some contract =>
    simp only
    cases ha : contract.isActive with
    | false =>
      constructor
      · intro h; cases h
      · rintro ⟨c, _, h, hact, _⟩
        rw [← Option.some.inj h, ha] at hact
        cases hact
    | true =>
      cases hacc : mapFind e.accounts order.userId with
      | none =>
        constructor
        · intro h; cases h
        · rintro ⟨_, _, _, _, h, _⟩; cases h
      | some account =>
        cases hv : validateOrderRisk order contract account with
        | false =>
          simp only [hv, if_true, Bool.true_eq_false, if_false]
          constructor
          · intro h; cases h
          · rintro ⟨c, a, h1, _, h2, h3⟩
            rw [← Option.some.inj h1, ← Option.some.inj h2, hv] at h3
            cases h3
        | true =>
          simp only [hv, Bool.true_eq_false, if_false]
          constructor
          · intro _
            exact ⟨contract, account, rfl, ha, rfl, hv⟩
          · intro _
            rfl

theorem validateOrderRisk_margin (order : FuturesOrder) (contract : FuturesContract)
    (account : MarginAccount) (h : validateOrderRisk order contract account = true) :
    marginExceeds order contract account = false := by
  unfold validateOrderRisk at h
  cases hm : marginExceeds order contract account with
  | false => rfl
  | true =>
    rw [hm, if_pos rfl] at h
    cases h

/-- C30. `placeOrder` never changes the engine. It returns `true` only if the contract
of the order exists and is active, the account of the user exists, and the initial margin
of the order, quantity × price / leverage with the maximum leverage of the contract as
the leverage (taken other than 0, so that the quotient is a number), does not exceed the
available balance of the account, so that the available balance less that margin is at
least 0. It returns `false` when the contract is missing or inactive, when the account
is missing, and when the margin exceeds the available balance. The order of user 1 for
1 at 50000, with an initial margin of 400 against an available balance of 1000, is
admitted. -/
theorem C30_place_order_admission (e : FuturesTradingEngine) (order : FuturesOrder) :
    (e.placeOrder order).2 = e ∧
    ((e.placeOrder order).1 = true →
      ∃ contract account, mapFind e.contracts order.symbol = some contract ∧
        contract.isActive = true ∧ mapFind e.accounts order.userId = some account ∧
        (contract.maxLeverage ≠ 0 →
          order.quantity * order.price / contract.maxLeverage ≤ account.availableBalance ∧
          0 ≤ account.availableBalance -
            order.quantity * order.price / contract.maxLeverage)) ∧
    (mapFind e.contracts order.symbol = none → (e.placeOrder order).1 = false) ∧
    (∀ contract, mapFind e.contracts order.symbol = some contract →
      contract.isActive = false → (e.placeOrder order).1 = false) ∧
    (mapFind e.accounts order.userId = none → (e.placeOrder order).1 = false) ∧
    (∀ contract account, mapFind e.contracts order.symbol = some contract →
      mapFind e.accounts order.userId = some account → contract.maxLeverage ≠ 0 →
      order.quantity * order.price / contract.maxLeverage > account.availableBalance →
      (e.placeOrder order).1 = false) ∧
    ((longEngine 50000).placeOrder (perpBuy 1 50000)).1 = true ∧
    (perpBuy 1 50000).quantity * (perpBuy 1 50000).price / (perpContract 50000).maxLeverage =
      400 ∧
    longAccount.availableBalance = 1000 := by
  have hfalse : ∀ b : Bool, ¬ b = true → b = false := fun b h => by
    cases b with
    | false => rfl
    | true => exact absurd rfl h
  refine ⟨?_, ?_, ?_, ?_, ?_, ?_, by decide!, by decide!, by decide!⟩
  · unfold FuturesTradingEngine.placeOrder
    cases mapFind e.contracts order.symbol with
    | none => rfl
    | some contract =>
      simp only
      split
      · rfl
      · cases mapFind e.accounts order.userId with
        | none => rfl
        | some account =>
          simp only
          split
          · rfl
          · rfl
  · intro h
    obtain ⟨contract, account, h1, h2, h3, h4⟩ := (placeOrder_true e order).mp h
    refine ⟨contract, account, h1, h2, h3, fun hlev => ?_⟩
    have hle := (marginExceeds_false order contract account hlev).mp
      (validateOrderRisk_margin order contract account h4)
    exact ⟨hle, sub_nonneg.mpr hle⟩
  · intro hnone
    apply hfalse
    intro h
    obtain ⟨contract, account, h1, _⟩ := (placeOrder_true e order).mp h
    rw [hnone] at h1
    cases h1
  · intro contract hc hact
    apply hfalse
    intro h
    obtain ⟨c, account, h1, h2, _⟩ := (placeOrder_true e order).mp h
    rw [hc] at h1
    rw [← Option.some.inj h1, hact] at h2
    cases h2
  · intro hnone
    apply hfalse
    intro h
    obtain ⟨contract, account, _, _, h3, _⟩ := (placeOrder_true e order).mp h
    rw [hnone] at h3
    cases h3
  · intro contract account hc ha hlev hgt
    apply hfalse
    intro h
    obtain ⟨c, a, h1, _, h3, h4⟩ := (placeOrder_true e order).mp h
    rw [hc] at h1
    rw [ha] at h3
    rw [← Option.some.inj h1, ← Option.some.inj h3] at h4
    have hle := (marginExceeds_false order contract account hlev).mp
      (validateOrderRisk_margin order contract account h4)
    exact absurd hgt (not_lt.mpr hle)

end Futures

/-! ## Futures engine: claim C38 -/

namespace Futures

theorem timeToFunding_wrap (next current : Nat) (h1 : next < current)
    (h2 : current < 2 ^ 64) : timeToFunding next current = 2 ^ 64 - (current - next) := by
  unfold timeToFunding
  have e1 : next % 2 ^ 64 = next := Nat.mod_eq_of_lt (lt_trans h1 h2)
  have e2 : current % 2 ^ 64 = current := Nat.mod_eq_of_lt h2
  rw [e1, e2]
  have e3 : next + (2 ^ 64 - current) = 2 ^ 64 - (current - next) := by omega
  rw [e3]
  apply Nat.mod_eq_of_lt
  omega

theorem timeToFunding_ahead (next current : Nat) (h1 : current ≤ next)
    (h2 : next < 2 ^ 64) : timeToFunding next current = next - current := by
  unfold timeToFunding
  have e1 : next % 2 ^ 64 = next := Nat.mod_eq_of_lt h2
  have e2 : current % 2 ^ 64 = current := Nat.mod_eq_of_lt (lt_of_le_of_lt h1 h2)
  rw [e1, e2]
  have e3 : next + (2 ^ 64 - current) = (next - current) + 2 ^ 64 := by omega
  rw [e3, Nat.add_mod_right]
  apply Nat.mod_eq_of_lt
  omega

/-- C38 fails at every clock reading later than the next funding time. The contract
that `initializeContracts` sets up at the clock reading 1700000000000 has its next
funding time at 1700028800000; one millisecond after it the unsigned difference
`nextFundingTime - currentTime` of `updateMarkPrices` is `2 ^ 64 - 1`, far above the
28,800,000 ms of the funding interval, and the mark price stored is
50000 × (1 + 0.0001 × (2 ^ 64 - 1) / 28800000), above 50000 × (1 + 0.0001). In general
the difference is `2 ^ 64 - (currentTime - nextFundingTime)` once the current time has
passed the next funding time, and it is `nextFundingTime - currentTime` before. -/
theorem C38_time_to_funding_wraps (blank : FuturesContract)
    (calculator : MarkPriceCalculator) :
    (initializeContract "BTCUSDT" 1700000000000 blank).nextFundingTime = 1700028800000 ∧
    timeToFunding 1700028800000 1700028800001 = 18446744073709551615 ∧
    28800000 < timeToFunding 1700028800000 1700028800001 ∧
    (updateMarkPrice "BTCUSDT_PERP" (initializeContract "BTCUSDT" 1700000000000 blank)
        1700028800001 calculator).1.markPrice =
      50000 * (1 + 1 / 10000 * (18446744073709551615 / 28800000)) ∧
    50000 * (1 + 1 / 10000) <
      (updateMarkPrice "BTCUSDT_PERP" (initializeContract "BTCUSDT" 1700000000000 blank)
        1700028800001 calculator).1.markPrice ∧
    (∀ next current : Nat, next < current → current < 2 ^ 64 →
      timeToFunding next current = 2 ^ 64 - (current - next)) ∧
    (∀ next current : Nat, current ≤ next → next < 2 ^ 64 →
      timeToFunding next current = next - current) := by
  have hmark : (updateMarkPrice "BTCUSDT_PERP"
      (initializeContract "BTCUSDT" 1700000000000 blank) 1700028800001
        calculator).1.markPrice =
      50000 * (1 + 1 / 10000 * (18446744073709551615 / 28800000)) := by
    have hidx : getIndexPrice "BTCUSDT_PERP" > 0 := by decide!
    have hnext : (initializeContract "BTCUSDT" 1700000000000 blank).nextFundingTime =
        1700028800000 := by
      show (1700000000000 + 8 * 3600 * 1000) % 2 ^ 64 = 1700028800000
      decide
    have htime : timeToFunding 1700028800000 1700028800001 = 18446744073709551615 := by
      decide
    unfold updateMarkPrice
    rw [if_pos hidx, hnext, htime]
    simp only [MarkPriceCalculator.calculateMarkPrice, getIndexPrice, initializeContract]
    norm_num
  refine ⟨?_, by decide, by decide, hmark, ?_,
    timeToFunding_wrap, timeToFunding_ahead⟩
  · show (1700000000000 + 8 * 3600 * 1000) % 2 ^ 64 = 1700028800000
    decide
  · rw [hmark]
    norm_num

end Futures

/-! ## Advanced engine: claim C36 -/

namespace Advanced

/-- C36 fails: `cancel_order` hands every order that is neither `FILLED` nor `CANCELLED`
to `OrderBook::remove_order`, also one that was never added to the book. With the sell
limit `ORD1` of `user2` for 1.0 resting at 100, `user3` stores the `PENDING` `STOP_LOSS`
sell `ORD2` with the price 100, which leaves the ask level at 1.0; cancelling `ORD2`
returns `true` and takes the quantity of `ORD2` from that level: a stop of 0.4 leaves
0.6 at 100, and a stop of 1.0 erases the level, although `ORD1` is still `OPEN` with
nothing filled. -/
theorem C36_cancel_pending_takes_from_level :
    (MatchingEngine.new.calls (pendingCalls (4 / 10))).isSome = true ∧
    (mapFind (pendingEngine (4 / 10)).orders "ORD2").map (fun o => o.status) =
      some OrderStatus.PENDING ∧
    (mapFind (pendingEngine (4 / 10)).orders "ORD2").map (fun o => o.user_id) =
      some "user3" ∧
    (mapFind (pendingEngine (4 / 10)).orders "ORD1").map (fun o => o.user_id) =
      some "user2" ∧
    (btcBook (pendingEngine (4 / 10))).map (fun b => b.asks) = some [(100, 1)] ∧
    ((pendingEngine (4 / 10)).cancel_order "ORD2" "user3").map (fun r => r.1) = some true ∧
    asksAfterCancel (4 / 10) = some [(100, 6 / 10)] ∧
    (btcBook (pendingEngine 1)).map (fun b => b.asks) = some [(100, 1)] ∧
    ((pendingEngine 1).cancel_order "ORD2" "user3").map (fun r => r.1) = some true ∧
    asksAfterCancel 1 = some [] ∧
    (((pendingEngine 1).cancel_order "ORD2" "user3").bind
        (fun r => mapFind r.2.orders "ORD1")).map
      (fun o => (o.status, o.quantity, o.filled_quantity)) =
      some (OrderStatus.OPEN, 1, 0) := by
  refine ⟨by decide!, by decide!, by decide!, by decide!, by decide!, by decide!,
    by decide!, by decide!, by decide!, by decide!, by decide!⟩

end Advanced

/-! ## Options pricer: claims C31 and C39 -/

namespace Options

/-- C31. With a time to expiry of 0 or less, for every spot, strike, rate, volatility and
option type, `calculateOptionPrice` returns 0 and `calculateGreeks` returns the Greeks
with delta, gamma, theta, vega and rho all 0, whatever the logarithm, the other functions
of `<cmath>` and the quotient return: none of them is evaluated. -/
theorem C31_expired_option_is_zero (m : Cmath)
    (spot_price strike_price time_to_expiry risk_free_rate volatility : ℚ)
    (option_type : OptionType) (hexpired : time_to_expiry ≤ 0) :
    calculateOptionPrice m spot_price strike_price time_to_expiry risk_free_rate volatility
      option_type = 0 ∧
    calculateGreeks m spot_price strike_price time_to_expiry risk_free_rate volatility
      option_type = Greeks.new ∧
    (calculateGreeks m spot_price strike_price time_to_expiry risk_free_rate volatility
      option_type).delta = 0 ∧
    (calculateGreeks m spot_price strike_price time_to_expiry risk_free_rate volatility
      option_type).gamma = 0 ∧
    (calculateGreeks m spot_price strike_price time_to_expiry risk_free_rate volatility
      option_type).theta = 0 ∧
    (calculateGreeks m spot_price strike_price time_to_expiry risk_free_rate volatility
      option_type).vega = 0 ∧
    (calculateGreeks m spot_price strike_price time_to_expiry risk_free_rate volatility
      option_type).rho = 0 := by
  have hp : calculateOptionPrice m spot_price strike_price time_to_expiry risk_free_rate
      volatility option_type = 0 := by
    unfold calculateOptionPrice
    rw [if_pos hexpired]
  have hg : calculateGreeks m spot_price strike_price time_to_expiry risk_free_rate
      volatility option_type = Greeks.new := by
    unfold calculateGreeks
    simp only [if_pos hexpired]
  refine ⟨hp, hg, ?_, ?_, ?_, ?_, ?_⟩ <;> rw [hg] <;> rfl

/-- C31 at an option that has just expired, with a strike and a volatility of 0 and a
spot below 0. -/
theorem C31_expired_option_is_zero_witness :
    calculateOptionPrice sampleCmath (-1) 0 0 (5 / 100) 0 OptionType.PUT = 0 ∧
    calculateGreeks sampleCmath (-1) 0 0 (5 / 100) 0 OptionType.PUT = Greeks.new :=
  ⟨(C31_expired_option_is_zero sampleCmath (-1) 0 0 (5 / 100) 0 OptionType.PUT
      (le_refl 0)).1,
   (C31_expired_option_is_zero sampleCmath (-1) 0 0 (5 / 100) 0 OptionType.PUT
      (le_refl 0)).2.1⟩

/-- C39. For a spot, a strike, a time to expiry and a volatility above 0 and every rate,
when `normalCDF(x) + normalCDF(-x) = 1` for every `x`, the price of the CALL less the
price of the PUT is `S - K × exp(-r × T)`, and `calculateGreeks` gives
`delta(PUT) = delta(CALL) - 1` with the same gamma and the same vega for both types. -/
theorem C39_put_call_parity (m : Cmath)
    (spot_price strike_price time_to_expiry risk_free_rate volatility : ℚ)
    (_hspot : 0 < spot_price) (_hstrike : 0 < strike_price) (htime : 0 < time_to_expiry)
    (_hvol : 0 < volatility) (hcdf : ∀ x, normalCDF m x + normalCDF m (-x) = 1) :
    calculateOptionPrice m spot_price strike_price time_to_expiry risk_free_rate volatility
        OptionType.CALL -
      calculateOptionPrice m spot_price strike_price time_to_expiry risk_free_rate
        volatility OptionType.PUT =
      spot_price - strike_price * m.exp (-risk_free_rate * time_to_expiry) ∧
    (calculateGreeks m spot_price strike_price time_to_expiry risk_free_rate volatility
        OptionType.PUT).delta =
      (calculateGreeks m spot_price strike_price time_to_expiry risk_free_rate volatility
        OptionType.CALL).delta - 1 ∧
    (calculateGreeks m spot_price strike_price time_to_expiry risk_free_rate volatility
        OptionType.PUT).gamma =
      (calculateGreeks m spot_price strike_price time_to_expiry risk_free_rate volatility
        OptionType.CALL).gamma ∧
    (calculateGreeks m spot_price strike_price time_to_expiry risk_free_rate volatility
        OptionType.PUT).vega =
      (calculateGreeks m spot_price strike_price time_to_expiry risk_free_rate volatility
        OptionType.CALL).vega := by
  have hT : ¬ time_to_expiry ≤ 0 := not_le.mpr htime
  refine ⟨?_, ?_, ?_, ?_⟩
  · unfold calculateOptionPrice
    simp only [if_neg hT]
    have h1 := hcdf (d1 m spot_price strike_price time_to_expiry risk_free_rate volatility)
    have h2 := hcdf (d2 m spot_price strike_price time_to_expiry risk_free_rate volatility)
    linear_combination spot_price * h1 -
      strike_price * m.exp (-risk_free_rate * time_to_expiry) * h2
  · unfold calculateGreeks
    simp only [if_neg hT]
  · unfold calculateGreeks
    simp only [if_neg hT]
  · unfold calculateGreeks
    simp only [if_neg hT]

theorem sampleCmath_symmetric (x : ℚ) :
    normalCDF sampleCmath x + normalCDF sampleCmath (-x) = 1 := by
  unfold normalCDF sampleCmath
  simp only [neg_neg, neg_mul, abs_neg]
  ring

/-- C39 at spot 100, strike 90, half a year to expiry, rate 5% and volatility 20%. -/
theorem C39_put_call_parity_witness :
    calculateOptionPrice sampleCmath 100 90 (1 / 2) (5 / 100) (2 / 10) OptionType.CALL -
      calculateOptionPrice sampleCmath 100 90 (1 / 2) (5 / 100) (2 / 10) OptionType.PUT =
      100 - 90 * sampleCmath.exp (-(5 / 100) * (1 / 2)) :=
  (C39_put_call_parity sampleCmath 100 90 (1 / 2) (5 / 100) (2 / 10) (by norm_num)
    (by norm_num) (by norm_num) (by norm_num) sampleCmath_symmetric).1

end Options

/-! ## Matching-engine service: the loop of `matchOrders` -/

namespace Service

theorem svc_orders_append (l1 l2 : Ladder) :
    Ladder.orders (l1 ++ l2) = Ladder.orders l1 ++ Ladder.orders l2 := by
  simp [Ladder.orders]

theorem svc_orders_cons (e : ℚ × List Order) (l : Ladder) :
    Ladder.orders (e :: l) = e.2 ++ Ladder.orders l := by
  simp [Ladder.orders]

theorem svc_mem_orders (l : Ladder) (o : Order) :
    o ∈ Ladder.orders l ↔ ∃ e ∈ l, o ∈ e.2 := by
  induction l with
  | nil => simp [Ladder.orders]
  | cons a l ih =>
    rw [svc_orders_cons, List.mem_append, ih]
    constructor
    · rintro (h | ⟨e, he, ho⟩)
      · exact ⟨a, List.mem_cons_self _ _, h⟩
      · exact ⟨e, List.mem_cons_of_mem _ he, ho⟩
    · rintro ⟨e, he, ho⟩
      rcases List.mem_cons.mp he with h | h
      · left; rw [← h]; exact ho
      · right; exact ⟨e, h, ho⟩

theorem last_split (l : Ladder) (e : ℚ × List Order) (h : l.getLast? = some e) :
    l = l.dropLast ++ [e] :=
  (List.dropLast_append_getLast? e h).symm

/-- The trade closes the bid or the ask. -/
theorem tradeQuantity_complete (topBid topAsk : Order) :
    topBid.filledQuantity + tradeQuantity topBid topAsk ≥ topBid.quantity ∨
    topAsk.filledQuantity + tradeQuantity topBid topAsk ≥ topAsk.quantity := by
  unfold tradeQuantity
  rcases min_choice (topBid.quantity - topBid.filledQuantity)
      (topAsk.quantity - topAsk.filledQuantity) with h | h
  · left; rw [h]; linarith
  · right; rw [h]; linarith

/-- What the loop body leaves of the bids. -/
theorem matchStep_bids (symbol : String) (clock : Nat → Nat) (s : MatchState)
    (bidPrice : ℚ) (topBid : Order) (restBids : List Order)
    (askPrice : ℚ) (topAsk : Order) (restAsks : List Order) (higherAsks : Ladder) :
    (topBid.filledQuantity + tradeQuantity topBid topAsk ≥ topBid.quantity ∧
      restBids = [] ∧
      (matchStep symbol clock s bidPrice topBid restBids askPrice topAsk restAsks
        higherAsks).bids = s.bids.dropLast) ∨
    (topBid.filledQuantity + tradeQuantity topBid topAsk ≥ topBid.quantity ∧
      restBids ≠ [] ∧
      (matchStep symbol clock s bidPrice topBid restBids askPrice topAsk restAsks
        higherAsks).bids = s.bids.dropLast ++ [(bidPrice, restBids)]) ∨
    (¬ topBid.filledQuantity + tradeQuantity topBid topAsk ≥ topBid.quantity ∧
      (matchStep symbol clock s bidPrice topBid restBids askPrice topAsk restAsks
        higherAsks).bids =
        s.bids.dropLast ++
          [(bidPrice, filledBy topBid (tradeQuantity topBid topAsk) :: restBids)]) := by
  by_cases hc : topBid.filledQuantity + tradeQuantity topBid topAsk ≥ topBid.quantity
  · cases restBids with
    | nil =>
      left
      refine ⟨hc, rfl, ?_⟩
      unfold matchStep
      simp only
      unfold tradeQuantity at hc
      rw [if_pos hc]
      rfl
    | cons a l =>
      right; left
      refine ⟨hc, by simp, ?_⟩
      unfold matchStep
      simp only
      unfold tradeQuantity at hc
      rw [if_pos hc]
      rfl
  · right; right
    refine ⟨hc, ?_⟩
    unfold matchStep
    simp only
    unfold tradeQuantity at hc
    rw [if_neg hc]
    rfl

/-- What the loop body leaves of the asks. -/
theorem matchStep_asks (symbol : String) (clock : Nat → Nat) (s : MatchState)
    (bidPrice : ℚ) (topBid : Order) (restBids : List Order)
    (askPrice : ℚ) (topAsk : Order) (restAsks : List Order) (higherAsks : Ladder) :
    (topAsk.filledQuantity + tradeQuantity topBid topAsk ≥ topAsk.quantity ∧
      restAsks = [] ∧
      (matchStep symbol clock s bidPrice topBid restBids askPrice topAsk restAsks
        higherAsks).asks = higherAsks) ∨
    (topAsk.filledQuantity + tradeQuantity topBid topAsk ≥ topAsk.quantity ∧
      restAsks ≠ [] ∧
      (matchStep symbol clock s bidPrice topBid restBids askPrice topAsk restAsks
        higherAsks).asks = (askPrice, restAsks) :: higherAsks) ∨
    (¬ topAsk.filledQuantity + tradeQuantity topBid topAsk ≥ topAsk.quantity ∧
      (matchStep symbol clock s bidPrice topBid restBids askPrice topAsk restAsks
        higherAsks).asks =
        (askPrice, filledBy topAsk (tradeQuantity topBid topAsk) :: restAsks) ::
          higherAsks) := by
  by_cases hc : topAsk.filledQuantity + tradeQuantity topBid topAsk ≥ topAsk.quantity
  · cases restAsks with
    | nil =>
      left
      refine ⟨hc, rfl, ?_⟩
      unfold matchStep
      simp only
      unfold tradeQuantity at hc
      rw [if_pos hc]
      rfl
    | cons a l =>
      right; left
      refine ⟨hc, by simp, ?_⟩
      unfold matchStep
      simp only
      unfold tradeQuantity at hc
      rw [if_pos hc]
      rfl
  · right; right
    refine ⟨hc, ?_⟩
    unfold matchStep
    simp only
    unfold tradeQuantity at hc
    rw [if_neg hc]
    rfl

/-- The loop body appends one trade, between the two orders at the fronts, priced at
the price of the ask. -/
theorem matchStep_trades (symbol : String) (clock : Nat → Nat) (s : MatchState)
    (bidPrice : ℚ) (topBid : Order) (restBids : List Order)
    (askPrice : ℚ) (topAsk : Order) (restAsks : List Order) (higherAsks : Ladder) :
    ∃ t, (matchStep symbol clock s bidPrice topBid restBids askPrice topAsk restAsks
        higherAsks).trades = s.trades ++ [t] ∧
      t.price = topAsk.price ∧ t.quantity = tradeQuantity topBid topAsk ∧
      t.buyOrderId = topBid.id ∧ t.sellOrderId = topAsk.id ∧
      t.buyerId = topBid.userId ∧ t.sellerId = topAsk.userId :=
  ⟨_, rfl, rfl, rfl, rfl, rfl, rfl, rfl⟩

/-- Invariant rule for the loop of `matchOrders`: a property kept by every execution of
the loop body holds when the loop exits. -/
theorem matchLoop_rule (symbol : String) (clock : Nat → Nat) (I : MatchState → Prop)
    (hstep : ∀ s bidPrice topBid restBids askPrice topAsk restAsks higherAsks,
      s.bids.getLast? = some (bidPrice, topBid :: restBids) →
      s.asks = (askPrice, topAsk :: restAsks) :: higherAsks →
      topBid.price ≥ topAsk.price → I s →
      I (matchStep symbol clock s bidPrice topBid restBids askPrice topAsk restAsks
        higherAsks)) :
    ∀ (fuel : Nat) (s r : MatchState), matchLoop symbol clock fuel s = some r → I s →
      I r := by
  intro fuel
  induction fuel with
  | zero => intro s r h; simp [matchLoop] at h
  | succ n ih =>
    intro s r h hI
    unfold matchLoop at h
    cases hb : s.bids.getLast? with
    | none =>
      rw [hb] at h
      simp only [Option.some.injEq] at h
      rw [← h]; exact hI
    | some e =>
      obtain ⟨bidPrice, bidQueue⟩ := e
      rw [hb] at h
      simp only at h
      cases ha : s.asks with
      | nil =>
        rw [ha] at h
        simp only [Option.some.injEq] at h
        rw [← h]; exact hI
      | cons a higherAsks =>
        obtain ⟨askPrice, askQueue⟩ := a
        rw [ha] at h
        simp only at h
        cases bidQueue with
        | nil => simp at h
        | cons topBid restBids =>
          cases askQueue with
          | nil => simp at h
          | cons topAsk restAsks =>
            simp only at h
            by_cases hc : topBid.price ≥ topAsk.price
            · rw [if_pos hc] at h
              exact ih _ r h (hstep s bidPrice topBid restBids askPrice topAsk restAsks
                higherAsks hb ha hc hI)
            · rw [if_neg hc] at h
              simp only [Option.some.injEq] at h
              rw [← h]; exact hI

end Service

/-! ## Matching-engine service: termination of `matchOrders` -/

namespace Service

theorem last_mem (l : Ladder) (e : ℚ × List Order) (h : l.getLast? = some e) : e ∈ l := by
  rw [last_split l e h]
  simp

theorem last_orders (l : Ladder) (price : ℚ) (queue : List Order)
    (h : l.getLast? = some (price, queue)) :
    Ladder.orders l = Ladder.orders l.dropLast ++ queue := by
  conv_lhs => rw [last_split l _ h]
  rw [svc_orders_append, svc_orders_cons]
  simp [Ladder.orders]

/-- The loop body keeps every queue non-empty. -/
theorem matchStep_queued (symbol : String) (clock : Nat → Nat) (s : MatchState)
    (bidPrice : ℚ) (topBid : Order) (restBids : List Order)
    (askPrice : ℚ) (topAsk : Order) (restAsks : List Order) (higherAsks : Ladder)
    (ha : s.asks = (askPrice, topAsk :: restAsks) :: higherAsks) (hq : s.Queued) :
    (matchStep symbol clock s bidPrice topBid restBids askPrice topAsk restAsks
      higherAsks).Queued := by
  constructor
  · intro e he
    rcases matchStep_bids symbol clock s bidPrice topBid restBids askPrice topAsk restAsks
        higherAsks with ⟨_, _, h⟩ | ⟨_, h1, h⟩ | ⟨_, h⟩
    · rw [h] at he
      exact hq.1 e (List.mem_of_mem_dropLast he)
    · rw [h, List.mem_append] at he
      rcases he with he | he
      · exact hq.1 e (List.mem_of_mem_dropLast he)
      · rw [List.mem_singleton] at he
        rw [he]; exact h1
    · rw [h, List.mem_append] at he
      rcases he with he | he
      · exact hq.1 e (List.mem_of_mem_dropLast he)
      · rw [List.mem_singleton] at he
        rw [he]; exact List.cons_ne_nil _ _
  · intro e he
    rcases matchStep_asks symbol clock s bidPrice topBid restBids askPrice topAsk restAsks
        higherAsks with ⟨_, _, h⟩ | ⟨_, h1, h⟩ | ⟨_, h⟩
    · rw [h] at he
      exact hq.2 e (by rw [ha]; exact List.mem_cons_of_mem _ he)
    · rw [h] at he
      rcases List.mem_cons.mp he with he | he
      · rw [he]; exact h1
      · exact hq.2 e (by rw [ha]; exact List.mem_cons_of_mem _ he)
    · rw [h] at he
      rcases List.mem_cons.mp he with he | he
      · rw [he]; exact List.cons_ne_nil _ _
      · exact hq.2 e (by rw [ha]; exact List.mem_cons_of_mem _ he)

/-- The loop body takes at least one order out of the book. -/
theorem matchStep_size (symbol : String) (clock : Nat → Nat) (s : MatchState)
    (bidPrice : ℚ) (topBid : Order) (restBids : List Order)
    (askPrice : ℚ) (topAsk : Order) (restAsks : List Order) (higherAsks : Ladder)
    (hb : s.bids.getLast? = some (bidPrice, topBid :: restBids))
    (ha : s.asks = (askPrice, topAsk :: restAsks) :: higherAsks) :
    (matchStep symbol clock s bidPrice topBid restBids askPrice topAsk restAsks
      higherAsks).size + 1 ≤ s.size := by
  have h1 : (Ladder.orders s.bids).length =
      (Ladder.orders s.bids.dropLast).length + (restBids.length + 1) := by
    rw [last_orders s.bids _ _ hb, List.length_append, List.length_cons]
  have h2 : (Ladder.orders s.asks).length =
      (restAsks.length + 1) + (Ladder.orders higherAsks).length := by
    rw [ha, svc_orders_cons, List.length_append, List.length_cons]
  have hB : (Ladder.orders (matchStep symbol clock s bidPrice topBid restBids askPrice topAsk
      restAsks higherAsks).bids).length ≤
        (Ladder.orders s.bids.dropLast).length + restBids.length + 1 ∧
      (topBid.filledQuantity + tradeQuantity topBid topAsk ≥ topBid.quantity →
        (Ladder.orders (matchStep symbol clock s bidPrice topBid restBids askPrice topAsk
          restAsks higherAsks).bids).length ≤
          (Ladder.orders s.bids.dropLast).length + restBids.length) := by
    rcases matchStep_bids symbol clock s bidPrice topBid restBids askPrice topAsk restAsks
        higherAsks with ⟨_, _, h⟩ | ⟨_, _, h⟩ | ⟨hnb, h⟩
    · rw [h]
      exact ⟨by omega, fun _ => by omega⟩
    · rw [h, svc_orders_append, svc_orders_cons, List.length_append, List.length_append]
      dsimp only
      have h0 : (Ladder.orders []).length = 0 := rfl
      rw [h0]
      exact ⟨by omega, fun _ => by omega⟩
    · rw [h, svc_orders_append, svc_orders_cons, List.length_append, List.length_append]
      dsimp only
      have h0 : (Ladder.orders []).length = 0 := rfl
      rw [h0, List.length_cons]
      exact ⟨by omega, fun hc => absurd hc hnb⟩
  have hA : (Ladder.orders (matchStep symbol clock s bidPrice topBid restBids askPrice topAsk
      restAsks higherAsks).asks).length ≤
        restAsks.length + 1 + (Ladder.orders higherAsks).length ∧
      (topAsk.filledQuantity + tradeQuantity topBid topAsk ≥ topAsk.quantity →
        (Ladder.orders (matchStep symbol clock s bidPrice topBid restBids askPrice topAsk
          restAsks higherAsks).asks).length ≤
          restAsks.length + (Ladder.orders higherAsks).length) := by
    rcases matchStep_asks symbol clock s bidPrice topBid restBids askPrice topAsk restAsks
        higherAsks with ⟨_, _, h⟩ | ⟨_, _, h⟩ | ⟨hna, h⟩
    · rw [h]
      exact ⟨by omega, fun _ => by omega⟩
    · rw [h, svc_orders_cons, List.length_append]
      dsimp only
      exact ⟨by omega, fun _ => by omega⟩
    · rw [h, svc_orders_cons, List.length_append]
      dsimp only
      rw [List.length_cons]
      exact ⟨by omega, fun hc => absurd hc hna⟩
  unfold MatchState.size
  rw [h1, h2]
  rcases tradeQuantity_complete topBid topAsk with hc | hc
  · have := hB.2 hc
    have := hA.1
    omega
  · have := hA.2 hc
    have := hB.1
    omega

/-- The loop of `matchOrders` finishes within one unit of fuel per order of the book
plus one when no queue is empty. -/
theorem matchLoop_terminates (symbol : String) (clock : Nat → Nat) :
    ∀ (fuel : Nat) (s : MatchState), s.Queued → s.size + 1 ≤ fuel →
      ∃ r, matchLoop symbol clock fuel s = some r := by
  intro fuel
  induction fuel with
  | zero => intro s _ h; omega
  | succ n ih =>
    intro s hq hf
    unfold matchLoop
    cases hb : s.bids.getLast? with
    | none => exact ⟨s, rfl⟩
    | some e =>
      obtain ⟨bidPrice, bidQueue⟩ := e
      simp only
      cases ha : s.asks with
      | nil => exact ⟨s, rfl⟩
      | cons a higherAsks =>
        obtain ⟨askPrice, askQueue⟩ := a
        simp only
        cases bidQueue with
        | nil => exact absurd rfl (hq.1 _ (last_mem s.bids _ hb))
        | cons topBid restBids =>
          cases askQueue with
          | nil => exact absurd rfl (hq.2 _ (by rw [ha]; exact List.mem_cons_self _ _))
          | cons topAsk restAsks =>
            simp only
            by_cases hc : topBid.price ≥ topAsk.price
            · rw [if_pos hc]
              apply ih
              · exact matchStep_queued symbol clock s bidPrice topBid restBids askPrice
                  topAsk restAsks higherAsks ha hq
              · have := matchStep_size symbol clock s bidPrice topBid restBids askPrice
                  topAsk restAsks higherAsks hb ha
                omega
            · rw [if_neg hc]
              exact ⟨s, rfl⟩

/-- The method `matchOrders` returns on a book without an empty queue. -/
theorem matchOrders_returns (b : OrderBook) (counter : Nat) (clock : Nat → Nat)
    (hq : ∀ e ∈ b.bids ++ b.asks, e.2 ≠ []) :
    ∃ s, matchLoop b.symbol clock
        ((Ladder.orders b.bids).length + (Ladder.orders b.asks).length + 1)
        { bids := b.bids, asks := b.asks, trades := [], counter := counter } = some s ∧
      b.matchOrders counter clock =
        some { trades := s.trades, book := { b with bids := s.bids, asks := s.asks },
               counter := s.counter } := by
  obtain ⟨s, hs⟩ := matchLoop_terminates b.symbol clock
    ((Ladder.orders b.bids).length + (Ladder.orders b.asks).length + 1)
    { bids := b.bids, asks := b.asks, trades := [], counter := counter }
    ⟨fun e he => hq e (List.mem_append_left _ he),
     fun e he => hq e (List.mem_append_right _ he)⟩ (le_refl _)
  refine ⟨s, hs, ?_⟩
  unfold OrderBook.matchOrders
  rw [hs]
  rfl

end Service

/-! ## Matching-engine service: who trades, and at what price -/

namespace Service

theorem alike_refl (a : Order) : a.Alike a := ⟨rfl, rfl, rfl⟩

theorem alike_trans (a b c : Order) (h1 : a.Alike b) (h2 : b.Alike c) : a.Alike c :=
  ⟨h1.1.trans h2.1, h1.2.1.trans h2.2.1, h1.2.2.trans h2.2.2⟩

theorem from_step (initial : List Order) (l l1 : Ladder) (h : Ladder.From initial l)
    (hsub : ∀ x ∈ Ladder.orders l1, ∃ y ∈ Ladder.orders l, x.Alike y) :
    Ladder.From initial l1 := by
  intro x hx
  obtain ⟨y, hy, hxy⟩ := hsub x hx
  obtain ⟨x0, hx0, hyx0⟩ := h y hy
  exact ⟨x0, hx0, alike_trans x y x0 hxy hyx0⟩

/-- Every bid that the loop body leaves was a bid before it, up to what was filled. -/
theorem matchStep_bids_alike (symbol : String) (clock : Nat → Nat) (s : MatchState)
    (bidPrice : ℚ) (topBid : Order) (restBids : List Order)
    (askPrice : ℚ) (topAsk : Order) (restAsks : List Order) (higherAsks : Ladder)
    (hb : s.bids.getLast? = some (bidPrice, topBid :: restBids)) :
    ∀ x ∈ Ladder.orders (matchStep symbol clock s bidPrice topBid restBids askPrice topAsk
        restAsks higherAsks).bids,
      ∃ y ∈ Ladder.orders s.bids, x.Alike y := by
  have hmem : ∀ y, y ∈ Ladder.orders s.bids ↔
      y ∈ Ladder.orders s.bids.dropLast ∨ y = topBid ∨ y ∈ restBids := by
    intro y
    rw [last_orders s.bids _ _ hb, List.mem_append, List.mem_cons]
  intro x hx
  rcases matchStep_bids symbol clock s bidPrice topBid restBids askPrice topAsk restAsks
      higherAsks with ⟨_, _, h⟩ | ⟨_, _, h⟩ | ⟨_, h⟩
  · rw [h] at hx
    exact ⟨x, (hmem x).mpr (Or.inl hx), alike_refl x⟩
  · rw [h, svc_orders_append, List.mem_append, svc_orders_cons] at hx
    rcases hx with hx | hx
    · exact ⟨x, (hmem x).mpr (Or.inl hx), alike_refl x⟩
    · have hx1 : x ∈ restBids := by simpa [Ladder.orders] using hx
      exact ⟨x, (hmem x).mpr (Or.inr (Or.inr hx1)), alike_refl x⟩
  · rw [h, svc_orders_append, List.mem_append, svc_orders_cons] at hx
    rcases hx with hx | hx
    · exact ⟨x, (hmem x).mpr (Or.inl hx), alike_refl x⟩
    · have hx1 : x = filledBy topBid (tradeQuantity topBid topAsk) ∨ x ∈ restBids := by
        simpa [Ladder.orders] using hx
      rcases hx1 with hx1 | hx1
      · exact ⟨topBid, (hmem topBid).mpr (Or.inr (Or.inl rfl)), by rw [hx1]; exact ⟨rfl, rfl, rfl⟩⟩
      · exact ⟨x, (hmem x).mpr (Or.inr (Or.inr hx1)), alike_refl x⟩

/-- Every ask that the loop body leaves was an ask before it, up to what was filled. -/
theorem matchStep_asks_alike (symbol : String) (clock : Nat → Nat) (s : MatchState)
    (bidPrice : ℚ) (topBid : Order) (restBids : List Order)
    (askPrice : ℚ) (topAsk : Order) (restAsks : List Order) (higherAsks : Ladder)
    (ha : s.asks = (askPrice, topAsk :: restAsks) :: higherAsks) :
    ∀ x ∈ Ladder.orders (matchStep symbol clock s bidPrice topBid restBids askPrice topAsk
        restAsks higherAsks).asks,
      ∃ y ∈ Ladder.orders s.asks, x.Alike y := by
  have hmem : ∀ y, y ∈ Ladder.orders s.asks ↔
      (y = topAsk ∨ y ∈ restAsks) ∨ y ∈ Ladder.orders higherAsks := by
    intro y
    rw [ha, svc_orders_cons, List.mem_append, List.mem_cons]
  intro x hx
  rcases matchStep_asks symbol clock s bidPrice topBid restBids askPrice topAsk restAsks
      higherAsks with ⟨_, _, h⟩ | ⟨_, _, h⟩ | ⟨_, h⟩
  · rw [h] at hx
    exact ⟨x, (hmem x).mpr (Or.inr hx), alike_refl x⟩
  · rw [h, svc_orders_cons, List.mem_append] at hx
    rcases hx with hx | hx
    · exact ⟨x, (hmem x).mpr (Or.inl (Or.inr hx)), alike_refl x⟩
    · exact ⟨x, (hmem x).mpr (Or.inr hx), alike_refl x⟩
  · rw [h, svc_orders_cons, List.mem_append] at hx
    rcases hx with hx | hx
    · rcases List.mem_cons.mp hx with hx1 | hx1
      · exact ⟨topAsk, (hmem topAsk).mpr (Or.inl (Or.inl rfl)),
          by rw [hx1]; exact ⟨rfl, rfl, rfl⟩⟩
      · exact ⟨x, (hmem x).mpr (Or.inl (Or.inr hx1)), alike_refl x⟩
    · exact ⟨x, (hmem x).mpr (Or.inr hx), alike_refl x⟩

/-- Every trade of `matchOrders` is between an order that was among the bids and an
order that was among the asks when the call began, the price of the ask not above the
price of the bid, and it is priced at the price of the ask. -/
theorem matchLoop_trades (symbol : String) (clock : Nat → Nat) (bids0 asks0 : List Order)
    (fuel : Nat) (s r : MatchState) (h : matchLoop symbol clock fuel s = some r)
    (hb : Ladder.From bids0 s.bids) (ha : Ladder.From asks0 s.asks)
    (ht : ∀ t ∈ s.trades, ∃ x0 ∈ bids0, ∃ y0 ∈ asks0, t.Between x0 y0) :
    ∀ t ∈ r.trades, ∃ x0 ∈ bids0, ∃ y0 ∈ asks0, t.Between x0 y0 := by
  refine (matchLoop_rule symbol clock
    (fun u => Ladder.From bids0 u.bids ∧ Ladder.From asks0 u.asks ∧
      ∀ t ∈ u.trades, ∃ x0 ∈ bids0, ∃ y0 ∈ asks0, t.Between x0 y0)
    ?_ fuel s r h ⟨hb, ha, ht⟩).2.2
  intro u bidPrice topBid restBids askPrice topAsk restAsks higherAsks hub hua hc hI
  obtain ⟨hIb, hIa, hIt⟩ := hI
  refine ⟨from_step bids0 u.bids _ hIb
      (matchStep_bids_alike symbol clock u bidPrice topBid restBids askPrice topAsk restAsks
        higherAsks hub),
    from_step asks0 u.asks _ hIa
      (matchStep_asks_alike symbol clock u bidPrice topBid restBids askPrice topAsk restAsks
        higherAsks hua), ?_⟩
  obtain ⟨t1, htr, hp, _, hbi, hsi, hbu, hsu⟩ := matchStep_trades symbol clock u bidPrice
    topBid restBids askPrice topAsk restAsks higherAsks
  intro t htm
  rw [htr, List.mem_append, List.mem_singleton] at htm
  rcases htm with htm | htm
  · exact hIt t htm
  · have hbm : topBid ∈ Ladder.orders u.bids := by
      rw [last_orders u.bids _ _ hub]
      exact List.mem_append_right _ (List.mem_cons_self _ _)
    have ham : topAsk ∈ Ladder.orders u.asks := by
      rw [hua, svc_orders_cons]
      exact List.mem_append_left _ (List.mem_cons_self _ _)
    obtain ⟨x0, hx0, hxa⟩ := hIb topBid hbm
    obtain ⟨y0, hy0, hya⟩ := hIa topAsk ham
    refine ⟨x0, hx0, y0, hy0, ?_⟩
    rw [htm]
    refine ⟨?_, hp.trans hya.2.2, hbi.trans hxa.1, hsi.trans hya.1, hbu.trans hxa.2.1,
      hsu.trans hya.2.1⟩
    rw [← hxa.2.2, ← hya.2.2]
    exact hc

theorem from_self (l : Ladder) : Ladder.From (Ladder.orders l) l :=
  fun x hx => ⟨x, hx, alike_refl x⟩

/-- The trades that `matchOrders` returns, in terms of the book it was called on. -/
theorem matchOrders_trades (b : OrderBook) (counter : Nat) (clock : Nat → Nat)
    (r : MatchResult) (h : b.matchOrders counter clock = some r) :
    ∀ t ∈ r.trades, ∃ x0 ∈ Ladder.orders b.bids, ∃ y0 ∈ Ladder.orders b.asks,
      t.Between x0 y0 := by
  unfold OrderBook.matchOrders at h
  cases hs : matchLoop b.symbol clock
      ((Ladder.orders b.bids).length + (Ladder.orders b.asks).length + 1)
      { bids := b.bids, asks := b.asks, trades := [], counter := counter } with
  | none => rw [hs] at h; cases h
  | some s =>
    rw [hs] at h
    have hr := Option.some.inj h
    rw [← hr]
    exact matchLoop_trades b.symbol clock _ _ _ _ s hs (from_self b.bids) (from_self b.asks)
      (fun t ht => absurd ht (List.not_mem_nil t))

end Service

/-! ## Matching-engine service: uncrossed books and `addOrder` -/

namespace Service

/-- In a well-formed book that is not crossed every bid is priced below every ask. -/
theorem wellFormed_apart (b : OrderBook) (hw : b.WellFormed) (hu : b.Uncrossed) :
    ∀ x ∈ Ladder.orders b.bids, ∀ y ∈ Ladder.orders b.asks, x.price < y.price := by
  intro x hx y hy
  obtain ⟨e, he, hxe⟩ := (svc_mem_orders b.bids x).mp hx
  obtain ⟨f, hf, hyf⟩ := (svc_mem_orders b.asks y).mp hy
  rw [hw.keyed e (List.mem_append_left _ he) x hxe,
    hw.keyed f (List.mem_append_right _ hf) y hyf]
  have hbs := hw.bids_sorted
  have has := hw.asks_sorted
  cases hbids : b.bids with
  | nil => rw [hbids] at he; cases he
  | cons e0 bs =>
    cases hasks : b.asks with
    | nil => rw [hasks] at hf; cases hf
    | cons f0 fs =>
      have h0 : e0.1 < f0.1 := by
        apply hu
        · rw [hbids]; simp
        · rw [hasks]; simp
      have h1 : e.1 ≤ e0.1 := by
        rw [hbids] at he hbs
        rcases List.mem_cons.mp he with h | h
        · rw [h]
        · rw [List.map_cons, List.pairwise_cons] at hbs
          exact le_of_lt (hbs.1 e.1 (List.mem_map_of_mem _ h))
      have h2 : f0.1 ≤ f.1 := by
        rw [hasks] at hf has
        rcases List.mem_cons.mp hf with h | h
        · rw [h]
        · rw [List.map_cons, List.pairwise_cons] at has
          exact le_of_lt (has.1 f.1 (List.mem_map_of_mem _ h))
      linarith

/-- On a book in which every bid is priced below every ask, and no queue is empty,
`matchOrders` returns at once: no trade, the book as it was. -/
theorem matchOrders_apart (b : OrderBook) (counter : Nat) (clock : Nat → Nat)
    (hq : ∀ e ∈ b.bids ++ b.asks, e.2 ≠ [])
    (hap : ∀ x ∈ Ladder.orders b.bids, ∀ y ∈ Ladder.orders b.asks, x.price < y.price) :
    b.matchOrders counter clock = some { trades := [], book := b, counter := counter } := by
  have key : ∀ n, matchLoop b.symbol clock (n + 1)
      { bids := b.bids, asks := b.asks, trades := [], counter := counter } =
      some { bids := b.bids, asks := b.asks, trades := [], counter := counter } := by
    intro n
    unfold matchLoop
    simp only
    cases hb : b.bids.getLast? with
    | none => rfl
    | some e =>
      obtain ⟨bidPrice, bidQueue⟩ := e
      simp only
      cases ha : b.asks with
      | nil => rfl
      | cons a higherAsks =>
        obtain ⟨askPrice, askQueue⟩ := a
        simp only
        cases bidQueue with
        | nil =>
          exact absurd rfl (hq _ (List.mem_append_left _ (last_mem b.bids _ hb)))
        | cons topBid restBids =>
          cases askQueue with
          | nil =>
            exact absurd rfl
              (hq _ (List.mem_append_right _ (by rw [ha]; exact List.mem_cons_self _ _)))
          | cons topAsk restAsks =>
            simp only
            have hlt : topBid.price < topAsk.price := by
              apply hap
              · rw [last_orders b.bids _ _ hb]
                exact List.mem_append_right _ (List.mem_cons_self _ _)
              · rw [ha, svc_orders_cons]
                exact List.mem_append_left _ (List.mem_cons_self _ _)
            rw [if_neg (not_le.mpr hlt)]
  unfold OrderBook.matchOrders
  rw [key]
  rfl

theorem svc_mem_push (before : ℚ → ℚ → Bool) (o x : Order) :
    ∀ l : Ladder, x ∈ Ladder.orders (Ladder.push before l o) ↔
      x ∈ Ladder.orders l ∨ x = o := by
  intro l
  induction l with
  | nil => simp [Ladder.push, Ladder.orders]
  | cons e rest ih =>
    obtain ⟨price, queue⟩ := e
    unfold Ladder.push
    by_cases h1 : before o.price price = true
    · rw [if_pos h1, svc_orders_cons, List.mem_append]
      simp only [List.mem_singleton]
      tauto
    · rw [if_neg h1]
      by_cases h2 : before price o.price = true
      · rw [if_pos h2, svc_orders_cons, svc_orders_cons, List.mem_append, List.mem_append, ih]
        tauto
      · rw [if_neg h2, svc_orders_cons, svc_orders_cons, List.mem_append, List.mem_append]
        simp only [List.mem_append, List.mem_singleton]
        tauto

theorem push_queued (before : ℚ → ℚ → Bool) (o : Order) :
    ∀ l : Ladder, (∀ e ∈ l, e.2 ≠ []) → ∀ e ∈ Ladder.push before l o, e.2 ≠ [] := by
  intro l
  induction l with
  | nil =>
    intro _ e he
    simp only [Ladder.push, List.mem_singleton] at he
    rw [he]
    exact List.cons_ne_nil _ _
  | cons a rest ih =>
    obtain ⟨price, queue⟩ := a
    intro hq e he
    unfold Ladder.push at he
    by_cases h1 : before o.price price = true
    · rw [if_pos h1] at he
      rcases List.mem_cons.mp he with h | h
      · rw [h]; exact List.cons_ne_nil _ _
      · exact hq e h
    · rw [if_neg h1] at he
      by_cases h2 : before price o.price = true
      · rw [if_pos h2] at he
        rcases List.mem_cons.mp he with h | h
        · rw [h]; exact hq _ (List.mem_cons_self _ _)
        · exact ih (fun e1 he1 => hq e1 (List.mem_cons_of_mem _ he1)) e h
      · rw [if_neg h2] at he
        rcases List.mem_cons.mp he with h | h
        · rw [h]
          simp
        · exact hq e (List.mem_cons_of_mem _ h)

/-- After `addOrder` no queue is empty, and the orders are those of before and the new
one, on its side. -/
theorem addOrder_spec (b : OrderBook) (o : Order) (hq : ∀ e ∈ b.bids ++ b.asks, e.2 ≠ []) :
    (∀ e ∈ (b.addOrder o).bids ++ (b.addOrder o).asks, e.2 ≠ []) ∧
    (o.side = OrderSide.BUY →
      (∀ x, x ∈ Ladder.orders (b.addOrder o).bids ↔ x ∈ Ladder.orders b.bids ∨ x = o) ∧
      (b.addOrder o).asks = b.asks) ∧
    (o.side = OrderSide.SELL →
      (∀ x, x ∈ Ladder.orders (b.addOrder o).asks ↔ x ∈ Ladder.orders b.asks ∨ x = o) ∧
      (b.addOrder o).bids = b.bids) := by
  unfold OrderBook.addOrder
  cases hs : o.side with
  | BUY =>
    refine ⟨?_, fun _ => ⟨fun x => svc_mem_push _ o x b.bids, rfl⟩,
      fun h => OrderSide.noConfusion h⟩
    intro e he
    rcases List.mem_append.mp he with h | h
    · exact push_queued _ o b.bids (fun e1 he1 => hq e1 (List.mem_append_left _ he1)) e h
    · exact hq e (List.mem_append_right _ h)
  | SELL =>
    refine ⟨?_, fun h => OrderSide.noConfusion h,
      fun _ => ⟨fun x => svc_mem_push _ o x b.asks, rfl⟩⟩
    intro e he
    rcases List.mem_append.mp he with h | h
    · exact hq e (List.mem_append_left _ h)
    · exact push_queued _ o b.asks (fun e1 he1 => hq e1 (List.mem_append_right _ he1)) e h

end Service

/-! ## Matching-engine service: claims C32, C33, C34 and C35 -/

namespace Service

/-- C32 fails: `matchOrders` takes `bids.rbegin()` for the top bid, and in a map ordered
by `std::greater` that is the lowest bid. On the well-formed, uncrossed book with a bid
at 90 and an ask at 105, the limit buy of 1.0 at 110 is queued above the bid at 90; the
loop compares the bid at 90 with the ask at 105 and stops without a trade, and the book
is left with the highest bid 110 above the lowest ask 105. -/
theorem C32_limit_order_leaves_book_crossed :
    wideBook.WellFormed ∧ wideBook.Uncrossed ∧
    (limitOrder 3 3 OrderSide.BUY 1 110).type = OrderType.LIMIT ∧
    ∃ r, processLimitOrder (limitOrder 3 3 OrderSide.BUY 1 110) wideBook 1 still = some r ∧
      r.trades = [] ∧
      r.book.bids.map Prod.fst = [110, 90] ∧
      r.book.asks.map Prod.fst = [105] ∧
      ¬ r.book.Uncrossed := by
  refine ⟨⟨by decide!, by decide!, by decide!, by decide!⟩,
    by unfold OrderBook.Uncrossed; decide!, rfl, ?_⟩
  have h1 : (processLimitOrder (limitOrder 3 3 OrderSide.BUY 1 110) wideBook 1 still).map
      (fun r => r.trades) = some [] := by decide!
  have h2 : (processLimitOrder (limitOrder 3 3 OrderSide.BUY 1 110) wideBook 1 still).map
      (fun r => r.book.bids.map Prod.fst) = some [110, 90] := by decide!
  have h3 : (processLimitOrder (limitOrder 3 3 OrderSide.BUY 1 110) wideBook 1 still).map
      (fun r => r.book.asks.map Prod.fst) = some [105] := by decide!
  cases hr : processLimitOrder (limitOrder 3 3 OrderSide.BUY 1 110) wideBook 1 still with
  | none => rw [hr] at h1; cases h1
  | some r =>
    rw [hr] at h1 h2 h3
    have k1 : r.trades = [] := Option.some.inj h1
    have k2 : r.book.bids.map Prod.fst = [110, 90] := Option.some.inj h2
    have k3 : r.book.asks.map Prod.fst = [105] := Option.some.inj h3
    refine ⟨r, rfl, k1, k2, k3, ?_⟩
    intro hu
    unfold OrderBook.Uncrossed at hu
    cases hb : r.book.bids with
    | nil => rw [hb] at k2; cases k2
    | cons e bs =>
      cases ha : r.book.asks with
      | nil => rw [ha] at k3; cases k3
      | cons f fs =>
        rw [hb] at k2 hu
        rw [ha] at k3 hu
        have hlt : e.1 < f.1 := hu e (by simp) f (by simp)
        have he : e.1 = 110 := (List.cons.inj k2).1
        have hf : f.1 = 105 := (List.cons.inj k3).1
        rw [he, hf] at hlt
        exact absurd hlt (by norm_num)

/-- C33, as the claim states it, fails for a taker that sells. On the book that holds
the one bid of 1.0 at 100 under the id 1, the incoming limit sell of 1.0 at 95 under the
id 2 trades with that bid at 95, the price of the incoming order, and not at 100, the
price of the order that was resting. -/
theorem C33_counterexample :
    bidBook.WellFormed ∧ bidBook.Uncrossed ∧
    (Ladder.orders bidBook.bids).map (fun o => (o.id, o.price)) = [(1, 100)] ∧
    (processLimitOrder (limitOrder 2 2 OrderSide.SELL 1 95) bidBook 1 still).map
      (fun r => r.trades.map
        (fun t => (t.buyOrderId, t.sellOrderId, t.price, t.quantity))) =
      some [(1, 2, 95, 1)] := by
  refine ⟨⟨by decide!, by decide!, by decide!, by decide!⟩,
    by unfold OrderBook.Uncrossed; decide!, by decide!, by decide!⟩

/-- C33, amended. For every well-formed, uncrossed book and every order handed to
`processLimitOrder`, the call returns, and every trade it emits is priced at the price
of the sell order of the trade: at the price of the order that was already resting (the
maker) when the incoming taker is the buyer, and at the price of the incoming order
itself, which is not above the price of the resting bid it trades with, when the
incoming taker is the seller. -/
theorem C33_trade_priced_at_ask (b : OrderBook) (order : Order) (counter : Nat)
    (clock : Nat → Nat) (hw : b.WellFormed) (hu : b.Uncrossed) :
    ∃ r, processLimitOrder order b counter clock = some r ∧
      ∀ t ∈ r.trades,
        (order.side = OrderSide.BUY →
          t.buyOrderId = order.id ∧
          ∃ maker ∈ Ladder.orders b.asks,
            t.sellOrderId = maker.id ∧ t.price = maker.price) ∧
        (order.side = OrderSide.SELL →
          t.sellOrderId = order.id ∧ t.price = order.price ∧
          ∃ maker ∈ Ladder.orders b.bids,
            t.buyOrderId = maker.id ∧ order.price ≤ maker.price) := by
  obtain ⟨hq1, hbuy, hsell⟩ := addOrder_spec b order hw.queued
  obtain ⟨s, _, hr⟩ := matchOrders_returns (b.addOrder order) counter clock hq1
  refine ⟨_, hr, ?_⟩
  have hap := wellFormed_apart b hw hu
  intro t ht
  obtain ⟨x0, hx0, y0, hy0, hle, hp, hbi, hsi, _, _⟩ :=
    matchOrders_trades (b.addOrder order) counter clock _ hr t ht
  constructor
  · intro hside
    obtain ⟨hm, hasks⟩ := hbuy hside
    rw [hasks] at hy0
    rcases (hm x0).mp hx0 with hx | hx
    · exact absurd (hap x0 hx y0 hy0) (not_lt.mpr hle)
    · rw [hx] at hbi
      exact ⟨hbi, y0, hy0, hsi, hp⟩
  · intro hside
    obtain ⟨hm, hbids⟩ := hsell hside
    rw [hbids] at hx0
    rcases (hm y0).mp hy0 with hy | hy
    · exact absurd (hap x0 hx0 y0 hy) (not_lt.mpr hle)
    · rw [hy] at hsi hp hle
      exact ⟨hsi, hp, x0, hx0, hbi, hle⟩

/-- C33 at the book with the one ask of 1.0 at 101 and a limit buy of 0.6 at 105. -/
theorem C33_trade_priced_at_ask_witness :
    askBook.WellFormed ∧ askBook.Uncrossed ∧
    ∃ r, processLimitOrder (limitOrder 2 2 OrderSide.BUY (6 / 10) 105) askBook 1 still =
        some r ∧
      ∀ t ∈ r.trades,
        ((limitOrder 2 2 OrderSide.BUY (6 / 10) 105).side = OrderSide.BUY →
          t.buyOrderId = (limitOrder 2 2 OrderSide.BUY (6 / 10) 105).id ∧
          ∃ maker ∈ Ladder.orders askBook.asks,
            t.sellOrderId = maker.id ∧ t.price = maker.price) ∧
        ((limitOrder 2 2 OrderSide.BUY (6 / 10) 105).side = OrderSide.SELL →
          t.sellOrderId = (limitOrder 2 2 OrderSide.BUY (6 / 10) 105).id ∧
          t.price = (limitOrder 2 2 OrderSide.BUY (6 / 10) 105).price ∧
          ∃ maker ∈ Ladder.orders askBook.bids,
            t.buyOrderId = maker.id ∧
              (limitOrder 2 2 OrderSide.BUY (6 / 10) 105).price ≤ maker.price) :=
  ⟨⟨by decide!, by decide!, by decide!, by decide!⟩,
   by unfold OrderBook.Uncrossed; decide!,
   C33_trade_priced_at_ask askBook (limitOrder 2 2 OrderSide.BUY (6 / 10) 105) 1 still
     ⟨by decide!, by decide!, by decide!, by decide!⟩
     (by unfold OrderBook.Uncrossed; decide!)⟩

theorem totalQuantity_sum (queue : List Order) :
    totalQuantity queue = (queue.map (fun o => o.quantity - o.filledQuantity)).sum := by
  have key : ∀ (q : List Order) (total : ℚ),
      q.foldl (fun total order => total + (order.quantity - order.filledQuantity)) total =
        total + (q.map (fun o => o.quantity - o.filledQuantity)).sum := by
    intro q
    induction q with
    | nil => intro total; simp
    | cons a l ih =>
      intro total
      rw [List.foldl_cons, ih, List.map_cons, List.sum_cons]
      ring
  unfold totalQuantity
  rw [key, zero_add]

theorem depthLoop_take (limit : Int) :
    ∀ (levels : Ladder) (count : Int) (array : List (ℚ × ℚ)),
      depthLoop limit levels count array =
        array ++ (levels.take (limit - count).toNat).map levelEntry := by
  intro levels
  induction levels with
  | nil => intro count array; simp [depthLoop]
  | cons e rest ih =>
    obtain ⟨price, queue⟩ := e
    intro count array
    unfold depthLoop
    by_cases h : count < limit
    · rw [if_pos h, ih]
      have h1 : (limit - count).toNat = (limit - (count + 1)).toNat + 1 := by omega
      rw [h1, List.take_succ_cons, List.map_cons, List.append_assoc]
      simp [levelEntry, totalQuantity_sum]
    · rw [if_neg h]
      have h1 : (limit - count).toNat = 0 := by omega
      rw [h1]
      simp

/-- C34 fails for the bids: the first loop of `getDepth` runs from `bids.rbegin()`, and
in a map ordered by `std::greater` that is the lowest bid. For the book with bids at
100, 99 and 98 and asks at 101, 102 and 103, `getDepth(2)` returns the bid levels 98 and
99, in ascending order, and not 100 and 99; the ask levels are 101 and 102. In general
the bid levels returned are the first `limit` levels of the reversed map, each with the
sum of the unfilled quantities of its orders, and the ask levels are the first `limit`
levels of the map. -/
theorem C34_depth_lists_lowest_bids :
    deepBook.bids.map levelEntry = [(100, 1), (99, 2), (98, 3)] ∧
    (deepBook.getDepth 2 0).bids = [(98, 3), (99, 2)] ∧
    (deepBook.getDepth 2 0).asks = [(101, 1), (102, 2)] ∧
    ∀ (b : OrderBook) (limit : Int) (now : Nat),
      (b.getDepth limit now).bids = (b.bids.reverse.take limit.toNat).map levelEntry ∧
      (b.getDepth limit now).asks = (b.asks.take limit.toNat).map levelEntry := by
  refine ⟨by decide!, by decide!, by decide!, ?_⟩
  intro b limit now
  unfold OrderBook.getDepth
  simp only [depthLoop_take, sub_zero, List.nil_append, and_self]

/-- C35, as the claim states it, fails: `processMarketOrder` does not hand the order to
the book. On the book that holds the one sell of 1.0 at 101, the market buy of 0.6 makes
no trade: the quantities traded sum to 0 and not to min(0.6, 1.0) = 0.6, the filled
quantity of the market order stays 0, and the ask level keeps its 1.0. -/
theorem C35_counterexample :
    askBook.WellFormed ∧ askBook.Uncrossed ∧
    askBook.asks.map levelEntry = [(101, 1)] ∧
    (processMarketOrder (marketOrder 2 2 OrderSide.BUY (6 / 10)) askBook 1 still).map
      (fun r => (r.trades.length, tradedQuantity r.trades, r.order.filledQuantity)) =
      some (0, 0, 0) ∧
    (processMarketOrder (marketOrder 2 2 OrderSide.BUY (6 / 10)) askBook 1 still).map
      (fun r => r.book.asks.map levelEntry) = some [(101, 1)] ∧
    min (6 / 10 : ℚ) 1 = 6 / 10 := by
  refine ⟨⟨by decide!, by decide!, by decide!, by decide!⟩,
    by unfold OrderBook.Uncrossed; decide!, by decide!, by decide!, by decide!, by decide!⟩

/-- C35, amended. For every well-formed, uncrossed book and every market order,
`processMarketOrder` runs `matchOrders` on the book without the order: it emits no
trade, so that the quantities traded sum to 0, and it leaves the book, the order and
its filled quantity as they were. -/
theorem C35_market_order_trades_nothing (order : Order) (b : OrderBook) (counter : Nat)
    (clock : Nat → Nat) (hw : b.WellFormed) (hu : b.Uncrossed) :
    ∃ r, processMarketOrder order b counter clock = some r ∧
      r.trades = [] ∧ tradedQuantity r.trades = 0 ∧ r.book = b ∧ r.order = order ∧
      r.order.filledQuantity = order.filledQuantity := by
  refine ⟨{ order := order, trades := [], book := b, counter := counter }, ?_, rfl, rfl, rfl,
    rfl, rfl⟩
  unfold processMarketOrder
  rw [matchOrders_apart b counter clock hw.queued (wellFormed_apart b hw hu)]
  rfl

/-- C35 at the book with the one ask of 1.0 at 101 and a market buy of 0.6. -/
theorem C35_market_order_trades_nothing_witness :
    askBook.WellFormed ∧ askBook.Uncrossed ∧
    ∃ r, processMarketOrder (marketOrder 2 2 OrderSide.BUY (6 / 10)) askBook 1 still =
        some r ∧
      r.trades = [] ∧ tradedQuantity r.trades = 0 ∧ r.book = askBook ∧
      r.order = marketOrder 2 2 OrderSide.BUY (6 / 10) ∧
      r.order.filledQuantity = (marketOrder 2 2 OrderSide.BUY (6 / 10)).filledQuantity :=
  ⟨⟨by decide!, by decide!, by decide!, by decide!⟩,
   by unfold OrderBook.Uncrossed; decide!,
   C35_market_order_trades_nothing (marketOrder 2 2 OrderSide.BUY (6 / 10)) askBook 1 still
     ⟨by decide!, by decide!, by decide!, by decide!⟩
     (by unfold OrderBook.Uncrossed; decide!)⟩

end Service

/-! ## `double` arithmetic: rounding -/

namespace Double

theorem log2Loop_spec : ∀ (fuel n : Nat), n ≤ fuel →
    (n ≠ 0 → 2 ^ log2Loop fuel n ≤ n) ∧ n < 2 ^ (log2Loop fuel n + 1) := by
  intro fuel
  induction fuel with
  | zero =>
    intro n h
    have h0 : n = 0 := by omega
    subst h0
    simp [log2Loop]
  | succ f ih =>
    intro n h
    unfold log2Loop
    by_cases h2 : 2 ≤ n
    · rw [if_pos h2]
      obtain ⟨h3, h4⟩ := ih (n / 2) (by omega)
      have h5 := h3 (by omega)
      have e1 : 2 ^ (log2Loop f (n / 2) + 1) = 2 * 2 ^ log2Loop f (n / 2) := by
        rw [pow_succ]; ring
      have e2 : 2 ^ (log2Loop f (n / 2) + 1 + 1) = 2 * 2 ^ (log2Loop f (n / 2) + 1) := by
        rw [pow_succ]; ring
      constructor
      · intro _
        rw [e1]
        omega
      · rw [e2]
        omega
    · rw [if_neg h2]
      constructor
      · intro h0
        simp only [pow_zero]
        omega
      · simp only [zero_add, pow_one]
        omega

theorem log2_le (n : Nat) (h : n ≠ 0) : 2 ^ log2 n ≤ n :=
  (log2Loop_spec n n (le_refl n)).1 h

theorem lt_log2 (n : Nat) : n < 2 ^ (log2 n + 1) :=
  (log2Loop_spec n n (le_refl n)).2

theorem pow2_eq (k : Int) : pow2 k = (2 : ℚ) ^ k := by
  unfold pow2
  by_cases h : 0 ≤ k
  · rw [if_pos h]
    have hk : k = ((k.toNat : Nat) : Int) := by omega
    conv_rhs => rw [hk]
    rw [zpow_natCast]
    push_cast
    rfl
  · rw [if_neg h]
    have hk : k = -(((-k).toNat : Nat) : Int) := by omega
    conv_rhs => rw [hk]
    rw [zpow_neg, zpow_natCast, one_div]
    push_cast
    rfl

theorem pow2_pos (k : Int) : 0 < pow2 k := by
  rw [pow2_eq]
  exact zpow_pos (by norm_num) k

theorem pow2_le (j k : Int) (h : j ≤ k) : pow2 j ≤ pow2 k := by
  rw [pow2_eq, pow2_eq]
  exact zpow_le_zpow_right₀ (by norm_num) h

theorem pow2_lt_iff (j k : Int) : pow2 j < pow2 k ↔ j < k := by
  rw [pow2_eq, pow2_eq]
  exact zpow_lt_zpow_iff_right₀ (by norm_num)

theorem pow2_add (j k : Int) : pow2 (j + k) = pow2 j * pow2 k := by
  rw [pow2_eq, pow2_eq, pow2_eq]
  exact zpow_add₀ (by norm_num) j k

theorem pow2_natCast (n : Nat) : pow2 (n : Int) = ((2 ^ n : Nat) : ℚ) := by
  rw [pow2_eq, zpow_natCast]
  push_cast
  rfl

theorem abs_eq_div (x : ℚ) : |x| = (x.num.natAbs : ℚ) / (x.den : ℚ) := by
  have hd : (0 : ℚ) < x.den := by exact_mod_cast x.den_pos
  conv_lhs => rw [← Rat.num_div_den x]
  rw [abs_div, abs_of_pos hd, Nat.cast_natAbs, Int.cast_abs]

/-- The exponent brackets the magnitude. -/
theorem binade_spec (x : ℚ) (hx : x ≠ 0) :
    pow2 (binade x) ≤ |x| ∧ |x| < pow2 (binade x + 1) := by
  have hn : x.num.natAbs ≠ 0 := by
    intro h
    exact hx (Rat.zero_of_num_zero (Int.natAbs_eq_zero.mp h))
  have hd : x.den ≠ 0 := x.den_nz
  have hdq : (0 : ℚ) < x.den := by exact_mod_cast x.den_pos
  have ha1 : ((2 ^ log2 x.num.natAbs : Nat) : ℚ) ≤ (x.num.natAbs : ℚ) := by
    exact_mod_cast log2_le _ hn
  have ha2 : (x.num.natAbs : ℚ) < ((2 ^ (log2 x.num.natAbs + 1) : Nat) : ℚ) := by
    exact_mod_cast lt_log2 _
  have hb1 : ((2 ^ log2 x.den : Nat) : ℚ) ≤ (x.den : ℚ) := by
    exact_mod_cast log2_le _ hd
  have hb2 : (x.den : ℚ) < ((2 ^ (log2 x.den + 1) : Nat) : ℚ) := by
    exact_mod_cast lt_log2 _
  have habs := abs_eq_div x
  have hsub : ∀ (a b : Nat), pow2 ((a : Int) - (b : Int)) =
      ((2 ^ a : Nat) : ℚ) / ((2 ^ b : Nat) : ℚ) := by
    intro a b
    rw [pow2_eq, zpow_sub₀ (by norm_num), zpow_natCast, zpow_natCast]
    push_cast
    rfl
  have hpa : (0 : ℚ) < ((2 ^ log2 x.num.natAbs : Nat) : ℚ) := by positivity
  have hpb : (0 : ℚ) < ((2 ^ log2 x.den : Nat) : ℚ) := by positivity
  unfold binade
  by_cases hc : pow2 ((log2 x.num.natAbs : Int) - (log2 x.den : Int)) ≤ |x|
  · rw [if_pos hc]
    refine ⟨hc, ?_⟩
    have e1 : (log2 x.num.natAbs : Int) - (log2 x.den : Int) + 1 =
        ((log2 x.num.natAbs + 1 : Nat) : Int) - (log2 x.den : Int) := by push_cast; ring
    rw [e1, hsub, habs]
    calc (x.num.natAbs : ℚ) / (x.den : ℚ)
        ≤ (x.num.natAbs : ℚ) / ((2 ^ log2 x.den : Nat) : ℚ) :=
          div_le_div_of_nonneg_left (by positivity) hpb hb1
      _ < ((2 ^ (log2 x.num.natAbs + 1) : Nat) : ℚ) / ((2 ^ log2 x.den : Nat) : ℚ) :=
          div_lt_div_of_pos_right ha2 hpb
  · rw [if_neg hc]
    refine ⟨?_, ?_⟩
    · have e1 : (log2 x.num.natAbs : Int) - (log2 x.den : Int) - 1 =
          (log2 x.num.natAbs : Int) - ((log2 x.den + 1 : Nat) : Int) := by push_cast; ring
      rw [e1, hsub, habs]
      calc ((2 ^ log2 x.num.natAbs : Nat) : ℚ) / ((2 ^ (log2 x.den + 1) : Nat) : ℚ)
          ≤ ((2 ^ log2 x.num.natAbs : Nat) : ℚ) / (x.den : ℚ) :=
            div_le_div_of_nonneg_left (le_of_lt hpa) hdq (le_of_lt hb2)
        _ ≤ (x.num.natAbs : ℚ) / (x.den : ℚ) :=
            div_le_div_of_nonneg_right ha1 (le_of_lt hdq)
    · have e1 : (log2 x.num.natAbs : Int) - (log2 x.den : Int) - 1 + 1 =
          (log2 x.num.natAbs : Int) - (log2 x.den : Int) := by ring
      rw [e1]
      exact not_le.mp hc

/-- The exponent is the only one that brackets the magnitude. -/
theorem binade_unique (x : ℚ) (k : Int) (h1 : pow2 k ≤ |x|) (h2 : |x| < pow2 (k + 1)) :
    binade x = k := by
  have hx : x ≠ 0 := by
    intro h
    rw [h, abs_zero] at h1
    exact absurd (pow2_pos k) (not_lt.mpr h1)
  obtain ⟨h3, h4⟩ := binade_spec x hx
  have a1 : binade x < k + 1 := (pow2_lt_iff _ _).mp (lt_of_le_of_lt h3 h2)
  have a2 : k < binade x + 1 := (pow2_lt_iff _ _).mp (lt_of_le_of_lt h1 h4)
  omega

theorem binade_mono (x y : ℚ) (hx : x ≠ 0) (h : |x| ≤ |y|) : binade x ≤ binade y := by
  have hy : y ≠ 0 := by
    intro h0
    rw [h0, abs_zero] at h
    exact hx (abs_eq_zero.mp (le_antisymm h (abs_nonneg x)))
  have a1 : binade x < binade y + 1 :=
    (pow2_lt_iff _ _).mp
      (lt_of_le_of_lt ((binade_spec x hx).1.trans h) (binade_spec y hy).2)
  omega

theorem roundEven_intCast (n : Int) : roundEven (n : ℚ) = n := by
  unfold roundEven
  rw [Int.floor_intCast]
  norm_num

theorem roundEven_bounds (x : ℚ) :
    ((⌊x⌋ : Int) : ℚ) ≤ (roundEven x : ℚ) ∧ (roundEven x : ℚ) ≤ ((⌊x⌋ : Int) : ℚ) + 1 := by
  unfold roundEven
  split_ifs <;> push_cast <;> constructor <;> linarith

/-- The rounded integer is within one half of the argument. -/
theorem roundEven_error (x : ℚ) : |(roundEven x : ℚ) - x| ≤ 1 / 2 := by
  have h1 := Int.floor_le x
  have h2 := Int.lt_floor_add_one x
  unfold roundEven
  rw [abs_le]
  split_ifs with a b c <;> push_cast <;> constructor <;> linarith

theorem roundEven_mono (x y : ℚ) (h : x ≤ y) : roundEven x ≤ roundEven y := by
  have hf : ⌊x⌋ ≤ ⌊y⌋ := Int.floor_mono h
  rcases lt_or_eq_of_le hf with hlt | heq
  · have h1 := (roundEven_bounds x).2
    have h2 := (roundEven_bounds y).1
    have h3 : roundEven x ≤ ⌊x⌋ + 1 := by exact_mod_cast h1
    have h4 : ⌊y⌋ ≤ roundEven y := by exact_mod_cast h2
    omega
  · unfold roundEven
    rw [← heq]
    split_ifs <;> first | omega | (exfalso; linarith)

theorem pow2_sub (j k : Int) : pow2 (j - k) = pow2 j / pow2 k := by
  rw [pow2_eq, pow2_eq, pow2_eq]
  exact zpow_sub₀ (by norm_num) j k

theorem pow2_one : pow2 1 = 2 := by
  rw [pow2_eq]
  norm_num

theorem pow2_zero : pow2 0 = 1 := by
  rw [pow2_eq]
  norm_num

theorem pow2_succ (k : Int) : pow2 (k + 1) = 2 * pow2 k := by
  rw [pow2_add, pow2_one, mul_comm]

theorem pow2_53 : pow2 53 = 2 ^ 53 := by
  rw [pow2_eq]
  norm_num

theorem pow2_52 : pow2 52 = 2 ^ 52 := by
  rw [pow2_eq]
  norm_num

theorem binary64_zero : binary64 0 = 0 := by
  unfold binary64
  rw [if_pos rfl]

/-- A value whose quotient by its unit in the last place is an integer is a `double`. -/
theorem binary64_of_quot (x : ℚ) (n : Int) (h : x / pow2 (binade x - 52) = (n : ℚ)) :
    binary64 x = x := by
  unfold binary64
  by_cases hx : x = 0
  · rw [if_pos hx, hx]
  · rw [if_neg hx, h, roundEven_intCast, ← h]
    exact div_mul_cancel₀ _ (ne_of_gt (pow2_pos _))

/-- An integer of at most 53 bits times a power of two is a `double`. -/
theorem binary64_grid (m k : Int) (hm : |m| ≤ 2 ^ 53) :
    binary64 ((m : ℚ) * pow2 k) = (m : ℚ) * pow2 k := by
  by_cases hx : (m : ℚ) * pow2 k = 0
  · rw [hx]
    exact binary64_zero
  · obtain ⟨h1, h2⟩ := binade_spec _ hx
    have hk := pow2_pos k
    have habs : |(m : ℚ) * pow2 k| = ((|m| : Int) : ℚ) * pow2 k := by
      rw [abs_mul, abs_of_pos hk, Int.cast_abs]
    have hmq : ((|m| : Int) : ℚ) ≤ 2 ^ 53 := by exact_mod_cast hm
    have h53 : pow2 (53 + k) = 2 ^ 53 * pow2 k := by
      rw [pow2_add, pow2_53]
    have hle : binade ((m : ℚ) * pow2 k) ≤ 53 + k := by
      by_contra hc
      push_neg at hc
      have h3 := (pow2_lt_iff _ _).mpr hc
      have h4 := mul_le_mul_of_nonneg_right hmq (le_of_lt hk)
      rw [habs] at h1
      linarith
    rcases lt_or_eq_of_le hle with hlt | heq
    · obtain ⟨j, hj⟩ := Int.eq_ofNat_of_zero_le
        (show 0 ≤ k - (binade ((m : ℚ) * pow2 k) - 52) by omega)
      apply binary64_of_quot _ (m * ((2 ^ j : Nat) : Int))
      rw [mul_div_assoc, ← pow2_sub, hj, pow2_natCast]
      push_cast
      rfl
    · have h5 : (2 : ℚ) ^ 53 * pow2 k ≤ ((|m| : Int) : ℚ) * pow2 k := by
        rw [← h53, ← heq, ← habs]
        exact h1
      have h6 : (2 : ℚ) ^ 53 ≤ ((|m| : Int) : ℚ) := le_of_mul_le_mul_right h5 hk
      have h7 : (2 : Int) ^ 53 ≤ |m| := by exact_mod_cast h6
      have h8 : |m| = 2 ^ 53 := le_antisymm hm h7
      have e1 : binade ((m : ℚ) * pow2 k) - 52 = k + 1 := by omega
      apply binary64_of_quot _ (m / 2)
      rw [e1, pow2_succ]
      rcases abs_eq (by norm_num : (0 : Int) ≤ 2 ^ 53) |>.mp h8 with h9 | h9
      · rw [h9]
        field_simp
        norm_num
        ring
      · rw [h9]
        field_simp
        norm_num
        ring

theorem binade_neg (x : ℚ) : binade (-x) = binade x := by
  unfold binade
  simp only [Rat.neg_num, Rat.neg_den, Int.natAbs_neg, abs_neg]

theorem roundEven_neg (x : ℚ) : roundEven (-x) = -roundEven x := by
  have h1 := Int.floor_le x
  have h2 := Int.lt_floor_add_one x
  by_cases hi : ((⌊x⌋ : Int) : ℚ) = x
  · rw [← hi, ← Int.cast_neg, roundEven_intCast, roundEven_intCast]
  · have h3 : ((⌊x⌋ : Int) : ℚ) < x := lt_of_le_of_ne h1 hi
    have hf : ⌊-x⌋ = -⌊x⌋ - 1 := by
      rw [Int.floor_eq_iff]
      push_cast
      constructor <;> linarith
    unfold roundEven
    rw [hf]
    push_cast
    split_ifs <;> first | omega | (exfalso; linarith)

theorem binary64_neg (x : ℚ) : binary64 (-x) = -binary64 x := by
  unfold binary64
  by_cases hx : x = 0
  · simp [hx]
  · rw [if_neg hx, if_neg (neg_ne_zero.mpr hx), binade_neg, neg_div, roundEven_neg]
    push_cast
    ring

/-- The quotient of a value by its unit in the last place lies between `2 ^ 52` and
`2 ^ 53`. -/
theorem quot_bounds (x : ℚ) (hx : 0 < x) :
    (2 : ℚ) ^ 52 ≤ x / pow2 (binade x - 52) ∧ x / pow2 (binade x - 52) < 2 ^ 53 := by
  obtain ⟨h1, h2⟩ := binade_spec x (ne_of_gt hx)
  rw [abs_of_pos hx] at h1 h2
  have hu := pow2_pos (binade x - 52)
  have e1 : pow2 (binade x) = 2 ^ 52 * pow2 (binade x - 52) := by
    rw [← pow2_52, ← pow2_add]
    congr 1
    ring
  have e2 : pow2 (binade x + 1) = 2 ^ 53 * pow2 (binade x - 52) := by
    rw [← pow2_53, ← pow2_add]
    congr 1
    ring
  constructor
  · rw [le_div_iff₀ hu, ← e1]
    exact h1
  · rw [div_lt_iff₀ hu, ← e2]
    exact h2

/-- The significand of the rounded value lies between `2 ^ 52` and `2 ^ 53`. -/
theorem significand_bounds (x : ℚ) (hx : 0 < x) :
    2 ^ 52 ≤ roundEven (x / pow2 (binade x - 52)) ∧
      roundEven (x / pow2 (binade x - 52)) ≤ 2 ^ 53 := by
  obtain ⟨h1, h2⟩ := quot_bounds x hx
  constructor
  · have h3 := roundEven_mono _ _ h1
    have e : roundEven ((2 : ℚ) ^ 52) = 2 ^ 52 := by
      have := roundEven_intCast (2 ^ 52)
      push_cast at this
      exact this
    rw [e] at h3
    exact h3
  · have h3 := roundEven_mono _ _ (le_of_lt h2)
    have e : roundEven ((2 : ℚ) ^ 53) = 2 ^ 53 := by
      have := roundEven_intCast (2 ^ 53)
      push_cast at this
      exact this
    rw [e] at h3
    exact h3

/-- Rounding keeps a positive value within its binade, ends included. -/
theorem binary64_bounds (x : ℚ) (hx : 0 < x) :
    pow2 (binade x) ≤ binary64 x ∧ binary64 x ≤ pow2 (binade x + 1) := by
  obtain ⟨h1, h2⟩ := significand_bounds x hx
  have hu := pow2_pos (binade x - 52)
  have e1 : pow2 (binade x) = 2 ^ 52 * pow2 (binade x - 52) := by
    rw [← pow2_52, ← pow2_add]
    congr 1
    ring
  have e2 : pow2 (binade x + 1) = 2 ^ 53 * pow2 (binade x - 52) := by
    rw [← pow2_53, ← pow2_add]
    congr 1
    ring
  have q1 : ((2 : ℚ) ^ 52) ≤ (roundEven (x / pow2 (binade x - 52)) : ℚ) := by exact_mod_cast h1
  have q2 : (roundEven (x / pow2 (binade x - 52)) : ℚ) ≤ (2 : ℚ) ^ 53 := by exact_mod_cast h2
  unfold binary64
  rw [if_neg (ne_of_gt hx), e1, e2]
  exact ⟨mul_le_mul_of_nonneg_right q1 (le_of_lt hu), mul_le_mul_of_nonneg_right q2 (le_of_lt hu)⟩

theorem binary64_pos (x : ℚ) (hx : 0 < x) : 0 < binary64 x :=
  lt_of_lt_of_le (pow2_pos _) (binary64_bounds x hx).1

theorem binary64_nonneg (x : ℚ) (hx : 0 ≤ x) : 0 ≤ binary64 x := by
  rcases lt_or_eq_of_le hx with h | h
  · exact le_of_lt (binary64_pos x h)
  · rw [← h, binary64_zero]

/-- Rounding twice is rounding once. -/
theorem binary64_idem (x : ℚ) : binary64 (binary64 x) = binary64 x := by
  have key : ∀ y : ℚ, 0 < y → binary64 (binary64 y) = binary64 y := by
    intro y hy
    have h := (significand_bounds y hy)
    have e : binary64 y =
        ((roundEven (y / pow2 (binade y - 52)) : Int) : ℚ) * pow2 (binade y - 52) := by
      unfold binary64
      rw [if_neg (ne_of_gt hy)]
    rw [e]
    apply binary64_grid
    rw [abs_le]
    constructor <;> omega
  rcases lt_trichotomy x 0 with h | h | h
  · have h1 := key (-x) (by linarith)
    rw [binary64_neg, binary64_neg] at h1
    exact neg_injective h1
  · rw [h, binary64_zero, binary64_zero]
  · exact key x h

/-- Rounding is monotone. -/
theorem binary64_mono (x y : ℚ) (h : x ≤ y) : binary64 x ≤ binary64 y := by
  have key : ∀ a b : ℚ, 0 < a → a ≤ b → binary64 a ≤ binary64 b := by
    intro a b ha hab
    have hb : 0 < b := lt_of_lt_of_le ha hab
    have hbin : binade a ≤ binade b :=
      binade_mono a b (ne_of_gt ha) (by rw [abs_of_pos ha, abs_of_pos hb]; exact hab)
    rcases lt_or_eq_of_le hbin with hlt | heq
    · have h1 := (binary64_bounds a ha).2
      have h2 := (binary64_bounds b hb).1
      have h3 := pow2_le (binade a + 1) (binade b) (by omega)
      linarith
    · unfold binary64
      rw [if_neg (ne_of_gt ha), if_neg (ne_of_gt hb), heq]
      have hu := pow2_pos (binade b - 52)
      apply mul_le_mul_of_nonneg_right _ (le_of_lt hu)
      have h4 : a / pow2 (binade b - 52) ≤ b / pow2 (binade b - 52) :=
        div_le_div_of_nonneg_right hab (le_of_lt hu)
      exact_mod_cast roundEven_mono _ _ h4
  rcases lt_trichotomy 0 x with hx | hx | hx
  · exact key x y hx h
  · rw [← hx, binary64_zero]
    exact binary64_nonneg y (by linarith)
  · rcases lt_trichotomy 0 y with hy | hy | hy
    · have h1 := binary64_pos y hy
      have h2 := binary64_pos (-x) (by linarith)
      rw [binary64_neg] at h2
      linarith
    · rw [← hy, binary64_zero]
      have h2 := binary64_pos (-x) (by linarith)
      rw [binary64_neg] at h2
      linarith
    · have h1 := key (-y) (-x) (by linarith) (by linarith)
      rw [binary64_neg, binary64_neg] at h1
      linarith

/-- The rounding error is at most half a unit in the last place. -/
theorem binary64_error (x : ℚ) : |binary64 x - x| ≤ pow2 (binade x - 53) := by
  by_cases hx : x = 0
  · rw [hx, binary64_zero, sub_zero, abs_zero]
    exact le_of_lt (pow2_pos _)
  · have hu := pow2_pos (binade x - 52)
    have e1 : pow2 (binade x - 53) = 1 / 2 * pow2 (binade x - 52) := by
      have := pow2_succ (binade x - 53)
      have e2 : binade x - 53 + 1 = binade x - 52 := by ring
      rw [e2] at this
      rw [this]
      ring
    have h1 := roundEven_error (x / pow2 (binade x - 52))
    have e3 : binary64 x - x =
        ((roundEven (x / pow2 (binade x - 52)) : ℚ) - x / pow2 (binade x - 52)) *
          pow2 (binade x - 52) := by
      unfold binary64
      rw [if_neg hx]
      field_simp
    rw [e3, abs_mul, abs_of_pos hu, e1]
    exact mul_le_mul_of_nonneg_right h1 (le_of_lt hu)

/-- A `double` other than 0 is an integer of at most 53 bits times its unit in the last
place. -/
theorem rep_form (x : ℚ) (hr : binary64 x = x) (hx : 0 < x) :
    ∃ n : Int, x = (n : ℚ) * pow2 (binade x - 52) ∧ 2 ^ 52 ≤ n ∧ n < 2 ^ 53 := by
  refine ⟨roundEven (x / pow2 (binade x - 52)), ?_, (significand_bounds x hx).1, ?_⟩
  · conv_lhs => rw [← hr]
    unfold binary64
    rw [if_neg (ne_of_gt hx)]
  · have hq := (quot_bounds x hx).2
    have hu := pow2_pos (binade x - 52)
    have e : x / pow2 (binade x - 52) = (roundEven (x / pow2 (binade x - 52)) : ℚ) := by
      rw [div_eq_iff (ne_of_gt hu)]
      conv_lhs => rw [← hr]
      unfold binary64
      rw [if_neg (ne_of_gt hx)]
    rw [e] at hq
    exact_mod_cast hq

/-- Half a `double` is a `double`. -/
theorem binary64_half (x : ℚ) (hr : binary64 x = x) : binary64 (x / 2) = x / 2 := by
  have key : ∀ y : ℚ, binary64 y = y → 0 < y → binary64 (y / 2) = y / 2 := by
    intro y hy hpos
    obtain ⟨n, h1, h2, h3⟩ := rep_form y hy hpos
    have e : y / 2 = (n : ℚ) * pow2 (binade y - 52 - 1) := by
      have := pow2_succ (binade y - 52 - 1)
      have e2 : binade y - 52 - 1 + 1 = binade y - 52 := by ring
      rw [e2] at this
      conv_lhs => rw [h1, this]
      ring
    rw [e]
    apply binary64_grid
    rw [abs_le]
    constructor <;> omega
  rcases lt_trichotomy x 0 with h | h | h
  · have h1 := key (-x) (by rw [binary64_neg, hr]) (by linarith)
    rw [neg_div, binary64_neg] at h1
    exact neg_injective h1
  · rw [h, zero_div, binary64_zero]
  · exact key x hr h

/-- The difference of two `double`s within a factor two of each other is a `double`
(Sterbenz). -/
theorem binary64_sterbenz (x y : ℚ) (hx : binary64 x = x) (hy : binary64 y = y)
    (h0 : 0 < y) (h1 : y ≤ x) (h2 : x ≤ 2 * y) : binary64 (x - y) = x - y := by
  have hxp : 0 < x := lt_of_lt_of_le h0 h1
  obtain ⟨n, e1, n1, n2⟩ := rep_form x hx hxp
  obtain ⟨m, e2, m1, m2⟩ := rep_form y hy h0
  have hbin : binade y ≤ binade x :=
    binade_mono y x (ne_of_gt h0) (by rw [abs_of_pos h0, abs_of_pos hxp]; exact h1)
  obtain ⟨j, hj⟩ := Int.eq_ofNat_of_zero_le (show 0 ≤ binade x - binade y by omega)
  have hu := pow2_pos (binade y - 52)
  have e3 : pow2 (binade x - 52) = ((2 ^ j : Nat) : ℚ) * pow2 (binade y - 52) := by
    rw [← pow2_natCast, ← hj, ← pow2_add]
    congr 1
    ring
  have e4 : x - y = ((n * ((2 ^ j : Nat) : Int) - m : Int) : ℚ) * pow2 (binade y - 52) := by
    conv_lhs => rw [e1, e2, e3]
    push_cast
    ring
  have b1 : (0 : ℚ) ≤ ((n * ((2 ^ j : Nat) : Int) - m : Int) : ℚ) := by
    have : 0 ≤ x - y := by linarith
    rw [e4] at this
    exact nonneg_of_mul_nonneg_left this hu
  have b2 : ((n * ((2 ^ j : Nat) : Int) - m : Int) : ℚ) ≤ (m : ℚ) := by
    have : x - y ≤ y := by linarith
    rw [e4] at this
    conv_rhs at this => rw [e2]
    exact le_of_mul_le_mul_right this hu
  have c1 : 0 ≤ n * ((2 ^ j : Nat) : Int) - m := by exact_mod_cast b1
  have c2 : n * ((2 ^ j : Nat) : Int) - m ≤ m := by exact_mod_cast b2
  rw [e4]
  apply binary64_grid
  rw [abs_le]
  constructor <;> omega

/-- The `double` after a positive `double`: one unit in the last place further. -/
theorem binary64_next (x : ℚ) (hr : binary64 x = x) (hx : 0 < x) :
    binary64 (x + pow2 (binade x - 52)) = x + pow2 (binade x - 52) := by
  obtain ⟨n, e1, n1, n2⟩ := rep_form x hr hx
  have e : x + pow2 (binade x - 52) = ((n + 1 : Int) : ℚ) * pow2 (binade x - 52) := by
    push_cast
    rw [add_mul, one_mul, ← e1]
  rw [e]
  apply binary64_grid
  rw [abs_le]
  constructor <;> omega

end Double

/-! ## `double` arithmetic: the fill of an order -/

namespace Double

theorem isDouble_binary64 (x : ℚ) : IsDouble (binary64 x) := binary64_idem x

theorem isDouble_zero : IsDouble 0 := binary64_zero

theorem ulp_pos (x : ℚ) : 0 < ulp x := pow2_pos _

/-- One unit in the last place is at most the `2 ^ 52`-th part of the value. -/
theorem ulp_le (x : ℚ) (hx : 0 < x) : ulp x ≤ x / 2 ^ 52 := by
  have h1 := (binade_spec x (ne_of_gt hx)).1
  rw [abs_of_pos hx] at h1
  have e1 : pow2 (binade x) = 2 ^ 52 * pow2 (binade x - 52) := by
    rw [← pow2_52, ← pow2_add]
    congr 1
    ring
  unfold ulp
  rw [le_div_iff₀ (by norm_num), mul_comm]
  rw [e1] at h1
  exact h1

/-- Rounding does not pass a `double`. -/
theorem binary64_le_of_le (x y : ℚ) (hy : IsDouble y) (h : x ≤ y) : binary64 x ≤ y := by
  have := binary64_mono x y h
  rw [hy] at this
  exact this

theorem le_binary64_of_le (x y : ℚ) (hx : IsDouble x) (h : x ≤ y) : x ≤ binary64 y := by
  have := binary64_mono x y h
  rw [hx] at this
  exact this

/-- When at least half of `q` is filled, what is left is computed exactly. -/
theorem fill_exact (q f : ℚ) (hq : IsDouble q) (hf : IsDouble f) (h1 : q / 2 ≤ f)
    (h2 : f < q) : binary64 (q - f) = q - f := by
  have hpos : 0 < f := by linarith
  exact binary64_sterbenz q f hq hf hpos (le_of_lt h2) (by linarith)

/-- When less than half of `q` is filled, what is left rounds to at least half of `q`. -/
theorem fill_half (q f : ℚ) (hq : IsDouble q) (h1 : f < q / 2) : q / 2 ≤ binary64 (q - f) :=
  le_binary64_of_le _ _ (binary64_half q hq) (by linarith)

/-- The fill plus the rounded remainder is at most one unit in the last place above the
quantity. -/
theorem fill_next (q f : ℚ) (h0 : 0 ≤ f) (h2 : f < q) :
    f + binary64 (q - f) ≤ q + ulp q := by
  have hr : 0 < q - f := by linarith
  have hq : 0 < q := by linarith
  have h3 := binary64_error (q - f)
  have h4 : binade (q - f) ≤ binade q :=
    binade_mono _ _ (ne_of_gt hr) (by rw [abs_of_pos hr, abs_of_pos hq]; linarith)
  have h5 : pow2 (binade (q - f) - 53) ≤ pow2 (binade q - 52) := pow2_le _ _ (by omega)
  have h6 := (abs_le.mp h3).2
  unfold ulp
  linarith

theorem weightOf_mono (q f g : ℚ) (h : f ≤ g) : weightOf q g ≤ weightOf q f := by
  unfold weightOf
  split_ifs <;> first | omega | (exfalso; linarith)

theorem weightOf_le (q f : ℚ) : weightOf q f ≤ 2 := by
  unfold weightOf
  split_ifs <;> omega

theorem weightOf_pos (q f : ℚ) (h : f < q) : 1 ≤ weightOf q f := by
  unfold weightOf
  split_ifs <;> first | omega | (exfalso; linarith)

theorem weightOf_zero (q f : ℚ) : weightOf q f = 0 ↔ q ≤ f := by
  unfold weightOf
  split_ifs with h1 h2 <;> simp [h1]

/-- One execution of the loop body of `match_orders` in numbers: a taker of quantity `q`
filled `f` meets a maker of quantity `rq` filled `rf`. Both fills stay `double`s and do
not shrink, the taker ends at most one unit in the last place above its quantity, and
taker and maker together get strictly closer to complete. -/
theorem fill_step (q f rq rf : ℚ) (hq : IsDouble q) (hf : IsDouble f) (hrq : IsDouble rq)
    (hrf : IsDouble rf) (h0 : 0 ≤ f) (h1 : f < q) (r0 : 0 ≤ rf) (r1 : rf < rq) :
    0 < min (binary64 (q - f)) (binary64 (rq - rf)) ∧
    f ≤ binary64 (f + min (binary64 (q - f)) (binary64 (rq - rf))) ∧
    rf ≤ binary64 (rf + min (binary64 (q - f)) (binary64 (rq - rf))) ∧
    binary64 (f + min (binary64 (q - f)) (binary64 (rq - rf))) ≤ q + ulp q ∧
    weightOf q (binary64 (f + min (binary64 (q - f)) (binary64 (rq - rf)))) +
        weightOf rq (binary64 (rf + min (binary64 (q - f)) (binary64 (rq - rf)))) <
      weightOf q f + weightOf rq rf := by
  have ha : 0 < binary64 (q - f) := binary64_pos _ (by linarith)
  have hb : 0 < binary64 (rq - rf) := binary64_pos _ (by linarith)
  have hm : 0 < min (binary64 (q - f)) (binary64 (rq - rf)) := lt_min ha hb
  have hqpos : 0 < q := by linarith
  have hf1 : f ≤ binary64 (f + min (binary64 (q - f)) (binary64 (rq - rf))) :=
    le_binary64_of_le _ _ hf (by linarith)
  have hf2 : rf ≤ binary64 (rf + min (binary64 (q - f)) (binary64 (rq - rf))) :=
    le_binary64_of_le _ _ hrf (by linarith)
  have hnext : binary64 (f + min (binary64 (q - f)) (binary64 (rq - rf))) ≤ q + ulp q := by
    have hn : IsDouble (q + ulp q) := binary64_next q hq hqpos
    apply binary64_le_of_le _ _ hn
    have := fill_next q f h0 h1
    have := min_le_left (binary64 (q - f)) (binary64 (rq - rf))
    linarith
  refine ⟨hm, hf1, hf2, hnext, ?_⟩
  have w1 := weightOf_mono q _ _ hf1
  have w2 := weightOf_mono rq _ _ hf2
  have p1 := weightOf_pos q f h1
  have p2 := weightOf_pos rq rf r1
  rcases le_total (binary64 (q - f)) (binary64 (rq - rf)) with hab | hab
  · rw [min_eq_left hab] at w1 w2 ⊢
    by_cases hh : q / 2 ≤ f
    · have e := fill_exact q f hq hf hh h1
      have e2 : binary64 (f + binary64 (q - f)) = q := by
        rw [e]
        have : f + (q - f) = q := by ring
        rw [this]
        exact hq
      have z : weightOf q (binary64 (f + binary64 (q - f))) = 0 := by
        rw [e2]
        exact (weightOf_zero q q).mpr (le_refl _)
      omega
    · have hh2 : f < q / 2 := not_le.mp hh
      have g1 := fill_half q f hq hh2
      have g2 : q / 2 ≤ binary64 (f + binary64 (q - f)) :=
        le_binary64_of_le _ _ (binary64_half q hq) (by linarith)
      have z1 : weightOf q f = 2 := by
        unfold weightOf
        rw [if_neg (not_le.mpr h1), if_neg hh]
      have z2 : weightOf q (binary64 (f + binary64 (q - f))) ≤ 1 := by
        unfold weightOf
        split_ifs <;> omega
      omega
  · rw [min_eq_right hab] at w1 w2 ⊢
    by_cases hh : rq / 2 ≤ rf
    · have e := fill_exact rq rf hrq hrf hh r1
      have e2 : binary64 (rf + binary64 (rq - rf)) = rq := by
        rw [e]
        have : rf + (rq - rf) = rq := by ring
        rw [this]
        exact hrq
      have z : weightOf rq (binary64 (rf + binary64 (rq - rf))) = 0 := by
        rw [e2]
        exact (weightOf_zero rq rq).mpr (le_refl _)
      omega
    · have hh2 : rf < rq / 2 := not_le.mp hh
      have g1 := fill_half rq rf hrq hh2
      have g2 : rq / 2 ≤ binary64 (rf + binary64 (rq - rf)) :=
        le_binary64_of_le _ _ (binary64_half rq hrq) (by linarith)
      have z1 : weightOf rq rf = 2 := by
        unfold weightOf
        rw [if_neg (not_le.mpr r1), if_neg hh]
      have z2 : weightOf rq (binary64 (rf + binary64 (rq - rf))) ≤ 1 := by
        unfold weightOf
        split_ifs <;> omega
      omega

end Double

namespace Double

/-- A weight that has dropped: the order is complete, or it went from less than half
filled to at least half filled. -/
theorem weightOf_drop (q f g : ℚ) (h : weightOf q g < weightOf q f) :
    q ≤ g ∨ (f < q / 2 ∧ q / 2 ≤ g) := by
  unfold weightOf at h
  by_cases h1 : q ≤ g
  · exact Or.inl h1
  · right
    rw [if_neg h1] at h
    by_cases h2 : q / 2 ≤ g
    · rw [if_pos h2] at h
      refine ⟨?_, h2⟩
      by_contra h3
      rw [if_pos (not_lt.mp h3)] at h
      split at h <;> omega
    · rw [if_neg h2] at h
      split_ifs at h <;> omega

end Double

/-! ## High-speed engine in `double` arithmetic: the matching loops -/

namespace HighSpeed.Rounded

open Double

theorem fp_levelStep_spec (price : ℚ) (s : LevelState) (r : Order) (rest : List Order) :
    (levelStep price s r rest).incoming = takerAfter s.incoming r ∧
    (levelStep price s r rest).matched = s.matched ++ [fillOf price s.incoming r] ∧
    (levelStep price s r rest).level.orders = queueAfter s.incoming r rest ∧
    (levelStep price s r rest).last_traded_price = price := by
  unfold levelStep queueAfter fillOf makerAfter takerAfter makerFill matchQuantity
  by_cases h : binary64 (r.filled_quantity +
      min (binary64 (s.incoming.quantity - s.incoming.filled_quantity))
        (binary64 (r.quantity - r.filled_quantity))) ≥ r.quantity
  · simp only [h, if_true, and_self]
  · simp only [h, if_false, and_self]

theorem queueWeight_cons (o : Order) (q : List Order) :
    queueWeight (o :: q) = o.weight + queueWeight q := by
  simp [queueWeight]

theorem queueWeight_append (a b : List Order) :
    queueWeight (a ++ b) = queueWeight a + queueWeight b := by
  simp [queueWeight]

theorem queueWeight_le (q : List Order) : queueWeight q ≤ 2 * q.length := by
  induction q with
  | nil => simp [queueWeight]
  | cons o rest ih =>
    rw [queueWeight_cons, List.length_cons]
    have := weightOf_le o.quantity o.filled_quantity
    unfold Order.weight
    omega

/-- One execution of the loop body keeps the invariant, keeps the taker within one unit
in the last place of its quantity, and brings taker and queue strictly closer to
complete. -/
theorem fp_levelStep_good (price : ℚ) (s : LevelState) (r : Order) (rest : List Order)
    (hq : s.level.orders = r :: rest) (hc : s.Hungry) (hs : s.Good) :
    (levelStep price s r rest).Good ∧
    (levelStep price s r rest).weight < s.weight ∧
    (levelStep price s r rest).incoming.filled_quantity ≤
      s.incoming.quantity + ulp s.incoming.quantity ∧
    (levelStep price s r rest).incoming.quantity = s.incoming.quantity := by
  obtain ⟨h1, h2, h3, _⟩ := fp_levelStep_spec price s r rest
  have hr := hs.resting r (by rw [hq]; exact List.mem_cons_self _ _)
  have hrest : ∀ o ∈ rest, o.InDouble ∧ o.IsOpen := fun o ho =>
    hs.resting o (by rw [hq]; exact List.mem_cons_of_mem _ ho)
  obtain ⟨f1, f2, f3, f4, f5⟩ := fill_step s.incoming.quantity s.incoming.filled_quantity
    r.quantity r.filled_quantity hs.taker.1 hs.taker.2 hr.1.1 hr.1.2 hs.nonneg hc hr.2.1 hr.2.2
  have hw : queueWeight (queueAfter s.incoming r rest) =
      weightOf r.quantity (makerFill s.incoming r) + queueWeight rest := by
    unfold queueAfter
    by_cases h : makerFill s.incoming r ≥ r.quantity
    · rw [if_pos h, (weightOf_zero _ _).mpr h, Nat.zero_add]
    · rw [if_neg h, queueWeight_cons]
      rfl
  refine ⟨⟨?_, ?_, ?_⟩, ?_, ?_, ?_⟩
  · rw [h1]
    exact ⟨hs.taker.1, isDouble_binary64 _⟩
  · rw [h1]
    exact le_trans hs.nonneg f2
  · rw [h3]
    intro o ho
    unfold queueAfter at ho
    by_cases h : makerFill s.incoming r ≥ r.quantity
    · rw [if_pos h] at ho
      exact hrest o ho
    · rw [if_neg h] at ho
      rcases List.mem_cons.mp ho with ho | ho
      · subst ho
        exact ⟨⟨hr.1.1, isDouble_binary64 _⟩, le_trans hr.2.1 f3, not_le.mp h⟩
      · exact hrest o ho
  · unfold LevelState.weight
    rw [h1, h3, hw, hq, queueWeight_cons]
    unfold Order.weight
    have : weightOf (takerAfter s.incoming r).quantity (takerAfter s.incoming r).filled_quantity +
        weightOf r.quantity (makerFill s.incoming r) <
        weightOf s.incoming.quantity s.incoming.filled_quantity +
          weightOf r.quantity r.filled_quantity := f5
    omega
  · rw [h1]
    exact f4
  · rw [h1]
    rfl

/-- Rule for the inner loop in `double` arithmetic. From a state that satisfies the loop
invariant the loop returns within a number of evaluations of its condition that exceeds
the weight of the state; a property kept by every execution of the loop body holds at
exit, where the queue is empty or the taker is complete; and the number of fills made
is at most the weight lost. -/
theorem fp_matchLevel_total (price : ℚ) (I : LevelState → Prop)
    (hstep : ∀ s r rest, s.level.orders = r :: rest → s.Hungry → s.Good → I s →
      I (levelStep price s r rest)) :
    ∀ (fuel : Nat) (s : LevelState), s.Good → I s → s.weight < fuel →
      ∃ t, matchLevel price fuel s = some t ∧ t.Good ∧ I t ∧
        (t.level.orders = [] ∨ ¬ t.Hungry) ∧
        t.matched.length + t.weight ≤ s.matched.length + s.weight := by
  intro fuel
  induction fuel with
  | zero => intro s _ _ h; omega
  | succ n ih =>
    intro s hs hI hw
    unfold matchLevel
    cases hq : s.level.orders with
    | nil => exact ⟨s, rfl, hs, hI, Or.inl hq, le_refl _⟩
    | cons r rest =>
      by_cases hc : s.incoming.filled_quantity < s.incoming.quantity
      · simp only [hc, if_true]
        obtain ⟨g1, g2, _, _⟩ := fp_levelStep_good price s r rest hq hc hs
        obtain ⟨t, t1, t2, t3, t4, t5⟩ := ih (levelStep price s r rest) g1
          (hstep s r rest hq hc hs hI) (by omega)
        refine ⟨t, t1, t2, t3, t4, ?_⟩
        have hlen : (levelStep price s r rest).matched.length = s.matched.length + 1 := by
          rw [(fp_levelStep_spec price s r rest).2.1]
          simp
        omega
      · simp only [hc, if_false]
        exact ⟨s, rfl, hs, hI, Or.inr hc, le_refl _⟩

end HighSpeed.Rounded

namespace HighSpeed.Rounded

open Double

theorem fp_orders_cons (price : ℚ) (level : PriceLevel) (rest : Ladder) :
    Ladder.orders ((price, level) :: rest) = level.orders ++ Ladder.orders rest := by
  simp [Ladder.orders]

theorem fp_leaveLevel_orders (t : LevelState) (price : ℚ) (rest : Ladder) :
    Ladder.orders (leaveLevel t price rest).levels = t.level.orders ++ Ladder.orders rest := by
  rcases leaveLevel_levels t price rest with ⟨h1, h2⟩ | ⟨_, h2⟩
  · rw [h2, h1]
    rfl
  · rw [h2, fp_orders_cons]

theorem fp_leaveLevel_entries (t : LevelState) (price : ℚ) (rest : Ladder) :
    Ladder.entries (leaveLevel t price rest).levels =
      t.level.orders.map (fun o => (price, o)) ++ Ladder.entries rest := by
  rcases leaveLevel_levels t price rest with ⟨h1, h2⟩ | ⟨_, h2⟩
  · rw [h2, h1]
    rfl
  · rw [h2, Ladder.entries_cons]

/-- Rule for the outer loop in `double` arithmetic: from a state that satisfies the loop
invariant the loop returns within one evaluation of its condition per level plus one; a
property kept by every pass over the head level holds at exit; at exit the ladder is
empty, or the taker is complete, or the taker is a `LIMIT` order and the head level is
worse than its limit; and the number of fills made is at most the weight lost. -/
theorem fp_matchLadder_total (worse : ℚ → ℚ → Bool) (J : MatchState → Prop)
    (hstep : ∀ s price level rest t, s.levels = (price, level) :: rest → s.Hungry →
      ¬ (s.incoming.type = OrderType.LIMIT ∧ worse price s.incoming.price = true) → s.Good →
      matchLevel price (2 * level.orders.length + 3) (enterLevel s level) = some t →
      J s → J (leaveLevel t price rest)) :
    ∀ (fuel : Nat) (s : MatchState), s.Good → J s →
      (s.levels.length < fuel ∨ (¬ s.Hungry ∧ 0 < fuel)) →
      ∃ r, matchLadder worse fuel s = some r ∧ r.Good ∧ J r ∧
        (r.levels = [] ∨ ¬ r.Hungry ∨
          (r.incoming.type = OrderType.LIMIT ∧
            ∃ price level rest, r.levels = (price, level) :: rest ∧
              worse price r.incoming.price = true)) ∧
        r.matched.length + r.weight ≤ s.matched.length + s.weight := by
  intro fuel
  induction fuel with
  | zero => intro s _ _ h; rcases h with h | h <;> omega
  | succ n ih =>
    intro s hs hJ hfuel
    unfold matchLadder
    cases hq : s.levels with
    | nil => exact ⟨s, rfl, hs, hJ, Or.inl hq, le_refl _⟩
    | cons e rest =>
      obtain ⟨price, level⟩ := e
      by_cases hc : s.incoming.filled_quantity < s.incoming.quantity
      · simp only [hc, if_true]
        by_cases hb : s.incoming.type = OrderType.LIMIT ∧ worse price s.incoming.price = true
        · simp only [hb, and_self, if_true]
          exact ⟨s, rfl, hs, hJ, Or.inr (Or.inr ⟨hb.1, price, level, rest, hq, hb.2⟩), le_refl _⟩
        · simp only [hb, if_false]
          have hin : (enterLevel s level).Good := by
            refine ⟨hs.taker, hs.nonneg, fun o ho => hs.resting o ?_⟩
            rw [hq, fp_orders_cons]
            exact List.mem_append_left _ ho
          have hwin : (enterLevel s level).weight < 2 * level.orders.length + 3 := by
            have h1 := queueWeight_le level.orders
            have h2 := weightOf_le s.incoming.quantity s.incoming.filled_quantity
            unfold LevelState.weight Order.weight enterLevel
            simp only
            omega
          obtain ⟨t, t1, t2, _, t4, t5⟩ := fp_matchLevel_total price (fun _ => True)
            (fun _ _ _ _ _ _ _ => trivial) _ (enterLevel s level) hin trivial hwin
          rw [t1]
          have hlen : rest.length < n := by
            rcases hfuel with h | h
            · rw [hq] at h
              simp only [List.length_cons] at h
              omega
            · exact absurd hc h.1
          have hgood : (leaveLevel t price rest).Good := by
            refine ⟨t2.taker, t2.nonneg, fun o ho => ?_⟩
            rw [fp_leaveLevel_orders] at ho
            rcases List.mem_append.mp ho with ho | ho
            · exact t2.resting o ho
            · apply hs.resting o
              rw [hq, fp_orders_cons]
              exact List.mem_append_right _ ho
          have hfuel2 : (leaveLevel t price rest).levels.length < n ∨
              (¬ (leaveLevel t price rest).Hungry ∧ 0 < n) := by
            rcases leaveLevel_levels t price rest with ⟨_, h2⟩ | ⟨h1, _⟩
            · left
              rw [h2]
              exact hlen
            · right
              rcases t4 with h3 | h3
              · exact absurd h3 h1
              · exact ⟨h3, by omega⟩
          obtain ⟨r, r1, r2, r3, r4, r5⟩ := ih (leaveLevel t price rest) hgood
            (hstep s price level rest t hq hc hb hs t1 hJ) hfuel2
          refine ⟨r, r1, r2, r3, r4, ?_⟩
          have e1 : (leaveLevel t price rest).weight =
              t.weight + queueWeight (Ladder.orders rest) := by
            unfold MatchState.weight LevelState.weight
            rw [fp_leaveLevel_orders, queueWeight_append]
            simp only [leaveLevel]
            omega
          have e2 : s.weight = (enterLevel s level).weight + queueWeight (Ladder.orders rest) := by
            unfold MatchState.weight LevelState.weight
            rw [hq, fp_orders_cons, queueWeight_append]
            simp only [enterLevel]
            omega
          have e3 : (leaveLevel t price rest).matched = t.matched := rfl
          have e4 : (enterLevel s level).matched = s.matched := rfl
          rw [e1, e3] at r5
          rw [e4] at t5
          omega
      · simp only [hc, if_false]
        exact ⟨s, rfl, hs, hJ, Or.inr (Or.inl hc), le_refl _⟩

theorem fp_takerAfter_same (t r : Order) :
    (takerAfter t r).Same t ∧ (takerAfter t r).status = t.status :=
  ⟨⟨rfl, rfl, rfl, rfl, rfl, rfl, rfl⟩, rfl⟩

theorem fp_queueAfter_entries (k : ℚ) (t r : Order) (rest : List Order)
    (tail : List (ℚ × Order)) :
    (queueAfter t r rest).map (fun o => (k, o)) ++ tail =
      entriesAfter k t r (rest.map (fun o => (k, o)) ++ tail) := by
  unfold queueAfter entriesAfter
  split <;> simp

/-- View rule for the inner loop in `double` arithmetic: a property of the taker, the
keyed queue still to be matched and the matches so far that is kept by the loop body is
kept by the loop, which returns. -/
theorem fp_matchLevel_view (I : Order → List (ℚ × Order) → List Match → Prop)
    (hview : ∀ inc k r rest ms, inc.filled_quantity < inc.quantity → inc.InDouble →
      0 ≤ inc.filled_quantity → r.InDouble ∧ r.IsOpen → I inc ((k, r) :: rest) ms →
      I (takerAfter inc r) (entriesAfter k inc r rest) (ms ++ [fillOf k inc r]))
    (price : ℚ) (tail : List (ℚ × Order)) (fuel : Nat) (s : LevelState) (hs : s.Good)
    (hI : I s.incoming (s.level.orders.map (fun o => (price, o)) ++ tail) s.matched)
    (hw : s.weight < fuel) :
    ∃ t, matchLevel price fuel s = some t ∧ t.Good ∧
      I t.incoming (t.level.orders.map (fun o => (price, o)) ++ tail) t.matched ∧
      t.incoming.Same s.incoming ∧ t.incoming.status = s.incoming.status := by
  have hstep : ∀ x r rest, x.level.orders = r :: rest → x.Hungry → x.Good →
      (I x.incoming (x.level.orders.map (fun o => (price, o)) ++ tail) x.matched ∧
        x.incoming.Same s.incoming ∧ x.incoming.status = s.incoming.status) →
      (I (levelStep price x r rest).incoming
          ((levelStep price x r rest).level.orders.map (fun o => (price, o)) ++ tail)
          (levelStep price x r rest).matched ∧
        (levelStep price x r rest).incoming.Same s.incoming ∧
        (levelStep price x r rest).incoming.status = s.incoming.status) := by
    intro x r rest hq hc hx hIx
    obtain ⟨h1, h2, h3, _⟩ := fp_levelStep_spec price x r rest
    have hr := hx.resting r (by rw [hq]; exact List.mem_cons_self _ _)
    have hI1 := hIx.1
    rw [hq] at hI1
    simp only [List.map_cons, List.cons_append] at hI1
    rw [h1, h2, h3, fp_queueAfter_entries]
    exact ⟨hview _ _ _ _ _ hc hx.taker hx.nonneg hr hI1,
      (fp_takerAfter_same _ _).1.trans hIx.2.1, (fp_takerAfter_same _ _).2.trans hIx.2.2⟩
  obtain ⟨t, t1, t2, t3, _, _⟩ := fp_matchLevel_total price
    (fun x => I x.incoming (x.level.orders.map (fun o => (price, o)) ++ tail) x.matched ∧
      x.incoming.Same s.incoming ∧ x.incoming.status = s.incoming.status)
    hstep fuel s hs ⟨hI, Order.Same.refl _, rfl⟩ hw
  exact ⟨t, t1, t2, t3.1, t3.2.1, t3.2.2⟩

/-- View rule for the outer loop in `double` arithmetic. -/
theorem fp_matchLadder_view (worse : ℚ → ℚ → Bool)
    (I : Order → List (ℚ × Order) → List Match → Prop)
    (hview : ∀ inc k r rest ms, inc.filled_quantity < inc.quantity → inc.InDouble →
      0 ≤ inc.filled_quantity → r.InDouble ∧ r.IsOpen → I inc ((k, r) :: rest) ms →
      I (takerAfter inc r) (entriesAfter k inc r rest) (ms ++ [fillOf k inc r]))
    (fuel : Nat) (s : MatchState) (hs : s.Good)
    (hI : I s.incoming s.levels.entries s.matched) (hfuel : s.levels.length < fuel) :
    ∃ r, matchLadder worse fuel s = some r ∧ r.Good ∧
      I r.incoming r.levels.entries r.matched ∧
      r.incoming.Same s.incoming ∧ r.incoming.status = s.incoming.status ∧
      (r.levels = [] ∨ ¬ r.Hungry ∨
        (r.incoming.type = OrderType.LIMIT ∧
          ∃ price level rest, r.levels = (price, level) :: rest ∧
            worse price r.incoming.price = true)) ∧
      r.matched.length + r.weight ≤ s.matched.length + s.weight := by
  have hstep : ∀ x price level rest t, x.levels = (price, level) :: rest → x.Hungry →
      ¬ (x.incoming.type = OrderType.LIMIT ∧ worse price x.incoming.price = true) → x.Good →
      matchLevel price (2 * level.orders.length + 3) (enterLevel x level) = some t →
      (I x.incoming x.levels.entries x.matched ∧
        x.incoming.Same s.incoming ∧ x.incoming.status = s.incoming.status) →
      (I (leaveLevel t price rest).incoming (leaveLevel t price rest).levels.entries
          (leaveLevel t price rest).matched ∧
        (leaveLevel t price rest).incoming.Same s.incoming ∧
        (leaveLevel t price rest).incoming.status = s.incoming.status) := by
    intro x price level rest t hq _ _ hx ht hIx
    have hin : (enterLevel x level).Good := by
      refine ⟨hx.taker, hx.nonneg, fun o ho => hx.resting o ?_⟩
      rw [hq, fp_orders_cons]
      exact List.mem_append_left _ ho
    have hwin : (enterLevel x level).weight < 2 * level.orders.length + 3 := by
      have h1 := queueWeight_le level.orders
      have h2 := weightOf_le x.incoming.quantity x.incoming.filled_quantity
      unfold LevelState.weight Order.weight enterLevel
      simp only
      omega
    have hI1 := hIx.1
    rw [hq, Ladder.entries_cons] at hI1
    obtain ⟨t0, t1, _, t3, t4, t5⟩ := fp_matchLevel_view I hview price (Ladder.entries rest) _
      (enterLevel x level) hin hI1 hwin
    rw [ht] at t1
    simp only [Option.some.injEq] at t1
    subst t1
    rw [fp_leaveLevel_entries]
    exact ⟨t3, t4.trans hIx.2.1, t5.trans hIx.2.2⟩
  obtain ⟨r, r1, r2, r3, r4, r5⟩ := fp_matchLadder_total worse
    (fun x => I x.incoming x.levels.entries x.matched ∧
      x.incoming.Same s.incoming ∧ x.incoming.status = s.incoming.status)
    hstep fuel s hs ⟨hI, Order.Same.refl _, rfl⟩ (Or.inl hfuel)
  exact ⟨r, r1, r2, r3.1, r3.2.1, r3.2.2, r4, r5⟩

theorem fp_opposite_orders (b : OrderBook) (side : Side) :
    ∀ o ∈ Ladder.orders (b.opposite side), o ∈ b.resting := by
  intro o ho
  unfold OrderBook.resting
  cases side with
  | BUY => exact List.mem_append_right _ ho
  | SELL => exact List.mem_append_left _ ho

/-- Unfolding of `match_orders`: the opposite ladder is swept from the start state and
the result is built from the state at exit. -/
theorem fp_match_orders_eq (b : OrderBook) (o : Order) :
    OrderBook.match_orders b o =
      (matchLadder (worseFor o.side) ((b.opposite o.side).length + 1) (startState b o)).map
        (resultOf b o.side) := by
  unfold OrderBook.match_orders startState worseFor resultOf OrderBook.opposite
  cases o.side with
  | BUY =>
    simp only
    cases matchLadder (fun price limit => decide (price > limit)) (b.asks.length + 1)
      { incoming := o, levels := b.asks, volume := b.total_ask_volume,
        last_traded_price := b.last_traded_price, matched := [] } <;> rfl
  | SELL =>
    simp only
    cases matchLadder (fun price limit => decide (price < limit)) (b.bids.length + 1)
      { incoming := o, levels := b.bids, volume := b.total_bid_volume,
        last_traded_price := b.last_traded_price, matched := [] } <;> rfl

theorem fp_startState (b : OrderBook) (o : Order) :
    (startState b o).incoming = o ∧ (startState b o).levels = b.opposite o.side ∧
      (startState b o).matched = [] := by
  unfold startState OrderBook.opposite
  cases o.side <;> exact ⟨rfl, rfl, rfl⟩

theorem fp_resultOf (b : OrderBook) (side : Side) (s : MatchState) :
    (resultOf b side s).incoming = finalStatus s.incoming ∧
    (resultOf b side s).matched = s.matched ∧
    (resultOf b side s).book.opposite side = s.levels ∧
    (resultOf b side s).book.last_traded_price = s.last_traded_price ∧
    (side = Side.BUY → (resultOf b side s).book.bids = b.bids) ∧
    (side = Side.SELL → (resultOf b side s).book.asks = b.asks) := by
  unfold resultOf OrderBook.opposite
  cases side <;> simp

theorem fp_resultOf_good (b : OrderBook) (side : Side) (s : MatchState) (hb : b.Good)
    (hs : ∀ o ∈ Ladder.orders s.levels, o.InDouble ∧ o.IsOpen) :
    (resultOf b side s).book.Good := by
  intro x hx
  unfold OrderBook.resting at hx
  cases side with
  | BUY =>
    rcases List.mem_append.mp hx with hx | hx
    · exact hb x (List.mem_append_left _ hx)
    · exact hs x hx
  | SELL =>
    rcases List.mem_append.mp hx with hx | hx
    · exact hs x hx
    · exact hb x (List.mem_append_right _ hx)

/-- View rule for `match_orders` in `double` arithmetic. On a book whose resting orders
are open `double`s, for a taker whose quantity and fill are `double`s with a fill that
is not negative, the method returns. A property of the taker, the keyed opposite side
and the matches that holds at entry and is kept by the loop body holds at return; the
book keeps its invariant; the taker keeps its identity; and the number of fills is at
most the weight that taker and opposite side have lost. -/
theorem fp_match_orders_view (I : Order → List (ℚ × Order) → List Match → Prop)
    (hview : ∀ inc k r rest ms, inc.filled_quantity < inc.quantity → inc.InDouble →
      0 ≤ inc.filled_quantity → r.InDouble ∧ r.IsOpen → I inc ((k, r) :: rest) ms →
      I (takerAfter inc r) (entriesAfter k inc r rest) (ms ++ [fillOf k inc r]))
    (b : OrderBook) (o : Order) (hb : b.Good) (ho : o.InDouble)
    (h0 : 0 ≤ o.filled_quantity) (hI : I o (b.opposite o.side).entries []) :
    ∃ r inc, OrderBook.match_orders b o = some r ∧ r.incoming = finalStatus inc ∧
      r.book.Good ∧ inc.Same o ∧ inc.status = o.status ∧ inc.InDouble ∧
      0 ≤ inc.filled_quantity ∧
      I inc (r.book.opposite o.side).entries r.matched ∧
      r.matched.length + (inc.weight + queueWeight (Ladder.orders (r.book.opposite o.side))) ≤
        o.weight + queueWeight (Ladder.orders (b.opposite o.side)) ∧
      ((r.book.opposite o.side) = [] ∨ ¬ inc.filled_quantity < inc.quantity ∨
        (inc.type = OrderType.LIMIT ∧
          ∃ price level rest, r.book.opposite o.side = (price, level) :: rest ∧
            worseFor o.side price inc.price = true)) := by
  obtain ⟨e1, e2, e3⟩ := fp_startState b o
  have hs : (startState b o).Good := by
    refine ⟨by rw [e1]; exact ho, by rw [e1]; exact h0, fun x hx => ?_⟩
    rw [e2] at hx
    exact hb x (fp_opposite_orders b o.side x hx)
  obtain ⟨s, s1, s2, s3, s4, s5, s6, s7⟩ := fp_matchLadder_view (worseFor o.side) I hview
    ((b.opposite o.side).length + 1) (startState b o) hs (by rw [e1, e2, e3]; exact hI)
    (by rw [e2]; omega)
  obtain ⟨q1, q2, q3, _, q5, q6⟩ := fp_resultOf b o.side s
  refine ⟨resultOf b o.side s, s.incoming, ?_, q1, ?_, ?_, ?_, s2.taker, s2.nonneg, ?_, ?_, ?_⟩
  · rw [fp_match_orders_eq, s1]
    rfl
  · exact fp_resultOf_good b o.side s hb s2.resting
  · rw [e1] at s4
    exact s4
  · rw [e1] at s5
    exact s5
  · rw [q2, q3]
    exact s3
  · rw [q2, q3]
    have : (startState b o).weight = o.weight + queueWeight (Ladder.orders (b.opposite o.side)) := by
      unfold MatchState.weight
      rw [e1, e2]
    rw [e3, this] at s7
    simpa [MatchState.weight] using s7
  · rw [q3]
    exact s6

end HighSpeed.Rounded

/-! ## High-speed engine in `double` arithmetic: books and sequences of calls -/

namespace HighSpeed.Rounded

open Double

theorem fp_fills_nil (q F : ℚ) (E : List (ℚ × Order)) : Fills q F E [] := by
  simp [Fills]

theorem fp_fills_cons (q F k : ℚ) (r : Order) (rest : List (ℚ × Order)) (m : Match)
    (ms : List Match) :
    Fills q F ((k, r) :: rest) (m :: ms) ↔
      (F < q ∧ m.price = k ∧
        m.quantity = min (binary64 (q - F)) (binary64 (r.quantity - r.filled_quantity)) ∧
        m.maker =
          { r with
              filled_quantity := binary64 (r.filled_quantity + m.quantity),
              status :=
                if binary64 (r.filled_quantity + m.quantity) ≥ r.quantity then Status.FILLED
                else Status.PARTIAL } ∧
        Fills q (binary64 (F + m.quantity))
          (if binary64 (r.filled_quantity + m.quantity) ≥ r.quantity then rest
           else (k, m.maker) :: rest) ms) := by
  rw [Fills]

/-- The fill that the loop body records, followed by a replay of the queue it leaves,
is a replay of the queue it found. -/
theorem fp_fills_step (inc r : Order) (k : ℚ) (rest : List (ℚ × Order)) (tail : List Match)
    (hc : inc.filled_quantity < inc.quantity)
    (h : Fills inc.quantity (takerAfter inc r).filled_quantity (entriesAfter k inc r rest) tail) :
    Fills inc.quantity inc.filled_quantity ((k, r) :: rest) (fillOf k inc r :: tail) := by
  rw [fp_fills_cons]
  exact ⟨hc, rfl, rfl, rfl, h⟩

/-- In a replay every maker is marked `FILLED` exactly when its fill has reached its
quantity. -/
theorem fp_fills_status (q : ℚ) (ms : List Match) :
    ∀ (F : ℚ) (E : List (ℚ × Order)), Fills q F E ms →
      ∀ m ∈ ms, (m.maker.status = Status.FILLED ↔
        m.maker.filled_quantity ≥ m.maker.quantity) := by
  induction ms with
  | nil => intro _ _ _ m hm; simp at hm
  | cons m0 rest ih =>
    intro F E h m hm
    cases E with
    | nil => simp [Fills] at h
    | cons e E1 =>
      obtain ⟨k, r⟩ := e
      rw [fp_fills_cons] at h
      obtain ⟨_, _, _, h4, h5⟩ := h
      rcases List.mem_cons.mp hm with hm | hm
      · subst hm
        rw [h4]
        simp only
        by_cases hge : binary64 (r.filled_quantity + m.quantity) ≥ r.quantity
        · simp [hge]
        · simp [hge]
      · exact ih _ _ h5 m hm

/-- The replay of `match_orders`: the matches it returns are the fills of the taker
against the keyed opposite side, and a taker that started within one unit in the last
place of its quantity ends within it. -/
theorem fp_match_orders_fills (b : OrderBook) (o : Order) (hb : b.Good) (ho : o.InDouble)
    (h0 : 0 ≤ o.filled_quantity) :
    ∃ r inc, OrderBook.match_orders b o = some r ∧ r.incoming = finalStatus inc ∧
      r.book.Good ∧ inc.Same o ∧ inc.status = o.status ∧ inc.InDouble ∧
      0 ≤ inc.filled_quantity ∧
      (o.filled_quantity ≤ o.quantity + ulp o.quantity →
        inc.filled_quantity ≤ o.quantity + ulp o.quantity) ∧
      Fills o.quantity o.filled_quantity (b.opposite o.side).entries r.matched ∧
      r.matched.length + (inc.weight + queueWeight (Ladder.orders (r.book.opposite o.side))) ≤
        o.weight + queueWeight (Ladder.orders (b.opposite o.side)) ∧
      ((r.book.opposite o.side) = [] ∨ ¬ inc.filled_quantity < inc.quantity ∨
        (inc.type = OrderType.LIMIT ∧
          ∃ price level rest, r.book.opposite o.side = (price, level) :: rest ∧
            worseFor o.side price inc.price = true)) := by
  have hview : ∀ (inc : Order) (k : ℚ) (r : Order) (rest : List (ℚ × Order)) (ms : List Match),
      inc.filled_quantity < inc.quantity → inc.InDouble → 0 ≤ inc.filled_quantity →
      r.InDouble ∧ r.IsOpen →
      (inc.quantity = o.quantity ∧
        (o.filled_quantity ≤ o.quantity + ulp o.quantity →
          inc.filled_quantity ≤ o.quantity + ulp o.quantity) ∧
        ∀ tail, Fills o.quantity inc.filled_quantity ((k, r) :: rest) tail →
          Fills o.quantity o.filled_quantity (b.opposite o.side).entries (ms ++ tail)) →
      ((takerAfter inc r).quantity = o.quantity ∧
        (o.filled_quantity ≤ o.quantity + ulp o.quantity →
          (takerAfter inc r).filled_quantity ≤ o.quantity + ulp o.quantity) ∧
        ∀ tail, Fills o.quantity (takerAfter inc r).filled_quantity
            (entriesAfter k inc r rest) tail →
          Fills o.quantity o.filled_quantity (b.opposite o.side).entries
            ((ms ++ [fillOf k inc r]) ++ tail)) := by
    intro inc k r rest ms hc hinc hnn hr hI
    obtain ⟨i1, i2, i3⟩ := hI
    obtain ⟨_, _, _, f4, _⟩ := fill_step inc.quantity inc.filled_quantity r.quantity
      r.filled_quantity hinc.1 hinc.2 hr.1.1 hr.1.2 hnn hc hr.2.1 hr.2.2
    refine ⟨i1, fun _ => ?_, fun tail h => ?_⟩
    · rw [← i1]
      exact f4
    · have h1 : Fills inc.quantity (takerAfter inc r).filled_quantity
          (entriesAfter k inc r rest) tail := by
        rw [i1]
        exact h
      have h2 := fp_fills_step inc r k rest tail hc h1
      rw [i1] at h2
      have := i3 (fillOf k inc r :: tail) h2
      simpa using this
  obtain ⟨r, inc, r1, r2, r3, r4, r5, r6, r7, r8, r9, r10⟩ := fp_match_orders_view
    (fun inc E ms => inc.quantity = o.quantity ∧
      (o.filled_quantity ≤ o.quantity + ulp o.quantity →
        inc.filled_quantity ≤ o.quantity + ulp o.quantity) ∧
      ∀ tail, Fills o.quantity inc.filled_quantity E tail →
        Fills o.quantity o.filled_quantity (b.opposite o.side).entries (ms ++ tail))
    hview b o hb ho h0 ⟨rfl, fun h => h, fun tail h => h⟩
  refine ⟨r, inc, r1, r2, r3, r4, r5, r6, r7, r8.2.1, ?_, r9, r10⟩
  have := r8.2.2 [] (fp_fills_nil _ _ _)
  simpa using this

theorem fp_mem_orders (l : Ladder) (x : Order) :
    x ∈ Ladder.orders l ↔ ∃ e ∈ l, x ∈ e.2.orders := by
  simp only [Ladder.orders, List.mem_flatten, List.mem_map]
  constructor
  · rintro ⟨q, ⟨e, he, rfl⟩, hx⟩
    exact ⟨e, he, hx⟩
  · rintro ⟨e, he, hx⟩
    exact ⟨_, ⟨e, he, rfl⟩, hx⟩

/-- After `add_order` the ladder holds the orders it held and the order added. -/
theorem fp_add_order_mem (before : ℚ → ℚ → Bool) (l : Ladder) (o x : Order)
    (hx : x ∈ Ladder.orders (Ladder.add_order before l o)) : x ∈ Ladder.orders l ∨ x = o := by
  obtain ⟨e, he, hxe⟩ := (fp_mem_orders _ _).mp hx
  unfold Ladder.add_order at he
  have hl1 : ∀ e1 ∈ (if (Ladder.find l o.price).isNone = true then
      Ladder.emplace before l o.price (PriceLevel.new o.price) else l),
      ∀ y ∈ e1.2.orders, y ∈ Ladder.orders l := by
    intro e1 he1 y hy
    split at he1
    · rcases Ladder.emplace_mem before l _ _ e1 he1 with h | h
      · exact (fp_mem_orders _ _).mpr ⟨e1, h, hy⟩
      · rw [h] at hy
        simp [PriceLevel.new] at hy
    · exact (fp_mem_orders _ _).mpr ⟨e1, he1, hy⟩
  rcases Ladder.modify_mem _ _ _ e he with h | ⟨lv, h1, h2⟩
  · exact Or.inl (hl1 e h x hxe)
  · rw [h2] at hxe
    simp only [List.mem_append, List.mem_singleton] at hxe
    rcases hxe with hxe | hxe
    · exact Or.inl (hl1 _ h1 x hxe)
    · exact Or.inr hxe

/-- After a successful `Ladder.cancel` the ladder holds only orders it held. -/
theorem fp_cancel_mem (id : Nat) :
    ∀ (l l1 : Ladder) (o : Order), Ladder.cancel id l = some (l1, o) →
      ∀ x ∈ Ladder.orders l1, x ∈ Ladder.orders l := by
  intro l
  induction l with
  | nil => intro l1 o h; simp [Ladder.cancel] at h
  | cons e rest ih =>
    intro l1 o h x hx
    obtain ⟨k, level⟩ := e
    unfold Ladder.cancel at h
    rw [fp_orders_cons]
    cases hf : level.orders.find? (fun y => decide (y.order_id = id)) with
    | some o1 =>
      simp only [hf, Option.some.injEq, Prod.mk.injEq] at h
      obtain ⟨h1, _⟩ := h
      rw [← h1] at hx
      split at hx
      · exact List.mem_append_right _ hx
      · rw [fp_orders_cons] at hx
        rcases List.mem_append.mp hx with hx | hx
        · exact List.mem_append_left _ (List.mem_of_mem_eraseP hx)
        · exact List.mem_append_right _ hx
    | none =>
      simp only [hf] at h
      cases hc : Ladder.cancel id rest with
      | none => simp [hc] at h
      | some r =>
        obtain ⟨rest1, o2⟩ := r
        simp only [hc, Option.some.injEq, Prod.mk.injEq] at h
        obtain ⟨h1, _⟩ := h
        rw [← h1, fp_orders_cons] at hx
        rcases List.mem_append.mp hx with hx | hx
        · exact List.mem_append_left _ hx
        · exact List.mem_append_right _ (ih rest1 o2 hc x hx)

theorem fp_add_order_good (b : OrderBook) (o : Order) (hb : b.Good)
    (ho : o.InDouble ∧ o.IsOpen) : (OrderBook.add_order b o).Good := by
  intro x hx
  unfold OrderBook.add_order at hx
  unfold OrderBook.resting at hx
  cases hside : o.side with
  | BUY =>
    simp only [hside] at hx
    rcases List.mem_append.mp hx with hx | hx
    · rcases fp_add_order_mem _ _ _ _ hx with h | h
      · exact hb x (List.mem_append_left _ h)
      · rw [h]; exact ho
    · exact hb x (List.mem_append_right _ hx)
  | SELL =>
    simp only [hside] at hx
    rcases List.mem_append.mp hx with hx | hx
    · exact hb x (List.mem_append_left _ hx)
    · rcases fp_add_order_mem _ _ _ _ hx with h | h
      · exact hb x (List.mem_append_right _ h)
      · rw [h]; exact ho

theorem fp_cancel_order_good (b : OrderBook) (id : Nat) (hb : b.Good) :
    (OrderBook.cancel_order b id).2.Good := by
  unfold OrderBook.cancel_order
  cases h1 : Ladder.cancel id b.bids with
  | some r =>
    obtain ⟨bids, o⟩ := r
    intro x hx
    rcases List.mem_append.mp hx with hx | hx
    · exact hb x (List.mem_append_left _ (fp_cancel_mem id _ _ _ h1 x hx))
    · exact hb x (List.mem_append_right _ hx)
  | none =>
    cases h2 : Ladder.cancel id b.asks with
    | some r =>
      obtain ⟨asks, o⟩ := r
      intro x hx
      rcases List.mem_append.mp hx with hx | hx
      · exact hb x (List.mem_append_left _ hx)
      · exact hb x (List.mem_append_right _ (fp_cancel_mem id _ _ _ h2 x hx))
    | none => exact hb

theorem fp_finalStatus_open (inc : Order)
    (h : (finalStatus inc).status ≠ Status.FILLED) : inc.filled_quantity < inc.quantity := by
  by_contra hge
  exact h (finalStatus_of_ge _ (not_lt.mp hge))

/-- What `submit_order` does on a known symbol, in `double` arithmetic: it returns, the
books keep their invariant, and the matches replay the opposite side. -/
theorem fp_submit_order_known (e : MatchingEngine) (u : Nat) (sym : String) (p q : ℚ)
    (sd : Side) (t : OrderType) (book : OrderBook) (he : e.AllBooks OrderBook.Good)
    (hf : findBook e.order_books sym = some book) (hq : IsDouble q) :
    ∃ res r inc, MatchingEngine.submit_order e u sym p q sd t = some res ∧
      OrderBook.match_orders book (Order.new e.next_order_id u sym p q sd t) = some r ∧
      res.order = r.incoming ∧ res.matched = r.matched ∧ r.incoming = finalStatus inc ∧
      inc.Same (Order.new e.next_order_id u sym p q sd t) ∧ inc.status = Status.NEW ∧
      0 ≤ inc.filled_quantity ∧
      (0 ≤ q + ulp q → inc.filled_quantity ≤ q + ulp q) ∧
      Fills q 0 (book.opposite sd).entries r.matched ∧
      r.matched.length ≤ 2 + queueWeight (Ladder.orders (book.opposite sd)) ∧
      res.engine.AllBooks OrderBook.Good ∧
      res.engine.order_books = setBook e.order_books sym
        (if r.incoming.status ≠ Status.FILLED ∧ t = OrderType.LIMIT then
          OrderBook.add_order r.book r.incoming else r.book) := by
  have hbook := he sym book hf
  obtain ⟨r, inc, r1, r2, r3, r4, r5, r6, r7, r8, r9, r10, _⟩ := fp_match_orders_fills book
    (Order.new e.next_order_id u sym p q sd t) hbook ⟨hq, isDouble_zero⟩ (le_refl _)
  have hgood : (if r.incoming.status ≠ Status.FILLED ∧ t = OrderType.LIMIT then
      OrderBook.add_order r.book r.incoming else r.book).Good := by
    by_cases hc : r.incoming.status ≠ Status.FILLED ∧ t = OrderType.LIMIT
    · rw [if_pos hc]
      apply fp_add_order_good _ _ r3
      have hopen : inc.filled_quantity < inc.quantity := by
        apply fp_finalStatus_open inc
        rw [← r2]
        exact hc.1
      rw [r2]
      refine ⟨?_, ?_, ?_⟩
      · exact ⟨by rw [(finalStatus_filled_quantity _).2]; exact r6.1,
          by rw [(finalStatus_filled_quantity _).1]; exact r6.2⟩
      · rw [(finalStatus_filled_quantity _).1]
        exact r7
      · rw [(finalStatus_filled_quantity _).1, (finalStatus_filled_quantity _).2]
        exact hopen
    · rw [if_neg hc]
      exact r3
  have hsub : MatchingEngine.submit_order e u sym p q sd t = some
      { order_id := e.next_order_id,
        engine :=
          { e with
              next_order_id := u64add e.next_order_id 1,
              order_books := setBook e.order_books sym
                (if r.incoming.status ≠ Status.FILLED ∧ t = OrderType.LIMIT then
                  OrderBook.add_order r.book r.incoming else r.book),
              trades_executed :=
                if r.matched.isEmpty then e.trades_executed
                else u64add e.trades_executed r.matched.length,
              orders_processed := u64add e.orders_processed 1 },
        order := r.incoming,
        matched := r.matched } := by
    unfold MatchingEngine.submit_order
    simp only [hf, r1]
  have hlen : r.matched.length ≤ 2 + queueWeight (Ladder.orders (book.opposite sd)) := by
    have hw := weightOf_le q 0
    have : (Order.new e.next_order_id u sym p q sd t).weight ≤ 2 := hw
    have hside : (Order.new e.next_order_id u sym p q sd t).side = sd := rfl
    rw [hside] at r10
    omega
  exact ⟨_, r, inc, hsub, r1, rfl, rfl, r2, r4, r5, r7, r8, r9, hlen,
    AllBooks_setBook e _ sym _ _ he hgood rfl _ rfl, rfl⟩

end HighSpeed.Rounded

namespace HighSpeed.Rounded

open Double

/-- In `double` arithmetic `submit_order` returns and keeps the invariant of the books. -/
theorem fp_submit_order_good (e : MatchingEngine) (u : Nat) (sym : String) (p q : ℚ)
    (sd : Side) (t : OrderType) (he : e.AllBooks OrderBook.Good) (hq : IsDouble q) :
    ∃ res, MatchingEngine.submit_order e u sym p q sd t = some res ∧
      res.engine.AllBooks OrderBook.Good := by
  cases hf : findBook e.order_books sym with
  | none =>
    have h : MatchingEngine.submit_order e u sym p q sd t = some
        { order_id := 0,
          engine := { e with next_order_id := u64add e.next_order_id 1 },
          order := Order.new e.next_order_id u sym p q sd t, matched := [] } := by
      unfold MatchingEngine.submit_order
      simp only [hf]
    exact ⟨_, h, fun symbol b hb => he symbol b hb⟩
  | some book =>
    obtain ⟨res, _, _, h1, _, _, _, _, _, _, _, _, _, _, h2, _⟩ :=
      fp_submit_order_known e u sym p q sd t book he hf hq
    exact ⟨res, h1, h2⟩

theorem fp_engine_cancel_good (e : MatchingEngine) (id : Nat) (sym : String)
    (he : e.AllBooks OrderBook.Good) :
    (MatchingEngine.cancel_order e id sym).2.AllBooks OrderBook.Good := by
  unfold MatchingEngine.cancel_order
  cases hf : findBook e.order_books sym with
  | none => exact he
  | some book =>
    exact AllBooks_setBook e _ sym _ _ he (fp_cancel_order_good book id (he sym book hf)) rfl _ rfl

theorem fp_add_symbol_good (e : MatchingEngine) (sym : String)
    (he : e.AllBooks OrderBook.Good) : (e.add_symbol sym).AllBooks OrderBook.Good := by
  unfold MatchingEngine.add_symbol
  split
  · intro symbol b hb
    rcases findBook_append _ _ _ _ _ hb with h | h
    · exact he symbol b h
    · rw [h]
      intro x hx
      simp [OrderBook.new, OrderBook.resting, Ladder.orders] at hx
  · exact he

theorem fp_new_engine_good : MatchingEngine.new.AllBooks OrderBook.Good := by
  unfold MatchingEngine.new
  apply fp_add_symbol_good
  apply fp_add_symbol_good
  apply fp_add_symbol_good
  intro symbol b hb
  simp [findBook] at hb

/-- In `double` arithmetic every sequence of calls whose quantities are `double`s runs
to completion and keeps the invariant of the books. -/
theorem fp_run_good : ∀ (ops : List Op) (e : MatchingEngine), e.AllBooks OrderBook.Good →
    (∀ op ∈ ops, op.InDouble) →
    ∃ e1, MatchingEngine.run e ops = some e1 ∧ e1.AllBooks OrderBook.Good := by
  intro ops
  induction ops with
  | nil => intro e he _; exact ⟨e, rfl, he⟩
  | cons op rest ih =>
    intro e he hops
    have hrest : ∀ x ∈ rest, x.InDouble := fun x hx => hops x (List.mem_cons_of_mem _ hx)
    have hop := hops op (List.mem_cons_self _ _)
    unfold MatchingEngine.run
    cases op with
    | submit u sym p q sd t =>
      obtain ⟨res, hres, hgood⟩ := fp_submit_order_good e u sym p q sd t he hop
      simp only [MatchingEngine.step, hres, Option.map_some']
      exact ih _ hgood hrest
    | cancel id sym =>
      simp only [MatchingEngine.step]
      exact ih _ (fp_engine_cancel_good e id sym he) hrest

end HighSpeed.Rounded

/-! ## High-speed engine in `double` arithmetic: claims C4, C5, C8 and C40 -/

namespace HighSpeed.Rounded

open Double

/-- C4, as the claim states it, fails in `double` arithmetic. Sells of 0.3 and of 1.0
rest at 100; a market buy of 0.9 takes 0.3 from the first and then
`0.9 - 0.3 = 0.6000000000000001` from the second, and `0.3 + 0.6000000000000001` rounds
to 0.9000000000000001: the incoming order ends with a filled quantity above its
quantity, all quantities being positive. -/
theorem C4_counterexample :
    roundingScenario.map (fun res => (res.order.quantity, res.order.filled_quantity)) =
      some (8106479329266893 / 9007199254740992, 4053239664633447 / 4503599627370496) ∧
    (0 : ℚ) < 8106479329266893 / 9007199254740992 ∧
    (8106479329266893 / 9007199254740992 : ℚ) < 4053239664633447 / 4503599627370496 := by
  refine ⟨by decide!, by norm_num, by norm_num⟩

/-- C4, amended. In `double` arithmetic, after any sequence of calls on a freshly
constructed engine, a further `submit_order` with a positive quantity returns, and after
it: the filled quantity of the incoming order is not negative and exceeds its quantity
by at most one unit in the last place, which is at most the `2 ^ 52`-th part of the
quantity; every order resting in any book satisfies `0 <= filled_quantity < quantity`;
and the matches of the call are the replay of the opposite side as the call found it,
each single fill being the minimum of the rounded remainder of the taker and of the
rounded unfilled quantity of the maker at the head of the queue. -/
theorem C4_filled_within_one_ulp (ops : List Op) (u : Nat) (sym : String) (p q : ℚ)
    (sd : Side) (t : OrderType) (hops : ∀ op ∈ ops, op.InDouble) (hd : IsDouble q)
    (hq : 0 < q) :
    ∃ e res, MatchingEngine.run MatchingEngine.new ops = some e ∧
      MatchingEngine.submit_order e u sym p q sd t = some res ∧
      (0 ≤ res.order.filled_quantity ∧ res.order.filled_quantity ≤ q + ulp q ∧
        ulp q ≤ q / 2 ^ 52) ∧
      (∀ symbol b, findBook res.engine.order_books symbol = some b →
        ∀ x ∈ b.resting, 0 ≤ x.filled_quantity ∧ x.filled_quantity < x.quantity) ∧
      (∀ book, findBook e.order_books sym = some book →
        Fills q 0 (book.opposite sd).entries res.matched) := by
  obtain ⟨e, he, hgood⟩ := fp_run_good ops MatchingEngine.new fp_new_engine_good hops
  have hu := ulp_pos q
  cases hf : findBook e.order_books sym with
  | none =>
    have h : MatchingEngine.submit_order e u sym p q sd t = some
        { order_id := 0,
          engine := { e with next_order_id := u64add e.next_order_id 1 },
          order := Order.new e.next_order_id u sym p q sd t, matched := [] } := by
      unfold MatchingEngine.submit_order
      simp only [hf]
    refine ⟨e, _, he, h, ⟨le_refl _, ?_, ulp_le q hq⟩, ?_, ?_⟩
    · show (0 : ℚ) ≤ q + ulp q
      linarith
    · intro symbol b hb x hx
      exact (hgood symbol b hb x hx).2
    · intro book hb
      rw [hf] at hb
      exact absurd hb (by simp)
  | some book =>
    obtain ⟨res, r, inc, h1, _, h3, h4, h5, _, _, h8, h9, h10, _, h12, _⟩ :=
      fp_submit_order_known e u sym p q sd t book hgood hf hd
    refine ⟨e, res, he, h1, ⟨?_, ?_, ulp_le q hq⟩, ?_, ?_⟩
    · rw [h3, h5, (finalStatus_filled_quantity _).1]
      exact h8
    · rw [h3, h5, (finalStatus_filled_quantity _).1]
      exact h9 (by linarith)
    · intro symbol b hb x hx
      exact (h12 symbol b hb x hx).2
    · intro book1 hb
      rw [hf, Option.some.injEq] at hb
      rw [← hb, h4]
      exact h10

/-- Witness of the amended C4: the market buy of 0.9 after the sells of 0.3 and 1.0. -/
theorem C4_filled_within_one_ulp_witness :
    (∀ op ∈ [Op.submit 1 "BTCUSDT" 100 (binary64 (3 / 10)) Side.SELL OrderType.LIMIT,
        Op.submit 2 "BTCUSDT" 100 1 Side.SELL OrderType.LIMIT], op.InDouble) ∧
    IsDouble (binary64 (9 / 10)) ∧ 0 < binary64 (9 / 10) ∧
    ∃ e res, MatchingEngine.run MatchingEngine.new
        [Op.submit 1 "BTCUSDT" 100 (binary64 (3 / 10)) Side.SELL OrderType.LIMIT,
         Op.submit 2 "BTCUSDT" 100 1 Side.SELL OrderType.LIMIT] = some e ∧
      MatchingEngine.submit_order e 3 "BTCUSDT" 0 (binary64 (9 / 10)) Side.BUY
        OrderType.MARKET = some res ∧
      (0 ≤ res.order.filled_quantity ∧
        res.order.filled_quantity ≤ binary64 (9 / 10) + ulp (binary64 (9 / 10)) ∧
        ulp (binary64 (9 / 10)) ≤ binary64 (9 / 10) / 2 ^ 52) ∧
      (∀ symbol b, findBook res.engine.order_books symbol = some b →
        ∀ x ∈ b.resting, 0 ≤ x.filled_quantity ∧ x.filled_quantity < x.quantity) ∧
      (∀ book, findBook e.order_books "BTCUSDT" = some book →
        Fills (binary64 (9 / 10)) 0 (book.opposite Side.BUY).entries res.matched) :=
  have hops : ∀ op ∈ [Op.submit 1 "BTCUSDT" 100 (binary64 (3 / 10)) Side.SELL OrderType.LIMIT,
      Op.submit 2 "BTCUSDT" 100 1 Side.SELL OrderType.LIMIT], op.InDouble := by
    intro op hop
    simp only [List.mem_cons, List.mem_singleton, List.not_mem_nil, or_false] at hop
    rcases hop with h | h
    · rw [h]
      exact isDouble_binary64 _
    · rw [h]
      show binary64 1 = 1
      decide!
  have hq : 0 < binary64 (9 / 10) := binary64_pos _ (by norm_num)
  ⟨hops, isDouble_binary64 _, hq,
    C4_filled_within_one_ulp _ 3 "BTCUSDT" 0 (binary64 (9 / 10)) Side.BUY OrderType.MARKET hops
      (isDouble_binary64 _) hq⟩

/-- C5, as the claim states it, fails, in two ways. In `double` arithmetic the market
buy of 0.9 against sells of 0.3 and 1.0 comes back `FILLED` with filled quantity
0.9000000000000001, which is not its quantity. And a `LIMIT` buy submitted with quantity
-1 comes back `FILLED` with filled quantity 0. -/
theorem C5_counterexample :
    roundingScenario.map
        (fun res => (res.order.status, res.order.quantity, res.order.filled_quantity)) =
      some (Status.FILLED, 8106479329266893 / 9007199254740992,
        4053239664633447 / 4503599627370496) ∧
    (8106479329266893 / 9007199254740992 : ℚ) ≠ 4053239664633447 / 4503599627370496 ∧
    (MatchingEngine.submit_order MatchingEngine.new 1 "BTCUSDT" 100 (-1) Side.BUY
        OrderType.LIMIT).map
      (fun res => (res.order.status, res.order.filled_quantity, res.order.quantity)) =
    some (Status.FILLED, 0, -1) := by
  refine ⟨by decide!, by norm_num, by decide!⟩

/-- C5, amended. In `double` arithmetic, after any sequence of calls on a freshly
constructed engine, a further `submit_order` on a known symbol returns, whatever its
quantity, and after `match_orders` the incoming order has status `FILLED` if and only if
its filled quantity has reached its quantity (`filled_quantity >= quantity`); the same
holds of every maker the call touched. -/
theorem C5_filled_iff_reached (ops : List Op) (u : Nat) (sym : String) (p q : ℚ)
    (sd : Side) (t : OrderType) (hops : ∀ op ∈ ops, op.InDouble) (hd : IsDouble q) :
    ∃ e, MatchingEngine.run MatchingEngine.new ops = some e ∧
      ∀ book, findBook e.order_books sym = some book →
        ∃ res, MatchingEngine.submit_order e u sym p q sd t = some res ∧
          (res.order.status = Status.FILLED ↔
            res.order.filled_quantity ≥ res.order.quantity) ∧
          ∀ m ∈ res.matched,
            (m.maker.status = Status.FILLED ↔
              m.maker.filled_quantity ≥ m.maker.quantity) := by
  obtain ⟨e, he, hgood⟩ := fp_run_good ops MatchingEngine.new fp_new_engine_good hops
  refine ⟨e, he, fun book hf => ?_⟩
  obtain ⟨res, r, inc, h1, _, h3, h4, h5, _, h7, _, _, h10, _, _, _⟩ :=
    fp_submit_order_known e u sym p q sd t book hgood hf hd
  refine ⟨res, h1, ?_, ?_⟩
  · rw [h3, h5, (finalStatus_filled_quantity _).1, (finalStatus_filled_quantity _).2]
    exact finalStatus_filled_iff inc (by rw [h7]; simp)
  · rw [h4]
    exact fp_fills_status q r.matched _ _ h10

/-- Witness of the amended C5: the market buy of 0.9 after the sells of 0.3 and 1.0. -/
theorem C5_filled_iff_reached_witness :
    (∀ op ∈ [Op.submit 1 "BTCUSDT" 100 (binary64 (3 / 10)) Side.SELL OrderType.LIMIT,
        Op.submit 2 "BTCUSDT" 100 1 Side.SELL OrderType.LIMIT], op.InDouble) ∧
    IsDouble (binary64 (9 / 10)) ∧
    ∃ e, MatchingEngine.run MatchingEngine.new
        [Op.submit 1 "BTCUSDT" 100 (binary64 (3 / 10)) Side.SELL OrderType.LIMIT,
         Op.submit 2 "BTCUSDT" 100 1 Side.SELL OrderType.LIMIT] = some e ∧
      ∀ book, findBook e.order_books "BTCUSDT" = some book →
        ∃ res, MatchingEngine.submit_order e 3 "BTCUSDT" 0 (binary64 (9 / 10)) Side.BUY
            OrderType.MARKET = some res ∧
          (res.order.status = Status.FILLED ↔
            res.order.filled_quantity ≥ res.order.quantity) ∧
          ∀ m ∈ res.matched,
            (m.maker.status = Status.FILLED ↔
              m.maker.filled_quantity ≥ m.maker.quantity) :=
  have hops : ∀ op ∈ [Op.submit 1 "BTCUSDT" 100 (binary64 (3 / 10)) Side.SELL OrderType.LIMIT,
      Op.submit 2 "BTCUSDT" 100 1 Side.SELL OrderType.LIMIT], op.InDouble := by
    intro op hop
    simp only [List.mem_cons, List.mem_singleton, List.not_mem_nil, or_false] at hop
    rcases hop with h | h
    · rw [h]
      exact isDouble_binary64 _
    · rw [h]
      show binary64 1 = 1
      decide!
  ⟨hops, isDouble_binary64 _,
    C5_filled_iff_reached _ 3 "BTCUSDT" 0 (binary64 (9 / 10)) Side.BUY OrderType.MARKET hops
      (isDouble_binary64 _)⟩

/-- C8: the aggregate of a level is not the quantity available at it, nor the sum of
the quantities queued at it. Sells of 2.0 (order 1) and of 5.0 (order 2) rest at 100
with aggregate 7; a market buy of 2.0 fills order 1 completely. `match_orders` erases
order 1 from the queue and then subtracts `resting_order->quantity`, which by then is
the quantity of order 2: the level is left with aggregate 2 and `get_depth` reports 2
at 100, while its queue holds order 2 with all of its 5.0 unfilled; the ask volume
counter is left at 2.0 as well. -/
theorem C8_aggregate_reads_next_order :
    (aggregateScenario.bind (fun e => findBook e.order_books "BTCUSDT")).map
        (fun b => b.get_depth 5) = some [(100, 2)] ∧
    (aggregateScenario.bind (fun e => findBook e.order_books "BTCUSDT")).map
        (fun b => b.asks.map (fun x => (x.1, x.2.orders.map (fun o => o.order_id)))) =
      some [(100, [2])] ∧
    (aggregateScenario.bind (fun e => findBook e.order_books "BTCUSDT")).map
        (fun b => b.asks.map (fun x => (queueUnfilled x.2.orders, queueQuantity x.2.orders))) =
      some [(5, 5)] ∧
    (aggregateScenario.bind (fun e => findBook e.order_books "BTCUSDT")).map
        (fun b => b.total_ask_volume) = some 200000000 := by
  refine ⟨by decide!, by decide!, by decide!, by decide!⟩

theorem fp_levelStep_progress (price : ℚ) (s : LevelState) (resting : Order)
    (rest : List Order) (hs : s.Good) (hq : s.level.orders = resting :: rest)
    (hc : s.Hungry) :
    ¬ (levelStep price s resting rest).Hungry ∨
    (levelStep price s resting rest).level.orders = rest ∨
    (s.incoming.filled_quantity < s.incoming.quantity / 2 ∧
      s.incoming.quantity / 2 ≤ (levelStep price s resting rest).incoming.filled_quantity) ∨
    (resting.filled_quantity < resting.quantity / 2 ∧
      ∃ m, (levelStep price s resting rest).level.orders = m :: rest ∧
        m.order_id = resting.order_id ∧ resting.quantity / 2 ≤ m.filled_quantity) := by
  obtain ⟨h1, _, h3, _⟩ := fp_levelStep_spec price s resting rest
  have hr := hs.resting resting (by rw [hq]; exact List.mem_cons_self _ _)
  obtain ⟨_, _, _, _, f5⟩ := fill_step s.incoming.quantity s.incoming.filled_quantity
    resting.quantity resting.filled_quantity hs.taker.1 hs.taker.2 hr.1.1 hr.1.2 hs.nonneg hc
    hr.2.1 hr.2.2
  have hcases : weightOf s.incoming.quantity (takerAfter s.incoming resting).filled_quantity <
        weightOf s.incoming.quantity s.incoming.filled_quantity ∨
      weightOf resting.quantity (makerFill s.incoming resting) <
        weightOf resting.quantity resting.filled_quantity := by
    have : weightOf s.incoming.quantity (takerAfter s.incoming resting).filled_quantity +
        weightOf resting.quantity (makerFill s.incoming resting) <
        weightOf s.incoming.quantity s.incoming.filled_quantity +
          weightOf resting.quantity resting.filled_quantity := f5
    omega
  rcases hcases with hw | hw
  · rcases weightOf_drop _ _ _ hw with h | h
    · left
      unfold LevelState.Hungry
      rw [h1]
      exact not_lt.mpr h
    · right; right; left
      rw [h1]
      exact h
  · by_cases hge : makerFill s.incoming resting ≥ resting.quantity
    · right; left
      rw [h3]
      unfold queueAfter
      rw [if_pos hge]
    · rcases weightOf_drop _ _ _ hw with h | h
      · exact absurd h hge
      · right; right; right
        refine ⟨h.1, makerAfter s.incoming resting, ?_, rfl, h.2⟩
        rw [h3]
        unfold queueAfter
        rw [if_neg hge]

/-- C40, as the claim states it, fails in `double` arithmetic, and in one clause in any
arithmetic. With a sell of 1.7 filled by 0.4 and a sell of 2.2 resting at 100, a market
buy of 3.4 makes four fills against the two resting orders: `0.4 + (1.7 - 0.4)` rounds
below 1.7 and `2.2 + (3.4 - 1.3)`, as computed, stays below 3.4, so two of the
iterations neither complete the taker nor remove the head maker. And against a single
sell of 2.0 at 100 a market buy of 1.0 makes one outer-loop iteration that neither stops
on a limit price nor removes the level. -/
theorem C40_counterexample :
    (twoMakers.bind (fun e => findBook e.order_books "BTCUSDT")).map
        (fun b => (Ladder.orders b.asks).length) = some 2 ∧
    (twoMakers.bind (fun e => MatchingEngine.submit_order e 4 "BTCUSDT" 0
        (binary64 (34 / 10)) Side.BUY OrderType.MARKET)).map
      (fun res => res.matched.length) = some 4 ∧
    buyOne.type ≠ OrderType.LIMIT ∧
    (OrderBook.match_orders (OrderBook.add_order (OrderBook.new "BTCUSDT") sellA) buyOne).map
        (fun r => (r.matched.length, r.book.asks.length, (Ladder.orders r.book.asks).length,
          r.incoming.filled_quantity, r.incoming.quantity)) =
      some (1, 1, 1, 1, 1) := by
  refine ⟨by decide!, by decide!, by decide, by decide!⟩

/-- C40, amended. In `double` arithmetic, for every book whose resting orders satisfy
`0 <= filled_quantity < quantity` and every incoming order whose filled quantity is not
negative, `match_orders` terminates. Each inner-loop iteration completes the taker, or
removes the head maker from its level, or carries the taker or the head maker from less
than half filled to at least half filled; each outer-loop iteration that does not stop
on the limit price removes a level or completes the taker; and the number of fills, one
per inner-loop iteration, is at most twice the number of resting orders of the opposite
ladder plus two. -/
theorem C40_match_orders_terminates_rounded (b : OrderBook) (incoming_order : Order)
    (hb : b.Good) (ho : incoming_order.InDouble)
    (h0 : 0 ≤ incoming_order.filled_quantity) :
    (∃ r, OrderBook.match_orders b incoming_order = some r ∧
      r.matched.length ≤
        2 * (Ladder.orders (b.opposite incoming_order.side)).length + 2) ∧
    (∀ (price : ℚ) (s : LevelState) (resting : Order) (rest : List Order),
      s.Good → s.level.orders = resting :: rest → s.Hungry →
        ¬ (levelStep price s resting rest).Hungry ∨
        (levelStep price s resting rest).level.orders = rest ∨
        (s.incoming.filled_quantity < s.incoming.quantity / 2 ∧
          s.incoming.quantity / 2 ≤
            (levelStep price s resting rest).incoming.filled_quantity) ∨
        (resting.filled_quantity < resting.quantity / 2 ∧
          ∃ m, (levelStep price s resting rest).level.orders = m :: rest ∧
            m.order_id = resting.order_id ∧ resting.quantity / 2 ≤ m.filled_quantity)) ∧
    (∀ (s : MatchState) (price : ℚ) (level : PriceLevel) (rest : Ladder),
      s.Good → s.levels = (price, level) :: rest →
      ∃ t, matchLevel price (2 * level.orders.length + 3) (enterLevel s level) = some t ∧
        ((leaveLevel t price rest).levels = rest ∨ ¬ t.Hungry)) := by
  refine ⟨?_, ?_, ?_⟩
  · obtain ⟨r, inc, r1, _, _, _, _, _, _, _, _, r10, _⟩ :=
      fp_match_orders_fills b incoming_order hb ho h0
    refine ⟨r, r1, ?_⟩
    have h1 := weightOf_le incoming_order.quantity incoming_order.filled_quantity
    have h2 := queueWeight_le (Ladder.orders (b.opposite incoming_order.side))
    unfold Order.weight at r10
    omega
  · intro price s resting rest hs hq hc
    exact fp_levelStep_progress price s resting rest hs hq hc
  · intro s price level rest hs hq
    have hin : (enterLevel s level).Good := by
      refine ⟨hs.taker, hs.nonneg, fun o ho => hs.resting o ?_⟩
      rw [hq, fp_orders_cons]
      exact List.mem_append_left _ ho
    have hwin : (enterLevel s level).weight < 2 * level.orders.length + 3 := by
      have h1 := queueWeight_le level.orders
      have h2 := weightOf_le s.incoming.quantity s.incoming.filled_quantity
      unfold LevelState.weight Order.weight enterLevel
      simp only
      omega
    obtain ⟨t, t1, _, _, t4, _⟩ := fp_matchLevel_total price (fun _ => True)
      (fun _ _ _ _ _ _ _ => trivial) _ (enterLevel s level) hin trivial hwin
    refine ⟨t, t1, ?_⟩
    rcases t4 with h | h
    · left
      rcases leaveLevel_levels t price rest with ⟨_, h2⟩ | ⟨h3, _⟩
      · exact h2
      · exact absurd h h3
    · exact Or.inr h

/-- Witness of the amended C40: the market buy of 1.0 against the book that holds the
one sell of 2.0 at 100. -/
theorem C40_match_orders_terminates_rounded_witness :
    (OrderBook.add_order (OrderBook.new "BTCUSDT") sellA).Good ∧ buyOne.InDouble ∧
    0 ≤ buyOne.filled_quantity ∧
    ((∃ r, OrderBook.match_orders (OrderBook.add_order (OrderBook.new "BTCUSDT") sellA)
          buyOne = some r ∧
        r.matched.length ≤
          2 * (Ladder.orders ((OrderBook.add_order (OrderBook.new "BTCUSDT") sellA).opposite
            buyOne.side)).length + 2) ∧
      (∀ (price : ℚ) (s : LevelState) (resting : Order) (rest : List Order),
        s.Good → s.level.orders = resting :: rest → s.Hungry →
          ¬ (levelStep price s resting rest).Hungry ∨
          (levelStep price s resting rest).level.orders = rest ∨
          (s.incoming.filled_quantity < s.incoming.quantity / 2 ∧
            s.incoming.quantity / 2 ≤
              (levelStep price s resting rest).incoming.filled_quantity) ∨
          (resting.filled_quantity < resting.quantity / 2 ∧
            ∃ m, (levelStep price s resting rest).level.orders = m :: rest ∧
              m.order_id = resting.order_id ∧ resting.quantity / 2 ≤ m.filled_quantity)) ∧
      (∀ (s : MatchState) (price : ℚ) (level : PriceLevel) (rest : Ladder),
        s.Good → s.levels = (price, level) :: rest →
        ∃ t, matchLevel price (2 * level.orders.length + 3) (enterLevel s level) = some t ∧
          ((leaveLevel t price rest).levels = rest ∨ ¬ t.Hungry))) :=
  have hnew : (OrderBook.new "BTCUSDT").Good := by
    intro x hx
    simp [OrderBook.new, OrderBook.resting, Ladder.orders] at hx
  have hsell : sellA.InDouble ∧ sellA.IsOpen :=
    ⟨⟨by show binary64 (2 : ℚ) = 2; decide!, by show binary64 (0 : ℚ) = 0; decide!⟩,
      ⟨by show (0 : ℚ) ≤ 0; decide!, by show (0 : ℚ) < 2; decide!⟩⟩
  have hb : (OrderBook.add_order (OrderBook.new "BTCUSDT") sellA).Good :=
    fp_add_order_good _ _ hnew hsell
  have ho : buyOne.InDouble :=
    ⟨by show binary64 (1 : ℚ) = 1; decide!, by show binary64 (0 : ℚ) = 0; decide!⟩
  have h0 : 0 ≤ buyOne.filled_quantity := by show (0 : ℚ) ≤ 0; decide!
  ⟨hb, ho, h0, C40_match_orders_terminates_rounded _ buyOne hb ho h0⟩

end HighSpeed.Rounded

/-! ## High-speed engine in `double` arithmetic: claim C6 -/

namespace HighSpeed.Rounded

open Double

theorem fp_add_order_nil (before : ℚ → ℚ → Bool) (o : Order) :
    Ladder.add_order before [] o = [(o.price, pushOrder (PriceLevel.new o.price) o)] := by
  simp [Ladder.add_order, Ladder.find, Ladder.emplace, Ladder.modify, pushOrder]

/-- On a sorted ladder `add_order` is a single scan: append at the level of the order
price, or insert a fresh level in front of the first level that comes after it. -/
theorem fp_add_order_cons (before : ℚ → ℚ → Bool) (R : ℚ → ℚ → Prop)
    (hR : StrictCmp before R) (k : ℚ) (lv : PriceLevel) (rest : Ladder) (o : Order)
    (hs : (Ladder.keys ((k, lv) :: rest)).Pairwise R) :
    Ladder.add_order before ((k, lv) :: rest) o =
      if k = o.price then (k, pushOrder lv o) :: rest
      else if before o.price k = true then
        (o.price, pushOrder (PriceLevel.new o.price) o) :: (k, lv) :: rest
      else (k, lv) :: Ladder.add_order before rest o := by
  simp only [Ladder.keys, List.map_cons, List.pairwise_cons] at hs
  by_cases hk : k = o.price
  · simp [Ladder.add_order, Ladder.find, Ladder.modify, hk, pushOrder]
  · simp only [hk, if_false]
    cases h1 : before o.price k with
    | true =>
      have hR1 : R o.price k := (hR.iff _ _).mp h1
      have hnone : Ladder.find rest o.price = none := by
        apply Ladder.find_none_of_keys
        intro hmem
        exact hR.irrefl _ (hR.trans _ _ _ hR1 (hs.1 _ hmem))
      simp [Ladder.add_order, Ladder.find, Ladder.emplace, Ladder.modify, hk, h1, hnone,
        pushOrder]
    | false =>
      have h2 : before k o.price = true := by
        rcases hR.tri k o.price hk with h | h
        · exact (hR.iff _ _).mpr h
        · have := (hR.iff _ _).mpr h
          rw [h1] at this
          exact absurd this (by simp)
      cases hf : Ladder.find rest o.price with
      | none =>
        simp [Ladder.add_order, Ladder.find, Ladder.emplace, Ladder.modify, hk, h1, h2, hf]
      | some x =>
        simp [Ladder.add_order, Ladder.find, Ladder.modify, hk, hf]

theorem fp_modify_absent (l : Ladder) (p : ℚ) (f : PriceLevel → PriceLevel)
    (h : p ∉ l.keys) : Ladder.modify l p f = l := by
  induction l with
  | nil => rfl
  | cons x rest ih =>
    obtain ⟨k, lv⟩ := x
    simp only [Ladder.keys, List.map_cons, List.mem_cons, not_or] at h
    unfold Ladder.modify
    have hk : ¬ k = p := fun hkp => h.1 hkp.symm
    simp only [hk, if_false]
    rw [ih h.2]

theorem fp_modify_queues (l : Ladder) (p q : ℚ) :
    queues (Ladder.modify l p (roundTrip q)) = queues l := by
  induction l with
  | nil => rfl
  | cons x rest ih =>
    obtain ⟨k, lv⟩ := x
    unfold Ladder.modify
    by_cases hk : k = p
    · simp [hk, queues, roundTrip]
    · simp only [hk, if_false]
      simp only [queues, List.map_cons] at ih ⊢
      rw [ih]

/-- On a sorted ladder without empty levels, cancelling a freshly added order whose id
is new gives the ladder back up to the aggregate of the level of the order. -/
theorem fp_cancel_add_order (before : ℚ → ℚ → Bool) (R : ℚ → ℚ → Prop)
    (hR : StrictCmp before R) (o : Order) :
    ∀ (l : Ladder), l.keys.Pairwise R → (∀ e ∈ l, e.2.orders ≠ []) →
      (∀ x ∈ l.orders, x.order_id ≠ o.order_id) →
      Ladder.cancel o.order_id (Ladder.add_order before l o) =
        some (Ladder.modify l o.price (roundTrip o.quantity), o) := by
  intro l
  induction l with
  | nil =>
    intro _ _ _
    rw [fp_add_order_nil]
    simp [Ladder.cancel, pushOrder, PriceLevel.new, Ladder.modify]
  | cons e rest ih =>
    intro hs hne hfresh
    obtain ⟨k, lv⟩ := e
    rw [fp_add_order_cons before R hR k lv rest o hs]
    have hlv : ∀ x ∈ lv.orders, x.order_id ≠ o.order_id := by
      intro x hx
      apply hfresh
      simp only [Ladder.orders, List.map_cons, List.flatten_cons, List.mem_append]
      exact Or.inl hx
    have hrest : ∀ x ∈ Ladder.orders rest, x.order_id ≠ o.order_id := by
      intro x hx
      apply hfresh
      simp only [Ladder.orders, List.map_cons, List.flatten_cons, List.mem_append]
      exact Or.inr hx
    have hs2 := hs
    simp only [Ladder.keys, List.map_cons, List.pairwise_cons] at hs2
    by_cases hk : k = o.price
    · simp only [hk, if_true]
      have hf := find_append_fresh o.order_id lv.orders o rfl hlv
      have hnon : lv.orders ≠ [] := hne (k, lv) (List.mem_cons_self _ _)
      have hemp : lv.orders.isEmpty = false := by
        cases hq : lv.orders with
        | nil => exact absurd hq hnon
        | cons a b => rfl
      unfold Ladder.cancel Ladder.modify
      simp only [pushOrder, hf.1, hf.2, hemp, Bool.false_eq_true, if_false, if_true, roundTrip]
    · simp only [hk, if_false]
      cases h1 : before o.price k with
      | true =>
        have hR1 : R o.price k := (hR.iff _ _).mp h1
        have habs : o.price ∉ Ladder.keys ((k, lv) :: rest) := by
          intro hmem
          simp only [Ladder.keys, List.map_cons, List.mem_cons] at hmem
          rcases hmem with hmem | hmem
          · exact hk hmem.symm
          · exact hR.irrefl _ (hR.trans _ _ _ hR1 (hs2.1 _ hmem))
        rw [fp_modify_absent _ _ _ habs]
        simp [Ladder.cancel, pushOrder, PriceLevel.new]
      | false =>
        simp only [Bool.false_eq_true, if_false]
        have := ih hs2.2 (fun e he => hne e (List.mem_cons_of_mem _ he)) hrest
        unfold Ladder.cancel Ladder.modify
        simp only [find_fresh_none o.order_id lv.orders hlv, this, hk, if_false]

theorem fp_cancel_none (id : Nat) (l : Ladder)
    (h : ∀ o ∈ l.orders, o.order_id ≠ id) : Ladder.cancel id l = none := by
  induction l with
  | nil => rfl
  | cons e rest ih =>
    obtain ⟨k, level⟩ := e
    have h1 : ∀ x ∈ level.orders, x.order_id ≠ id := by
      intro x hx
      apply h
      simp only [Ladder.orders, List.map_cons, List.flatten_cons, List.mem_append]
      exact Or.inl hx
    have h2 : ∀ x ∈ Ladder.orders rest, x.order_id ≠ id := by
      intro x hx
      apply h
      simp only [Ladder.orders, List.map_cons, List.flatten_cons, List.mem_append]
      exact Or.inr hx
    unfold Ladder.cancel
    simp only [find_fresh_none id level.orders h1, ih h2]

/-- C6, as the claim states it, fails in `double` arithmetic. A sell of 0.1 rests at 100
with aggregate 0.1; a sell of 0.2 is added at 100 and cancelled again. The aggregate is
then `(0.1 + 0.2) - 0.2`, which is computed as 0.10000000000000003, not 0.1. -/
theorem C6_counterexample :
    bookTenth.asks.map (fun e => e.2.total_quantity) =
      [3602879701896397 / 36028797018963968] ∧
    (OrderBook.cancel_order (OrderBook.add_order bookTenth sellFifth)
        sellFifth.order_id).1 = true ∧
    (OrderBook.cancel_order (OrderBook.add_order bookTenth sellFifth)
        sellFifth.order_id).2.asks.map (fun e => e.2.total_quantity) =
      [1801439850948199 / 18014398509481984] ∧
    (3602879701896397 / 36028797018963968 : ℚ) ≠ 1801439850948199 / 18014398509481984 := by
  refine ⟨by decide!, by decide!, by decide!, by norm_num⟩

/-- C6, amended. In `double` arithmetic, for every book that satisfies the
representation invariant of `OrderBook` and every order `o` whose id does not occur in
the book, `add_order(o)` followed by `cancel_order(o.order_id)` returns `true` and gives
back the book before `add_order` in everything but one aggregate: both ladders have the
keys and the queues they had, both volume counters and the last traded price are as
before, and only the `total_quantity` of the level at the price of `o`, when the book
had such a level on the side of `o`, is recomputed as `(total_quantity + quantity) -
quantity`, each operation rounded. -/
theorem C6_add_then_cancel_rounded (b : OrderBook) (o : Order) (hwf : b.WellFormed)
    (hfresh : ∀ x ∈ b.resting, x.order_id ≠ o.order_id) :
    OrderBook.cancel_order (OrderBook.add_order b o) o.order_id =
      (true, afterRoundTrip b o) ∧
    queues (afterRoundTrip b o).bids = queues b.bids ∧
    queues (afterRoundTrip b o).asks = queues b.asks ∧
    (afterRoundTrip b o).total_bid_volume = b.total_bid_volume ∧
    (afterRoundTrip b o).total_ask_volume = b.total_ask_volume ∧
    (afterRoundTrip b o).last_traded_price = b.last_traded_price := by
  have hbids : ∀ x ∈ b.bids.orders, x.order_id ≠ o.order_id :=
    fun x hx => hfresh x (List.mem_append_left _ hx)
  have hasks : ∀ x ∈ b.asks.orders, x.order_id ≠ o.order_id :=
    fun x hx => hfresh x (List.mem_append_right _ hx)
  unfold OrderBook.add_order afterRoundTrip
  cases hside : o.side with
  | BUY =>
    have hc := fp_cancel_add_order bidBefore _ bid_cmp o b.bids hwf.bids_sorted
      (fun e he => hwf.nonempty e (List.mem_append_left _ he)) hbids
    refine ⟨?_, fp_modify_queues _ _ _, rfl, rfl, rfl, rfl⟩
    simp only [OrderBook.cancel_order, hc, u64sub_u64add _ _ hwf.bid_volume]
  | SELL =>
    have hc := fp_cancel_add_order askBefore _ ask_cmp o b.asks hwf.asks_sorted
      (fun e he => hwf.nonempty e (List.mem_append_right _ he)) hasks
    have hn : Ladder.cancel o.order_id b.bids = none := fp_cancel_none o.order_id b.bids hbids
    refine ⟨?_, rfl, fp_modify_queues _ _ _, rfl, rfl, rfl⟩
    simp only [OrderBook.cancel_order, hn, hc, u64sub_u64add _ _ hwf.ask_volume]

/-- Witness of the amended C6 on the book holding one sell of 0.1 at 100: a sell of 0.2
at the same price is added and cancelled again. -/
theorem C6_add_then_cancel_rounded_witness :
    bookTenth.WellFormed ∧ (∀ x ∈ bookTenth.resting, x.order_id ≠ sellFifth.order_id) ∧
    (OrderBook.cancel_order (OrderBook.add_order bookTenth sellFifth) sellFifth.order_id =
        (true, afterRoundTrip bookTenth sellFifth) ∧
      queues (afterRoundTrip bookTenth sellFifth).bids = queues bookTenth.bids ∧
      queues (afterRoundTrip bookTenth sellFifth).asks = queues bookTenth.asks ∧
      (afterRoundTrip bookTenth sellFifth).total_bid_volume = bookTenth.total_bid_volume ∧
      (afterRoundTrip bookTenth sellFifth).total_ask_volume = bookTenth.total_ask_volume ∧
      (afterRoundTrip bookTenth sellFifth).last_traded_price = bookTenth.last_traded_price) :=
  have hwf : bookTenth.WellFormed :=
    ⟨by decide!, by decide!, by decide!, by decide!, by decide!⟩
  have hfresh : ∀ x ∈ bookTenth.resting, x.order_id ≠ sellFifth.order_id := by decide!
  ⟨hwf, hfresh, C6_add_then_cancel_rounded bookTenth sellFifth hwf hfresh⟩

end HighSpeed.Rounded

/-! ## Advanced engine: claim C19 -/

namespace Advanced

theorem isPendingStop_iff (o : Order) : isPendingStop o = true ↔ o.IsPendingStop := by
  unfold isPendingStop Order.IsPendingStop
  exact decide_eq_true_iff

theorem shouldTrigger_reached (p : ℚ) (o : Order) :
    shouldTrigger p o = true ↔ StopReached p o :=
  shouldTrigger_iff p o

theorem stopVisit_refl (e : MatchingEngine) (key : String)
    (h : ∀ o, mapFind e.orders key = some o → o.IsPendingStop →
      ∃ book, mapFind e.order_books o.symbol = some book ∧ ¬ StopReached book.last_price o) :
    StopVisit e key e := by
  unfold StopVisit
  refine ⟨fun _ _ => rfl, fun _ => rfl, fun o ho => ⟨fun _ => rfl, fun hp => ?_⟩⟩
  obtain ⟨book, hb, hn⟩ := h o ho hp
  exact ⟨book, hb, fun hr => absurd hr hn, fun _ => rfl⟩

/-- One visit of the loop of `check_stop_orders` in a state with the invariant returns,
keeps the invariant, and does what the specification asks of a visit. -/
theorem checkStopAt_visit (e : MatchingEngine) (key : String) (hs : e.Sound) :
    ∃ e1, e.checkStopAt key = some e1 ∧ e1.Sound ∧ StopVisit e key e1 := by
  obtain ⟨ea, ha, hsa, _, _⟩ := checkStopAt_sound e key hs
  refine ⟨ea, ha, hsa, ?_⟩
  unfold MatchingEngine.checkStopAt at ha
  cases ho : mapFind e.orders key with
  | none =>
    rw [ho] at ha
    have hea : e = ea := Option.some.inj ha
    rw [← hea]
    apply stopVisit_refl
    intro o h
    rw [ho] at h
    cases h
  | some o =>
    rw [ho] at ha
    simp only at ha
    have hko := hs.stored (key, o) (mapFind_mem _ _ _ ho)
    by_cases hp : isPendingStop o = true
    · rw [if_pos hp] at ha
      have hpo : o.IsPendingStop := (isPendingStop_iff o).mp hp
      cases hbk : mapFind e.order_books o.symbol with
      | none =>
        have := hko.2.2.1
        rw [hbk] at this
        cases this
      | some book =>
        rw [hbk] at ha
        simp only at ha
        by_cases htr : shouldTrigger book.last_price o = true
        · rw [if_pos htr] at ha
          have hreach : StopReached book.last_price o := (shouldTrigger_reached _ _).mp htr
          obtain ⟨r, hpr, heq⟩ := triggerStop_shape e key o hko.2.2.1
          rw [heq] at ha
          have hea := Option.some.inj ha
          obtain ⟨_, ⟨f, st, h2, _⟩, _, h5, _⟩ := hpr
          have horders : ea.orders = mapSet e.orders key r.2.1 := by
            rw [← hea]
            show mapSet r.2.2.orders key r.2.1 = mapSet e.orders key r.2.1
            rw [h5]
            have hto : (triggeredOrder o).id = key := hko.2.1
            rw [hto]
            show mapSet (mapSet (mapSet e.orders key (triggeredOrder o)) key r.2.1) key r.2.1
              = mapSet e.orders key r.2.1
            rw [mapSet_mapSet, mapSet_mapSet]
          unfold StopVisit
          refine ⟨fun k hk => ?_, fun h => ?_, fun o2 ho2 => ?_⟩
          · rw [horders]
            exact mapFind_mapSet_ne _ _ _ _ hk
          · rw [ho] at h
            cases h
          · rw [ho] at ho2
            have ho3 : o2 = o := (Option.some.inj ho2).symm
            rw [ho3]
            refine ⟨fun hn => absurd hpo hn, fun _ => ⟨book, hbk, fun _ => ?_,
              fun hn => absurd hreach hn⟩⟩
            refine ⟨r.2.1, ?_, ?_⟩
            · rw [horders]
              exact mapFind_mapSet_same _ _ _
            · rw [h2]
              exact ⟨rfl, rfl, rfl⟩
        · rw [if_neg htr] at ha
          have hea : e = ea := Option.some.inj ha
          rw [← hea]
          apply stopVisit_refl
          intro o2 ho2 _
          rw [ho] at ho2
          have ho3 : o2 = o := (Option.some.inj ho2).symm
          rw [ho3]
          exact ⟨book, hbk, fun hr => htr ((shouldTrigger_reached _ _).mpr hr)⟩
    · rw [if_neg hp] at ha
      have hea : e = ea := Option.some.inj ha
      rw [← hea]
      apply stopVisit_refl
      intro o2 ho2 hc
      rw [ho] at ho2
      have ho3 : o2 = o := (Option.some.inj ho2).symm
      rw [ho3] at hc
      exact absurd ((isPendingStop_iff o).mpr hc) hp

/-- The loop of `check_stop_orders` over any list of keys, from a state with the
invariant, returns and is a pass over these keys. -/
theorem checkStopKeys_pass (keys : List String) :
    ∀ e : MatchingEngine, e.Sound →
      ∃ e1, checkStopKeys e keys = some e1 ∧ StopPass e keys e1 := by
  induction keys with
  | nil => intro e _; exact ⟨e, rfl, rfl⟩
  | cons key rest ih =>
    intro e hs
    obtain ⟨e2, h1, hs2, hv⟩ := checkStopAt_visit e key hs
    obtain ⟨e1, h2, hp⟩ := ih e2 hs2
    refine ⟨e1, ?_, e2, hv, hp⟩
    unfold checkStopKeys
    rw [h1]
    exact h2

/-- C19. In every state `e` that a fresh engine reaches by a sequence of calls of its
public methods (short enough for the 64-bit order counter not to wrap),
`check_stop_orders` returns, and it is a pass over all the stored orders, in the order
in which they are stored: each one is visited once, on the engine the visits before it
left. At its visit a `PENDING` order of type `STOP_LOSS`, `STOP_LIMIT` or
`TRAILING_STOP` is triggered if and only if it is a buy and the last price of its book
is at least its stop price, or a sell and the last price is at most its stop price; a
triggered `STOP_LIMIT` is then stored as a `LIMIT` order and any other as a `MARKET`
order, with the same user and side; an untriggered order, like every order that is not a
pending stop, leaves the engine unchanged; and no visit changes the order stored under
another key. -/
theorem C19_check_stop_orders_pass (cs : List Call) (e : MatchingEngine)
    (hlen : 3 * cs.length + 1 < 2 ^ 64) (h : MatchingEngine.new.calls cs = some e) :
    ∃ e1, e.check_stop_orders = some e1 ∧ StopPass e (e.orders.map Prod.fst) e1 := by
  have hnew : MatchingEngine.new.order_id_counter = 1 := rfl
  obtain ⟨ea, ha, hsa, _, _⟩ := calls_sound cs MatchingEngine.new new_sound
    (by rw [hnew]; omega)
  rw [h] at ha
  have hea : e = ea := Option.some.inj ha
  rw [← hea] at hsa
  exact checkStopKeys_pass _ e hsa

/-- C19 at the engine reached by `stopCalls`, which stores the trailing buy `ORD3`,
`PENDING` with stop price 0, while the last price of its book is 100: the pass comes to
three stored orders and leaves `ORD3` as a `MARKET` order. -/
theorem C19_check_stop_orders_pass_witness :
    3 * stopCalls.length + 1 < 2 ^ 64 ∧
    MatchingEngine.new.calls stopCalls = some stopEngine ∧
    stopEngine.orders.map (fun p => (p.1, p.2.type, p.2.status, p.2.side, p.2.stop_price)) =
      [("ORD1", OrderType.LIMIT, OrderStatus.OPEN, OrderSide.SELL, 0),
       ("ORD2", OrderType.LIMIT, OrderStatus.FILLED, OrderSide.BUY, 0),
       ("ORD3", OrderType.TRAILING_STOP, OrderStatus.PENDING, OrderSide.BUY, 0)] ∧
    (stopEngine.check_stop_orders.bind (fun e1 => mapFind e1.orders "ORD3")).map
      (fun o => o.type) = some OrderType.MARKET ∧
    ∃ e1, stopEngine.check_stop_orders = some e1 ∧
      StopPass stopEngine (stopEngine.orders.map Prod.fst) e1 := by
  have h : (MatchingEngine.new.calls stopCalls).isSome = true := by decide!
  have hreach : MatchingEngine.new.calls stopCalls = some stopEngine := by
    unfold stopEngine
    cases hc : MatchingEngine.new.calls stopCalls with
    | none => rw [hc] at h; cases h
    | some e => rfl
  exact ⟨by decide, hreach, by decide!, by decide!,
    C19_check_stop_orders_pass stopCalls stopEngine (by decide) hreach⟩

end Advanced

/-! ## `double` arithmetic: the relative error of one operation -/

namespace Double

theorem binary64_rel (x : ℚ) : |binary64 x - x| ≤ |binary64 x| / 2 ^ 53 := by
  have pos : ∀ y : ℚ, 0 < y → |binary64 y - y| ≤ |binary64 y| / 2 ^ 53 := by
    intro y hy
    have h1 := binary64_error y
    have h2 := (binary64_bounds y hy).1
    have h3 : pow2 (binade y - 53) = pow2 (binade y) / 2 ^ 53 := by
      rw [pow2_sub, pow2_53]
    rw [abs_of_pos (binary64_pos y hy)]
    rw [h3] at h1
    exact le_trans h1 (div_le_div_of_nonneg_right h2 (by positivity))
  rcases lt_trichotomy x 0 with h | h | h
  · have := pos (-x) (by linarith)
    rw [binary64_neg] at this
    rw [abs_neg] at this
    have e : -binary64 x - -x = -(binary64 x - x) := by ring
    rw [e, abs_neg] at this
    exact this
  · subst h
    rw [binary64_zero]
    simp
  · exact pos x h

end Double

/-! ## Futures engine in `double` arithmetic: claim C37 -/

namespace Futures.Rounded

open Double

theorem calculateUnrealizedPnl_at_entry (position : FuturesPosition) :
    calculateUnrealizedPnl position position.entryPrice = 0 := by
  unfold calculateUnrealizedPnl
  split
  · rfl
  · simp [binary64_zero]

theorem side_mul (side x : ℚ) (hside : side = 1 ∨ side = -1) (hx : IsDouble x) :
    binary64 (side * x) = side * x := by
  rcases hside with h | h
  · rw [h, one_mul]; exact hx
  · rw [h, neg_one_mul, binary64_neg, hx]

theorem side_cases (position : FuturesPosition) :
    (if position.side = "LONG" then (1 : ℚ) else -1) = 1 ∨
      (if position.side = "LONG" then (1 : ℚ) else -1) = -1 := by
  split
  · exact Or.inl rfl
  · exact Or.inr rfl

theorem calculateLiquidationPrice_trace (position : FuturesPosition)
    (maintenanceMarginRate walletBalance : ℚ) (hsize : 0 < position.size)
    (hpnl : position.unrealizedPnl = 0) (hw : IsDouble walletBalance) :
    calculateLiquidationPrice position maintenanceMarginRate walletBalance =
      (ratioTrace position maintenanceMarginRate walletBalance).price := by
  unfold calculateLiquidationPrice ratioTrace
  rw [if_neg (ne_of_gt hsize)]
  simp only [hpnl, add_zero]
  rw [hw, side_mul _ _ (side_cases position) (isDouble_binary64 _)]

theorem calculateMarginRatio_trace (position : FuturesPosition)
    (maintenanceMarginRate walletBalance : ℚ) (hsize : 0 < position.size)
    (hmargin : 0 < position.marginUsed) (hs : IsDouble position.size) :
    calculateMarginRatio position
        (ratioTrace position maintenanceMarginRate walletBalance).price walletBalance =
      some (ratioTrace position maintenanceMarginRate walletBalance).ratio := by
  unfold calculateMarginRatio calculateUnrealizedPnl ratioTrace
  simp only []
  rw [if_neg (ne_of_gt hsize), if_neg (ne_of_gt hmargin),
    side_mul _ _ (side_cases position) hs]

theorem ratioTrace_bound (position : FuturesPosition)
    (maintenanceMarginRate walletBalance : ℚ) (hsize : 0 < position.size)
    (hmargin : 0 < position.marginUsed) :
    |(ratioTrace position maintenanceMarginRate walletBalance).ratio - maintenanceMarginRate| *
        position.marginUsed ≤
      (ratioTrace position maintenanceMarginRate walletBalance).magnitude position / 2 ^ 53 := by
  unfold RatioTrace.magnitude ratioTrace
  simp only []
  generalize hsg : (if position.side = "LONG" then (1 : ℚ) else -1) = sg
  have hsg2 : sg = 1 ∨ sg = -1 := by rw [← hsg]; exact side_cases position
  generalize position.size = s at hsize ⊢
  generalize position.marginUsed = M at hmargin ⊢
  generalize position.entryPrice = E
  generalize maintenanceMarginRate = r
  generalize walletBalance = W
  have h1 := binary64_rel (M * r)
  generalize binary64 (M * r) = a at h1 ⊢
  have h2 := binary64_rel (W - a)
  generalize binary64 (W - a) = b at h2 ⊢
  have h3 := binary64_rel (sg * b / s)
  generalize binary64 (sg * b / s) = d at h3 ⊢
  have h4 := binary64_rel (E - d)
  generalize binary64 (E - d) = L at h4 ⊢
  have h5 := binary64_rel (L - E)
  generalize binary64 (L - E) = mv at h5 ⊢
  have h6 := binary64_rel (sg * s * mv)
  generalize binary64 (sg * s * mv) = p at h6 ⊢
  have h7 := binary64_rel (W + p)
  generalize binary64 (W + p) = B at h7 ⊢
  have h8 := binary64_rel (B / M)
  generalize binary64 (B / M) = R at h8 ⊢
  have e3 : s * (d - sg * b / s) = s * d - sg * b := by
    field_simp
    ring
  have e8 : M * (R - B / M) = M * R - B := by
    field_simp
    ring
  obtain ⟨l1, u1⟩ := abs_le.mp h1
  obtain ⟨l2, u2⟩ := abs_le.mp h2
  obtain ⟨l3, u3⟩ := abs_le.mp h3
  obtain ⟨l4, u4⟩ := abs_le.mp h4
  obtain ⟨l5, u5⟩ := abs_le.mp h5
  obtain ⟨l6, u6⟩ := abs_le.mp h6
  obtain ⟨l7, u7⟩ := abs_le.mp h7
  obtain ⟨l8, u8⟩ := abs_le.mp h8
  have l3s := mul_le_mul_of_nonneg_left l3 hsize.le
  have u3s := mul_le_mul_of_nonneg_left u3 hsize.le
  have l4s := mul_le_mul_of_nonneg_left l4 hsize.le
  have u4s := mul_le_mul_of_nonneg_left u4 hsize.le
  have l5s := mul_le_mul_of_nonneg_left l5 hsize.le
  have u5s := mul_le_mul_of_nonneg_left u5 hsize.le
  have l8s := mul_le_mul_of_nonneg_left l8 hmargin.le
  have u8s := mul_le_mul_of_nonneg_left u8 hmargin.le
  rw [e3] at l3s u3s
  rw [e8] at l8s u8s
  have key : |(R - r) * M| ≤
      (|a| + |b| + s * (|d| + |L| + |mv|) + |p| + |B| + |R| * M) / 2 ^ 53 := by
    rw [abs_le]
    rcases hsg2 with h | h
    · subst h
      constructor <;> linarith
    · subst h
      constructor <;> linarith
  rw [abs_mul, abs_of_pos hmargin] at key
  exact key

theorem calculateMarginRatio_mono (position : FuturesPosition) (walletBalance m1 m2 : ℚ)
    (hsize : 0 < position.size) (hmargin : 0 < position.marginUsed) (h : m1 ≤ m2) :
    ∃ r1 r2, calculateMarginRatio position m1 walletBalance = some r1 ∧
      calculateMarginRatio position m2 walletBalance = some r2 ∧
      (position.side = "LONG" → r1 ≤ r2) ∧ (position.side ≠ "LONG" → r2 ≤ r1) := by
  unfold calculateMarginRatio calculateUnrealizedPnl
  simp only [if_neg (ne_of_gt hsize), if_neg (ne_of_gt hmargin)]
  refine ⟨_, _, rfl, rfl, ?_, ?_⟩
  · intro hl
    rw [if_pos hl, one_mul]
    have hs := binary64_nonneg position.size hsize.le
    have hm := binary64_mono (m1 - position.entryPrice) (m2 - position.entryPrice) (by linarith)
    apply binary64_mono
    apply div_le_div_of_nonneg_right _ hmargin.le
    apply binary64_mono
    have := binary64_mono _ _ (mul_le_mul_of_nonneg_left hm hs)
    linarith
  · intro hl
    rw [if_neg hl, neg_one_mul, binary64_neg]
    have hs := binary64_nonneg position.size hsize.le
    have hm := binary64_mono (m1 - position.entryPrice) (m2 - position.entryPrice) (by linarith)
    apply binary64_mono
    apply div_le_div_of_nonneg_right _ hmargin.le
    apply binary64_mono
    have : -binary64 position.size * binary64 (m2 - position.entryPrice) ≤
        -binary64 position.size * binary64 (m1 - position.entryPrice) := by
      have := mul_le_mul_of_nonneg_left hm hs
      linarith
    have := binary64_mono _ _ this
    linarith

theorem monitorPosition_price (contracts : List (String × FuturesContract))
    (walletBalance : ℚ) (position : FuturesPosition) (l : LiquidationEngine)
    (contract : FuturesContract) (hsize : 0 < position.size)
    (hc : mapFind contracts position.symbol = some contract) (hm : 0 < contract.markPrice) :
    (monitorPosition contracts walletBalance position l).1.liquidationPrice =
      calculateLiquidationPrice
        { position with
            unrealizedPnl := calculateUnrealizedPnl position contract.markPrice }
        contract.maintenanceMarginRate walletBalance := by
  unfold monitorPosition
  rw [if_neg (ne_of_gt hsize), hc]
  simp only []
  rw [if_neg (not_le.mpr hm)]

/-- Claim C37, counterexample. The short position of size 0.3 entered at 2000 with
margin 60 and stored unrealized P&L 0, in an account with wallet balance 60, at the
maintenance margin rate 0.005: `calculateLiquidationPrice` returns 2199, and at the mark
price 2199 `calculateMarginRatio` returns 5764607523034317 / 2 ^ 60, which is above the
rate 5764607523034235 / 2 ^ 60, so that `monitorPositions` does not enqueue the position
at its liquidation price. And the price that `monitorPositions` publishes is computed
after the unrealized P&L is stored: for the long position of size 1 entered at 50000
with margin 5000 and wallet balance 5000 it publishes 47025 at the mark price 48000,
where the position is not enqueued, while `calculateLiquidationPrice` of the position
with unrealized P&L 0 is 45025. -/
theorem C37_counterexample :
    (shortPosition.side = "SHORT" ∧ 0 < shortPosition.size ∧ 0 < shortPosition.marginUsed ∧
      shortPosition.unrealizedPnl = 0) ∧
    calculateLiquidationPrice shortPosition rateOfContracts 60 = 2199 ∧
    calculateMarginRatio shortPosition 2199 60 =
      some (5764607523034317 / 1152921504606846976) ∧
    rateOfContracts = 5764607523034235 / 1152921504606846976 ∧
    (monitorPosition [("BTCUSDT_PERP", perpContractAt 2199)] 60 shortPosition
      { liquidationQueue := [] }).2.liquidationQueue = [] ∧
    (longPosition.side = "LONG" ∧ 0 < longPosition.size ∧ 0 < longPosition.marginUsed ∧
      longPosition.unrealizedPnl = 0) ∧
    (monitorPosition [("BTCUSDT_PERP", perpContractAt 48000)] 5000 longPosition
      { liquidationQueue := [] }).1.liquidationPrice = 47025 ∧
    (monitorPosition [("BTCUSDT_PERP", perpContractAt 48000)] 5000 longPosition
      { liquidationQueue := [] }).2.liquidationQueue = [] ∧
    calculateLiquidationPrice longPosition rateOfContracts 5000 = 45025 :=
  ⟨⟨by decide!, by decide!, by decide!, by decide!⟩, by decide!, by decide!, by decide!,
    by decide!, ⟨by decide!, by decide!, by decide!, by decide!⟩, by decide!, by decide!,
    by decide!⟩

/-- Claim C37, amended. For every position with size > 0, marginUsed > 0 and stored
unrealized P&L 0 whose size and wallet balance are `double`s (a side other than LONG
counts as SHORT): the margin ratio that `calculateMarginRatio` computes at the mark price
`calculateLiquidationPrice(position, MMR, wallet)` equals MMR up to the rounding of the
eight operations in between, `|ratio - MMR| * marginUsed` being at most 2 ^ -53 times the
sum of the magnitudes of the eight computed values, each weighted by what it contributes;
the set of mark prices at which `monitorPositions` finds `marginRatio <= MMR` is closed
downwards for a LONG position and upwards for another one; and the price that
`monitorPositions` publishes is `calculateLiquidationPrice` of the position with the
unrealized P&L at the current mark price stored, which is the price above when the mark
price is the entry price. -/
theorem C37_liquidation_price_near_rate (position : FuturesPosition)
    (maintenanceMarginRate walletBalance : ℚ) (hsize : 0 < position.size)
    (hmargin : 0 < position.marginUsed) (hpnl : position.unrealizedPnl = 0)
    (hw : IsDouble walletBalance) (hs : IsDouble position.size) :
    (calculateLiquidationPrice position maintenanceMarginRate walletBalance =
        (ratioTrace position maintenanceMarginRate walletBalance).price ∧
      calculateMarginRatio position
          (calculateLiquidationPrice position maintenanceMarginRate walletBalance)
          walletBalance =
        some (ratioTrace position maintenanceMarginRate walletBalance).ratio ∧
      |(ratioTrace position maintenanceMarginRate walletBalance).ratio -
            maintenanceMarginRate| * position.marginUsed ≤
        (ratioTrace position maintenanceMarginRate walletBalance).magnitude position /
          2 ^ 53) ∧
    (∀ m1 m2 : ℚ, m1 ≤ m2 →
      (position.side = "LONG" →
        ratioLe (calculateMarginRatio position m2 walletBalance) maintenanceMarginRate = true →
        ratioLe (calculateMarginRatio position m1 walletBalance) maintenanceMarginRate = true) ∧
      (position.side ≠ "LONG" →
        ratioLe (calculateMarginRatio position m1 walletBalance) maintenanceMarginRate = true →
        ratioLe (calculateMarginRatio position m2 walletBalance) maintenanceMarginRate = true)) ∧
    (∀ (contracts : List (String × FuturesContract)) (contract : FuturesContract)
        (l : LiquidationEngine),
      mapFind contracts position.symbol = some contract → 0 < contract.markPrice →
      (monitorPosition contracts walletBalance position l).1.liquidationPrice =
          calculateLiquidationPrice
            { position with
                unrealizedPnl := calculateUnrealizedPnl position contract.markPrice }
            contract.maintenanceMarginRate walletBalance ∧
        (contract.markPrice = position.entryPrice →
          (monitorPosition contracts walletBalance position l).1.liquidationPrice =
            calculateLiquidationPrice position contract.maintenanceMarginRate
              walletBalance)) := by
  have htrace := calculateLiquidationPrice_trace position maintenanceMarginRate walletBalance
    hsize hpnl hw
  refine ⟨⟨htrace, ?_, ratioTrace_bound position maintenanceMarginRate walletBalance hsize
    hmargin⟩, ?_, ?_⟩
  · rw [htrace]
    exact calculateMarginRatio_trace position maintenanceMarginRate walletBalance hsize
      hmargin hs
  · intro m1 m2 h
    obtain ⟨r1, r2, e1, e2, hlong, hshort⟩ :=
      calculateMarginRatio_mono position walletBalance m1 m2 hsize hmargin h
    rw [e1, e2]
    constructor
    · intro hl h2
      obtain ⟨r, hr, hle⟩ := (ratioLe_iff _ _).mp h2
      cases hr
      exact (ratioLe_iff _ _).mpr ⟨r1, rfl, le_trans (hlong hl) hle⟩
    · intro hl h1
      obtain ⟨r, hr, hle⟩ := (ratioLe_iff _ _).mp h1
      cases hr
      exact (ratioLe_iff _ _).mpr ⟨r2, rfl, le_trans (hshort hl) hle⟩
  · intro contracts contract l hc hm
    have hp := monitorPosition_price contracts walletBalance position l contract hsize hc hm
    refine ⟨hp, ?_⟩
    intro he
    rw [hp, he, calculateUnrealizedPnl_at_entry, ← hpnl]

/-- Witness of the amended C37 on the short position of size 0.3 entered at 2000 with
margin 60, the wallet balance 60 and the maintenance margin rate 0.005. -/
theorem C37_liquidation_price_near_rate_witness :
    0 < shortPosition.size ∧ 0 < shortPosition.marginUsed ∧
    shortPosition.unrealizedPnl = 0 ∧ IsDouble (60 : ℚ) ∧ IsDouble shortPosition.size ∧
    |(ratioTrace shortPosition rateOfContracts 60).ratio - rateOfContracts| *
        shortPosition.marginUsed ≤
      (ratioTrace shortPosition rateOfContracts 60).magnitude shortPosition / 2 ^ 53 :=
  have hsize : 0 < shortPosition.size := by decide!
  have hmargin : 0 < shortPosition.marginUsed := by decide!
  have hpnl : shortPosition.unrealizedPnl = 0 := by decide!
  have hw : IsDouble (60 : ℚ) := by
    show binary64 60 = 60
    decide!
  have hs : IsDouble shortPosition.size := isDouble_binary64 _
  ⟨hsize, hmargin, hpnl, hw, hs,
    (C37_liquidation_price_near_rate shortPosition rateOfContracts 60 hsize hmargin hpnl hw
      hs).1.2.2⟩

end Futures.Rounded
